import Mathlib

/-!
# JsonParser: a verification development

A shallow embedding of `src/JsonParser.h` (the non-allocating, callback-driven
JSON scanner) and theorems about it.

## Conventions of the embedding

* Bytes are natural numbers (`char` values); the comparisons of the source are
  against ASCII constants only.
* Pointers into the document are offsets from `jsonBegin`. The memory starting
  at `jsonBegin` is a list `mem`; the buffer handed to the parser is its first
  `jsonEnd` bytes and what follows are the bytes that happen to lie behind the
  buffer (a `std::string` has a single `0` there). A read past the end of `mem`
  yields `0`. Every dereference of the cursor that the source does not guard
  by a comparison with `end_` is recorded in the ghost field `oobRead` when
  it falls at or behind `end_`.
* The sink is modelled by the ghost field `calls`, the list of its invocations
  in order.
* `int` quantities that can become negative in the source (`nParts`, the
  length of a path segment, `keyLen`, `valueLen`) are integers. The array index
  and the offsets are natural numbers: the embedding is of buffers shorter than
  `2^31` bytes, on which no `int` of the source overflows.
* `memcpy` with a negative length is converted to a length near `SIZE_MAX`: the
  call is killed inside the copy and never returns. The address loop stops
  there; the state is marked `killed` and, by a convention that lets the
  productions unwind as from any invalid state (nothing more is reported or
  pushed), invalid; `JsonParser_parse` has no result (`none`). Of the state in which a killed
  run ends (`runOf`), the sink invocations and the history fields are those
  of the program when it was killed; the cursor and the depth that the
  unwinding leaves have no counterpart in the program. A `memcpy` from a
  source range that leaves the buffer reads the bytes that lie behind the
  buffer; it is recorded in the ghost field `badCopy`.
* Three further ghost fields keep the sink invocations made before the first
  assignment `isInvalid = 1` (`errorAt`), before the first push that is
  refused on a full path stack (`refusedAt`) and before the first failure of
  the length check of the address (`tooLongAt`); they are `none` as long as
  the event has not happened and are never read by the productions.
* Loops whose trip count is bounded by the cursor are unrolled by a counter
  that starts at `end_ - str_`; the mutually recursive productions take the
  value production of the next nesting level as a parameter and
  `JsonParser_parseValue` recurses on a depth counter. Running out of either
  counter is `none`; the run of `JsonParser_parse` is proved never to do so.
-/

namespace PJson

/-! ## Data model -/

/-- Capacity of the path stack (`#define MAX_DEPTH 50`). -/
def MAX_DEPTH : Int := 50

/-- Capacity of the assembled address (`#define MAX_URI_LEN 500`). -/
def MAX_URI_LEN : Int := 500

/-- Where the `Begin` pointer of a path segment points: the global `objectUri`
string, an offset of the document, or the local `buffer` of an array frame
holding the formatted index label. -/
inductive Ptr where
  | objectUri : Ptr
  | json (off : Nat) : Ptr
  | buffer (text : List Nat) : Ptr
  deriving DecidableEq, Repr

/-- Path segment (`struct _UriPart`). -/
structure UriPart where
  Begin : Ptr
  len : Int
  deriving DecidableEq, Repr

/-- Path stack (`struct _UriParts`): the storage and the number of live
segments. -/
structure UriParts where
  parts : Int → UriPart
  nParts : Int

/-- One invocation of the sink: `inform_(key, keyLen, value, valueLen)`, with
`key` the bytes of the address and `value` the offset of the span. -/
structure Call where
  key : List Nat
  keyLen : Int
  value : Nat
  valueLen : Int
  deriving DecidableEq, Repr

/-- Parser state (`struct _JsonParser`) followed by the ghost fields of a run:
the sink invocations so far, the two markers of reads outside the buffer,
whether the call has been killed inside `memcpy`, and the sink invocations
made before the first error, the first refused push and the first address that
is too long. -/
structure JsonParser where
  str_ : Nat
  end_ : Nat
  uriParts_ : UriParts
  isInvalid : Bool
  calls : List Call
  oobRead : Bool
  badCopy : Bool
  killed : Bool
  errorAt : Option (List Call)
  refusedAt : Option (List Call)
  tooLongAt : Option (List Call)

/-! ## Memory access -/

/-- Byte at `str_[k]`. -/
def deref (mem : List Nat) (s : JsonParser) (k : Nat) : Nat :=
  mem.getD (s.str_ + k) 0

/-- Ghost bookkeeping of an unguarded read of `str_[k]`. -/
def touch (s : JsonParser) (k : Nat) : JsonParser :=
  { s with oobRead := s.oobRead || decide (s.end_ ≤ s.str_ + k) }

/-- Cursor advance `str_ += k`. -/
def advance (s : JsonParser) (k : Nat) : JsonParser :=
  { s with str_ := s.str_ + k }

/-- Assignment `isInvalid = 1`. The ghost field `errorAt` keeps the sink
invocations made before the first such assignment of the call. -/
def invalidate (s : JsonParser) : JsonParser :=
  { s with isInvalid := true, errorAt := some (s.errorAt.getD s.calls) }

/-- Ghost bookkeeping of a push that returned 0 because the path stack is full:
`refusedAt` keeps the sink invocations made before the first such push of the
call. -/
def refused (s : JsonParser) : JsonParser :=
  { s with refusedAt := some (s.refusedAt.getD s.calls) }

/-- Byte `i` behind a segment pointer. -/
def Ptr.byte (mem : List Nat) : Ptr → Nat → Nat
  | Ptr.objectUri, i => [47].getD i 0
  | Ptr.json off, i => mem.getD (off + i) 0
  | Ptr.buffer text, i => text.getD i 0

/-- Bytes that `memcpy(dst, Begin, len)` copies. -/
def memcpyBytes (mem : List Nat) (p : Ptr) (len : Int) : List Nat :=
  (List.range len.toNat).map (p.byte mem)

/-- Whether a `memcpy` of the segment is undefined: negative length, or a
document range that is not inside the buffer. -/
def UriPart.badCopy (end_ : Nat) (part : UriPart) : Bool :=
  decide (part.len < 0) ||
    (match part.Begin with
     | Ptr.json off => decide ((end_ : Int) < off + part.len)
     | _ => false)

/-! ## Character classes -/

/-- Translation of `isWhiteSpace`. -/
def isWhiteSpace (c : Nat) : Bool :=
  c == 0x20 || c == 0x09 || c == 0x0A || c == 0x0D

/-- The `isdigit` of the C locale. -/
def isdigit (c : Nat) : Bool :=
  decide (48 ≤ c) && decide (c ≤ 57)

/-! ## Path stack -/

/-- Translation of `UriParts_appendObject`: the stack after the call and the
returned flag. -/
def UriParts_appendObject (u : UriParts) : UriParts × Bool :=
  let uri : UriPart := { Begin := Ptr.objectUri, len := 1 }
  if u.nParts ≥ MAX_DEPTH then (u, false)
  else ({ parts := fun i => if i = u.nParts then uri else u.parts i,
          nParts := u.nParts + 1 }, true)

/-- Translation of `UriParts_drop`. -/
def UriParts_drop (u : UriParts) : UriParts :=
  { u with nParts := u.nParts - 1 }

/-- Translation of `UriParts_appendString`. -/
def UriParts_appendString (u : UriParts) (begin : Ptr) (len : Int) : UriParts × Bool :=
  let uri : UriPart := { Begin := begin, len := len }
  if u.nParts ≥ MAX_DEPTH then (u, false)
  else ({ parts := fun i => if i = u.nParts then uri else u.parts i,
          nParts := u.nParts + 1 }, true)

/-! ## Address assembly and reporting -/

/-- How the `for` loop of `JsonParser_inform` ends: with the assembled bytes
and their count, by the `return` behind a failed length check, or inside a
`memcpy` that was given a negative length and does not return. -/
inductive Assembly where
  | done (uri : List Nat) (n : Int) : Assembly
  | tooLong : Assembly
  | killed : Assembly

/-- The `for` loop of `JsonParser_inform`, `k` iterations from index `i`
on. The loop stops at a failed length check and at a `memcpy` with a negative
length; the second component says whether a `memcpy` from a range that is not
inside the buffer was executed. -/
def informLoop (mem : List Nat) (end_ : Nat) (u : UriParts) :
    Nat → Int → Int → List Nat → Bool → Assembly × Bool
  | 0, _, n, uri, bad => (Assembly.done uri n, bad)
  | k + 1, i, n, uri, bad =>
    if n + (u.parts i).len > MAX_URI_LEN then (Assembly.tooLong, bad)
    else if (u.parts i).len < 0 then (Assembly.killed, true)
    else informLoop mem end_ u k (i + 1) (n + (u.parts i).len)
      (uri ++ memcpyBytes mem (u.parts i).Begin (u.parts i).len)
      (bad || (u.parts i).badCopy end_)

/-- Translation of `JsonParser_inform`. When the loop ends inside `memcpy` the
state is marked `killed` and made invalid; when the length check fails the
flag is set, and in a call that is alive `tooLongAt` keeps the sink
invocations made before the first such failure. -/
def JsonParser_inform (mem : List Nat) (s : JsonParser) (begin : Nat) (len : Int) :
    JsonParser :=
  match informLoop mem s.end_ s.uriParts_ s.uriParts_.nParts.toNat 0 0 [] s.badCopy with
  | (Assembly.killed, bad) => { invalidate s with killed := true, badCopy := bad }
  | (Assembly.tooLong, bad) =>
    { invalidate s with
      tooLongAt := if s.killed then s.tooLongAt else some (s.tooLongAt.getD s.calls),
      badCopy := bad }
  | (Assembly.done uri n, bad) =>
    if !s.isInvalid then
      { s with calls := s.calls ++ [{ key := uri, keyLen := n, value := begin, valueLen := len }],
               badCopy := bad }
    else { s with badCopy := bad }

/-! ## Scanners -/

/-- Loop of `JsonParser_consumeWhiteSpaces`. -/
def consumeWhiteSpacesLoop (mem : List Nat) : Nat → JsonParser → JsonParser
  | 0, s => s
  | k + 1, s =>
    if s.str_ < s.end_ && isWhiteSpace (deref mem s 0) then
      consumeWhiteSpacesLoop mem k (advance s 1)
    else s

/-- Translation of `JsonParser_consumeWhiteSpaces`. -/
def JsonParser_consumeWhiteSpaces (mem : List Nat) (s : JsonParser) : JsonParser :=
  consumeWhiteSpacesLoop mem (s.end_ - s.str_) s

/-- The loop `for (; str_ < end_; ++str_) if (!isdigit(*str_)) break;`. -/
def digitsLoop (mem : List Nat) : Nat → JsonParser → JsonParser
  | 0, s => s
  | k + 1, s =>
    if s.str_ < s.end_ then
      if !isdigit (deref mem s 0) then s
      else digitsLoop mem k (advance s 1)
    else s

/-- Digit run from the cursor. -/
def skipDigits (mem : List Nat) (s : JsonParser) : JsonParser :=
  digitsLoop mem (s.end_ - s.str_) s

/-- Ghost bookkeeping of the read in `str_ != end_ && *str_ == c`: the byte is
read when the two pointers differ. -/
def touchNe (s : JsonParser) : JsonParser :=
  if s.str_ != s.end_ then touch s 0 else s

/-- End of the exponent block of `JsonParser_parseNumber`: the mandatory digit
and the digit run. -/
def parseNumberExpDigits (mem : List Nat) (s : JsonParser) : JsonParser :=
  let s := touch s 0
  if !isdigit (deref mem s 0) then invalidate s
  else skipDigits mem s

/-- Third part of `JsonParser_parseNumber`: the exponent block. -/
def parseNumberExp (mem : List Nat) (s : JsonParser) : JsonParser :=
  let s := touchNe s
  if s.str_ != s.end_ && (deref mem s 0 == 69 || deref mem s 0 == 101) then
    if s.str_ + 1 == s.end_ then invalidate s
    else
      let s := touch (advance s 1) 0
      if deref mem s 0 == 45 || deref mem s 0 == 43 then
        if s.str_ + 1 == s.end_ then invalidate s
        else parseNumberExpDigits mem (advance s 1)
      else parseNumberExpDigits mem s
  else s

/-- Second part of `JsonParser_parseNumber`: the fraction block, then the
exponent block. -/
def parseNumberFrac (mem : List Nat) (s : JsonParser) : JsonParser :=
  let s := touchNe s
  if s.str_ != s.end_ && deref mem s 0 == 46 then
    if s.str_ + 1 == s.end_ then invalidate s
    else
      let s := touch s 1
      if !isdigit (deref mem s 1) then invalidate s
      else parseNumberExp mem (skipDigits mem (advance s 1))
  else parseNumberExp mem s

/-- Translation of `JsonParser_parseNumber`. -/
def JsonParser_parseNumber (mem : List Nat) (s : JsonParser) : JsonParser :=
  let s := touch s 0
  if deref mem s 0 == 45 then
    if s.str_ + 1 == s.end_ then invalidate s
    else
      let s := touch s 1
      if !isdigit (deref mem s 1) || deref mem s 1 == 48 then invalidate s
      else parseNumberFrac mem (skipDigits mem (advance s 1))
  else parseNumberFrac mem (skipDigits mem (advance s 1))

/-- Translation of `JsonParser_parseExcapedChar`. -/
def JsonParser_parseExcapedChar (mem : List Nat) (s : JsonParser) : JsonParser :=
  let s := touch (advance s 1) 0
  let c := deref mem s 0
  if c == 34 || c == 92 || c == 47 || c == 8 || c == 12 || c == 10 || c == 13 || c == 9 then
    advance s 1
  else if c == 117 then advance (advance s 1) 1
  else s

/-- Loop of `JsonParser_parseString`. -/
def parseStringLoop (mem : List Nat) : Nat → JsonParser → JsonParser
  | 0, s => s
  | k + 1, s =>
    if s.str_ < s.end_ then
      if deref mem s 0 == 92 then parseStringLoop mem k (JsonParser_parseExcapedChar mem s)
      else if deref mem s 0 == 34 then advance s 1
      else parseStringLoop mem k (advance s 1)
    else s

/-- Translation of `JsonParser_parseString`. -/
def JsonParser_parseString (mem : List Nat) (s : JsonParser) : JsonParser :=
  parseStringLoop mem ((advance s 1).end_ - (advance s 1).str_) (advance s 1)

/-! ## Productions -/

/-- Text that `sprintf(buffer, "[%d]", index)` writes. -/
def indexLabel (index : Nat) : List Nat :=
  [91] ++ (Nat.toDigits 10 index).map Char.toNat ++ [93]

/-- The test `0 == strncmp(str_, lit, n)`, comparing from index `i` on with
`n` bytes left: the comparison stops at the first difference, at a `0` byte
common to both, or after `n` bytes. -/
def strncmpEq (mem : List Nat) (s : JsonParser) (lit : List Nat) : Nat → Nat → Bool
  | 0, _ => true
  | n + 1, i =>
    if deref mem s i != lit.getD i 0 then false
    else if deref mem s i == 0 then true
    else strncmpEq mem s lit n (i + 1)

/-- The tail common to all branches of `JsonParser_parseValue`: report the span
from `beginValue` to the cursor, then skip white space. -/
def finishValue (mem : List Nat) (beginValue : Nat) (s : JsonParser) : JsonParser :=
  JsonParser_consumeWhiteSpaces mem
    (JsonParser_inform mem s beginValue ((s.str_ : Int) - (beginValue : Int)))

/-- The `for` loop of `JsonParser_parseKeyValue` looking for the colon; `pv`
is the value production. -/
def parseKeyValueLoop (pv : JsonParser → Option JsonParser) (mem : List Nat) :
    Nat → JsonParser → Option JsonParser
  | 0, s => some s
  | k + 1, s =>
    if s.str_ < s.end_ && !s.isInvalid then
      if deref mem s 0 == 58 then
        match pv (advance s 1) with
        | none => none
        | some s => some { s with uriParts_ := UriParts_drop s.uriParts_ }
      else parseKeyValueLoop pv mem k (advance s 1)
    else some s

/-- Translation of `JsonParser_parseKeyValue`; `pv` is the value production. -/
def JsonParser_parseKeyValue (pv : JsonParser → Option JsonParser) (mem : List Nat)
    (s0 : JsonParser) : Option JsonParser :=
  let beginKey := s0.str_ + 1
  let s := JsonParser_parseString mem s0
  let endKey : Int := (s.str_ : Int) - 1
  match UriParts_appendString s.uriParts_ (Ptr.json beginKey) (endKey - (beginKey : Int)) with
  | (_, false) => some (invalidate (refused s))
  | (u, true) =>
    parseKeyValueLoop pv mem (s.end_ - s.str_) { s with uriParts_ := u }

/-- The `for` loop of `JsonParser_parseObject` with the assignment that follows
it; `pv` is the value production. -/
def parseObjectLoop (pv : JsonParser → Option JsonParser) (mem : List Nat) :
    Nat → JsonParser → Option JsonParser
  | 0, s => if s.str_ < s.end_ && !s.isInvalid then none else some (invalidate s)
  | k + 1, s =>
    if s.str_ < s.end_ && !s.isInvalid then
      if deref mem s 0 == 34 then
        match JsonParser_parseKeyValue pv mem s with
        | none => none
        | some s => parseObjectLoop pv mem k s
      else if deref mem s 0 == 125 then
        some (advance { s with uriParts_ := UriParts_drop s.uriParts_ } 1)
      else if deref mem s 0 == 44 then parseObjectLoop pv mem k (advance s 1)
      else if !isWhiteSpace (deref mem s 0) then
        parseObjectLoop pv mem k (advance (invalidate s) 1)
      else parseObjectLoop pv mem k (advance s 1)
    else some (invalidate s)

/-- Translation of `JsonParser_parseObject`; `pv` is the value production. -/
def JsonParser_parseObject (pv : JsonParser → Option JsonParser) (mem : List Nat)
    (s : JsonParser) : Option JsonParser :=
  match UriParts_appendObject s.uriParts_ with
  | (_, false) => some (invalidate (refused s))
  | (u, true) =>
    parseObjectLoop pv mem ((advance s 1).end_ - (advance s 1).str_)
      (advance { s with uriParts_ := u } 1)

/-- The `for` loop of `JsonParser_parseArray`; `pv` is the value production and
`index` the local counter. -/
def parseArrayLoop (pv : JsonParser → Option JsonParser) (mem : List Nat) :
    Nat → Nat → JsonParser → Option JsonParser
  | 0, _, s => if s.str_ < s.end_ && !s.isInvalid then none else some s
  | k + 1, index, s =>
    if s.str_ < s.end_ && !s.isInvalid then
      let s := JsonParser_consumeWhiteSpaces mem s
      match UriParts_appendString s.uriParts_ (Ptr.buffer (indexLabel index))
          (indexLabel index).length with
      | (_, false) => some (invalidate (refused s))
      | (u, true) =>
        match pv { s with uriParts_ := u } with
        | none => none
        | some s =>
          let s := { s with uriParts_ := UriParts_drop s.uriParts_ }
          let s := touch (JsonParser_consumeWhiteSpaces mem s) 0
          if deref mem s 0 == 44 then parseArrayLoop pv mem k (index + 1) (advance s 1)
          else if deref mem s 0 == 93 then some (advance s 1)
          else some (invalidate s)
    else some s

/-- Translation of `JsonParser_parseArray`; `pv` is the value production. -/
def JsonParser_parseArray (pv : JsonParser → Option JsonParser) (mem : List Nat)
    (s : JsonParser) : Option JsonParser :=
  let s := touch (JsonParser_consumeWhiteSpaces mem (advance s 1)) 0
  if deref mem s 0 == 93 then some (advance s 1)
  else parseArrayLoop pv mem (s.end_ - s.str_) 0 s

/-- Translation of `JsonParser_parseValue`. The first argument bounds the
nesting of value productions that is still allowed. -/
def JsonParser_parseValue (mem : List Nat) : Nat → JsonParser → Option JsonParser
  | 0, _ => none
  | d + 1, s0 =>
    let s := touch (JsonParser_consumeWhiteSpaces mem s0) 0
    if deref mem s 0 == 34 then
      some (finishValue mem s.str_ (JsonParser_parseString mem s))
    else if isdigit (deref mem s 0) || deref mem s 0 == 45 then
      some (finishValue mem s.str_ (JsonParser_parseNumber mem s))
    else if deref mem s 0 == 123 then
      match JsonParser_parseObject (JsonParser_parseValue mem d) mem s with
      | none => none
      | some s1 => some (finishValue mem s.str_ s1)
    else if deref mem s 0 == 91 then
      match JsonParser_parseArray (JsonParser_parseValue mem d) mem s with
      | none => none
      | some s1 => some (finishValue mem s.str_ s1)
    else if decide ((s.end_ : Int) - (s.str_ : Int) ≥ 4)
        && strncmpEq mem s [116, 114, 117, 101, 0] 4 0 then
      some (finishValue mem s.str_ (advance s 4))
    else if decide ((s.end_ : Int) - (s.str_ : Int) ≥ 4)
        && strncmpEq mem s [110, 117, 108, 108, 0] 4 0 then
      some (finishValue mem s.str_ (advance s 4))
    else if decide ((s.end_ : Int) - (s.str_ : Int) ≥ 5)
        && strncmpEq mem s [102, 97, 108, 115, 101, 0] 5 0 then
      some (finishValue mem s.str_ (advance s 5))
    else some (invalidate s)

/-- What a call of `JsonParser_parse` yields: the returned `int` and the parser
as the call leaves it (with the sink invocations of the call in `calls`). -/
structure Outcome where
  status : Int
  parser : JsonParser

/-- The five assignments at the head of `JsonParser_parse`; the ghost fields
start empty. The storage of the path stack is left as the caller had it. -/
def entryState (parser : JsonParser) (jsonEnd : Nat) : JsonParser :=
  { str_ := 0, end_ := jsonEnd,
    uriParts_ := { parser.uriParts_ with nParts := 0 },
    isInvalid := false,
    calls := [], oobRead := false, badCopy := false, killed := false,
    errorAt := none, refusedAt := none, tooLongAt := none }

/-- The `return` expression of `JsonParser_parse`:
`nParts != 0 || isInvalid || str_ != end_`. -/
def exitStatus (s : JsonParser) : Int :=
  if s.uriParts_.nParts != 0 || s.isInvalid || s.str_ != s.end_ then 1 else 0

/-- The state in which the run of a call of `JsonParser_parse` ends, whether
the call returns or is killed. -/
def runOf (parser : JsonParser) (mem : List Nat) (jsonEnd : Nat) : Option JsonParser :=
  JsonParser_parseValue mem (jsonEnd + 1) (entryState parser jsonEnd)

/-- Translation of `JsonParser_parse`. The document is the first `jsonEnd` bytes
of `mem`. A call that is killed inside `memcpy` does not return and has no
outcome. -/
def JsonParser_parse (parser : JsonParser) (mem : List Nat) (jsonEnd : Nat) :
    Option Outcome :=
  match JsonParser_parseValue mem (jsonEnd + 1) (entryState parser jsonEnd) with
  | none => none
  | some s => if s.killed then none else some { status := exitStatus s, parser := s }

/-! ## Vocabulary of the statements -/

/-- A parser object as a client declares it (`JsonParser parser;`): nothing but
`isInvalid` is initialised; the other fields are given arbitrary values here. -/
def freshParser : JsonParser :=
  { str_ := 0, end_ := 0,
    uriParts_ := { parts := fun _ => { Begin := Ptr.objectUri, len := 0 }, nParts := 0 },
    isInvalid := true, calls := [], oobRead := false, badCopy := false, killed := false,
    errorAt := none, refusedAt := none, tooLongAt := none }

/-- Returned status of a call, if the call returns. -/
def statusOf (r : Option Outcome) : Option Int :=
  r.map fun o => o.status

/-- Sink invocations of a call, if the call returns. -/
def callsOf (r : Option Outcome) : Option (List Call) :=
  r.map fun o => o.parser.calls

/-- A push was refused or an address was too long before the state was
reached. -/
def Noted (s : JsonParser) : Prop :=
  s.refusedAt ≠ none ∨ s.tooLongAt ≠ none

/-- What a run has recorded about refused pushes. -/
def refusedOf (r : Option JsonParser) : Option (Option (List Call)) :=
  r.map fun t => t.refusedAt

/-- What a run has recorded about addresses that are too long. -/
def tooLongOf (r : Option JsonParser) : Option (Option (List Call)) :=
  r.map fun t => t.tooLongAt

/-- What a run has recorded about its first error. -/
def errorOf (r : Option JsonParser) : Option (Option (List Call)) :=
  r.map fun t => t.errorAt

/-- The document of the test `shallNotCrashIfKeysAreLong`, 580 bytes, followed
by the terminating zero of the C string: three nested members whose keys have
250, 204 and 93 bytes. -/
def longKeysDoc : List Nat :=
  [123, 32, 34, 118, 101, 114, 121, 76, 111, 110, 103, 83, 116, 114, 105, 110, 103, 84, 111,
   79, 118, 101, 114, 108, 111, 97, 100, 75, 101, 121, 95, 118, 101, 114, 121, 76, 111, 110,
   103, 83, 116, 114, 105, 110, 103, 84, 111, 79, 118, 101, 114, 108, 111, 97, 100, 75, 101,
   121, 118, 101, 114, 121, 76, 111, 110, 103, 83, 116, 114, 105, 110, 103, 84, 111, 79, 118,
   101, 114, 108, 111, 97, 100, 75, 101, 121, 95, 118, 101, 114, 121, 76, 111, 110, 103, 83,
   116, 114, 105, 110, 103, 84, 111, 79, 118, 101, 114, 108, 111, 97, 100, 75, 101, 121, 95,
   118, 101, 114, 121, 76, 111, 110, 103, 83, 116, 114, 105, 110, 103, 84, 111, 79, 118, 101,
   114, 108, 111, 97, 100, 75, 101, 121, 95, 118, 101, 114, 121, 76, 111, 110, 103, 83, 116,
   114, 105, 110, 103, 84, 111, 79, 118, 101, 114, 108, 111, 97, 100, 75, 101, 121, 95, 118,
   101, 114, 121, 76, 111, 110, 103, 83, 116, 114, 105, 110, 103, 84, 111, 79, 118, 101, 114,
   108, 111, 97, 100, 75, 101, 121, 95, 118, 101, 114, 121, 76, 111, 110, 103, 83, 116, 114,
   105, 110, 103, 84, 111, 79, 118, 101, 114, 108, 111, 97, 100, 75, 101, 121, 95, 118, 101,
   114, 121, 76, 111, 110, 103, 83, 116, 114, 105, 110, 103, 84, 111, 79, 118, 101, 114, 108,
   111, 97, 100, 75, 101, 121, 34, 58, 32, 123, 32, 34, 115, 111, 109, 101, 65, 110, 111, 116,
   104, 101, 114, 86, 101, 114, 121, 76, 111, 110, 103, 83, 116, 114, 105, 110, 103, 84, 111,
   79, 118, 101, 108, 111, 97, 100, 66, 117, 102, 102, 101, 114, 95, 115, 111, 109, 101, 65,
   110, 111, 116, 104, 101, 114, 86, 101, 114, 121, 76, 111, 110, 103, 83, 116, 114, 105, 110,
   103, 84, 111, 79, 118, 101, 108, 111, 97, 100, 66, 117, 102, 102, 101, 114, 95, 115, 111,
   109, 101, 65, 110, 111, 116, 104, 101, 114, 86, 101, 114, 121, 76, 111, 110, 103, 83, 116,
   114, 105, 110, 103, 84, 111, 79, 118, 101, 108, 111, 97, 100, 66, 117, 102, 102, 101, 114,
   95, 115, 111, 109, 101, 65, 110, 111, 116, 104, 101, 114, 86, 101, 114, 121, 76, 111, 110,
   103, 83, 116, 114, 105, 110, 103, 84, 111, 79, 118, 101, 108, 111, 97, 100, 66, 117, 102,
   102, 101, 114, 95, 115, 111, 109, 101, 65, 110, 111, 116, 104, 101, 114, 86, 101, 114, 121,
   76, 111, 110, 103, 83, 116, 114, 105, 110, 103, 84, 111, 79, 118, 101, 108, 111, 97, 100,
   66, 117, 102, 102, 101, 114, 34, 32, 58, 32, 123, 32, 34, 97, 110, 100, 89, 101, 116, 65,
   110, 111, 116, 104, 101, 114, 86, 101, 114, 121, 76, 111, 110, 103, 83, 116, 114, 105, 110,
   103, 74, 117, 115, 116, 84, 111, 77, 97, 107, 101, 84, 104, 105, 110, 103, 72, 97, 114, 100,
   95, 97, 110, 100, 89, 101, 116, 65, 110, 111, 116, 104, 101, 114, 86, 101, 114, 121, 76,
   111, 110, 103, 83, 116, 114, 105, 110, 103, 74, 117, 115, 116, 84, 111, 77, 97, 107, 101,
   84, 104, 105, 110, 103, 72, 97, 114, 100, 34, 32, 58, 32, 34, 118, 97, 108, 117, 101, 34,
   32, 125, 32, 125, 32, 125, 0]

/-- Sink invocations of a run, whether the call returns or is killed. -/
def traceOf (r : Option JsonParser) : Option (List Call) :=
  r.map fun t => t.calls

/-- Whether the run of a call was killed inside `memcpy`. -/
def killedOf (r : Option JsonParser) : Option Bool :=
  r.map fun t => t.killed

/-- Frame of a step of the parser: the end pointer is kept, the cursor does not
go back, the validity flag is never cleared, the sink invocations are only
appended to, none is appended once the flag is set, and what the history
fields have recorded stays as it is. -/
structure Ext (s t : JsonParser) : Prop where
  end_eq : t.end_ = s.end_
  str_le : s.str_ ≤ t.str_
  sticky : s.isInvalid = true → t.isInvalid = true
  calls_ext : ∃ D, t.calls = s.calls ++ D ∧ (s.isInvalid = true → D = [])
  errorAt_keep : ∀ cs, s.errorAt = some cs → t.errorAt = some cs
  refusedAt_keep : ∀ cs, s.refusedAt = some cs → t.refusedAt = some cs
  tooLongAt_keep : ∀ cs, s.tooLongAt = some cs → t.tooLongAt = some cs

/-- Frame of a scanner that touches nothing but the cursor, the validity flag
(which it may only set, recording the first error) and the read marker. -/
structure Scan (s t : JsonParser) : Prop where
  end_eq : t.end_ = s.end_
  str_le : s.str_ ≤ t.str_
  parts_eq : t.uriParts_ = s.uriParts_
  sticky : s.isInvalid = true → t.isInvalid = true
  calls_eq : t.calls = s.calls
  badCopy_eq : t.badCopy = s.badCopy
  killed_eq : t.killed = s.killed
  refusedAt_eq : t.refusedAt = s.refusedAt
  tooLongAt_eq : t.tooLongAt = s.tooLongAt
  errorAt_step : (t.isInvalid = s.isInvalid ∧ t.errorAt = s.errorAt) ∨
    (t.isInvalid = true ∧ t.errorAt = some (s.errorAt.getD s.calls))

/-- Bytes contributed to the address by `k` segments of the stack from index
`i` on. -/
def pathFrom (mem : List Nat) (u : UriParts) : Nat → Int → List Nat
  | 0, _ => []
  | k + 1, i => memcpyBytes mem (u.parts i).Begin (u.parts i).len ++ pathFrom mem u k (i + 1)

/-- Sum of the lengths of `k` segments of the stack from index `i` on. -/
def lenFrom (u : UriParts) : Nat → Int → Int
  | 0, _ => 0
  | k + 1, i => (u.parts i).len + lenFrom u k (i + 1)

/-- The address of the current path: the bytes of the live segments, bottom
first. -/
def pathBytes (mem : List Nat) (u : UriParts) : List Nat :=
  pathFrom mem u u.nParts.toNat 0

/-- The length of the address of the current path as the source counts it. -/
def pathLen (u : UriParts) : Int :=
  lenFrom u u.nParts.toNat 0

/-- Two stacks with the same live segments. -/
def SameStack (u v : UriParts) : Prop :=
  v.nParts = u.nParts ∧ ∀ i : Int, 0 ≤ i → i < u.nParts → v.parts i = u.parts i

/-- The white-space skip started at position `a` of a buffer of `E` bytes stops
at `b`: the bytes from `a` up to `b` lie in the buffer and are white space,
and `b` is the end of the buffer or holds a byte that is not white space. -/
def WsTo (mem : List Nat) (E a b : Nat) : Prop :=
  a ≤ b ∧ (∀ i, a ≤ i → i < b → i < E ∧ isWhiteSpace (mem.getD i 0) = true) ∧
    (b < E → isWhiteSpace (mem.getD b 0) = false)

/-- Bytes of the memory at the positions from `a` up to `b`. -/
def slice (mem : List Nat) (a b : Nat) : List Nat :=
  (List.range (b - a)).map fun i => mem.getD (a + i) 0

/-- Position at which the string production stops when it is started at the
opening quote at position `p` of a buffer of `E` bytes. -/
def stringStop (mem : List Nat) (E p : Nat) : Nat :=
  (JsonParser_parseString mem { freshParser with str_ := p, end_ := E }).str_

/-- A run of the value production that leaves the parser valid, from state `s`
to state `t`: the value occupies the positions from `b` up to `e`, white space
is skipped before and behind it, the path stack is as before, and the sink got
the invocations `D` for what lies below the value, each with an address that
properly extends the current one, and then one for the value itself. -/
structure ValRun (mem : List Nat) (s t : JsonParser) (b e : Nat) (D : List Call) : Prop where
  entry_valid : s.isInvalid = false
  lead : WsTo mem s.end_ s.str_ b
  span : b < e
  trail : WsTo mem s.end_ e t.str_
  stack : SameStack s.uriParts_ t.uriParts_
  calls : t.calls = s.calls ++ D ++
    [{ key := pathBytes mem s.uriParts_, keyLen := pathLen s.uriParts_,
       value := b, valueLen := (e : Int) - (b : Int) }]
  below : ∀ c ∈ D, ∃ x, x ≠ [] ∧ c.key = pathBytes mem s.uriParts_ ++ x

/-- What the value production is known to do when it is used as a parameter of
the container productions: it respects the frame, and a run that ends valid
from a state with a non-negative stack depth is a `ValRun`. -/
structure PvSpec (mem : List Nat) (pv : JsonParser → Option JsonParser) : Prop where
  frame : ∀ t t1, pv t = some t1 → Ext t t1
  run : ∀ t t1, pv t = some t1 → t1.isInvalid = false → 0 ≤ t.uriParts_.nParts →
    ∃ b e D, ValRun mem t t1 b e D

/-- An element of an array as the parser saw it: the span of its text and the
sink invocations for what lies below it. -/
structure Item where
  b : Nat
  e : Nat
  D : List Call

/-- The loop of the array production, entered at position `p` of a buffer of
`E` bytes, sees the elements `items` and is left at position `q`: each element
is preceded and followed by optional white space; behind it stands a comma,
after which the loop goes on, or the closing bracket; the loop is also left
when the buffer ends behind a comma. -/
inductive ArrayItems (mem : List Nat) (E : Nat) : Nat → List Item → Nat → Prop
  | stop (p : Nat) : E ≤ p → ArrayItems mem E p [] p
  | last (p c : Nat) (it : Item) : p < E → WsTo mem E p it.b → it.b < it.e →
      WsTo mem E it.e c → mem.getD c 0 = 93 → ArrayItems mem E p [it] (c + 1)
  | next (p c q : Nat) (it : Item) (rest : List Item) : p < E → WsTo mem E p it.b →
      it.b < it.e → WsTo mem E it.e c → mem.getD c 0 = 44 →
      ArrayItems mem E (c + 1) rest q → ArrayItems mem E p (it :: rest) q

/-- The sink invocations for the elements of an array whose address is `path`
(of counted length `plen`), the first element having index `idx`: for each
element in turn what lies below it, then the element itself under the address
`path` followed by `[index]`. -/
def itemCalls (path : List Nat) (plen : Int) : Nat → List Item → List Call
  | _, [] => []
  | idx, it :: rest =>
    it.D ++ [{ key := path ++ indexLabel idx, keyLen := plen + ((indexLabel idx).length : Int),
               value := it.b, valueLen := (it.e : Int) - (it.b : Int) }]
      ++ itemCalls path plen (idx + 1) rest

/-- Every sink invocation for what lies below an element carries an address
that properly extends the address of the element. -/
def ItemsBelow (path : List Nat) : Nat → List Item → Prop
  | _, [] => True
  | idx, it :: rest =>
    (∀ c ∈ it.D, ∃ x, x ≠ [] ∧ c.key = path ++ indexLabel idx ++ x) ∧
      ItemsBelow path (idx + 1) rest

/-- A member of an object as the parser saw it: the key lies between the
opening quote at `kb - 1` and the closing quote at `ke`, the value has the
span from `b` up to `e`, and `D` are the sink invocations for what lies below
the value. -/
structure Member where
  kb : Nat
  ke : Nat
  b : Nat
  e : Nat
  D : List Call

/-- The loop of the object production, entered at position `p` of a buffer of
`E` bytes, sees the members `ms` in this order and is left behind the closing
brace at `q - 1`. Commas and white space are skipped; a quote opens a key, which
the string production delimits; the first colon behind the key is followed by
the value, with optional white space around it. -/
inductive ObjectItems (mem : List Nat) (E : Nat) : Nat → List Member → Nat → Prop
  | close (p : Nat) : p < E → mem.getD p 0 = 125 → ObjectItems mem E p [] (p + 1)
  | skip (p q : Nat) (ms : List Member) : p < E →
      (mem.getD p 0 = 44 ∨ isWhiteSpace (mem.getD p 0) = true) →
      ObjectItems mem E (p + 1) ms q → ObjectItems mem E p ms q
  | member (p c r q : Nat) (m : Member) (rest : List Member) : p < E →
      mem.getD p 0 = 34 → m.kb = p + 1 → stringStop mem E p = m.ke + 1 → m.kb ≤ m.ke →
      mem.getD m.ke 0 = 34 → m.ke < c → c < E → mem.getD c 0 = 58 →
      (∀ i, m.ke < i → i < c → mem.getD i 0 ≠ 58) →
      WsTo mem E (c + 1) m.b → m.b < m.e → WsTo mem E m.e r →
      ObjectItems mem E r rest q → ObjectItems mem E p (m :: rest) q

/-- The sink invocations for the members of an object, `path` (of counted
length `plen`) being the address of the object followed by `/`: for each
member in turn what lies below its value, then the value itself under the
address `path` followed by the raw bytes of the key. -/
def memberCalls (mem : List Nat) (path : List Nat) (plen : Int) : List Member → List Call
  | [] => []
  | m :: rest =>
    m.D ++ [{ key := path ++ slice mem m.kb m.ke,
              keyLen := plen + ((m.ke : Int) - (m.kb : Int)),
              value := m.b, valueLen := (m.e : Int) - (m.b : Int) }]
      ++ memberCalls mem path plen rest

/-- Every sink invocation for what lies below the value of a member carries an
address that properly extends the address of the member. -/
def MembersBelow (mem : List Nat) (path : List Nat) : List Member → Prop
  | [] => True
  | m :: rest =>
    (∀ c ∈ m.D, ∃ x, x ≠ [] ∧ c.key = path ++ slice mem m.kb m.ke ++ x) ∧
      MembersBelow mem path rest

/-- A complete run of the key/value production that leaves the parser valid,
from state `s` (cursor at the opening quote of the key) to state `t`: the
member `m` with its colon at position `c`. -/
structure MemberRun (mem : List Nat) (s t : JsonParser) (m : Member) (c : Nat) : Prop where
  entry_valid : s.isInvalid = false
  kb_eq : m.kb = s.str_ + 1
  key_stop : stringStop mem s.end_ s.str_ = m.ke + 1
  key_le : m.kb ≤ m.ke
  key_quote : mem.getD m.ke 0 = 34
  colon_gt : m.ke < c
  colon_lt : c < s.end_
  colon : mem.getD c 0 = 58
  first_colon : ∀ i, m.ke < i → i < c → mem.getD i 0 ≠ 58
  lead : WsTo mem s.end_ (c + 1) m.b
  span : m.b < m.e
  trail : WsTo mem s.end_ m.e t.str_
  stack : SameStack s.uriParts_ t.uriParts_
  calls : t.calls = s.calls ++ m.D ++
    [{ key := pathBytes mem s.uriParts_ ++ slice mem m.kb m.ke,
       keyLen := pathLen s.uriParts_ + ((m.ke : Int) - (m.kb : Int)),
       value := m.b, valueLen := (m.e : Int) - (m.b : Int) }]
  below : ∀ x ∈ m.D, ∃ y, y ≠ [] ∧
    x.key = pathBytes mem s.uriParts_ ++ slice mem m.kb m.ke ++ y

/-- The text from the opening bracket at position `b` up to `e` is an array as
the array production reads it: optional white space behind the bracket, then
the closing bracket at once, or the elements `items`. -/
def ArrayText (mem : List Nat) (E b : Nat) (items : List Item) (e : Nat) : Prop :=
  ∃ p, WsTo mem E (b + 1) p ∧
    ((mem.getD p 0 = 93 ∧ items = [] ∧ e = p + 1) ∨
     (mem.getD p 0 ≠ 93 ∧ ArrayItems mem E p items e))

/-- The sink invocation for a value with the span from `b` up to `e`, made in
the state `s`: it carries the address of the current path. -/
def ownCall (mem : List Nat) (s : JsonParser) (b e : Nat) : Call :=
  { key := pathBytes mem s.uriParts_, keyLen := pathLen s.uriParts_,
    value := b, valueLen := (e : Int) - (b : Int) }

/-- The three shapes of a run of the value production that leaves the parser
valid, by the first byte of the value: a scalar (string, number or keyword)
with one sink invocation; an object with the invocations of its members and
then its own; an array with the invocations of its elements and then its
own. -/
def RunKind (mem : List Nat) (s t : JsonParser) (b e : Nat) : Prop :=
  (mem.getD b 0 ≠ 123 ∧ mem.getD b 0 ≠ 91 ∧ t.calls = s.calls ++ [ownCall mem s b e]) ∨
  (mem.getD b 0 = 123 ∧ ∃ ms, ObjectItems mem s.end_ (b + 1) ms e ∧
    t.calls = s.calls ++ memberCalls mem (pathBytes mem s.uriParts_ ++ [47])
      (pathLen s.uriParts_ + 1) ms ++ [ownCall mem s b e] ∧
    MembersBelow mem (pathBytes mem s.uriParts_ ++ [47]) ms) ∨
  (mem.getD b 0 = 91 ∧ ∃ items, ArrayText mem s.end_ b items e ∧
    t.calls = s.calls ++ itemCalls (pathBytes mem s.uriParts_) (pathLen s.uriParts_) 0 items
      ++ [ownCall mem s b e] ∧
    ItemsBelow (pathBytes mem s.uriParts_) 0 items)

/-- Positions and stack of a run of the value production that leaves the parser
valid: white space, the value from `b` up to `e`, white space; the path stack
as before. -/
structure ValShape (mem : List Nat) (s t : JsonParser) (b e : Nat) : Prop where
  entry_valid : s.isInvalid = false
  end_eq : t.end_ = s.end_
  lead : WsTo mem s.end_ s.str_ b
  span : b < e
  trail : WsTo mem s.end_ e t.str_
  stack : SameStack s.uriParts_ t.uriParts_

/-- The digit loop started at position `a` of a buffer of `E` bytes stops at
`b`: the bytes from `a` up to `b` lie in the buffer and are digits, and `b` is
the end of the buffer or holds a byte that is no digit. -/
def DigTo (mem : List Nat) (E a b : Nat) : Prop :=
  a ≤ b ∧ (∀ i, a ≤ i → i < b → i < E ∧ isdigit (mem.getD i 0) = true) ∧
    (b < E → isdigit (mem.getD b 0) = false)

/-- The bytes of the memory from position `b` up to `e` match
`(-[1-9]|[0-9])[0-9]*(\.[0-9]+)?([eE][+-]?[0-9]+)?`: the head ends at `i1`, the
digit run at `i2`, the optional fraction at `i3` and the optional exponent at
`e`; `j` is the position of the first digit of the exponent. -/
def NumberSpan (mem : List Nat) (b e : Nat) : Prop :=
  ∃ i1 i2 i3,
    ((mem.getD b 0 = 45 ∧ 49 ≤ mem.getD (b + 1) 0 ∧ mem.getD (b + 1) 0 ≤ 57 ∧ i1 = b + 2) ∨
      (isdigit (mem.getD b 0) = true ∧ i1 = b + 1)) ∧
    (i1 ≤ i2 ∧ ∀ i, i1 ≤ i → i < i2 → isdigit (mem.getD i 0) = true) ∧
    (i3 = i2 ∨
      (mem.getD i2 0 = 46 ∧ i2 + 2 ≤ i3 ∧
        ∀ i, i2 + 1 ≤ i → i < i3 → isdigit (mem.getD i 0) = true)) ∧
    (e = i3 ∨
      ((mem.getD i3 0 = 69 ∨ mem.getD i3 0 = 101) ∧
        ∃ j, (j = i3 + 1 ∨
              (j = i3 + 2 ∧ (mem.getD (i3 + 1) 0 = 43 ∨ mem.getD (i3 + 1) 0 = 45))) ∧
          j + 1 ≤ e ∧ ∀ i, j ≤ i → i < e → isdigit (mem.getD i 0) = true))

/-- The bytes from position `a` up to `b` are white space (possibly none). -/
def Blank (mem : List Nat) (a b : Nat) : Prop :=
  a ≤ b ∧ ∀ i, a ≤ i → i < b → isWhiteSpace (mem.getD i 0) = true

/-- Hexadecimal digit (`HEXDIG` of RFC 8259). -/
def isHex (c : Nat) : Bool :=
  (decide (48 ≤ c) && decide (c ≤ 57)) || (decide (65 ≤ c) && decide (c ≤ 70)) ||
    (decide (97 ≤ c) && decide (c ≤ 102))

/-- The bytes from position `p` up to `q` are a sequence of `char` of RFC 8259:
unescaped bytes (from `0x20` on, neither quote nor backslash), two-byte
escapes, and `\u` followed by four hexadecimal digits. -/
inductive StrBody (mem : List Nat) : Nat → Nat → Prop
  | done (p : Nat) : StrBody mem p p
  | plain (p q : Nat) : 32 ≤ mem.getD p 0 → mem.getD p 0 ≠ 34 → mem.getD p 0 ≠ 92 →
      StrBody mem (p + 1) q → StrBody mem p q
  | escape (p q : Nat) : mem.getD p 0 = 92 →
      (mem.getD (p + 1) 0 = 34 ∨ mem.getD (p + 1) 0 = 92 ∨ mem.getD (p + 1) 0 = 47 ∨
        mem.getD (p + 1) 0 = 98 ∨ mem.getD (p + 1) 0 = 102 ∨ mem.getD (p + 1) 0 = 110 ∨
        mem.getD (p + 1) 0 = 114 ∨ mem.getD (p + 1) 0 = 116) →
      StrBody mem (p + 2) q → StrBody mem p q
  | unicode (p q : Nat) : mem.getD p 0 = 92 → mem.getD (p + 1) 0 = 117 →
      isHex (mem.getD (p + 2) 0) = true → isHex (mem.getD (p + 3) 0) = true →
      isHex (mem.getD (p + 4) 0) = true → isHex (mem.getD (p + 5) 0) = true →
      StrBody mem (p + 6) q → StrBody mem p q

/-- The bytes from position `b` up to `e` are a `string` of RFC 8259: a quote,
a sequence of `char`, a quote. -/
def RfcString (mem : List Nat) (b e : Nat) : Prop :=
  mem.getD b 0 = 34 ∧ b + 2 ≤ e ∧ StrBody mem (b + 1) (e - 1) ∧ mem.getD (e - 1) 0 = 34

/-- The bytes from position `b` up to `e` are a `number` of RFC 8259 that does
not start with `-0`: an optional minus sign before a digit from 1 to 9 and
further digits, or a single `0`, or a digit from 1 to 9 and further digits (up
to `i2`); an optional fraction (up to `i3`); an optional exponent. -/
def RfcNumber (mem : List Nat) (b e : Nat) : Prop :=
  ∃ i2 i3,
    ((mem.getD b 0 = 45 ∧ 49 ≤ mem.getD (b + 1) 0 ∧ mem.getD (b + 1) 0 ≤ 57 ∧ b + 2 ≤ i2 ∧
        ∀ i, b + 2 ≤ i → i < i2 → isdigit (mem.getD i 0) = true) ∨
      (mem.getD b 0 = 48 ∧ i2 = b + 1) ∨
      (49 ≤ mem.getD b 0 ∧ mem.getD b 0 ≤ 57 ∧ b + 1 ≤ i2 ∧
        ∀ i, b + 1 ≤ i → i < i2 → isdigit (mem.getD i 0) = true)) ∧
    (i3 = i2 ∨
      (mem.getD i2 0 = 46 ∧ i2 + 2 ≤ i3 ∧
        ∀ i, i2 + 1 ≤ i → i < i3 → isdigit (mem.getD i 0) = true)) ∧
    (e = i3 ∨
      ((mem.getD i3 0 = 69 ∨ mem.getD i3 0 = 101) ∧
        ∃ j, (j = i3 + 1 ∨
              (j = i3 + 2 ∧ (mem.getD (i3 + 1) 0 = 43 ∨ mem.getD (i3 + 1) 0 = 45))) ∧
          j + 1 ≤ e ∧ ∀ i, j ≤ i → i < e → isdigit (mem.getD i 0) = true))

/-- The report that is due for a value at address `path` with the span from `b`
up to `e`. -/
def report (path : List Nat) (b e : Nat) : Call :=
  { key := path, keyLen := (path.length : Int), value := b, valueLen := (e : Int) - (b : Int) }

/-- What a derivation of `Syn` is about: a value, the members of an object, or
the elements of an array from the given index on. -/
inductive Part where
  | value : Part
  | members : Part
  | elements (idx : Nat) : Part

/-- Well-formed JSON text (RFC 8259, numbers not starting with `-0`, white
space between tokens drawn from space, tab, LF and CR), read off the memory by
positions, together with the reports that are due for it and the size the path
stack must reach.

* `Syn mem E Part.value path n b e cs m`: the bytes from `b` up to `e` (inside
  the buffer of `E` bytes) are a value; `path` is its address, made of `n`
  segments; `cs` are the reports due for the value: those of its members or
  elements, left to right, and then its own; `m` is the largest number of
  segments the path stack holds while the value is read.
* `Syn mem E Part.members path n p q cs m`: the bytes from `p` up to the closing
  brace at `q` are the members of an object, separated by commas; `path` is
  the address of the object followed by `/`, made of `n` segments. The address
  of a member value is `path` followed by the raw bytes between the quotes
  of its key.
* `Syn mem E (Part.elements idx) path n p q cs m`: the bytes from `p` up to the
  closing bracket at `q` are the elements of an array from index `idx` on;
  `path` is the address of the array. The address of an element is `path`
  followed by `[index]`. -/
inductive Syn (mem : List Nat) (E : Nat) :
    Part → List Nat → Nat → Nat → Nat → List Call → Nat → Prop
  | kwTrue (path : List Nat) (n b : Nat) : b + 4 ≤ E →
      slice mem b (b + 4) = [116, 114, 117, 101] →
      Syn mem E Part.value path n b (b + 4) [report path b (b + 4)] n
  | kwNull (path : List Nat) (n b : Nat) : b + 4 ≤ E →
      slice mem b (b + 4) = [110, 117, 108, 108] →
      Syn mem E Part.value path n b (b + 4) [report path b (b + 4)] n
  | kwFalse (path : List Nat) (n b : Nat) : b + 5 ≤ E →
      slice mem b (b + 5) = [102, 97, 108, 115, 101] →
      Syn mem E Part.value path n b (b + 5) [report path b (b + 5)] n
  | number (path : List Nat) (n b e : Nat) : e ≤ E → RfcNumber mem b e →
      Syn mem E Part.value path n b e [report path b e] n
  | string (path : List Nat) (n b e : Nat) : e ≤ E → RfcString mem b e →
      Syn mem E Part.value path n b e [report path b e] n
  | emptyObject (path : List Nat) (n b q : Nat) : mem.getD b 0 = 123 → Blank mem (b + 1) q →
      q < E → mem.getD q 0 = 125 →
      Syn mem E Part.value path n b (q + 1) [report path b (q + 1)] (n + 1)
  | object (path : List Nat) (n b q : Nat) (cs : List Call) (m : Nat) : mem.getD b 0 = 123 →
      Syn mem E Part.members (path ++ [47]) (n + 1) (b + 1) q cs m →
      q < E → mem.getD q 0 = 125 →
      Syn mem E Part.value path n b (q + 1) (cs ++ [report path b (q + 1)]) m
  | emptyArray (path : List Nat) (n b q : Nat) : mem.getD b 0 = 91 → Blank mem (b + 1) q →
      q < E → mem.getD q 0 = 93 →
      Syn mem E Part.value path n b (q + 1) [report path b (q + 1)] n
  | array (path : List Nat) (n b q : Nat) (cs : List Call) (m : Nat) : mem.getD b 0 = 91 →
      Syn mem E (Part.elements 0) path n (b + 1) q cs m →
      q < E → mem.getD q 0 = 93 →
      Syn mem E Part.value path n b (q + 1) (cs ++ [report path b (q + 1)]) m
  | member (path : List Nat) (n p k k1 c vb ve q : Nat) (cs : List Call) (m : Nat) :
      Blank mem p k → RfcString mem k k1 → Blank mem k1 c → mem.getD c 0 = 58 →
      Blank mem (c + 1) vb →
      Syn mem E Part.value (path ++ slice mem (k + 1) (k1 - 1)) (n + 1) vb ve cs m →
      Blank mem ve q →
      Syn mem E Part.members path n p q cs m
  | memberMore (path : List Nat) (n p k k1 c vb ve q q1 : Nat) (cs cs1 : List Call)
      (m m1 : Nat) :
      Blank mem p k → RfcString mem k k1 → Blank mem k1 c → mem.getD c 0 = 58 →
      Blank mem (c + 1) vb →
      Syn mem E Part.value (path ++ slice mem (k + 1) (k1 - 1)) (n + 1) vb ve cs m →
      Blank mem ve q → mem.getD q 0 = 44 →
      Syn mem E Part.members path n (q + 1) q1 cs1 m1 →
      Syn mem E Part.members path n p q1 (cs ++ cs1) (max m m1)
  | element (idx : Nat) (path : List Nat) (n p vb ve q : Nat) (cs : List Call) (m : Nat) :
      Blank mem p vb →
      Syn mem E Part.value (path ++ indexLabel idx) (n + 1) vb ve cs m →
      Blank mem ve q →
      Syn mem E (Part.elements idx) path n p q cs m
  | elementMore (idx : Nat) (path : List Nat) (n p vb ve q q1 : Nat) (cs cs1 : List Call)
      (m m1 : Nat) :
      Blank mem p vb →
      Syn mem E Part.value (path ++ indexLabel idx) (n + 1) vb ve cs m →
      Blank mem ve q → mem.getD q 0 = 44 →
      Syn mem E (Part.elements (idx + 1)) path n (q + 1) q1 cs1 m1 →
      Syn mem E (Part.elements idx) path n p q1 (cs ++ cs1) (max m m1)

/-- All live segments of the stack have a non-negative length. -/
def lensOk (u : UriParts) : Prop :=
  ∀ i : Int, 0 ≤ i → i < u.nParts → 0 ≤ (u.parts i).len

/-- The parser state `s` stands in a buffer of `E` bytes, is valid, and its path
stack holds `n` segments that spell the address `path`. -/
structure StateFor (mem : List Nat) (E : Nat) (s : JsonParser) (path : List Nat) (n : Nat) :
    Prop where
  end_eq : s.end_ = E
  valid : s.isInvalid = false
  depth : s.uriParts_.nParts = (n : Int)
  bytes : pathBytes mem s.uriParts_ = path
  len : pathLen s.uriParts_ = (path.length : Int)
  lens : lensOk s.uriParts_

/-- From state `s` to state `t` the parser stayed valid, kept the path stack and
made the sink invocations `cs`. -/
structure After (s t : JsonParser) (cs : List Call) : Prop where
  end_eq : t.end_ = s.end_
  valid : t.isInvalid = false
  stack : SameStack s.uriParts_ t.uriParts_
  calls : t.calls = s.calls ++ cs

/-- What may follow a value in well-formed text: the end of the buffer, white
space, a comma, a closing brace or a closing bracket. -/
def FollowOk (mem : List Nat) (E e : Nat) : Prop :=
  e < E → isWhiteSpace (mem.getD e 0) = true ∨ mem.getD e 0 = 44 ∨ mem.getD e 0 = 125 ∨
    mem.getD e 0 = 93

/-- A value production that refuses to run when the path stack holds more than
`MAX_DEPTH` segments; used to state that the container productions never start
a value in such a state. -/
def withinDepth (pv : JsonParser → Option JsonParser) : JsonParser → Option JsonParser :=
  fun x => if x.uriParts_.nParts ≤ MAX_DEPTH then pv x else none

/-- From state `s` to state `t` sink invocations are only appended, and each
of the appended ones satisfies `Q`. -/
def Grow (Q : Call → Prop) (s t : JsonParser) : Prop :=
  ∃ D, t.calls = s.calls ++ D ∧ ∀ c ∈ D, Q c

/-- The document `{"k":1}` whose key is made of the bytes `key`. -/
def longKeyDoc (key : List Nat) : List Nat :=
  [123, 34] ++ key ++ [34, 58, 49, 125]

/-- Whether a call read the byte at the cursor while the cursor stood at or
behind the end of the buffer, if the call returns. -/
def oobReadOf (r : Option Outcome) : Option Bool :=
  r.map fun o => o.parser.oobRead

/-- Reference scanner of the string production in the words of the
specification, at position `p` of a buffer of `E` bytes with `k` steps left:
stop when the position is at or past the end; at a backslash followed by `u`
skip three bytes; at a backslash followed by any other byte skip two bytes; at a
quote skip it and stop; at any other byte skip one. -/
def refStringScan (mem : List Nat) (E : Nat) : Nat → Nat → Nat
  | 0, p => p
  | k + 1, p =>
    if E ≤ p then p
    else if mem.getD p 0 = 92 then
      if mem.getD (p + 1) 0 = 117 then refStringScan mem E k (p + 3)
      else refStringScan mem E k (p + 2)
    else if mem.getD p 0 = 34 then p + 1
    else refStringScan mem E k (p + 1)

/-- Where the reference scanner stops when it is started just behind the
opening quote at position `p`; every step skips at least one byte, so the
number of bytes left bounds the number of steps. -/
def refStringStop (mem : List Nat) (E p : Nat) : Nat :=
  refStringScan mem E (E - (p + 1)) (p + 1)

/-- The bytes that `JsonParser_parseExcapedChar` recognises behind a
backslash: quote, backslash, slash, BS, FF, LF, CR, HT. -/
def isEscapeByte (c : Nat) : Bool :=
  c == 34 || c == 92 || c == 47 || c == 8 || c == 12 || c == 10 || c == 13 || c == 9

/-- The reference scanner with the rule for a backslash made exact: a backslash
that is the last byte of the buffer is skipped alone unless the byte behind it
(outside the buffer) is `u` or one of the bytes of `isEscapeByte`. -/
def refStringScanExact (mem : List Nat) (E : Nat) : Nat → Nat → Nat
  | 0, p => p
  | k + 1, p =>
    if E ≤ p then p
    else if mem.getD p 0 = 92 then
      if mem.getD (p + 1) 0 = 117 then refStringScanExact mem E k (p + 3)
      else if p + 1 < E ∨ isEscapeByte (mem.getD (p + 1) 0) = true then
        refStringScanExact mem E k (p + 2)
      else p + 1
    else if mem.getD p 0 = 34 then p + 1
    else refStringScanExact mem E k (p + 1)

/-- Where the exact reference scanner stops when it is started just behind the
opening quote at position `p`. -/
def refStringStopExact (mem : List Nat) (E p : Nat) : Nat :=
  refStringScanExact mem E (E - (p + 1)) (p + 1)

/-- The state `s` with the path stack replaced by `u`. -/
def withParts (s : JsonParser) (u : UriParts) : JsonParser :=
  { s with uriParts_ := u }

/-- Two parser states that differ at most in the storage of the path stack
outside its live segments. -/
def Alike (s t : JsonParser) : Prop :=
  t = withParts s t.uriParts_ ∧ SameStack s.uriParts_ t.uriParts_

/-- Two results of a production that both ran out of their counter, or are
`Alike`. -/
def AlikeOpt : Option JsonParser → Option JsonParser → Prop
  | some s, some t => Alike s t
  | none, none => True
  | _, _ => False

/-- The parser object as a failed call on the 3-byte buffer `{"a` leaves it:
the validity flag set and two segments on the path stack. -/
def usedParser : JsonParser :=
  ((JsonParser_parse freshParser [123, 34, 97, 0] 3).map fun o => o.parser).getD freshParser

/-- A value production that refuses to run unless the cursor lies behind
position `c`; used to state that the container productions start every value
behind the position of the enclosing value. -/
def beyond (c : Nat) (pv : JsonParser → Option JsonParser) : JsonParser → Option JsonParser :=
  fun x => if c < x.str_ then pv x else none

/-- The bytes from position `b` up to `e` are `n` nested objects: the innermost
one is an empty object, and every other one has a single member, whose key is
a string of at most `L` bytes between the quotes and whose value is the next
object. White space is optional between the tokens. -/
inductive Nested (mem : List Nat) (L : Nat) : Nat → Nat → Nat → Prop
  | inner (b q : Nat) : mem.getD b 0 = 123 → Blank mem (b + 1) q → mem.getD q 0 = 125 →
      Nested mem L 1 b (q + 1)
  | outer (n b k k1 c vb ve q : Nat) : mem.getD b 0 = 123 → Blank mem (b + 1) k →
      RfcString mem k k1 → k1 ≤ k + 2 + L → Blank mem k1 c → mem.getD c 0 = 58 →
      Blank mem (c + 1) vb → Nested mem L n vb ve → Blank mem ve q → mem.getD q 0 = 125 →
      Nested mem L (n + 1) b (q + 1)

/-- The document of the test `shallNotCrashForDeepJson` (234 bytes, 26 nested
objects), followed by the terminating zero of the C string. -/
def deepJsonDoc : List Nat :=
  [123, 32, 34, 97, 34, 58, 32, 123, 32, 34, 98, 34, 58, 32, 123, 32, 34, 99, 34, 58, 32, 123,
   32, 34, 100, 34, 58, 32, 123, 32, 34, 101, 34, 58, 32, 123, 32, 34, 102, 34, 58, 32, 123, 32,
   34, 103, 34, 58, 32, 123, 32, 34, 104, 34, 32, 58, 32, 123, 32, 34, 105, 34, 32, 58, 32, 123,
   32, 34, 106, 34, 58, 32, 123, 32, 34, 107, 34, 58, 32, 123, 32, 34, 108, 34, 58, 32, 123, 32,
   34, 109, 34, 58, 32, 123, 32, 34, 110, 34, 58, 32, 123, 32, 34, 111, 34, 58, 32, 123, 32, 34,
   112, 34, 32, 58, 123, 32, 34, 114, 34, 58, 32, 123, 32, 34, 115, 34, 58, 32, 123, 32, 34,
   116, 34, 58, 32, 123, 32, 34, 117, 34, 32, 58, 32, 123, 32, 34, 119, 34, 58, 32, 123, 32, 34,
   121, 34, 32, 58, 32, 123, 32, 34, 122, 34, 58, 32, 123, 32, 34, 97, 97, 34, 32, 58, 32, 123,
   32, 34, 97, 98, 34, 58, 32, 123, 125, 32, 125, 32, 125, 32, 125, 32, 125, 32, 125, 32, 125,
   32, 125, 32, 125, 32, 125, 32, 125, 32, 125, 32, 125, 32, 125, 32, 125, 32, 125, 32, 125, 32,
   125, 32, 125, 32, 125, 32, 125, 32, 125, 32, 125, 32, 125, 32, 125, 32, 125, 0]

/-- Whether the address assembly of a run executed a `memcpy` from a range
that is not inside the buffer, and whether the run was killed inside a
`memcpy` with a negative length. -/
def badCopyOf (r : Option JsonParser) : Option (Bool × Bool) :=
  r.map fun t => (t.badCopy, t.killed)

/-- The segment at index `i` of the path stack as a run leaves it, and the
depth of the stack. -/
def segmentOf (r : Option JsonParser) (i : Int) : Option (UriPart × Int) :=
  r.map fun t => (t.uriParts_.parts i, t.uriParts_.nParts)

/-- The depth of the path stack of `s` lies between `lo` and `MAX_DEPTH`. -/
def DepthIn (lo : Int) (s : JsonParser) : Prop :=
  lo ≤ s.uriParts_.nParts ∧ s.uriParts_.nParts ≤ MAX_DEPTH

/-- A value production that refuses to run unless the depth of the path stack
lies between `lo` and `MAX_DEPTH`; used to state that the container
productions start every value with a stack depth in that range. -/
def inDepth (lo : Int) (pv : JsonParser → Option JsonParser) : JsonParser → Option JsonParser :=
  fun x => if lo ≤ x.uriParts_.nParts ∧ x.uriParts_.nParts ≤ MAX_DEPTH then pv x else none

/-- The history fields of a state fit a run in which the validity flag is never
cleared and the sink is never invoked once the flag is set: `errorAt` is
recorded exactly when the flag is set, and the sink invocations recorded at
the first error, at the first refused push and at the first address that is
too long are all the sink invocations of the state; a killed state is invalid,
and no state with a refused push or an address that is too long is killed. -/
structure History (s : JsonParser) : Prop where
  error : s.errorAt = if s.isInvalid then some s.calls else none
  dead : s.killed = true → s.isInvalid = true
  refusal : ∀ cs, s.refusedAt = some cs → s.isInvalid = true ∧ s.calls = cs
  overlong : ∀ cs, s.tooLongAt = some cs → s.isInvalid = true ∧ s.calls = cs
  alive : s.refusedAt ≠ none ∨ s.tooLongAt ≠ none → s.killed = false

/-- States in which a run starts a value production: valid, and with no
negative length among the live segments. -/
structure Entry (s : JsonParser) : Prop where
  history : History s
  valid : s.isInvalid = false
  lens : lensOk s.uriParts_

/-- States between the steps of the container productions of a run: a negative
length can only be at the top of the stack, and only in a state that is
invalid or at the end of the buffer and has neither a refused push nor an
address that is too long behind it. -/
structure Inside (s : JsonParser) : Prop where
  history : History s
  below : lensOk (UriParts_drop s.uriParts_)
  lens : s.isInvalid = false → s.str_ < s.end_ → lensOk s.uriParts_
  noted : s.refusedAt ≠ none ∨ s.tooLongAt ≠ none → lensOk s.uriParts_

/-- States in which a value production of a run ends. -/
structure Leave (t : JsonParser) : Prop where
  history : History t
  below : lensOk (UriParts_drop t.uriParts_)

/-! # Theorems -/

set_option maxRecDepth 100000 in
/-- C2 (evaluation at the failing inputs): on the one-byte buffer `[` and on the
three-byte buffer `[1,`, each followed by the terminating zero of a C string,
`JsonParser_parse` returns 0 and reports the truncated text as the root value. -/
theorem C2_truncated_array_accepted :
    statusOf (JsonParser_parse freshParser [91, 0] 1) = some 0 ∧
    callsOf (JsonParser_parse freshParser [91, 0] 1)
      = some [{ key := [], keyLen := 0, value := 0, valueLen := 1 }] ∧
    statusOf (JsonParser_parse freshParser [91, 49, 44, 0] 3) = some 0 ∧
    callsOf (JsonParser_parse freshParser [91, 49, 44, 0] 3)
      = some [{ key := [91, 48, 93], keyLen := 3, value := 1, valueLen := 1 },
              { key := [], keyLen := 0, value := 0, valueLen := 3 }] := by
  decide

@[simp] theorem touch_str_ (s : JsonParser) (k : Nat) : (touch s k).str_ = s.str_ := rfl
@[simp] theorem touch_end_ (s : JsonParser) (k : Nat) : (touch s k).end_ = s.end_ := rfl
@[simp] theorem touch_uriParts_ (s : JsonParser) (k : Nat) : (touch s k).uriParts_ = s.uriParts_ := rfl
@[simp] theorem touch_isInvalid (s : JsonParser) (k : Nat) : (touch s k).isInvalid = s.isInvalid := rfl
@[simp] theorem touch_calls (s : JsonParser) (k : Nat) : (touch s k).calls = s.calls := rfl
@[simp] theorem touch_badCopy (s : JsonParser) (k : Nat) : (touch s k).badCopy = s.badCopy := rfl
@[simp] theorem advance_str_ (s : JsonParser) (k : Nat) : (advance s k).str_ = s.str_ + k := rfl
@[simp] theorem advance_end_ (s : JsonParser) (k : Nat) : (advance s k).end_ = s.end_ := rfl
@[simp] theorem advance_uriParts_ (s : JsonParser) (k : Nat) : (advance s k).uriParts_ = s.uriParts_ := rfl
@[simp] theorem advance_isInvalid (s : JsonParser) (k : Nat) : (advance s k).isInvalid = s.isInvalid := rfl
@[simp] theorem advance_calls (s : JsonParser) (k : Nat) : (advance s k).calls = s.calls := rfl
@[simp] theorem advance_oobRead (s : JsonParser) (k : Nat) : (advance s k).oobRead = s.oobRead := rfl
@[simp] theorem advance_badCopy (s : JsonParser) (k : Nat) : (advance s k).badCopy = s.badCopy := rfl
@[simp] theorem invalidate_str_ (s : JsonParser) : (invalidate s).str_ = s.str_ := rfl
@[simp] theorem invalidate_end_ (s : JsonParser) : (invalidate s).end_ = s.end_ := rfl
@[simp] theorem invalidate_uriParts_ (s : JsonParser) : (invalidate s).uriParts_ = s.uriParts_ := rfl
@[simp] theorem invalidate_isInvalid (s : JsonParser) : (invalidate s).isInvalid = true := rfl
@[simp] theorem invalidate_calls (s : JsonParser) : (invalidate s).calls = s.calls := rfl
@[simp] theorem invalidate_oobRead (s : JsonParser) : (invalidate s).oobRead = s.oobRead := rfl
@[simp] theorem invalidate_badCopy (s : JsonParser) : (invalidate s).badCopy = s.badCopy := rfl
@[simp] theorem deref_touch (mem : List Nat) (s : JsonParser) (k j : Nat) :
    deref mem (touch s k) j = deref mem s j := rfl
@[simp] theorem deref_invalidate (mem : List Nat) (s : JsonParser) (j : Nat) :
    deref mem (invalidate s) j = deref mem s j := rfl
theorem deref_advance (mem : List Nat) (s : JsonParser) (k j : Nat) :
    deref mem (advance s k) j = mem.getD (s.str_ + k + j) 0 := rfl
theorem deref_def (mem : List Nat) (s : JsonParser) (j : Nat) :
    deref mem s j = mem.getD (s.str_ + j) 0 := rfl

theorem Ext.erefl (s : JsonParser) : Ext s s :=
  ⟨rfl, Nat.le_refl _, id, ⟨[], by simp, fun _ => rfl⟩, fun _ h => h, fun _ h => h,
    fun _ h => h⟩

theorem Ext.etrans {s t u : JsonParser} (h1 : Ext s t) (h2 : Ext t u) : Ext s u := by
  obtain ⟨D1, hD1, hE1⟩ := h1.calls_ext
  obtain ⟨D2, hD2, hE2⟩ := h2.calls_ext
  refine ⟨h2.end_eq.trans h1.end_eq, Nat.le_trans h1.str_le h2.str_le,
    fun h => h2.sticky (h1.sticky h), ⟨D1 ++ D2, ?_, ?_⟩,
    fun cs h => h2.errorAt_keep cs (h1.errorAt_keep cs h),
    fun cs h => h2.refusedAt_keep cs (h1.refusedAt_keep cs h),
    fun cs h => h2.tooLongAt_keep cs (h1.tooLongAt_keep cs h)⟩
  · rw [hD2, hD1, List.append_assoc]
  · intro h
    rw [hE1 h, hE2 (h1.sticky h)]
    rfl

theorem Ext.evalid {s t : JsonParser} (h : Ext s t) (ht : t.isInvalid = false) :
    s.isInvalid = false := by
  cases hs : s.isInvalid with
  | false => rfl
  | true => rw [h.sticky hs] at ht; exact absurd ht (by simp)

theorem ext_touch (s : JsonParser) (k : Nat) : Ext s (touch s k) :=
  ⟨rfl, Nat.le_refl _, id, ⟨[], by simp, fun _ => rfl⟩, fun _ h => h, fun _ h => h,
    fun _ h => h⟩

theorem ext_advance (s : JsonParser) (k : Nat) : Ext s (advance s k) :=
  ⟨rfl, Nat.le_add_right _ _, id, ⟨[], by simp, fun _ => rfl⟩, fun _ h => h, fun _ h => h,
    fun _ h => h⟩

theorem ext_invalidate (s : JsonParser) : Ext s (invalidate s) :=
  ⟨rfl, Nat.le_refl _, fun _ => rfl, ⟨[], by simp, fun _ => rfl⟩,
    fun cs h => by simp [invalidate, h], fun _ h => h, fun _ h => h⟩

theorem ext_setParts (s : JsonParser) (u : UriParts) : Ext s { s with uriParts_ := u } :=
  ⟨rfl, Nat.le_refl _, id, ⟨[], by simp, fun _ => rfl⟩, fun _ h => h, fun _ h => h,
    fun _ h => h⟩

/-- What the white-space loop leaves: only the cursor moves, over white space
inside the buffer, and it stops at the end of the buffer or at a byte that is
not white space. -/
theorem consumeWhiteSpacesLoop_spec (mem : List Nat) :
    ∀ (k : Nat) (s : JsonParser), s.end_ - s.str_ ≤ k →
      ∃ q, consumeWhiteSpacesLoop mem k s = { s with str_ := q } ∧ s.str_ ≤ q ∧
        (∀ i, s.str_ ≤ i → i < q → i < s.end_ ∧ isWhiteSpace (mem.getD i 0) = true) ∧
        (q < s.end_ → isWhiteSpace (mem.getD q 0) = false) := by
  intro k
  induction k with
  | zero =>
    intro s hk
    refine ⟨s.str_, rfl, Nat.le_refl _, ?_, ?_⟩
    · intro i h1 h2; omega
    · intro h; omega
  | succ k ih =>
    intro s hk
    unfold consumeWhiteSpacesLoop
    by_cases hc : (decide (s.str_ < s.end_) && isWhiteSpace (deref mem s 0)) = true
    · rw [if_pos hc]
      simp only [Bool.and_eq_true, decide_eq_true_eq] at hc
      obtain ⟨q, hq, hle, hws, hstop⟩ := ih (advance s 1) (by simp; omega)
      refine ⟨q, ?_, ?_, ?_, ?_⟩
      · rw [hq]; rfl
      · simp at hle; omega
      · intro i h1 h2
        by_cases hi : i = s.str_
        · subst hi
          exact ⟨hc.1, by simpa [deref] using hc.2⟩
        · exact hws i (by simp; omega) h2
      · simpa using hstop
    · rw [if_neg hc]
      refine ⟨s.str_, rfl, Nat.le_refl _, ?_, ?_⟩
      · intro i h1 h2; omega
      · intro h
        simp only [Bool.and_eq_true, decide_eq_true_eq, not_and, Bool.not_eq_true] at hc
        simpa [deref] using hc h

theorem consumeWhiteSpaces_spec (mem : List Nat) (s : JsonParser) :
    ∃ q, JsonParser_consumeWhiteSpaces mem s = { s with str_ := q } ∧ s.str_ ≤ q ∧
      (∀ i, s.str_ ≤ i → i < q → i < s.end_ ∧ isWhiteSpace (mem.getD i 0) = true) ∧
      (q < s.end_ → isWhiteSpace (mem.getD q 0) = false) :=
  consumeWhiteSpacesLoop_spec mem _ s (Nat.le_refl _)

/-- What the digit loop leaves: only the cursor moves, over digits inside the
buffer, and it stops at the end of the buffer or at a byte that is no digit. -/
theorem digitsLoop_spec (mem : List Nat) :
    ∀ (k : Nat) (s : JsonParser), s.end_ - s.str_ ≤ k →
      ∃ q, digitsLoop mem k s = { s with str_ := q } ∧ s.str_ ≤ q ∧
        (∀ i, s.str_ ≤ i → i < q → i < s.end_ ∧ isdigit (mem.getD i 0) = true) ∧
        (q < s.end_ → isdigit (mem.getD q 0) = false) := by
  intro k
  induction k with
  | zero =>
    intro s hk
    refine ⟨s.str_, rfl, Nat.le_refl _, ?_, ?_⟩
    · intro i h1 h2; omega
    · intro h; omega
  | succ k ih =>
    intro s hk
    unfold digitsLoop
    by_cases hc : s.str_ < s.end_
    · rw [if_pos hc]
      by_cases hd : isdigit (deref mem s 0) = true
      · rw [if_neg (by simp [hd])]
        obtain ⟨q, hq, hle, hws, hstop⟩ := ih (advance s 1) (by simp; omega)
        refine ⟨q, ?_, ?_, ?_, ?_⟩
        · rw [hq]; rfl
        · simp at hle; omega
        · intro i h1 h2
          by_cases hi : i = s.str_
          · subst hi
            exact ⟨hc, by simpa [deref] using hd⟩
          · exact hws i (by simp; omega) h2
        · simpa using hstop
      · rw [if_pos (by simp [hd])]
        refine ⟨s.str_, rfl, Nat.le_refl _, ?_, ?_⟩
        · intro i h1 h2; omega
        · intro _
          simpa [deref] using hd
    · rw [if_neg hc]
      refine ⟨s.str_, rfl, Nat.le_refl _, ?_, ?_⟩
      · intro i h1 h2; omega
      · intro h; omega

theorem skipDigits_spec (mem : List Nat) (s : JsonParser) :
    ∃ q, skipDigits mem s = { s with str_ := q } ∧ s.str_ ≤ q ∧
      (∀ i, s.str_ ≤ i → i < q → i < s.end_ ∧ isdigit (mem.getD i 0) = true) ∧
      (q < s.end_ → isdigit (mem.getD q 0) = false) :=
  digitsLoop_spec mem _ s (Nat.le_refl _)


theorem Scan.srefl (s : JsonParser) : Scan s s :=
  ⟨rfl, Nat.le_refl _, rfl, id, rfl, rfl, rfl, rfl, rfl, Or.inl ⟨rfl, rfl⟩⟩

theorem Scan.strans {s t u : JsonParser} (h1 : Scan s t) (h2 : Scan t u) : Scan s u := by
  refine ⟨h2.end_eq.trans h1.end_eq, Nat.le_trans h1.str_le h2.str_le,
    h2.parts_eq.trans h1.parts_eq, fun h => h2.sticky (h1.sticky h),
    h2.calls_eq.trans h1.calls_eq, h2.badCopy_eq.trans h1.badCopy_eq,
    h2.killed_eq.trans h1.killed_eq, h2.refusedAt_eq.trans h1.refusedAt_eq,
    h2.tooLongAt_eq.trans h1.tooLongAt_eq, ?_⟩
  rcases h1.errorAt_step with ⟨a1, a2⟩ | ⟨a1, a2⟩ <;>
    rcases h2.errorAt_step with ⟨b1, b2⟩ | ⟨b1, b2⟩
  · exact Or.inl ⟨b1.trans a1, b2.trans a2⟩
  · exact Or.inr ⟨b1, by rw [b2, a2, h1.calls_eq]⟩
  · exact Or.inr ⟨b1.trans a1, b2.trans a2⟩
  · exact Or.inr ⟨b1, by rw [b2, a2]; rfl⟩

theorem Scan.ext {s t : JsonParser} (h : Scan s t) : Ext s t := by
  refine ⟨h.end_eq, h.str_le, h.sticky, ⟨[], by simp [h.calls_eq], fun _ => rfl⟩, ?_,
    fun cs hc => by rw [h.refusedAt_eq, hc], fun cs hc => by rw [h.tooLongAt_eq, hc]⟩
  intro cs hc
  rcases h.errorAt_step with ⟨-, a⟩ | ⟨-, a⟩
  · rw [a, hc]
  · rw [a, hc]; rfl

theorem Scan.touch {s t : JsonParser} (k : Nat) (h : Scan s t) : Scan s (touch t k) :=
  h.strans ⟨rfl, Nat.le_refl _, rfl, id, rfl, rfl, rfl, rfl, rfl, Or.inl ⟨rfl, rfl⟩⟩

theorem Scan.advance {s t : JsonParser} (k : Nat) (h : Scan s t) : Scan s (advance t k) :=
  h.strans ⟨rfl, Nat.le_add_right _ _, rfl, id, rfl, rfl, rfl, rfl, rfl, Or.inl ⟨rfl, rfl⟩⟩

theorem Scan.invalidate {s t : JsonParser} (h : Scan s t) : Scan s (invalidate t) :=
  h.strans ⟨rfl, Nat.le_refl _, rfl, fun _ => rfl, rfl, rfl, rfl, rfl, rfl, Or.inr ⟨rfl, rfl⟩⟩

/-- Frame of a push that the full stack refused. -/
theorem Ext.refuse {s t : JsonParser} (h : Ext s t) : Ext s (invalidate (refused t)) :=
  ⟨h.end_eq, h.str_le, fun _ => rfl, h.calls_ext,
    fun cs hc => by
      show some (t.errorAt.getD t.calls) = some cs
      rw [h.errorAt_keep cs hc]; rfl,
    fun cs hc => by
      show some (t.refusedAt.getD t.calls) = some cs
      rw [h.refusedAt_keep cs hc]; rfl,
    h.tooLongAt_keep⟩

theorem Scan.touchNe {s t : JsonParser} (h : Scan s t) : Scan s (touchNe t) := by
  unfold PJson.touchNe
  split
  · exact h.touch 0
  · exact h

theorem Scan.consumeWhiteSpaces (mem : List Nat) {s t : JsonParser} (h : Scan s t) :
    Scan s (JsonParser_consumeWhiteSpaces mem t) := by
  obtain ⟨q, hq, hle, -, -⟩ := consumeWhiteSpaces_spec mem t
  rw [hq]
  exact h.strans ⟨rfl, hle, rfl, id, rfl, rfl, rfl, rfl, rfl, Or.inl ⟨rfl, rfl⟩⟩

theorem Scan.skipDigits (mem : List Nat) {s t : JsonParser} (h : Scan s t) :
    Scan s (skipDigits mem t) := by
  obtain ⟨q, hq, hle, -, -⟩ := skipDigits_spec mem t
  rw [hq]
  exact h.strans ⟨rfl, hle, rfl, id, rfl, rfl, rfl, rfl, rfl, Or.inl ⟨rfl, rfl⟩⟩

theorem Scan.parseNumberExpDigits (mem : List Nat) {s t : JsonParser} (h : Scan s t) :
    Scan s (parseNumberExpDigits mem t) := by
  unfold PJson.parseNumberExpDigits
  simp only []
  split
  · exact (h.touch 0).invalidate
  · exact (h.touch 0).skipDigits mem

theorem Scan.parseNumberExp (mem : List Nat) {s t : JsonParser} (h : Scan s t) :
    Scan s (parseNumberExp mem t) := by
  unfold PJson.parseNumberExp
  simp only []
  split_ifs
  · exact h.touchNe.invalidate
  · exact ((h.touchNe.advance 1).touch 0).invalidate
  · exact (((h.touchNe.advance 1).touch 0).advance 1).parseNumberExpDigits mem
  · exact ((h.touchNe.advance 1).touch 0).parseNumberExpDigits mem
  · exact h.touchNe

theorem Scan.parseNumberFrac (mem : List Nat) {s t : JsonParser} (h : Scan s t) :
    Scan s (parseNumberFrac mem t) := by
  unfold PJson.parseNumberFrac
  simp only []
  split_ifs
  · exact h.touchNe.invalidate
  · exact (h.touchNe.touch 1).invalidate
  · exact (((h.touchNe.touch 1).advance 1).skipDigits mem).parseNumberExp mem
  · exact h.touchNe.parseNumberExp mem

theorem Scan.parseNumber (mem : List Nat) {s t : JsonParser} (h : Scan s t) :
    Scan s (JsonParser_parseNumber mem t) := by
  unfold JsonParser_parseNumber
  simp only []
  split_ifs
  · exact (h.touch 0).invalidate
  · exact ((h.touch 0).touch 1).invalidate
  · exact ((((h.touch 0).touch 1).advance 1).skipDigits mem).parseNumberFrac mem
  · exact (((h.touch 0).advance 1).skipDigits mem).parseNumberFrac mem

theorem Scan.parseExcapedChar (mem : List Nat) {s t : JsonParser} (h : Scan s t) :
    Scan s (JsonParser_parseExcapedChar mem t) := by
  unfold JsonParser_parseExcapedChar
  simp only []
  split_ifs
  · exact ((h.advance 1).touch 0).advance 1
  · exact (((h.advance 1).touch 0).advance 1).advance 1
  · exact (h.advance 1).touch 0

theorem Scan.parseStringLoop (mem : List Nat) :
    ∀ (k : Nat) {s t : JsonParser}, Scan s t → Scan s (parseStringLoop mem k t) := by
  intro k
  induction k with
  | zero => intro s t h; exact h
  | succ k ih =>
    intro s t h
    unfold PJson.parseStringLoop
    split_ifs
    · exact ih (h.parseExcapedChar mem)
    · exact h.advance 1
    · exact ih (h.advance 1)
    · exact h

theorem Scan.parseString (mem : List Nat) {s t : JsonParser} (h : Scan s t) :
    Scan s (JsonParser_parseString mem t) :=
  Scan.parseStringLoop mem _ (h.advance 1)

/-- A scanner keeps the validity flag it finds, unless it sets it. -/
theorem Scan.svalid {s t : JsonParser} (h : Scan s t) (ht : t.isInvalid = false) :
    s.isInvalid = false :=
  h.ext.evalid ht

set_option maxRecDepth 100000 in
/-- C3 (evaluation at the failing inputs): on the four-byte buffer `"abc` and on
the one-byte buffer `"`, each followed by the terminating zero of a C string,
`JsonParser_parse` returns 0 and reports the unterminated text as the root
value. -/
theorem C3_unterminated_string_accepted :
    statusOf (JsonParser_parse freshParser [34, 97, 98, 99, 0] 4) = some 0 ∧
    callsOf (JsonParser_parse freshParser [34, 97, 98, 99, 0] 4)
      = some [{ key := [], keyLen := 0, value := 0, valueLen := 4 }] ∧
    statusOf (JsonParser_parse freshParser [34, 0] 1) = some 0 ∧
    callsOf (JsonParser_parse freshParser [34, 0] 1)
      = some [{ key := [], keyLen := 0, value := 0, valueLen := 1 }] := by
  decide

set_option maxRecDepth 100000 in
/-- C4 (evaluation at the six inputs): with the terminating zero of a C string
behind the buffer, `JsonParser_parse` returns 1 on `{`, `}`, `]` and `[,]`, but
0 on `[` and on `{,}`. -/
theorem C4_malformed_inputs_status :
    statusOf (JsonParser_parse freshParser [123, 0] 1) = some 1 ∧
    statusOf (JsonParser_parse freshParser [125, 0] 1) = some 1 ∧
    statusOf (JsonParser_parse freshParser [91, 0] 1) = some 0 ∧
    statusOf (JsonParser_parse freshParser [93, 0] 1) = some 1 ∧
    statusOf (JsonParser_parse freshParser [123, 44, 125, 0] 3) = some 0 ∧
    statusOf (JsonParser_parse freshParser [91, 44, 93, 0] 3) = some 1 := by
  decide

theorem pathFrom_congr (mem : List Nat) (u v : UriParts) :
    ∀ (k : Nat) (i : Int), (∀ j : Int, i ≤ j → j < i + k → v.parts j = u.parts j) →
      pathFrom mem v k i = pathFrom mem u k i := by
  intro k
  induction k with
  | zero => intro i _; rfl
  | succ k ih =>
    intro i h
    simp only [pathFrom]
    rw [h i (Int.le_refl _) (by omega), ih (i + 1) (fun j h1 h2 => h j (by omega) (by push_cast at h2 ⊢; omega))]

theorem lenFrom_congr (u v : UriParts) :
    ∀ (k : Nat) (i : Int), (∀ j : Int, i ≤ j → j < i + k → v.parts j = u.parts j) →
      lenFrom v k i = lenFrom u k i := by
  intro k
  induction k with
  | zero => intro i _; rfl
  | succ k ih =>
    intro i h
    simp only [lenFrom]
    rw [h i (Int.le_refl _) (by omega), ih (i + 1) (fun j h1 h2 => h j (by omega) (by push_cast at h2 ⊢; omega))]

theorem pathFrom_succ_last (mem : List Nat) (u : UriParts) :
    ∀ (k : Nat) (i : Int),
      pathFrom mem u (k + 1) i
        = pathFrom mem u k i ++ memcpyBytes mem (u.parts (i + k)).Begin (u.parts (i + k)).len := by
  intro k
  induction k with
  | zero => intro i; simp [pathFrom]
  | succ k ih =>
    intro i
    rw [pathFrom, ih (i + 1)]
    simp only [pathFrom, List.append_assoc]
    have : i + 1 + (k : Int) = i + ((k + 1 : Nat) : Int) := by push_cast; omega
    rw [this]

theorem lenFrom_succ_last (u : UriParts) :
    ∀ (k : Nat) (i : Int),
      lenFrom u (k + 1) i = lenFrom u k i + (u.parts (i + k)).len := by
  intro k
  induction k with
  | zero => intro i; simp [lenFrom]
  | succ k ih =>
    intro i
    rw [lenFrom, ih (i + 1)]
    simp only [lenFrom]
    have : i + 1 + (k : Int) = i + ((k + 1 : Nat) : Int) := by push_cast; omega
    rw [this]
    omega

theorem SameStack.srefl_stack (u : UriParts) : SameStack u u :=
  ⟨rfl, fun _ _ _ => rfl⟩

theorem SameStack.strans_stack {u v w : UriParts} (h1 : SameStack u v) (h2 : SameStack v w) :
    SameStack u w :=
  ⟨h2.1.trans h1.1, fun i h0 hi => (h2.2 i h0 (by rw [h1.1]; exact hi)).trans (h1.2 i h0 hi)⟩

theorem SameStack.pathBytes_eq (mem : List Nat) {u v : UriParts} (h : SameStack u v) :
    pathBytes mem v = pathBytes mem u := by
  unfold pathBytes
  rw [h.1]
  apply pathFrom_congr
  intro j h1 h2
  exact h.2 j h1 (by omega)

theorem SameStack.pathLen_eq {u v : UriParts} (h : SameStack u v) :
    pathLen v = pathLen u := by
  unfold pathLen
  rw [h.1]
  apply lenFrom_congr
  intro j h1 h2
  exact h.2 j h1 (by omega)

/-- The loop of `JsonParser_inform` assembles the bytes and the length of the
segments it walks over. -/
theorem informLoop_some (mem : List Nat) (E : Nat) (u : UriParts) :
    ∀ (k : Nat) (i n : Int) (uri : List Nat) (bad : Bool) (r : List Nat) (m : Int)
      (bad1 : Bool),
      informLoop mem E u k i n uri bad = (Assembly.done r m, bad1) →
        (r, m) = (uri ++ pathFrom mem u k i, n + lenFrom u k i) := by
  intro k
  induction k with
  | zero =>
    intro i n uri bad r m bad1 h
    simp only [informLoop, Prod.mk.injEq, Assembly.done.injEq] at h
    simp [pathFrom, lenFrom, ← h.1.1, ← h.1.2]
  | succ k ih =>
    intro i n uri bad r m bad1 h
    unfold informLoop at h
    split at h
    · simp at h
    · split at h
      · simp at h
      · rw [ih _ _ _ _ _ _ _ h]
        simp [pathFrom, lenFrom, List.append_assoc, Int.add_assoc]

/-- The loop of `JsonParser_inform` on an empty stack. -/
theorem informLoop_zero (mem : List Nat) (E : Nat) (u : UriParts) (i n : Int) (uri : List Nat)
    (bad : Bool) : informLoop mem E u 0 i n uri bad = (Assembly.done uri n, bad) := rfl

/-- Frame of `JsonParser_inform`: cursor, end pointer, stack and read marker
are kept. -/
theorem inform_frame (mem : List Nat) (s : JsonParser) (b : Nat) (l : Int) :
    (JsonParser_inform mem s b l).str_ = s.str_ ∧
    (JsonParser_inform mem s b l).end_ = s.end_ ∧
    (JsonParser_inform mem s b l).uriParts_ = s.uriParts_ ∧
    (JsonParser_inform mem s b l).oobRead = s.oobRead := by
  unfold JsonParser_inform
  split
  · exact ⟨rfl, rfl, rfl, rfl⟩
  · exact ⟨rfl, rfl, rfl, rfl⟩
  · split <;> exact ⟨rfl, rfl, rfl, rfl⟩

theorem ext_inform (mem : List Nat) (s : JsonParser) (b : Nat) (l : Int) :
    Ext s (JsonParser_inform mem s b l) := by
  unfold JsonParser_inform
  split
  · exact ⟨rfl, Nat.le_refl _, fun _ => rfl, ⟨[], by simp [invalidate], fun _ => rfl⟩,
      fun cs h => by simp [invalidate, h], fun _ h => h, fun _ h => h⟩
  · refine ⟨rfl, Nat.le_refl _, fun _ => rfl, ⟨[], by simp [invalidate], fun _ => rfl⟩,
      fun cs h => by simp [invalidate, h], fun _ h => h, fun cs h => ?_⟩
    show (if s.killed = true then s.tooLongAt else some (s.tooLongAt.getD s.calls)) = some cs
    split
    · exact h
    · rw [h]; rfl
  · split
    · rename_i hv
      exact ⟨rfl, Nat.le_refl _, id, ⟨_, rfl, fun h => by simp [h] at hv⟩, fun _ h => h,
        fun _ h => h, fun _ h => h⟩
    · exact ⟨rfl, Nat.le_refl _, id, ⟨[], by simp, fun _ => rfl⟩, fun _ h => h, fun _ h => h,
        fun _ h => h⟩

/-- A report that leaves the parser valid appended exactly one sink invocation,
carrying the address of the current path. -/
theorem inform_valid (mem : List Nat) (s : JsonParser) (b : Nat) (l : Int)
    (h : (JsonParser_inform mem s b l).isInvalid = false) :
    s.isInvalid = false ∧
    (JsonParser_inform mem s b l).calls
      = s.calls ++ [{ key := pathBytes mem s.uriParts_, keyLen := pathLen s.uriParts_,
                      value := b, valueLen := l }] := by
  unfold JsonParser_inform at h ⊢
  split at h
  · simp [invalidate] at h
  · simp [invalidate] at h
  · rename_i uri n bad heq
    have hr := informLoop_some _ _ _ _ _ _ _ _ _ _ _ heq
    simp only [Prod.mk.injEq, List.nil_append, zero_add] at hr
    split at h
    · rename_i hv
      simp only [Bool.not_eq_true'] at hv
      refine ⟨hv, ?_⟩
      simp [hv, pathBytes, pathLen, hr.1, hr.2]
    · rename_i hv
      simp only [Bool.not_eq_true', Bool.not_eq_false] at hv
      simp [hv] at h

theorem Ext.scan {s t u : JsonParser} (h : Ext s t) (h2 : Scan t u) : Ext s u :=
  h.etrans h2.ext

theorem Ext.setParts {s t : JsonParser} (u : UriParts) (h : Ext s t) :
    Ext s { t with uriParts_ := u } :=
  h.etrans (ext_setParts t u)

theorem Ext.finishValue (mem : List Nat) (b : Nat) {s t : JsonParser} (h : Ext s t) :
    Ext s (finishValue mem b t) :=
  (h.etrans (ext_inform mem t b _)).scan ((Scan.srefl _).consumeWhiteSpaces mem)

theorem appendString_cases (u : UriParts) (p : Ptr) (l : Int) :
    (u.nParts ≥ MAX_DEPTH ∧ UriParts_appendString u p l = (u, false)) ∨
    (u.nParts < MAX_DEPTH ∧ UriParts_appendString u p l =
      ({ parts := fun i => if i = u.nParts then { Begin := p, len := l } else u.parts i,
         nParts := u.nParts + 1 }, true)) := by
  unfold UriParts_appendString
  by_cases h : u.nParts ≥ MAX_DEPTH
  · left; exact ⟨h, by simp [h]⟩
  · right; exact ⟨by omega, by simp [h]⟩

theorem appendObject_eq (u : UriParts) :
    UriParts_appendObject u = UriParts_appendString u Ptr.objectUri 1 := rfl

/-- Frame of the colon loop of the key/value production. -/
theorem parseKeyValueLoop_ext {pv : JsonParser → Option JsonParser} (mem : List Nat)
    (hpv : ∀ t t1, pv t = some t1 → Ext t t1) :
    ∀ (k : Nat) (s0 s s1 : JsonParser), Ext s0 s →
      parseKeyValueLoop pv mem k s = some s1 → Ext s0 s1 := by
  intro k
  induction k with
  | zero =>
    intro s0 s s1 h0 h
    simp only [parseKeyValueLoop, Option.some.injEq] at h
    exact h ▸ h0
  | succ k ih =>
    intro s0 s s1 h0 h
    unfold parseKeyValueLoop at h
    split_ifs at h
    · cases hp : pv (advance s 1) with
      | none => simp [hp] at h
      | some t =>
        simp only [hp, Option.some.injEq] at h
        rw [← h]
        exact (((h0.scan ((Scan.srefl s).advance 1)).etrans (hpv _ _ hp)).setParts _)
    · exact ih _ _ _ (h0.scan ((Scan.srefl s).advance 1)) h
    · simp only [Option.some.injEq] at h
      exact h ▸ h0

/-- Frame of the key/value production, counted from behind the opening quote
of the key. -/
theorem parseKeyValue_ext {pv : JsonParser → Option JsonParser} (mem : List Nat)
    (hpv : ∀ t t1, pv t = some t1 → Ext t t1) (s0 s s1 : JsonParser)
    (h0 : Ext s0 (advance s 1))
    (h : JsonParser_parseKeyValue pv mem s = some s1) : Ext s0 s1 := by
  unfold JsonParser_parseKeyValue at h
  simp only [] at h
  have hs : Ext s0 (JsonParser_parseString mem s) :=
    h0.scan (Scan.parseStringLoop mem _ (Scan.srefl _))
  rcases appendString_cases (JsonParser_parseString mem s).uriParts_ (Ptr.json (s.str_ + 1))
    (((JsonParser_parseString mem s).str_ : Int) - 1 - ((s.str_ + 1 : Nat) : Int)) with ⟨-, hc⟩ | ⟨-, hc⟩
  · rw [hc] at h
    simp only [Option.some.injEq] at h
    rw [← h]
    exact hs.refuse
  · rw [hc] at h
    exact parseKeyValueLoop_ext mem hpv _ _ _ _ (hs.setParts _) h

/-- Frame of the loop of the object production. -/
theorem parseObjectLoop_ext {pv : JsonParser → Option JsonParser} (mem : List Nat)
    (hpv : ∀ t t1, pv t = some t1 → Ext t t1) :
    ∀ (k : Nat) (s0 s s1 : JsonParser), Ext s0 s →
      parseObjectLoop pv mem k s = some s1 → Ext s0 s1 := by
  intro k
  induction k with
  | zero =>
    intro s0 s s1 h0 h
    unfold parseObjectLoop at h
    split_ifs at h
    simp only [Option.some.injEq] at h
    exact h ▸ h0.scan (Scan.srefl s).invalidate
  | succ k ih =>
    intro s0 s s1 h0 h
    unfold parseObjectLoop at h
    split_ifs at h
    · cases hp : JsonParser_parseKeyValue pv mem s with
      | none => simp [hp] at h
      | some t =>
        simp only [hp] at h
        exact ih _ _ _ (parseKeyValue_ext mem hpv _ _ _
          (h0.scan ((Scan.srefl s).advance 1)) hp) h
    · simp only [Option.some.injEq] at h
      exact h ▸ (h0.setParts _).scan ((Scan.srefl _).advance 1)
    · exact ih _ _ _ (h0.scan ((Scan.srefl s).advance 1)) h
    · exact ih _ _ _ (h0.scan ((Scan.srefl s).invalidate.advance 1)) h
    · exact ih _ _ _ (h0.scan ((Scan.srefl s).advance 1)) h
    · simp only [Option.some.injEq] at h
      exact h ▸ h0.scan (Scan.srefl s).invalidate

/-- Frame of the object production. -/
theorem parseObject_ext {pv : JsonParser → Option JsonParser} (mem : List Nat)
    (hpv : ∀ t t1, pv t = some t1 → Ext t t1) (s0 s s1 : JsonParser) (h0 : Ext s0 s)
    (h : JsonParser_parseObject pv mem s = some s1) : Ext s0 s1 := by
  unfold JsonParser_parseObject at h
  rw [appendObject_eq] at h
  rcases appendString_cases s.uriParts_ Ptr.objectUri 1 with ⟨-, hc⟩ | ⟨-, hc⟩
  · rw [hc] at h
    simp only [Option.some.injEq] at h
    exact h ▸ h0.refuse
  · rw [hc] at h
    exact parseObjectLoop_ext mem hpv _ _ _ _
      ((h0.setParts _).scan ((Scan.srefl _).advance 1)) h

/-- Frame of the loop of the array production. -/
theorem parseArrayLoop_ext {pv : JsonParser → Option JsonParser} (mem : List Nat)
    (hpv : ∀ t t1, pv t = some t1 → Ext t t1) :
    ∀ (k index : Nat) (s0 s s1 : JsonParser), Ext s0 s →
      parseArrayLoop pv mem k index s = some s1 → Ext s0 s1 := by
  intro k
  induction k with
  | zero =>
    intro index s0 s s1 h0 h
    unfold parseArrayLoop at h
    split_ifs at h
    simp only [Option.some.injEq] at h
    exact h ▸ h0
  | succ k ih =>
    intro index s0 s s1 h0 h
    unfold parseArrayLoop at h
    split_ifs at h
    · simp only [] at h
      rcases appendString_cases (JsonParser_consumeWhiteSpaces mem s).uriParts_
        (Ptr.buffer (indexLabel index)) ((indexLabel index).length : Int) with ⟨-, hc⟩ | ⟨-, hc⟩
      · rw [hc] at h
        simp only [Option.some.injEq] at h
        exact h ▸ (h0.scan ((Scan.srefl s).consumeWhiteSpaces mem)).refuse
      · rw [hc] at h
        simp only [] at h
        split at h
        · simp at h
        · rename_i t hp
          have h1 : Ext s0 (touch (JsonParser_consumeWhiteSpaces mem
              { t with uriParts_ := UriParts_drop t.uriParts_ }) 0) :=
            ((((h0.scan ((Scan.srefl s).consumeWhiteSpaces mem)).setParts _).etrans
              (hpv _ _ hp)).setParts _).scan (((Scan.srefl _).consumeWhiteSpaces mem).touch 0)
          split_ifs at h
          · exact ih _ _ _ _ (h1.scan ((Scan.srefl _).advance 1)) h
          · simp only [Option.some.injEq] at h
            exact h ▸ h1.scan ((Scan.srefl _).advance 1)
          · simp only [Option.some.injEq] at h
            exact h ▸ h1.scan (Scan.srefl _).invalidate
    · simp only [Option.some.injEq] at h
      exact h ▸ h0

/-- Frame of the array production. -/
theorem parseArray_ext {pv : JsonParser → Option JsonParser} (mem : List Nat)
    (hpv : ∀ t t1, pv t = some t1 → Ext t t1) (s0 s s1 : JsonParser) (h0 : Ext s0 s)
    (h : JsonParser_parseArray pv mem s = some s1) : Ext s0 s1 := by
  unfold JsonParser_parseArray at h
  simp only [] at h
  have h1 : Ext s0 (touch (JsonParser_consumeWhiteSpaces mem (advance s 1)) 0) :=
    h0.scan ((((Scan.srefl s).advance 1).consumeWhiteSpaces mem).touch 0)
  split_ifs at h
  · simp only [Option.some.injEq] at h
    exact h ▸ h1.scan ((Scan.srefl _).advance 1)
  · exact parseArrayLoop_ext mem hpv _ _ _ _ _ h1 h

/-- Frame of the value production: whatever the input, the end pointer is kept,
the cursor does not go back, the validity flag is never cleared and sink
invocations are only appended, none once the flag is set. -/
theorem parseValue_ext (mem : List Nat) :
    ∀ (d : Nat) (s s1 : JsonParser), JsonParser_parseValue mem d s = some s1 → Ext s s1 := by
  intro d
  induction d with
  | zero => intro s s1 h; simp [JsonParser_parseValue] at h
  | succ d ih =>
    intro s s1 h
    unfold JsonParser_parseValue at h
    simp only [] at h
    have h1 : Ext s (touch (JsonParser_consumeWhiteSpaces mem s) 0) :=
      (Ext.erefl s).scan (((Scan.srefl s).consumeWhiteSpaces mem).touch 0)
    split_ifs at h
    · simp only [Option.some.injEq] at h
      exact h ▸ (h1.scan ((Scan.srefl _).parseString mem)).finishValue mem _
    · simp only [Option.some.injEq] at h
      exact h ▸ (h1.scan ((Scan.srefl _).parseNumber mem)).finishValue mem _
    · split at h
      · simp at h
      · rename_i t hp
        simp only [Option.some.injEq] at h
        exact h ▸ (parseObject_ext mem ih _ _ _ h1 hp).finishValue mem _
    · split at h
      · simp at h
      · rename_i t hp
        simp only [Option.some.injEq] at h
        exact h ▸ (parseArray_ext mem ih _ _ _ h1 hp).finishValue mem _
    · simp only [Option.some.injEq] at h
      exact h ▸ (h1.scan ((Scan.srefl _).advance 4)).finishValue mem _
    · simp only [Option.some.injEq] at h
      exact h ▸ (h1.scan ((Scan.srefl _).advance 4)).finishValue mem _
    · simp only [Option.some.injEq] at h
      exact h ▸ (h1.scan ((Scan.srefl _).advance 5)).finishValue mem _
    · simp only [Option.some.injEq] at h
      exact h ▸ h1.scan (Scan.srefl _).invalidate

theorem consumeWhiteSpaces_le_end (mem : List Nat) (s : JsonParser) (h : s.str_ ≤ s.end_) :
    (JsonParser_consumeWhiteSpaces mem s).str_ ≤ s.end_ := by
  obtain ⟨q, hq, hle, hws, -⟩ := consumeWhiteSpaces_spec mem s
  rw [hq]
  show q ≤ s.end_
  by_cases hqs : q = s.str_
  · omega
  · have := (hws (q - 1) (by omega) (by omega)).1
    omega

/-- The colon loop of the key/value production returns, provided the value
production does on the states it is started from. -/
theorem parseKeyValueLoop_total {pv : JsonParser → Option JsonParser} (mem : List Nat)
    (E c : Nat)
    (hpvT : ∀ t : JsonParser, t.end_ = E → c < E → c ≤ t.str_ → ∃ t1, pv t = some t1) :
    ∀ (k : Nat) (s : JsonParser), s.end_ = E → c ≤ s.str_ →
      ∃ s1, parseKeyValueLoop pv mem k s = some s1 := by
  intro k
  induction k with
  | zero => intro s _ _; exact ⟨s, rfl⟩
  | succ k ih =>
    intro s hE hc
    unfold parseKeyValueLoop
    split_ifs with h1 h2
    · simp only [Bool.and_eq_true, decide_eq_true_eq] at h1
      obtain ⟨t1, ht1⟩ := hpvT (advance s 1) hE (by omega) (by simp; omega)
      rw [ht1]
      exact ⟨_, rfl⟩
    · exact ih _ hE (by simp; omega)
    · exact ⟨s, rfl⟩

/-- The key/value production returns, provided the value production does. -/
theorem parseKeyValue_total {pv : JsonParser → Option JsonParser} (mem : List Nat)
    (E c : Nat)
    (hpvT : ∀ t : JsonParser, t.end_ = E → c < E → c ≤ t.str_ → ∃ t1, pv t = some t1)
    (s : JsonParser) (hE : s.end_ = E) (hc : c ≤ s.str_) :
    ∃ s1, JsonParser_parseKeyValue pv mem s = some s1 := by
  unfold JsonParser_parseKeyValue
  simp only []
  have hs : Scan s (JsonParser_parseString mem s) := (Scan.srefl s).parseString mem
  rcases appendString_cases (JsonParser_parseString mem s).uriParts_ (Ptr.json (s.str_ + 1))
    (((JsonParser_parseString mem s).str_ : Int) - 1 - ((s.str_ + 1 : Nat) : Int)) with ⟨-, h⟩ | ⟨-, h⟩
  · rw [h]
    exact ⟨_, rfl⟩
  · rw [h]
    exact parseKeyValueLoop_total mem E c hpvT _ _ (by simp [hs.end_eq, hE])
      (by have := hs.str_le; simp; omega)

/-- The loop of the object production returns, provided the value production
does: every iteration moves the cursor. -/
theorem parseObjectLoop_total {pv : JsonParser → Option JsonParser} (mem : List Nat)
    (E c : Nat)
    (hpvE : ∀ t t1, pv t = some t1 → Ext t t1)
    (hpvT : ∀ t : JsonParser, t.end_ = E → c < E → c ≤ t.str_ → ∃ t1, pv t = some t1) :
    ∀ (k : Nat) (s : JsonParser), s.end_ = E → c ≤ s.str_ → E - s.str_ ≤ k →
      ∃ s1, parseObjectLoop pv mem k s = some s1 := by
  intro k
  induction k with
  | zero =>
    intro s hE hc hk
    unfold parseObjectLoop
    split_ifs with h1
    · simp only [Bool.and_eq_true, decide_eq_true_eq] at h1
      omega
    · exact ⟨_, rfl⟩
  | succ k ih =>
    intro s hE hc hk
    unfold parseObjectLoop
    split_ifs with h1 h2 h3 h4 h5
    · obtain ⟨t, ht⟩ := parseKeyValue_total mem E c hpvT s hE hc
      have hx := parseKeyValue_ext mem hpvE _ _ _ (Ext.erefl (advance s 1)) ht
      rw [ht]
      have h6 := hx.str_le
      have h7 := hx.end_eq
      simp at h6 h7
      exact ih t (by omega) (by omega) (by omega)
    · exact ⟨_, rfl⟩
    · exact ih _ hE (by simp; omega) (by simp; omega)
    · exact ih _ hE (by simp; omega) (by simp; omega)
    · exact ih _ hE (by simp; omega) (by simp; omega)
    · exact ⟨_, rfl⟩

/-- The object production returns, provided the value production does. -/
theorem parseObject_total {pv : JsonParser → Option JsonParser} (mem : List Nat)
    (E c : Nat)
    (hpvE : ∀ t t1, pv t = some t1 → Ext t t1)
    (hpvT : ∀ t : JsonParser, t.end_ = E → c < E → c ≤ t.str_ → ∃ t1, pv t = some t1)
    (s : JsonParser) (hE : s.end_ = E) (hc : c ≤ s.str_ + 1) :
    ∃ s1, JsonParser_parseObject pv mem s = some s1 := by
  unfold JsonParser_parseObject
  rw [appendObject_eq]
  rcases appendString_cases s.uriParts_ Ptr.objectUri 1 with ⟨-, h⟩ | ⟨-, h⟩
  · rw [h]
    exact ⟨_, rfl⟩
  · rw [h]
    exact parseObjectLoop_total mem E c hpvE hpvT _ _ hE (by simp; omega) (by simp; omega)

/-- The loop of the array production returns, provided the value production
does: every iteration moves the cursor. -/
theorem parseArrayLoop_total {pv : JsonParser → Option JsonParser} (mem : List Nat)
    (E c : Nat)
    (hpvE : ∀ t t1, pv t = some t1 → Ext t t1)
    (hpvT : ∀ t : JsonParser, t.end_ = E → c < E → c ≤ t.str_ → ∃ t1, pv t = some t1) :
    ∀ (k index : Nat) (s : JsonParser), s.end_ = E → c ≤ s.str_ → E - s.str_ ≤ k →
      ∃ s1, parseArrayLoop pv mem k index s = some s1 := by
  intro k
  induction k with
  | zero =>
    intro index s hE hc hk
    unfold parseArrayLoop
    split_ifs with h1
    · simp only [Bool.and_eq_true, decide_eq_true_eq] at h1
      omega
    · exact ⟨_, rfl⟩
  | succ k ih =>
    intro index s hE hc hk
    unfold parseArrayLoop
    split_ifs with h1
    · simp only [Bool.and_eq_true, decide_eq_true_eq] at h1
      simp only []
      have hw : Scan s (JsonParser_consumeWhiteSpaces mem s) :=
        (Scan.srefl s).consumeWhiteSpaces mem
      rcases appendString_cases (JsonParser_consumeWhiteSpaces mem s).uriParts_
        (Ptr.buffer (indexLabel index)) ((indexLabel index).length : Int) with ⟨-, h⟩ | ⟨-, h⟩
      · rw [h]
        exact ⟨_, rfl⟩
      · rw [h]
        simp only []
        have h8 := hw.str_le
        have h9 := hw.end_eq
        have key : ∀ t, pv t = none → t.end_ = E → c ≤ t.str_ → False := by
          intro t hn h1 h2
          obtain ⟨t1, ht1⟩ := hpvT t h1 (by omega) h2
          rw [ht1] at hn
          cases hn
        split
        · rename_i hn
          exact (key _ hn (by simp only [h9, hE])
            (show c ≤ (JsonParser_consumeWhiteSpaces mem s).str_ by omega)).elim
        · rename_i t ht
          have hx := hpvE _ _ ht
          have h6 : (JsonParser_consumeWhiteSpaces mem s).str_ ≤ t.str_ := hx.str_le
          have h7 : t.end_ = (JsonParser_consumeWhiteSpaces mem s).end_ := hx.end_eq
          have hy : Scan { t with uriParts_ := UriParts_drop t.uriParts_ }
              (touch (JsonParser_consumeWhiteSpaces mem
                { t with uriParts_ := UriParts_drop t.uriParts_ }) 0) :=
            ((Scan.srefl _).consumeWhiteSpaces mem).touch 0
          have h10 : t.str_ ≤ (touch (JsonParser_consumeWhiteSpaces mem
                { t with uriParts_ := UriParts_drop t.uriParts_ }) 0).str_ := hy.str_le
          have h11 : (touch (JsonParser_consumeWhiteSpaces mem
                { t with uriParts_ := UriParts_drop t.uriParts_ }) 0).end_ = t.end_ := hy.end_eq
          split_ifs
          · exact ih _ _ (by simp only [advance_end_]; omega)
              (by simp only [advance_str_]; omega) (by simp only [advance_str_]; omega)
          · exact ⟨_, rfl⟩
          · exact ⟨_, rfl⟩
    · exact ⟨_, rfl⟩

/-- The array production returns, provided the value production does. -/
theorem parseArray_total {pv : JsonParser → Option JsonParser} (mem : List Nat)
    (E c : Nat)
    (hpvE : ∀ t t1, pv t = some t1 → Ext t t1)
    (hpvT : ∀ t : JsonParser, t.end_ = E → c < E → c ≤ t.str_ → ∃ t1, pv t = some t1)
    (s : JsonParser) (hE : s.end_ = E) (hc : c ≤ s.str_ + 1) :
    ∃ s1, JsonParser_parseArray pv mem s = some s1 := by
  unfold JsonParser_parseArray
  simp only []
  have hy : Scan (advance s 1) (touch (JsonParser_consumeWhiteSpaces mem (advance s 1)) 0) :=
    ((Scan.srefl _).consumeWhiteSpaces mem).touch 0
  have h10 := hy.str_le
  have h11 := hy.end_eq
  simp only [advance_str_, advance_end_] at h10 h11
  split_ifs
  · exact ⟨_, rfl⟩
  · exact parseArrayLoop_total mem E c hpvE hpvT _ _ _ (by omega) (by omega) (by omega)

/-- The value production returns on every state, as soon as the depth counter
covers the bytes left in the buffer. -/
theorem parseValue_total (mem : List Nat) :
    ∀ (d : Nat) (s : JsonParser), 1 ≤ d → s.end_ ≤ s.str_ + d →
      ∃ s1, JsonParser_parseValue mem d s = some s1 := by
  intro d
  induction d with
  | zero => intro s h; omega
  | succ d ih =>
    intro s _ hd
    have hw : Scan s (touch (JsonParser_consumeWhiteSpaces mem s) 0) :=
      ((Scan.srefl _).consumeWhiteSpaces mem).touch 0
    have h10 := hw.str_le
    have h11 := hw.end_eq
    have hpvT : ∀ t : JsonParser, t.end_ = s.end_ → s.str_ + 1 < s.end_ → s.str_ + 1 ≤ t.str_ →
        ∃ t1, JsonParser_parseValue mem d t = some t1 := by
      intro t h1 h2 h3
      exact ih t (by omega) (by omega)
    unfold JsonParser_parseValue
    simp only []
    split_ifs
    · exact ⟨_, rfl⟩
    · exact ⟨_, rfl⟩
    · obtain ⟨t, ht⟩ := parseObject_total mem s.end_ (s.str_ + 1) (parseValue_ext mem d) hpvT
        (touch (JsonParser_consumeWhiteSpaces mem s) 0) h11 (by omega)
      rw [ht]
      exact ⟨_, rfl⟩
    · obtain ⟨t, ht⟩ := parseArray_total mem s.end_ (s.str_ + 1) (parseValue_ext mem d) hpvT
        (touch (JsonParser_consumeWhiteSpaces mem s) 0) h11 (by omega)
      rw [ht]
      exact ⟨_, rfl⟩
    · exact ⟨_, rfl⟩
    · exact ⟨_, rfl⟩
    · exact ⟨_, rfl⟩
    · exact ⟨_, rfl⟩

/-- The run of `JsonParser_parse` ends on every parser object, memory and buffer
length: the counters of the model never run out, and the call returns the
state in which the run ends unless the run was killed. -/
theorem parse_total (p : JsonParser) (mem : List Nat) (E : Nat) :
    ∃ s1, JsonParser_parseValue mem (E + 1) (entryState p E) = some s1 ∧
      JsonParser_parse p mem E
        = if s1.killed then none else some { status := exitStatus s1, parser := s1 } := by
  obtain ⟨s1, h⟩ := parseValue_total mem (E + 1) (entryState p E) (by omega)
    (by simp [entryState])
  refine ⟨s1, h, ?_⟩
  unfold JsonParser_parse
  rw [h]

theorem consumeWhiteSpaces_wsTo (mem : List Nat) (s : JsonParser) :
    JsonParser_consumeWhiteSpaces mem s
      = { s with str_ := (JsonParser_consumeWhiteSpaces mem s).str_ } ∧
    WsTo mem s.end_ s.str_ (JsonParser_consumeWhiteSpaces mem s).str_ := by
  obtain ⟨q, hq, hle, hws, hstop⟩ := consumeWhiteSpaces_spec mem s
  rw [hq]
  exact ⟨rfl, hle, hws, hstop⟩

theorem WsTo.wrefl {mem : List Nat} {E a : Nat}
    (h : a < E → isWhiteSpace (mem.getD a 0) = false) : WsTo mem E a a :=
  ⟨Nat.le_refl _, fun i h1 h2 => by omega, h⟩

theorem WsTo.wtrans {mem : List Nat} {E a b c : Nat} (h1 : WsTo mem E a b)
    (h2 : WsTo mem E b c) : WsTo mem E a c := by
  refine ⟨Nat.le_trans h1.1 h2.1, ?_, h2.2.2⟩
  intro i hi1 hi2
  by_cases hb : i < b
  · exact h1.2.1 i hi1 hb
  · exact h2.2.1 i (by omega) hi2

theorem WsTo.stop_eq {mem : List Nat} {E a b : Nat} (h : WsTo mem E a b)
    (hs : a < E → isWhiteSpace (mem.getD a 0) = false) : b = a := by
  by_contra hne
  have hlt : a < b := by have := h.1; omega
  have h1 := h.2.1 a (Nat.le_refl _) hlt
  rw [hs h1.1] at h1
  exact absurd h1.2 (by simp)

theorem WsTo.unique {mem : List Nat} {E a b c : Nat} (h1 : WsTo mem E a b)
    (h2 : WsTo mem E a c) : b = c := by
  rcases Nat.lt_trichotomy b c with h | h | h
  · have h3 := h2.2.1 b h1.1 h
    rw [h1.2.2 h3.1] at h3
    exact absurd h3.2 (by simp)
  · exact h
  · have h3 := h1.2.1 c h2.1 h
    rw [h2.2.2 h3.1] at h3
    exact absurd h3.2 (by simp)

theorem WsTo.le_end {mem : List Nat} {E a b : Nat} (h : WsTo mem E a b) (ha : a ≤ E) :
    b ≤ E := by
  by_contra hne
  have h1 := h.2.1 (b - 1) (by omega) (by omega)
  omega

/-- The white-space skip is the identity where it would stop at once. -/
theorem consumeWhiteSpaces_stop (mem : List Nat) (s : JsonParser)
    (hs : s.str_ < s.end_ → isWhiteSpace (mem.getD s.str_ 0) = false) :
    JsonParser_consumeWhiteSpaces mem s = s := by
  obtain ⟨h1, h2⟩ := consumeWhiteSpaces_wsTo mem s
  rw [h1, h2.stop_eq hs]

/-- The white-space skip lands where the white space ends. -/
theorem consumeWhiteSpaces_eq (mem : List Nat) (s : JsonParser) (q : Nat)
    (h : WsTo mem s.end_ s.str_ q) :
    JsonParser_consumeWhiteSpaces mem s = { s with str_ := q } := by
  obtain ⟨h1, h2⟩ := consumeWhiteSpaces_wsTo mem s
  rw [h1, h2.unique h]

theorem memcpyBytes_buffer (mem : List Nat) (t : List Nat) :
    memcpyBytes mem (Ptr.buffer t) (t.length : Int) = t := by
  unfold memcpyBytes
  apply List.ext_getElem
  · simp
  · intro i h1 h2
    simp [Ptr.byte, List.getD_eq_getElem?_getD, List.getElem?_eq_getElem h2]

theorem memcpyBytes_objectUri (mem : List Nat) :
    memcpyBytes mem Ptr.objectUri 1 = [47] := by
  rfl

theorem memcpyBytes_json (mem : List Nat) (a b : Nat) (h : a ≤ b) :
    memcpyBytes mem (Ptr.json a) ((b : Int) - (a : Int)) = slice mem a b := by
  unfold memcpyBytes slice
  have : ((b : Int) - (a : Int)).toNat = b - a := by omega
  rw [this]
  rfl

/-- Pushing a segment on a stack of non-negative depth appends its bytes to the
address and its length to the counted length; the stack below is unchanged. -/
theorem push_path (mem : List Nat) (u : UriParts) (p : Ptr) (l : Int) (h0 : 0 ≤ u.nParts) :
    pathBytes mem { parts := fun i => if i = u.nParts then { Begin := p, len := l } else u.parts i,
                    nParts := u.nParts + 1 }
      = pathBytes mem u ++ memcpyBytes mem p l ∧
    pathLen { parts := fun i => if i = u.nParts then { Begin := p, len := l } else u.parts i,
              nParts := u.nParts + 1 }
      = pathLen u + l := by
  have hn : (u.nParts + 1).toNat = u.nParts.toNat + 1 := by omega
  have hk : (0 : Int) + (u.nParts.toNat : Int) = u.nParts := by omega
  constructor
  · unfold pathBytes
    simp only [hn]
    rw [pathFrom_succ_last]
    simp only [hk, if_true]
    congr 1
    apply pathFrom_congr
    intro j h1 h2
    have : j ≠ u.nParts := by omega
    simp [this]
  · unfold pathLen
    simp only [hn]
    rw [lenFrom_succ_last]
    simp only [hk, if_true]
    congr 1
    apply lenFrom_congr
    intro j h1 h2
    have : j ≠ u.nParts := by omega
    simp [this]

/-- A stack that agrees with a pushed stack agrees, after a drop, with the
stack before the push. -/
theorem push_drop_same (u v : UriParts) (part : UriPart)
    (h : SameStack { parts := fun i => if i = u.nParts then part else u.parts i,
                     nParts := u.nParts + 1 } v) :
    SameStack u (UriParts_drop v) := by
  refine ⟨?_, ?_⟩
  · show v.nParts - 1 = u.nParts
    have := h.1
    simp only at this
    omega
  · intro i h0 hi
    have := h.2 i h0 (by simp only; omega)
    have hne : i ≠ u.nParts := by omega
    simpa [UriParts_drop, hne] using this

theorem parseExcapedChar_frame (mem : List Nat) (s : JsonParser) :
    ∃ q o, JsonParser_parseExcapedChar mem s = { s with str_ := q, oobRead := o } ∧
      s.str_ + 1 ≤ q := by
  unfold JsonParser_parseExcapedChar
  simp only []
  split_ifs
  · exact ⟨_, _, rfl, by simp only [advance_str_, touch_str_]; omega⟩
  · exact ⟨_, _, rfl, by simp only [advance_str_, touch_str_]; omega⟩
  · exact ⟨_, _, rfl, by simp only [advance_str_, touch_str_]; omega⟩

theorem parseStringLoop_frame (mem : List Nat) :
    ∀ (k : Nat) (s : JsonParser),
      ∃ q o, parseStringLoop mem k s = { s with str_ := q, oobRead := o } := by
  intro k
  induction k with
  | zero => intro s; exact ⟨_, _, rfl⟩
  | succ k ih =>
    intro s
    unfold parseStringLoop
    split_ifs
    · obtain ⟨q, o, h, -⟩ := parseExcapedChar_frame mem s
      rw [h]
      obtain ⟨q1, o1, h1⟩ := ih { s with str_ := q, oobRead := o }
      rw [h1]
      exact ⟨_, _, rfl⟩
    · exact ⟨_, _, rfl⟩
    · obtain ⟨q1, o1, h1⟩ := ih (advance s 1)
      rw [h1]
      exact ⟨_, _, rfl⟩
    · exact ⟨_, _, rfl⟩

/-- The string production changes nothing but the cursor and the read marker. -/
theorem parseString_frame (mem : List Nat) (s : JsonParser) :
    ∃ q o, JsonParser_parseString mem s = { s with str_ := q, oobRead := o } := by
  obtain ⟨q, o, h⟩ := parseStringLoop_frame mem ((advance s 1).end_ - (advance s 1).str_)
    (advance s 1)
  exact ⟨q, o, by unfold JsonParser_parseString; rw [h]; rfl⟩

theorem parseExcapedChar_pos (mem : List Nat) (s t : JsonParser) (h1 : s.str_ = t.str_) :
    (JsonParser_parseExcapedChar mem s).str_ = (JsonParser_parseExcapedChar mem t).str_ := by
  unfold JsonParser_parseExcapedChar
  simp only [deref_touch, deref_advance, h1]
  split_ifs <;> simp [h1]

theorem parseStringLoop_pos (mem : List Nat) :
    ∀ (k : Nat) (s t : JsonParser), s.str_ = t.str_ → s.end_ = t.end_ →
      (parseStringLoop mem k s).str_ = (parseStringLoop mem k t).str_ := by
  intro k
  induction k with
  | zero => intro s t h1 _; exact h1
  | succ k ih =>
    intro s t h1 h2
    unfold parseStringLoop
    simp only [deref_def, h1, h2]
    split_ifs
    · exact ih _ _ (parseExcapedChar_pos mem s t h1)
        (by rw [((Scan.srefl s).parseExcapedChar mem).end_eq,
          ((Scan.srefl t).parseExcapedChar mem).end_eq, h2])
    · simp [h1]
    · exact ih _ _ (by simp [h1]) (by simp [h2])
    · exact h1

/-- Where the string production stops depends on the memory, the end pointer
and the cursor only. -/
theorem parseString_stop (mem : List Nat) (s : JsonParser) :
    (JsonParser_parseString mem s).str_ = stringStop mem s.end_ s.str_ := by
  unfold stringStop JsonParser_parseString
  simp only [advance_end_, advance_str_]
  exact parseStringLoop_pos mem _ _ _ rfl rfl

/-- When the loop of the string production stops inside the buffer, it has just
passed a quote. -/
theorem parseStringLoop_quote (mem : List Nat) :
    ∀ (k : Nat) (s : JsonParser), s.end_ - s.str_ ≤ k →
      (parseStringLoop mem k s).str_ < s.end_ →
        s.str_ < (parseStringLoop mem k s).str_ ∧
          mem.getD ((parseStringLoop mem k s).str_ - 1) 0 = 34 := by
  intro k
  induction k with
  | zero =>
    intro s hk h
    simp only [parseStringLoop] at h
    omega
  | succ k ih =>
    intro s hk h
    unfold parseStringLoop at h ⊢
    split_ifs at h ⊢ with h1 h2 h3
    · obtain ⟨q, o, hq, hle⟩ := parseExcapedChar_frame mem s
      rw [hq] at h ⊢
      have := ih { s with str_ := q, oobRead := o } (by simp only; omega) h
      simp only at this
      exact ⟨by omega, this.2⟩
    · simp only [beq_iff_eq, deref_def, Nat.add_zero] at h3
      refine ⟨by simp, ?_⟩
      show mem.getD (s.str_ + 1 - 1) 0 = 34
      rw [Nat.add_sub_cancel]
      exact h3
    · have := ih (advance s 1) (by simp; omega) h
      simp only [advance_str_] at this
      exact ⟨by omega, this.2⟩
    · omega

/-- When the string production stops inside the buffer, it stops right behind a
quote that is not the opening one. -/
theorem parseString_quote (mem : List Nat) (s : JsonParser)
    (h : (JsonParser_parseString mem s).str_ < s.end_) :
    s.str_ + 2 ≤ (JsonParser_parseString mem s).str_ ∧
      mem.getD ((JsonParser_parseString mem s).str_ - 1) 0 = 34 := by
  have := parseStringLoop_quote mem ((advance s 1).end_ - (advance s 1).str_) (advance s 1)
    (Nat.le_refl _) h
  show s.str_ + 2 ≤ (parseStringLoop mem ((advance s 1).end_ - (advance s 1).str_)
      (advance s 1)).str_ ∧
    mem.getD ((parseStringLoop mem ((advance s 1).end_ - (advance s 1).str_)
      (advance s 1)).str_ - 1) 0 = 34
  have h2 : (advance s 1).str_ = s.str_ + 1 := rfl
  exact ⟨by omega, this.2⟩

theorem SameStack.drop_both {u v : UriParts} (h : SameStack u v) :
    SameStack (UriParts_drop u) (UriParts_drop v) := by
  refine ⟨?_, ?_⟩
  · show v.nParts - 1 = u.nParts - 1
    rw [h.1]
  · intro i h0 hi
    have hi2 : i < u.nParts - 1 := hi
    exact h.2 i h0 (by omega)

/-- The colon loop of the key/value production, when it leaves the parser
valid: either the buffer ended without a colon, or the value production was run
behind the first colon and its segment dropped. -/
theorem parseKeyValueLoop_run {pv : JsonParser → Option JsonParser} (mem : List Nat) :
    ∀ (k : Nat) (s t : JsonParser), parseKeyValueLoop pv mem k s = some t →
      t.isInvalid = false → s.end_ - s.str_ ≤ k →
        t.end_ ≤ t.str_ ∨
        ∃ c t1, s.str_ ≤ c ∧ c < s.end_ ∧ mem.getD c 0 = 58 ∧
          (∀ i, s.str_ ≤ i → i < c → mem.getD i 0 ≠ 58) ∧
          pv { s with str_ := c + 1 } = some t1 ∧
          t = { t1 with uriParts_ := UriParts_drop t1.uriParts_ } ∧ s.isInvalid = false := by
  intro k
  induction k with
  | zero =>
    intro s t h hv hk
    simp only [parseKeyValueLoop, Option.some.injEq] at h
    left
    rw [← h]
    omega
  | succ k ih =>
    intro s t h hv hk
    unfold parseKeyValueLoop at h
    split_ifs at h with h1 h2
    · simp only [Bool.and_eq_true, decide_eq_true_eq, Bool.not_eq_true'] at h1
      simp only [beq_iff_eq, deref_def, Nat.add_zero] at h2
      split at h
      · simp at h
      · rename_i t1 hp
        simp only [Option.some.injEq] at h
        right
        exact ⟨s.str_, t1, Nat.le_refl _, h1.1, h2, fun i h3 h4 => by omega, hp, h.symm, h1.2⟩
    · simp only [Bool.and_eq_true, decide_eq_true_eq, Bool.not_eq_true'] at h1
      simp only [beq_iff_eq, deref_def, Nat.add_zero] at h2
      rcases ih (advance s 1) t h hv (by simp only [advance_end_, advance_str_]; omega) with
        h3 | ⟨c, t1, h3, h4, h5, h6, h7, h8, h9⟩
      · left
        exact h3
      · right
        simp only [advance_str_, advance_end_, advance_isInvalid] at h3 h4 h6 h9
        refine ⟨c, t1, by omega, h4, h5, ?_, h7, h8, h9⟩
        intro i hi1 hi2
        by_cases hi : i = s.str_
        · rw [hi]; exact h2
        · exact h6 i (by omega) hi2
    · simp only [Option.some.injEq] at h
      subst h
      left
      simp only [Bool.and_eq_true, decide_eq_true_eq, Bool.not_eq_true', not_and,
        Bool.not_eq_false] at h1
      by_contra hlt
      have := h1 (by omega)
      rw [this] at hv
      exact absurd hv (by simp)

/-- The key/value production, when it leaves the parser valid: either the
buffer ended before a colon was found, or a complete member was read. -/
theorem parseKeyValue_valid {pv : JsonParser → Option JsonParser} (mem : List Nat)
    (hpv : PvSpec mem pv) (s t : JsonParser)
    (h : JsonParser_parseKeyValue pv mem s = some t) (hv : t.isInvalid = false)
    (h0 : 0 ≤ s.uriParts_.nParts) :
    t.end_ ≤ t.str_ ∨ ∃ m c, MemberRun mem s t m c := by
  unfold JsonParser_parseKeyValue at h
  simp only [] at h
  obtain ⟨k1, o, hs⟩ := parseString_frame mem s
  have hstop := parseString_stop mem s
  have hquote := parseString_quote mem s
  have hscan : Scan s (JsonParser_parseString mem s) := (Scan.srefl s).parseString mem
  rw [hs] at h hstop hquote
  simp only at h hstop hquote
  rcases appendString_cases s.uriParts_ (Ptr.json (s.str_ + 1))
    ((k1 : Int) - 1 - ((s.str_ + 1 : Nat) : Int)) with ⟨-, hc⟩ | ⟨-, hc⟩
  · rw [hc] at h
    simp only [Option.some.injEq] at h
    rw [← h] at hv
    simp at hv
  · rw [hc] at h
    simp only at h
    rcases parseKeyValueLoop_run mem _ _ _ h hv (Nat.le_refl _) with
      h3 | ⟨c, t1, h3, h4, h5, h6, h7, h8, h9⟩
    · left
      exact h3
    · right
      simp only at h3 h4 h6 h7 h9
      have hq := hquote (by omega)
      have hv1 : t1.isInvalid = false := by rw [h8] at hv; exact hv
      obtain ⟨b, e, D, hrun⟩ := hpv.run _ _ h7 hv1 (by simp only; omega)
      have hlen : (k1 : Int) - 1 - ((s.str_ + 1 : Nat) : Int)
          = ((k1 - 1 : Nat) : Int) - ((s.str_ + 1 : Nat) : Int) := by omega
      have hpath := push_path mem s.uriParts_ (Ptr.json (s.str_ + 1))
        ((k1 : Int) - 1 - ((s.str_ + 1 : Nat) : Int)) h0
      rw [hlen, memcpyBytes_json mem (s.str_ + 1) (k1 - 1) (by omega)] at hpath
      rw [hlen] at hrun
      refine ⟨⟨s.str_ + 1, k1 - 1, b, e, D⟩, c, ?_⟩
      have hcalls := hrun.calls
      have hbelow := hrun.below
      simp only [hpath.1, hpath.2] at hcalls hbelow
      refine ⟨h9, rfl, ?_, ?_, hq.2, ?_, h4, h5, ?_, hrun.lead, hrun.span, ?_, ?_, ?_, ?_⟩
      · simp only; omega
      · simp only; omega
      · simp only; omega
      · intro i hi1 hi2
        exact h6 i (by simp only at hi1; omega) hi2
      · rw [h8]; exact hrun.trail
      · rw [h8]
        exact push_drop_same _ _ _ hrun.stack
      · rw [h8]
        exact hcalls
      · exact hbelow

theorem ObjectItems.lt_out {mem : List Nat} {E p q : Nat} {ms : List Member}
    (h : ObjectItems mem E p ms q) : p < q ∧ q ≤ E := by
  induction h with
  | close p h1 _ => omega
  | skip p q ms _ _ _ ih => omega
  | member p c r q m rest _ _ h3 _ h5 _ h7 _ _ _ h11 h12 h13 _ ih =>
    have := h11.1
    have := h13.1
    omega

/-- When the buffer is used up, the loop of the object production sets the
validity flag. -/
theorem parseObjectLoop_at_end {pv : JsonParser → Option JsonParser} (mem : List Nat)
    (k : Nat) (s : JsonParser) (h : s.end_ ≤ s.str_) :
    parseObjectLoop pv mem k s = some (invalidate s) := by
  have hc : (decide (s.str_ < s.end_) && !s.isInvalid) = false := by
    simp only [Bool.and_eq_false_imp, decide_eq_true_eq]
    intro h1
    omega
  cases k with
  | zero => unfold parseObjectLoop; simp [hc]
  | succ k => unfold parseObjectLoop; simp [hc]

/-- The loop of the object production, when it leaves the parser valid, has
read a sequence of members and the closing brace. -/
theorem parseObjectLoop_valid {pv : JsonParser → Option JsonParser} (mem : List Nat)
    (hpv : PvSpec mem pv) :
    ∀ (k : Nat) (s t : JsonParser), parseObjectLoop pv mem k s = some t →
      t.isInvalid = false → 0 ≤ s.uriParts_.nParts →
        ∃ ms, ObjectItems mem s.end_ s.str_ ms t.str_ ∧
          SameStack (UriParts_drop s.uriParts_) t.uriParts_ ∧
          t.calls = s.calls ++ memberCalls mem (pathBytes mem s.uriParts_)
            (pathLen s.uriParts_) ms ∧
          MembersBelow mem (pathBytes mem s.uriParts_) ms ∧ s.isInvalid = false := by
  intro k
  induction k with
  | zero =>
    intro s t h hv h0
    unfold parseObjectLoop at h
    split_ifs at h
    simp only [Option.some.injEq] at h
    rw [← h] at hv
    simp at hv
  | succ k ih =>
    intro s t h hv h0
    unfold parseObjectLoop at h
    split_ifs at h with h1 h2 h3 h4 h5
    · -- a key
      simp only [Bool.and_eq_true, decide_eq_true_eq, Bool.not_eq_true'] at h1
      simp only [beq_iff_eq, deref_def, Nat.add_zero] at h2
      split at h
      · simp at h
      · rename_i t1 hp
        have hx := parseKeyValue_ext mem hpv.frame _ _ _ (Ext.erefl (advance s 1)) hp
        have hE : t1.end_ = s.end_ := hx.end_eq
        have hv1 : t1.isInvalid = false :=
          (parseObjectLoop_ext mem hpv.frame _ _ _ _ (Ext.erefl t1) h).evalid hv
        rcases parseKeyValue_valid mem hpv s t1 hp hv1 h0 with hend | ⟨m, c, hm⟩
        · -- no colon: the loop is left and the flag set
          exfalso
          rw [parseObjectLoop_at_end mem k t1 hend] at h
          simp only [Option.some.injEq] at h
          rw [← h] at hv
          simp at hv
        · have h01 : 0 ≤ t1.uriParts_.nParts := by rw [hm.stack.1]; exact h0
          obtain ⟨ms, hi1, hi2, hi3, hi4, -⟩ := ih t1 t h hv h01
          rw [hE] at hi1
          rw [hm.stack.pathBytes_eq mem, hm.stack.pathLen_eq] at hi3
          rw [hm.stack.pathBytes_eq mem] at hi4
          refine ⟨m :: ms, ?_, hm.stack.drop_both.strans_stack hi2, ?_, ⟨hm.below, hi4⟩, h1.2⟩
          · exact ObjectItems.member s.str_ c t1.str_ t.str_ m ms h1.1 h2 hm.kb_eq hm.key_stop
              hm.key_le hm.key_quote hm.colon_gt hm.colon_lt hm.colon hm.first_colon hm.lead
              hm.span hm.trail hi1
          · rw [hi3, hm.calls]
            simp only [memberCalls, List.append_assoc]
    · -- the closing brace
      simp only [Bool.and_eq_true, decide_eq_true_eq, Bool.not_eq_true'] at h1
      simp only [beq_iff_eq, deref_def, Nat.add_zero] at h3
      simp only [Option.some.injEq] at h
      rw [← h]
      exact ⟨[], ObjectItems.close s.str_ h1.1 h3, SameStack.srefl_stack _, by simp [memberCalls],
        trivial, h1.2⟩
    · -- a comma
      simp only [Bool.and_eq_true, decide_eq_true_eq, Bool.not_eq_true'] at h1
      simp only [beq_iff_eq, deref_def, Nat.add_zero] at h4
      obtain ⟨ms, hi1, hi2, hi3, hi4, -⟩ := ih (advance s 1) t h hv h0
      exact ⟨ms, ObjectItems.skip s.str_ t.str_ ms h1.1 (Or.inl h4) hi1, hi2, hi3, hi4, h1.2⟩
    · -- an unexpected byte
      exfalso
      have hx := parseObjectLoop_ext mem hpv.frame _ _ _ _ (Ext.erefl _) h
      have := hx.evalid hv
      simp at this
    · -- white space
      simp only [Bool.and_eq_true, decide_eq_true_eq, Bool.not_eq_true'] at h1
      simp only [Bool.not_eq_true', Bool.not_eq_false, deref_def, Nat.add_zero] at h5
      obtain ⟨ms, hi1, hi2, hi3, hi4, -⟩ := ih (advance s 1) t h hv h0
      exact ⟨ms, ObjectItems.skip s.str_ t.str_ ms h1.1 (Or.inr h5) hi1, hi2, hi3, hi4, h1.2⟩
    · simp only [Option.some.injEq] at h
      rw [← h] at hv
      simp at hv

/-- The object production, when it leaves the parser valid, has read the
opening brace, a sequence of members and the closing brace. -/
theorem parseObject_valid {pv : JsonParser → Option JsonParser} (mem : List Nat)
    (hpv : PvSpec mem pv) (s t : JsonParser)
    (h : JsonParser_parseObject pv mem s = some t) (hv : t.isInvalid = false)
    (h0 : 0 ≤ s.uriParts_.nParts) :
    ∃ ms, ObjectItems mem s.end_ (s.str_ + 1) ms t.str_ ∧
      SameStack s.uriParts_ t.uriParts_ ∧
      t.calls = s.calls ++ memberCalls mem (pathBytes mem s.uriParts_ ++ [47])
        (pathLen s.uriParts_ + 1) ms ∧
      MembersBelow mem (pathBytes mem s.uriParts_ ++ [47]) ms ∧ s.isInvalid = false := by
  unfold JsonParser_parseObject at h
  rw [appendObject_eq] at h
  rcases appendString_cases s.uriParts_ Ptr.objectUri 1 with ⟨-, hc⟩ | ⟨-, hc⟩
  · rw [hc] at h
    simp only [Option.some.injEq] at h
    rw [← h] at hv
    simp at hv
  · rw [hc] at h
    simp only at h
    obtain ⟨ms, hi1, hi2, hi3, hi4, hi5⟩ := parseObjectLoop_valid mem hpv _ _ _ h hv
      (by simp only [advance_uriParts_]; omega)
    have hpath := push_path mem s.uriParts_ Ptr.objectUri 1 h0
    rw [memcpyBytes_objectUri] at hpath
    simp only [advance_uriParts_, advance_end_, advance_str_, advance_calls,
      advance_isInvalid, hpath.1, hpath.2] at hi1 hi2 hi3 hi4 hi5
    refine ⟨ms, hi1, ?_, hi3, hi4, hi5⟩
    have := push_drop_same s.uriParts_ _ _ (SameStack.srefl_stack
      { parts := fun i => if i = s.uriParts_.nParts then
          ({ Begin := Ptr.objectUri, len := 1 } : UriPart) else s.uriParts_.parts i,
        nParts := s.uriParts_.nParts + 1 })
    exact this.strans_stack hi2

@[simp] theorem consumeWhiteSpaces_end_ (mem : List Nat) (s : JsonParser) :
    (JsonParser_consumeWhiteSpaces mem s).end_ = s.end_ := by
  rw [(consumeWhiteSpaces_wsTo mem s).1]

@[simp] theorem consumeWhiteSpaces_uriParts_ (mem : List Nat) (s : JsonParser) :
    (JsonParser_consumeWhiteSpaces mem s).uriParts_ = s.uriParts_ := by
  rw [(consumeWhiteSpaces_wsTo mem s).1]

@[simp] theorem consumeWhiteSpaces_isInvalid (mem : List Nat) (s : JsonParser) :
    (JsonParser_consumeWhiteSpaces mem s).isInvalid = s.isInvalid := by
  rw [(consumeWhiteSpaces_wsTo mem s).1]

@[simp] theorem consumeWhiteSpaces_calls (mem : List Nat) (s : JsonParser) :
    (JsonParser_consumeWhiteSpaces mem s).calls = s.calls := by
  rw [(consumeWhiteSpaces_wsTo mem s).1]

@[simp] theorem consumeWhiteSpaces_oobRead (mem : List Nat) (s : JsonParser) :
    (JsonParser_consumeWhiteSpaces mem s).oobRead = s.oobRead := by
  rw [(consumeWhiteSpaces_wsTo mem s).1]

@[simp] theorem consumeWhiteSpaces_badCopy (mem : List Nat) (s : JsonParser) :
    (JsonParser_consumeWhiteSpaces mem s).badCopy = s.badCopy := by
  rw [(consumeWhiteSpaces_wsTo mem s).1]

theorem ArrayItems.le_out {mem : List Nat} {E p q : Nat} {items : List Item}
    (h : ArrayItems mem E p items q) : p ≤ q := by
  induction h with
  | stop p _ => omega
  | last p c it _ h2 h3 h4 _ =>
    have := h2.1
    have := h4.1
    omega
  | next p c q it rest _ h2 h3 h4 _ _ ih =>
    have := h2.1
    have := h4.1
    omega

/-- The loop of the array production, when it leaves the parser valid, has read
a sequence of elements. -/
theorem parseArrayLoop_valid {pv : JsonParser → Option JsonParser} (mem : List Nat)
    (hpv : PvSpec mem pv) :
    ∀ (k index : Nat) (s t : JsonParser), parseArrayLoop pv mem k index s = some t →
      t.isInvalid = false → 0 ≤ s.uriParts_.nParts →
        ∃ items, ArrayItems mem s.end_ s.str_ items t.str_ ∧
          SameStack s.uriParts_ t.uriParts_ ∧
          t.calls = s.calls ++ itemCalls (pathBytes mem s.uriParts_)
            (pathLen s.uriParts_) index items ∧
          ItemsBelow (pathBytes mem s.uriParts_) index items ∧ s.isInvalid = false := by
  intro k
  induction k with
  | zero =>
    intro index s t h hv h0
    unfold parseArrayLoop at h
    split_ifs at h with h1
    simp only [Option.some.injEq] at h
    subst h
    simp only [Bool.and_eq_true, decide_eq_true_eq, Bool.not_eq_true', not_and,
      Bool.not_eq_false] at h1
    have hE : s.end_ ≤ s.str_ := by
      by_contra hlt
      have := h1 (by omega)
      rw [this] at hv
      exact absurd hv (by simp)
    exact ⟨[], ArrayItems.stop _ hE, SameStack.srefl_stack _, by simp [itemCalls], trivial, hv⟩
  | succ k ih =>
    intro index s t h hv h0
    unfold parseArrayLoop at h
    split_ifs at h with h1
    · simp only [Bool.and_eq_true, decide_eq_true_eq, Bool.not_eq_true'] at h1
      simp only [] at h
      obtain ⟨hweq, hw⟩ := consumeWhiteSpaces_wsTo mem s
      generalize (JsonParser_consumeWhiteSpaces mem s).str_ = q at hweq hw
      rw [hweq] at h
      simp only at h
      rcases appendString_cases s.uriParts_ (Ptr.buffer (indexLabel index))
        ((indexLabel index).length : Int) with ⟨-, hc⟩ | ⟨-, hc⟩
      · rw [hc] at h
        simp only [Option.some.injEq] at h
        rw [← h] at hv
        simp at hv
      · rw [hc] at h
        simp only at h
        split at h
        · simp at h
        · rename_i t1 hp
          have hfr := hpv.frame _ _ hp
          have hE1 : t1.end_ = s.end_ := hfr.end_eq
          have hpath := push_path mem s.uriParts_ (Ptr.buffer (indexLabel index))
            ((indexLabel index).length : Int) h0
          rw [memcpyBytes_buffer] at hpath
          -- the state behind the element
          have hv1 : t1.isInvalid = false := by
            split_ifs at h
            · have := (parseArrayLoop_ext mem hpv.frame _ _ _ _ _ (Ext.erefl _) h).evalid hv
              simpa using this
            · simp only [Option.some.injEq] at h
              rw [← h] at hv
              simpa using hv
            · simp only [Option.some.injEq] at h
              rw [← h] at hv
              simp at hv
          obtain ⟨b, e, D, hrun⟩ := hpv.run _ _ hp hv1 (by simp only; omega)
          have hlead : WsTo mem s.end_ s.str_ b := hw.wtrans hrun.lead
          have htrail : WsTo mem s.end_ e t1.str_ := hrun.trail
          have hstack : SameStack s.uriParts_ (UriParts_drop t1.uriParts_) :=
            push_drop_same _ _ _ hrun.stack
          have hcalls := hrun.calls
          have hbelow := hrun.below
          simp only [hpath.1, hpath.2] at hcalls hbelow
          have hstop : JsonParser_consumeWhiteSpaces mem
              { t1 with uriParts_ := UriParts_drop t1.uriParts_ }
              = { t1 with uriParts_ := UriParts_drop t1.uriParts_ } :=
            consumeWhiteSpaces_stop mem _ (by simp only [hE1]; exact htrail.2.2)
          rw [hstop] at h
          simp only [deref_touch, deref_def, touch_str_, Nat.add_zero, beq_iff_eq] at h
          split_ifs at h with h2 h3
          · obtain ⟨items, hi1, hi2, hi3, hi4, -⟩ := ih (index + 1) _ t h hv
              (by simp only [advance_uriParts_, touch_uriParts_]; rw [hstack.1]; exact h0)
            simp only [advance_uriParts_, touch_uriParts_, advance_end_, touch_end_,
              advance_str_, touch_str_, advance_calls, touch_calls, hE1] at hi1 hi2 hi3 hi4
            rw [hstack.pathBytes_eq mem, hstack.pathLen_eq] at hi3
            rw [hstack.pathBytes_eq mem] at hi4
            refine ⟨⟨b, e, D⟩ :: items, ?_, hstack.strans_stack hi2, ?_, ⟨hbelow, hi4⟩, h1.2⟩
            · exact ArrayItems.next s.str_ t1.str_ t.str_ ⟨b, e, D⟩ items h1.1 hlead hrun.span
                htrail h2 hi1
            · rw [hi3, hcalls]
              simp only [itemCalls, List.append_assoc]
          · simp only [Option.some.injEq] at h
            subst h
            refine ⟨[⟨b, e, D⟩], ?_, hstack, ?_, ⟨hbelow, trivial⟩, h1.2⟩
            · exact ArrayItems.last s.str_ t1.str_ ⟨b, e, D⟩ h1.1 hlead hrun.span htrail h3
            · simp only [advance_calls, touch_calls, hcalls, itemCalls, List.append_assoc,
                List.append_nil]
          · simp only [Option.some.injEq] at h
            rw [← h] at hv
            simp at hv
    · simp only [Option.some.injEq] at h
      subst h
      simp only [Bool.and_eq_true, decide_eq_true_eq, Bool.not_eq_true', not_and,
        Bool.not_eq_false] at h1
      have hE : s.end_ ≤ s.str_ := by
        by_contra hlt
        have := h1 (by omega)
        rw [this] at hv
        exact absurd hv (by simp)
      exact ⟨[], ArrayItems.stop _ hE, SameStack.srefl_stack _, by simp [itemCalls], trivial, hv⟩

/-- The array production, when it leaves the parser valid, has read the opening
bracket and then the closing bracket or a sequence of elements. -/
theorem parseArray_valid {pv : JsonParser → Option JsonParser} (mem : List Nat)
    (hpv : PvSpec mem pv) (s t : JsonParser)
    (h : JsonParser_parseArray pv mem s = some t) (hv : t.isInvalid = false)
    (h0 : 0 ≤ s.uriParts_.nParts) :
    ∃ items, ArrayText mem s.end_ s.str_ items t.str_ ∧
      SameStack s.uriParts_ t.uriParts_ ∧
      t.calls = s.calls ++ itemCalls (pathBytes mem s.uriParts_) (pathLen s.uriParts_) 0 items ∧
      ItemsBelow (pathBytes mem s.uriParts_) 0 items ∧ s.isInvalid = false := by
  unfold JsonParser_parseArray at h
  simp only [] at h
  obtain ⟨hweq, hw⟩ := consumeWhiteSpaces_wsTo mem (advance s 1)
  generalize (JsonParser_consumeWhiteSpaces mem (advance s 1)).str_ = q at hweq hw
  rw [hweq] at h
  simp only [deref_touch, deref_def, touch_str_, Nat.add_zero, beq_iff_eq, advance_end_,
    advance_str_] at h hw
  split_ifs at h with h1
  · simp only [Option.some.injEq] at h
    subst h
    exact ⟨[], ⟨q, hw, Or.inl ⟨h1, rfl, rfl⟩⟩, SameStack.srefl_stack _, by simp [itemCalls],
      trivial, hv⟩
  · obtain ⟨items, hi1, hi2, hi3, hi4, hi5⟩ := parseArrayLoop_valid mem hpv _ _ _ _ h hv h0
    exact ⟨items, ⟨q, hw, Or.inr ⟨h1, hi1⟩⟩, hi2, hi3, hi4, hi5⟩

/-- The common tail of the value production, when it leaves the parser valid,
has made one sink invocation for the span that ends at the cursor and skipped
the white space behind it. -/
theorem finishValue_valid (mem : List Nat) (b : Nat) (x : JsonParser)
    (hv : (finishValue mem b x).isInvalid = false) :
    x.isInvalid = false ∧
    (finishValue mem b x).calls = x.calls ++ [ownCall mem x b x.str_] ∧
    (finishValue mem b x).uriParts_ = x.uriParts_ ∧
    (finishValue mem b x).end_ = x.end_ ∧
    WsTo mem x.end_ x.str_ (finishValue mem b x).str_ := by
  unfold finishValue at hv ⊢
  simp only [consumeWhiteSpaces_isInvalid] at hv
  obtain ⟨h1, h2⟩ := inform_valid mem x b _ hv
  obtain ⟨f1, f2, f3, -⟩ := inform_frame mem x b ((x.str_ : Int) - (b : Int))
  have hw := (consumeWhiteSpaces_wsTo mem
    (JsonParser_inform mem x b ((x.str_ : Int) - (b : Int)))).2
  rw [f1, f2] at hw
  refine ⟨h1, ?_, ?_, ?_, hw⟩
  · rw [consumeWhiteSpaces_calls, h2]
    rfl
  · rw [consumeWhiteSpaces_uriParts_, f3]
  · rw [consumeWhiteSpaces_end_, f2]

/-- The number production moves the cursor when it leaves the parser valid. -/
theorem parseNumber_adv (mem : List Nat) (w : JsonParser)
    (hv : (JsonParser_parseNumber mem w).isInvalid = false) :
    w.str_ + 1 ≤ (JsonParser_parseNumber mem w).str_ := by
  unfold JsonParser_parseNumber at hv ⊢
  simp only [] at hv ⊢
  split_ifs at hv ⊢
  · simp at hv
  · simp at hv
  · exact (((Scan.srefl (advance (touch (touch w 0) 1) 1)).skipDigits mem).parseNumberFrac
      mem).str_le
  · exact (((Scan.srefl (advance (touch w 0) 1)).skipDigits mem).parseNumberFrac mem).str_le

theorem memberCalls_below (mem : List Nat) (path : List Nat) (plen : Int) :
    ∀ ms : List Member, MembersBelow mem (path ++ [47]) ms →
      ∀ c ∈ memberCalls mem (path ++ [47]) plen ms, ∃ x, x ≠ [] ∧ c.key = path ++ x := by
  intro ms
  induction ms with
  | nil => intro _ c hc; simp [memberCalls] at hc
  | cons m rest ih =>
    intro hb c hc
    simp only [memberCalls, List.mem_append, List.mem_singleton] at hc
    rcases hc with (hc | hc) | hc
    · obtain ⟨y, -, hy⟩ := hb.1 c hc
      exact ⟨[47] ++ slice mem m.kb m.ke ++ y, by simp, by rw [hy]; simp⟩
    · exact ⟨[47] ++ slice mem m.kb m.ke, by simp, by rw [hc]; simp⟩
    · exact ih hb.2 c hc

theorem indexLabel_ne_nil (i : Nat) : indexLabel i ≠ [] := by
  simp [indexLabel]

theorem itemCalls_below (path : List Nat) (plen : Int) :
    ∀ (items : List Item) (idx : Nat), ItemsBelow path idx items →
      ∀ c ∈ itemCalls path plen idx items, ∃ x, x ≠ [] ∧ c.key = path ++ x := by
  intro items
  induction items with
  | nil => intro _ _ c hc; simp [itemCalls] at hc
  | cons it rest ih =>
    intro idx hb c hc
    simp only [itemCalls, List.mem_append, List.mem_singleton] at hc
    rcases hc with (hc | hc) | hc
    · obtain ⟨y, -, hy⟩ := hb.1 c hc
      exact ⟨indexLabel idx ++ y, by simp [indexLabel_ne_nil], by rw [hy]; simp⟩
    · exact ⟨indexLabel idx, indexLabel_ne_nil idx, by rw [hc]⟩
    · exact ih (idx + 1) hb.2 c hc

/-- Shape of a run of the value production that leaves the parser valid, given
what the value production of the next nesting level does. -/
theorem parseValue_shape (mem : List Nat) (d : Nat)
    (hpv : PvSpec mem (JsonParser_parseValue mem d)) (s t : JsonParser)
    (h : JsonParser_parseValue mem (d + 1) s = some t) (hv : t.isInvalid = false)
    (h0 : 0 ≤ s.uriParts_.nParts) :
    ∃ b e, ValShape mem s t b e ∧ RunKind mem s t b e := by
  unfold JsonParser_parseValue at h
  simp only [] at h
  obtain ⟨hweq, hw⟩ := consumeWhiteSpaces_wsTo mem s
  generalize (JsonParser_consumeWhiteSpaces mem s).str_ = b at hweq hw
  rw [hweq] at h
  simp only [deref_touch, deref_def, touch_str_, touch_end_, Nat.add_zero, beq_iff_eq] at h
  refine ⟨b, ?_⟩
  split_ifs at h with h1 h2 h3 h4 h5 h6 h7
  · -- string
    simp only [Option.some.injEq] at h
    subst h
    obtain ⟨f1, f2, f3, f4, f5⟩ := finishValue_valid mem b _ hv
    have hsc := (Scan.srefl (touch { s with str_ := b } 0)).parseString mem
    have hadv : b + 1 ≤ (JsonParser_parseString mem (touch { s with str_ := b } 0)).str_ :=
      (Scan.parseStringLoop mem _ (Scan.srefl (advance (touch { s with str_ := b } 0) 1))).str_le
    refine ⟨_, ⟨hsc.svalid f1, ?_, hw, hadv, ?_, ?_⟩, Or.inl ⟨by omega, by omega, ?_⟩⟩
    · rw [f4, hsc.end_eq]; rfl
    · rw [hsc.end_eq] at f5; exact f5
    · rw [f3, hsc.parts_eq]; exact SameStack.srefl_stack _
    · rw [f2, hsc.calls_eq]
      simp only [ownCall, hsc.parts_eq]
      rfl
  · -- number
    simp only [Option.some.injEq] at h
    subst h
    obtain ⟨f1, f2, f3, f4, f5⟩ := finishValue_valid mem b _ hv
    have hsc := (Scan.srefl (touch { s with str_ := b } 0)).parseNumber mem
    have hadv : b + 1 ≤ (JsonParser_parseNumber mem (touch { s with str_ := b } 0)).str_ :=
      parseNumber_adv mem _ f1
    refine ⟨_, ⟨hsc.svalid f1, ?_, hw, hadv, ?_, ?_⟩, Or.inl ⟨?_, ?_, ?_⟩⟩
    · rw [f4, hsc.end_eq]; rfl
    · rw [hsc.end_eq] at f5; exact f5
    · rw [f3, hsc.parts_eq]; exact SameStack.srefl_stack _
    · intro h8
      rw [h8] at h2
      revert h2
      decide
    · intro h8
      rw [h8] at h2
      revert h2
      decide
    · rw [f2, hsc.calls_eq]
      simp only [ownCall, hsc.parts_eq]
      rfl
  · -- object
    split at h
    · simp at h
    · rename_i t1 hp
      simp only [Option.some.injEq] at h
      subst h
      obtain ⟨f1, f2, f3, f4, f5⟩ := finishValue_valid mem b t1 hv
      obtain ⟨ms, hi1, hi2, hi3, hi4, hi5⟩ := parseObject_valid mem hpv _ _ hp f1 h0
      have hE : t1.end_ = s.end_ := (parseObject_ext mem hpv.frame _ _ _ (Ext.erefl _) hp).end_eq
      simp only [touch_end_, touch_str_, touch_uriParts_, touch_calls, touch_isInvalid]
        at hi1 hi2 hi3 hi4 hi5
      refine ⟨t1.str_, ⟨hi5, ?_, hw, ?_, ?_, ?_⟩, Or.inr (Or.inl ⟨h3, ms, hi1, ?_, hi4⟩)⟩
      · rw [f4, hE]
      · have := hi1.lt_out; omega
      · rw [hE] at f5; exact f5
      · rw [f3]; exact hi2
      · rw [f2, hi3]
        simp only [ownCall, hi2.pathBytes_eq mem, hi2.pathLen_eq]
  · -- array
    split at h
    · simp at h
    · rename_i t1 hp
      simp only [Option.some.injEq] at h
      subst h
      obtain ⟨f1, f2, f3, f4, f5⟩ := finishValue_valid mem b t1 hv
      obtain ⟨items, hi1, hi2, hi3, hi4, hi5⟩ := parseArray_valid mem hpv _ _ hp f1 h0
      have hE : t1.end_ = s.end_ := (parseArray_ext mem hpv.frame _ _ _ (Ext.erefl _) hp).end_eq
      simp only [touch_end_, touch_str_, touch_uriParts_, touch_calls, touch_isInvalid]
        at hi1 hi2 hi3 hi4 hi5
      refine ⟨t1.str_, ⟨hi5, ?_, hw, ?_, ?_, ?_⟩, Or.inr (Or.inr ⟨h4, items, hi1, ?_, hi4⟩)⟩
      · rw [f4, hE]
      · obtain ⟨p, hp1, hp2⟩ := hi1
        have := hp1.1
        rcases hp2 with ⟨-, -, hp3⟩ | ⟨-, hp3⟩
        · omega
        · have := hp3.le_out; omega
      · rw [hE] at f5; exact f5
      · rw [f3]; exact hi2
      · rw [f2, hi3]
        simp only [ownCall, hi2.pathBytes_eq mem, hi2.pathLen_eq]
  · -- true
    simp only [Option.some.injEq] at h
    subst h
    obtain ⟨f1, f2, f3, f4, f5⟩ := finishValue_valid mem b _ hv
    exact ⟨b + 4, ⟨f1, f4, hw, by omega, f5, by rw [f3]; exact SameStack.srefl_stack _⟩,
      Or.inl ⟨h3, h4, f2⟩⟩
  · -- null
    simp only [Option.some.injEq] at h
    subst h
    obtain ⟨f1, f2, f3, f4, f5⟩ := finishValue_valid mem b _ hv
    exact ⟨b + 4, ⟨f1, f4, hw, by omega, f5, by rw [f3]; exact SameStack.srefl_stack _⟩,
      Or.inl ⟨h3, h4, f2⟩⟩
  · -- false
    simp only [Option.some.injEq] at h
    subst h
    obtain ⟨f1, f2, f3, f4, f5⟩ := finishValue_valid mem b _ hv
    exact ⟨b + 5, ⟨f1, f4, hw, by omega, f5, by rw [f3]; exact SameStack.srefl_stack _⟩,
      Or.inl ⟨h3, h4, f2⟩⟩
  · simp only [Option.some.injEq] at h
    rw [← h] at hv
    simp at hv

/-- What the value production does at every depth counter: it respects the
frame, and a run that ends valid reads white space, one value, white space,
leaves the path stack as it found it and reports the value last, after
everything below it. -/
theorem parseValue_pvspec (mem : List Nat) :
    ∀ d : Nat, PvSpec mem (JsonParser_parseValue mem d) := by
  intro d
  induction d with
  | zero =>
    exact ⟨parseValue_ext mem 0, fun t t1 h => by simp [JsonParser_parseValue] at h⟩
  | succ d ih =>
    refine ⟨parseValue_ext mem (d + 1), ?_⟩
    intro s t h hv h0
    obtain ⟨b, e, hs, hk⟩ := parseValue_shape mem d ih s t h hv h0
    rcases hk with ⟨-, -, hc⟩ | ⟨-, ms, -, hc, hb⟩ | ⟨-, items, -, hc, hb⟩
    · exact ⟨b, e, [], hs.entry_valid, hs.lead, hs.span, hs.trail, hs.stack,
        by rw [hc]; simp [ownCall], by simp⟩
    · exact ⟨b, e, memberCalls mem (pathBytes mem s.uriParts_ ++ [47])
          (pathLen s.uriParts_ + 1) ms, hs.entry_valid, hs.lead, hs.span, hs.trail, hs.stack,
        by rw [hc]; simp [ownCall], memberCalls_below mem _ _ ms hb⟩
    · exact ⟨b, e, itemCalls (pathBytes mem s.uriParts_) (pathLen s.uriParts_) 0 items,
        hs.entry_valid, hs.lead, hs.span, hs.trail, hs.stack,
        by rw [hc]; simp [ownCall], itemCalls_below _ _ items 0 hb⟩

theorem history_scan {s t : JsonParser} (h : History s) (hs : Scan s t) : History t := by
  refine ⟨?_, ?_, ?_, ?_, ?_⟩
  · rcases hs.errorAt_step with ⟨a1, a2⟩ | ⟨a1, a2⟩
    · rw [a2, a1, hs.calls_eq]; exact h.error
    · rw [a2, a1, hs.calls_eq, h.error]
      cases s.isInvalid <;> rfl
  · intro hk
    rw [hs.killed_eq] at hk
    exact hs.sticky (h.dead hk)
  · intro cs hc
    rw [hs.refusedAt_eq] at hc
    rw [hs.calls_eq]
    exact ⟨hs.sticky (h.refusal cs hc).1, (h.refusal cs hc).2⟩
  · intro cs hc
    rw [hs.tooLongAt_eq] at hc
    rw [hs.calls_eq]
    exact ⟨hs.sticky (h.overlong cs hc).1, (h.overlong cs hc).2⟩
  · rw [hs.refusedAt_eq, hs.tooLongAt_eq, hs.killed_eq]
    exact h.alive

theorem history_setParts {s : JsonParser} (h : History s) (u : UriParts) :
    History { s with uriParts_ := u } :=
  ⟨h.error, h.dead, h.refusal, h.overlong, h.alive⟩

/-- A valid state of a run has no error, no refused push and no address that
is too long behind it, and is alive. -/
theorem history_clean {s : JsonParser} (h : History s) (hv : s.isInvalid = false) :
    s.errorAt = none ∧ s.refusedAt = none ∧ s.tooLongAt = none ∧ s.killed = false := by
  refine ⟨by rw [h.error, hv]; rfl, ?_, ?_, ?_⟩
  · cases hr : s.refusedAt with
    | none => rfl
    | some cs => rw [(h.refusal cs hr).1] at hv; cases hv
  · cases hr : s.tooLongAt with
    | none => rfl
    | some cs => rw [(h.overlong cs hr).1] at hv; cases hv
  · cases hk : s.killed with
    | false => rfl
    | true => rw [h.dead hk] at hv; cases hv

/-- The history of a state of a run after a refused push. -/
theorem history_refuse {s : JsonParser} (h : History s) (hv : s.isInvalid = false) :
    History (invalidate (refused s)) := by
  obtain ⟨h1, h2, h3, h4⟩ := history_clean h hv
  refine ⟨?_, fun _ => rfl, ?_, ?_, fun _ => h4⟩
  · show some (s.errorAt.getD s.calls) = some s.calls
    rw [h1]; rfl
  · intro cs hc
    have : some (s.refusedAt.getD s.calls) = some cs := hc
    rw [h2] at this
    exact ⟨rfl, Option.some.inj this⟩
  · intro cs hc
    have : s.tooLongAt = some cs := hc
    rw [h3] at this
    cases this

theorem lensOk_push {u : UriParts} (h : lensOk u) (part : UriPart) (hp : 0 ≤ part.len) :
    lensOk { parts := fun i => if i = u.nParts then part else u.parts i,
             nParts := u.nParts + 1 } := by
  intro i h0 h1
  simp only at h1 ⊢
  split
  · exact hp
  · exact h i h0 (by omega)

theorem lensOk_under {u : UriParts} (h : lensOk u) (part : UriPart) :
    lensOk (UriParts_drop { parts := fun i => if i = u.nParts then part else u.parts i,
                            nParts := u.nParts + 1 }) := by
  intro i h0 h1
  simp only [UriParts_drop] at h1 ⊢
  rw [if_neg (by omega)]
  exact h i h0 (by omega)

theorem lensOk_drop {u : UriParts} (h : lensOk u) : lensOk (UriParts_drop u) := by
  intro i h0 h1
  simp only [UriParts_drop] at h1 ⊢
  exact h i h0 (by omega)

/-- On a stack without negative lengths the address loop is not killed. -/
theorem informLoop_alive (mem : List Nat) (E : Nat) (u : UriParts) :
    ∀ (k : Nat) (i n : Int) (uri : List Nat) (bad bad1 : Bool),
      (∀ j : Int, i ≤ j → j < i + k → 0 ≤ (u.parts j).len) →
      informLoop mem E u k i n uri bad ≠ (Assembly.killed, bad1) := by
  intro k
  induction k with
  | zero => intro i n uri bad bad1 _ h; simp [informLoop] at h
  | succ k ih =>
    intro i n uri bad bad1 hl h
    unfold informLoop at h
    split at h
    · simp at h
    · split at h
      · rename_i hneg
        have := hl i (Int.le_refl _) (by omega)
        omega
      · exact ih _ _ _ _ _ (fun j h1 h2 => hl j (by omega) (by push_cast at h2 ⊢; omega)) h

theorem entry_inside {s : JsonParser} (h : Entry s) : Inside s :=
  ⟨h.history, lensOk_drop h.lens, fun _ _ => h.lens, fun _ => h.lens⟩

theorem inside_scan {s t : JsonParser} (h : Inside s) (hs : Scan s t) : Inside t := by
  refine ⟨history_scan h.history hs, by rw [hs.parts_eq]; exact h.below, ?_, ?_⟩
  · intro hv hlt
    rw [hs.parts_eq]
    have := hs.str_le
    have := hs.end_eq
    exact h.lens (hs.svalid hv) (by omega)
  · rw [hs.parts_eq, hs.refusedAt_eq, hs.tooLongAt_eq]
    exact h.noted

/-- The report at the end of a value production of a run. -/
theorem inside_inform (mem : List Nat) {s : JsonParser} (h : Inside s) (b : Nat) (l : Int) :
    Leave (JsonParser_inform mem s b l) := by
  have hH := h.history
  unfold JsonParser_inform
  split
  · rename_i bad heq
    have hnl : ¬ lensOk s.uriParts_ := by
      intro hl
      refine informLoop_alive mem s.end_ s.uriParts_ _ 0 0 [] s.badCopy bad ?_ heq
      intro j h0 h1
      exact hl j h0 (by omega)
    have hr : s.refusedAt = none := by
      cases hr : s.refusedAt with
      | none => rfl
      | some cs => exact absurd (h.noted (Or.inl (by rw [hr]; simp))) hnl
    have ht : s.tooLongAt = none := by
      cases hr : s.tooLongAt with
      | none => rfl
      | some cs => exact absurd (h.noted (Or.inr (by rw [hr]; simp))) hnl
    refine ⟨⟨?_, fun _ => rfl, ?_, ?_, ?_⟩, h.below⟩
    · show some (s.errorAt.getD s.calls) = some s.calls
      rw [hH.error]; cases s.isInvalid <;> rfl
    · intro cs hc
      have : s.refusedAt = some cs := hc
      rw [hr] at this; cases this
    · intro cs hc
      have : s.tooLongAt = some cs := hc
      rw [ht] at this; cases this
    · intro hc
      have : s.refusedAt ≠ none ∨ s.tooLongAt ≠ none := hc
      rw [hr, ht] at this
      simp at this
  · rename_i bad heq
    refine ⟨⟨?_, ?_, ?_, ?_, ?_⟩, h.below⟩
    · show some (s.errorAt.getD s.calls) = some s.calls
      rw [hH.error]; cases s.isInvalid <;> rfl
    · intro _; rfl
    · intro cs hc
      exact ⟨rfl, (hH.refusal cs hc).2⟩
    · intro cs hc
      refine ⟨rfl, ?_⟩
      have hc1 : (if s.killed = true then s.tooLongAt else some (s.tooLongAt.getD s.calls))
          = some cs := hc
      show s.calls = cs
      split at hc1
      · exact (hH.overlong cs hc1).2
      · cases ht : s.tooLongAt with
        | none => rw [ht] at hc1; exact Option.some.inj hc1
        | some c1 =>
          rw [ht] at hc1
          have := (hH.overlong c1 ht).2
          rw [this]
          exact Option.some.inj hc1
    · intro hc
      show s.killed = false
      have hc1 : s.refusedAt ≠ none ∨
          (if s.killed = true then s.tooLongAt else some (s.tooLongAt.getD s.calls)) ≠ none := hc
      cases hk : s.killed with
      | false => rfl
      | true =>
        rw [hk] at hc1
        simp only [if_true] at hc1
        rw [hH.alive hc1] at hk
        cases hk
  · rename_i uri n bad heq
    split
    · rename_i hv
      simp only [Bool.not_eq_true'] at hv
      obtain ⟨h1, h2, h3, h4⟩ := history_clean hH hv
      refine ⟨⟨?_, ?_, ?_, ?_, ?_⟩, h.below⟩
      · show s.errorAt = if s.isInvalid then some _ else none
        rw [h1, hv]; rfl
      · intro hk
        have : s.killed = true := hk
        rw [h4] at this; cases this
      · intro cs hc
        have : s.refusedAt = some cs := hc
        rw [h2] at this; cases this
      · intro cs hc
        have : s.tooLongAt = some cs := hc
        rw [h3] at this; cases this
      · intro _; exact h4
    · exact ⟨⟨hH.error, hH.dead, hH.refusal, hH.overlong, hH.alive⟩, h.below⟩

theorem leave_scan {s t : JsonParser} (h : Leave s) (hs : Scan s t) : Leave t :=
  ⟨history_scan h.history hs, by rw [hs.parts_eq]; exact h.below⟩

theorem inside_finishValue (mem : List Nat) {s : JsonParser} (h : Inside s) (b : Nat) :
    Leave (finishValue mem b s) :=
  leave_scan (inside_inform mem h b _) ((Scan.srefl _).consumeWhiteSpaces mem)

/-- The state behind the `UriParts_drop` that follows a nested value. -/
theorem leave_dropped {t : JsonParser} (h : Leave t) :
    Inside { t with uriParts_ := UriParts_drop t.uriParts_ } :=
  ⟨history_setParts h.history _, lensOk_drop h.below, fun _ _ => h.below, fun _ => h.below⟩

theorem inside_invalidate {s : JsonParser} (h : Inside s) : Inside (invalidate s) :=
  inside_scan h (Scan.srefl s).invalidate

theorem inside_advance {s : JsonParser} (h : Inside s) (k : Nat) : Inside (advance s k) :=
  inside_scan h ((Scan.srefl s).advance k)

theorem inside_leave {s : JsonParser} (h : Inside s) : Leave s :=
  ⟨h.history, h.below⟩

theorem inside_entry {s : JsonParser} (h : Inside s) (hv : s.isInvalid = false)
    (hlt : s.str_ < s.end_) : Entry s :=
  ⟨h.history, hv, h.lens hv hlt⟩

theorem entry_scan {s t : JsonParser} (h : Entry s) (hs : Scan s t)
    (hv : t.isInvalid = s.isInvalid) : Entry t :=
  ⟨history_scan h.history hs, by rw [hv]; exact h.valid, by rw [hs.parts_eq]; exact h.lens⟩

theorem entry_push {s : JsonParser} (h : Entry s) (part : UriPart) (hp : 0 ≤ part.len) :
    Entry { s with uriParts_ :=
      { parts := fun i => if i = s.uriParts_.nParts then part else s.uriParts_.parts i,
        nParts := s.uriParts_.nParts + 1 } } :=
  ⟨history_setParts h.history _, h.valid, lensOk_push h.lens part hp⟩

/-- The state behind a push that the full stack refused. -/
theorem entry_refuse {s : JsonParser} (h : Entry s) : Inside (invalidate (refused s)) :=
  ⟨history_refuse h.history h.valid, lensOk_drop h.lens, fun _ _ => h.lens, fun _ => h.lens⟩

theorem consumeWhiteSpaces_flag (mem : List Nat) (s : JsonParser) :
    (JsonParser_consumeWhiteSpaces mem s).isInvalid = s.isInvalid := by
  obtain ⟨q, hq, -⟩ := consumeWhiteSpaces_spec mem s
  rw [hq]

theorem parseString_flag (mem : List Nat) (s : JsonParser) :
    (JsonParser_parseString mem s).isInvalid = s.isInvalid := by
  obtain ⟨q, o, hq⟩ := parseString_frame mem s
  rw [hq]

theorem parseKeyValueLoop_inside {pv : JsonParser → Option JsonParser} (mem : List Nat)
    (hpv : ∀ x t, Entry x → pv x = some t → Leave t) :
    ∀ (k : Nat) (s t : JsonParser), Inside s → parseKeyValueLoop pv mem k s = some t →
      Inside t := by
  intro k
  induction k with
  | zero =>
    intro s t hs h
    simp only [parseKeyValueLoop, Option.some.injEq] at h
    exact h ▸ hs
  | succ k ih =>
    intro s t hs h
    unfold parseKeyValueLoop at h
    split_ifs at h with c1 c2
    · simp only [Bool.and_eq_true, decide_eq_true_eq, Bool.not_eq_true'] at c1
      split at h
      · simp at h
      · rename_i t1 hp
        simp only [Option.some.injEq] at h
        have he : Entry (advance s 1) :=
          entry_scan (inside_entry hs c1.2 c1.1) ((Scan.srefl s).advance 1) rfl
        exact h ▸ leave_dropped (hpv _ _ he hp)
    · exact ih _ _ (inside_advance hs 1) h
    · simp only [Option.some.injEq] at h
      exact h ▸ hs

theorem parseKeyValue_inside {pv : JsonParser → Option JsonParser} (mem : List Nat)
    (hpv : ∀ x t, Entry x → pv x = some t → Leave t) (s t : JsonParser) (hs : Entry s)
    (h : JsonParser_parseKeyValue pv mem s = some t) : Inside t := by
  unfold JsonParser_parseKeyValue at h
  simp only [] at h
  have hsc : Scan s (JsonParser_parseString mem s) := (Scan.srefl s).parseString mem
  have he : Entry (JsonParser_parseString mem s) := entry_scan hs hsc (parseString_flag mem s)
  rcases appendString_cases (JsonParser_parseString mem s).uriParts_ (Ptr.json (s.str_ + 1))
    (((JsonParser_parseString mem s).str_ : Int) - 1 - ((s.str_ + 1 : Nat) : Int))
    with ⟨-, hc⟩ | ⟨-, hc⟩
  · rw [hc] at h
    simp only [Option.some.injEq] at h
    exact h ▸ entry_refuse he
  · rw [hc] at h
    refine parseKeyValueLoop_inside mem hpv _ _ _ ?_ h
    obtain ⟨h1, h2, h3, h4⟩ := history_clean he.history he.valid
    refine ⟨history_setParts he.history _, lensOk_under he.lens _, ?_, ?_⟩
    · intro _ hlt
      have hlt1 : (JsonParser_parseString mem s).str_ < s.end_ := by
        rw [← hsc.end_eq]; exact hlt
      have := (parseString_quote mem s hlt1).1
      exact lensOk_push he.lens _ (by show (0 : Int) ≤ _ - 1 - _; push_cast; omega)
    · intro hn
      have hn1 : (JsonParser_parseString mem s).refusedAt ≠ none ∨
          (JsonParser_parseString mem s).tooLongAt ≠ none := hn
      rw [h2, h3] at hn1
      simp at hn1

theorem parseObjectLoop_inside {pv : JsonParser → Option JsonParser} (mem : List Nat)
    (hpv : ∀ x t, Entry x → pv x = some t → Leave t) :
    ∀ (k : Nat) (s t : JsonParser), Inside s → parseObjectLoop pv mem k s = some t →
      Inside t := by
  intro k
  induction k with
  | zero =>
    intro s t hs h
    unfold parseObjectLoop at h
    split_ifs at h
    simp only [Option.some.injEq] at h
    exact h ▸ inside_invalidate hs
  | succ k ih =>
    intro s t hs h
    unfold parseObjectLoop at h
    split_ifs at h with c1 c2 c3 c4 c5
    · simp only [Bool.and_eq_true, decide_eq_true_eq, Bool.not_eq_true'] at c1
      split at h
      · simp at h
      · rename_i t1 hp
        exact ih _ _ (parseKeyValue_inside mem hpv _ _ (inside_entry hs c1.2 c1.1) hp) h
    · simp only [Option.some.injEq] at h
      exact h ▸ inside_advance (leave_dropped (inside_leave hs)) 1
    · exact ih _ _ (inside_advance hs 1) h
    · exact ih _ _ (inside_advance (inside_invalidate hs) 1) h
    · exact ih _ _ (inside_advance hs 1) h
    · simp only [Option.some.injEq] at h
      exact h ▸ inside_invalidate hs

theorem parseObject_inside {pv : JsonParser → Option JsonParser} (mem : List Nat)
    (hpv : ∀ x t, Entry x → pv x = some t → Leave t) (s t : JsonParser) (hs : Entry s)
    (h : JsonParser_parseObject pv mem s = some t) : Inside t := by
  unfold JsonParser_parseObject at h
  rw [appendObject_eq] at h
  rcases appendString_cases s.uriParts_ Ptr.objectUri 1 with ⟨-, hc⟩ | ⟨-, hc⟩
  · rw [hc] at h
    simp only [Option.some.injEq] at h
    exact h ▸ entry_refuse hs
  · rw [hc] at h
    exact parseObjectLoop_inside mem hpv _ _ _
      (inside_advance (entry_inside (entry_push hs _ (by decide))) 1) h

theorem parseArrayLoop_inside {pv : JsonParser → Option JsonParser} (mem : List Nat)
    (hpv : ∀ x t, Entry x → pv x = some t → Leave t) :
    ∀ (k index : Nat) (s t : JsonParser), Inside s → parseArrayLoop pv mem k index s = some t →
      Inside t := by
  intro k
  induction k with
  | zero =>
    intro index s t hs h
    unfold parseArrayLoop at h
    split_ifs at h
    simp only [Option.some.injEq] at h
    exact h ▸ hs
  | succ k ih =>
    intro index s t hs h
    unfold parseArrayLoop at h
    split_ifs at h with c1
    · simp only [Bool.and_eq_true, decide_eq_true_eq, Bool.not_eq_true'] at c1
      simp only [] at h
      have he : Entry (JsonParser_consumeWhiteSpaces mem s) :=
        entry_scan (inside_entry hs c1.2 c1.1) ((Scan.srefl s).consumeWhiteSpaces mem)
          (consumeWhiteSpaces_flag mem s)
      rcases appendString_cases (JsonParser_consumeWhiteSpaces mem s).uriParts_
        (Ptr.buffer (indexLabel index)) ((indexLabel index).length : Int) with ⟨-, hc⟩ | ⟨-, hc⟩
      · rw [hc] at h
        simp only [Option.some.injEq] at h
        exact h ▸ entry_refuse he
      · rw [hc] at h
        simp only [] at h
        split at h
        · simp at h
        · rename_i t1 hp
          have h1 : Inside (touch (JsonParser_consumeWhiteSpaces mem
              { t1 with uriParts_ := UriParts_drop t1.uriParts_ }) 0) :=
            inside_scan (leave_dropped (hpv _ _ (entry_push he _ (Int.natCast_nonneg _)) hp))
              (((Scan.srefl _).consumeWhiteSpaces mem).touch 0)
          split_ifs at h
          · exact ih _ _ _ (inside_advance h1 1) h
          · simp only [Option.some.injEq] at h
            exact h ▸ inside_advance h1 1
          · simp only [Option.some.injEq] at h
            exact h ▸ inside_invalidate h1
    · simp only [Option.some.injEq] at h
      exact h ▸ hs

theorem parseArray_inside {pv : JsonParser → Option JsonParser} (mem : List Nat)
    (hpv : ∀ x t, Entry x → pv x = some t → Leave t) (s t : JsonParser) (hs : Entry s)
    (h : JsonParser_parseArray pv mem s = some t) : Inside t := by
  unfold JsonParser_parseArray at h
  simp only [] at h
  have h1 : Inside (touch (JsonParser_consumeWhiteSpaces mem (advance s 1)) 0) :=
    inside_scan (entry_inside hs)
      ((((Scan.srefl s).advance 1).consumeWhiteSpaces mem).touch 0)
  split_ifs at h
  · simp only [Option.some.injEq] at h
    exact h ▸ inside_advance h1 1
  · exact parseArrayLoop_inside mem hpv _ _ _ _ h1 h

/-- The history of a value production of a run: started in a valid state without
negative lengths on the stack, it ends in a state with a consistent history. -/
theorem parseValue_leave (mem : List Nat) :
    ∀ (d : Nat) (s t : JsonParser), Entry s → JsonParser_parseValue mem d s = some t →
      Leave t := by
  intro d
  induction d with
  | zero => intro s t _ h; simp [JsonParser_parseValue] at h
  | succ d ih =>
    intro s t hs h
    unfold JsonParser_parseValue at h
    simp only [] at h
    have he : Entry (touch (JsonParser_consumeWhiteSpaces mem s) 0) :=
      entry_scan hs (((Scan.srefl s).consumeWhiteSpaces mem).touch 0)
        (consumeWhiteSpaces_flag mem s)
    split_ifs at h
    · simp only [Option.some.injEq] at h
      exact h ▸ inside_finishValue mem
        (inside_scan (entry_inside he) ((Scan.srefl _).parseString mem)) _
    · simp only [Option.some.injEq] at h
      exact h ▸ inside_finishValue mem
        (inside_scan (entry_inside he) ((Scan.srefl _).parseNumber mem)) _
    · split at h
      · simp at h
      · rename_i t1 hp
        simp only [Option.some.injEq] at h
        exact h ▸ inside_finishValue mem (parseObject_inside mem ih _ _ he hp) _
    · split at h
      · simp at h
      · rename_i t1 hp
        simp only [Option.some.injEq] at h
        exact h ▸ inside_finishValue mem (parseArray_inside mem ih _ _ he hp) _
    · simp only [Option.some.injEq] at h
      exact h ▸ inside_finishValue mem (inside_advance (entry_inside he) 4) _
    · simp only [Option.some.injEq] at h
      exact h ▸ inside_finishValue mem (inside_advance (entry_inside he) 4) _
    · simp only [Option.some.injEq] at h
      exact h ▸ inside_finishValue mem (inside_advance (entry_inside he) 5) _
    · simp only [Option.some.injEq] at h
      exact h ▸ inside_leave (inside_invalidate (entry_inside he))

theorem entryState_entry (p : JsonParser) (E : Nat) : Entry (entryState p E) :=
  ⟨⟨rfl, fun h => (by cases h), fun _ h => (by cases h), fun _ h => (by cases h),
      fun _ => rfl⟩, rfl, fun i h0 h1 => absurd h1 (by show ¬ i < 0; omega)⟩

/-- The history of a run of `JsonParser_parse`. -/
theorem run_history (p : JsonParser) (mem : List Nat) (E : Nat) :
    ∃ t, runOf p mem E = some t ∧ History t := by
  obtain ⟨t, ht, -⟩ := parse_total p mem E
  exact ⟨t, ht, (parseValue_leave mem _ _ _ (entryState_entry p E) ht).history⟩

/-- A run that ends in a state that is not killed returns. -/
theorem parse_alive (p : JsonParser) (mem : List Nat) (E : Nat) (t : JsonParser)
    (ht : JsonParser_parseValue mem (E + 1) (entryState p E) = some t)
    (hk : t.killed = false) :
    JsonParser_parse p mem E = some { status := exitStatus t, parser := t } := by
  unfold JsonParser_parse
  rw [ht]
  simp only [hk, Bool.false_eq_true, if_false]

/-- A run that ends in a valid state was not killed. -/
theorem run_valid_alive (p : JsonParser) (mem : List Nat) (E : Nat) (t : JsonParser)
    (ht : JsonParser_parseValue mem (E + 1) (entryState p E) = some t)
    (hv : t.isInvalid = false) : t.killed = false :=
  (history_clean (parseValue_leave mem _ _ _ (entryState_entry p E) ht).history hv).2.2.2

/-- A run in which a push was refused or an address was too long was not
killed. -/
theorem run_noted_alive (p : JsonParser) (mem : List Nat) (E : Nat) (t : JsonParser)
    (ht : JsonParser_parseValue mem (E + 1) (entryState p E) = some t)
    (hn : t.refusedAt ≠ none ∨ t.tooLongAt ≠ none) : t.killed = false :=
  (parseValue_leave mem _ _ _ (entryState_entry p E) ht).history.alive hn

/-- With an empty path stack the report copies nothing and is not killed. -/
theorem inform_root_alive (mem : List Nat) (s : JsonParser) (b : Nat) (l : Int)
    (hn : s.uriParts_.nParts ≤ 0) : (JsonParser_inform mem s b l).killed = s.killed := by
  unfold JsonParser_inform
  rw [Int.toNat_eq_zero.2 hn, informLoop_zero]
  simp only
  split <;> rfl

theorem finishValue_root_alive (mem : List Nat) (b : Nat) (s : JsonParser)
    (hn : s.uriParts_.nParts ≤ 0) : (finishValue mem b s).killed = s.killed := by
  unfold finishValue
  rw [((Scan.srefl _).consumeWhiteSpaces mem).killed_eq]
  exact inform_root_alive mem s b _ hn

/-- A value production that is started with an empty path stack at a byte that
opens neither an object nor an array is not killed. -/
theorem parseValue_scalar_alive (mem : List Nat) (d : Nat) (s t : JsonParser)
    (h : JsonParser_parseValue mem d s = some t) (hn : s.uriParts_.nParts ≤ 0)
    (h1 : deref mem (touch (JsonParser_consumeWhiteSpaces mem s) 0) 0 ≠ 123)
    (h2 : deref mem (touch (JsonParser_consumeWhiteSpaces mem s) 0) 0 ≠ 91) :
    t.killed = s.killed := by
  cases d with
  | zero => simp [JsonParser_parseValue] at h
  | succ d =>
    unfold JsonParser_parseValue at h
    simp only [] at h
    have hs : Scan s (touch (JsonParser_consumeWhiteSpaces mem s) 0) :=
      ((Scan.srefl s).consumeWhiteSpaces mem).touch 0
    have hn1 : (touch (JsonParser_consumeWhiteSpaces mem s) 0).uriParts_.nParts ≤ 0 := by
      rw [hs.parts_eq]; exact hn
    generalize touch (JsonParser_consumeWhiteSpaces mem s) 0 = x at h h1 h2 hs hn1
    have key : ∀ (y : JsonParser) (b : Nat), Scan x y →
        (finishValue mem b y).killed = s.killed := by
      intro y b hy
      rw [finishValue_root_alive mem b y (by rw [hy.parts_eq]; exact hn1), hy.killed_eq]
      exact hs.killed_eq
    split_ifs at h with c1 c2 c3 c4
    · simp only [Option.some.injEq] at h
      subst h
      exact key _ _ ((Scan.srefl _).parseString mem)
    · simp only [Option.some.injEq] at h
      subst h
      exact key _ _ ((Scan.srefl _).parseNumber mem)
    · simp only [beq_iff_eq] at c3
      exact absurd c3 h1
    · simp only [beq_iff_eq] at c4
      exact absurd c4 h2
    · simp only [Option.some.injEq] at h
      subst h
      exact key _ _ ((Scan.srefl _).advance 4)
    · simp only [Option.some.injEq] at h
      subst h
      exact key _ _ ((Scan.srefl _).advance 4)
    · simp only [Option.some.injEq] at h
      subst h
      exact key _ _ ((Scan.srefl _).advance 5)
    · simp only [Option.some.injEq] at h
      subst h
      exact hs.killed_eq

/-- A value production that is started with an empty path stack and finds
nothing but white space up to the end of the buffer is not killed. -/
theorem parseValue_end_alive (mem : List Nat) (d : Nat) (s t : JsonParser)
    (h : JsonParser_parseValue mem d s = some t) (hn : s.uriParts_.nParts = 0)
    (he : s.end_ ≤ (JsonParser_consumeWhiteSpaces mem s).str_) : t.killed = s.killed := by
  by_cases hc : deref mem (touch (JsonParser_consumeWhiteSpaces mem s) 0) 0 ≠ 123 ∧
      deref mem (touch (JsonParser_consumeWhiteSpaces mem s) 0) 0 ≠ 91
  · exact parseValue_scalar_alive mem d s t h (by omega) hc.1 hc.2
  cases d with
  | zero => simp [JsonParser_parseValue] at h
  | succ d =>
    unfold JsonParser_parseValue at h
    simp only [] at h
    have hs : Scan s (touch (JsonParser_consumeWhiteSpaces mem s) 0) :=
      ((Scan.srefl s).consumeWhiteSpaces mem).touch 0
    have hle : s.end_ ≤ (touch (JsonParser_consumeWhiteSpaces mem s) 0).str_ := he
    have hend := hs.end_eq
    have hn1 : (touch (JsonParser_consumeWhiteSpaces mem s) 0).uriParts_.nParts = 0 := by
      rw [hs.parts_eq]; exact hn
    generalize touch (JsonParser_consumeWhiteSpaces mem s) 0 = x at h hc hs hle hend hn1
    have hb : deref mem x 0 = 123 ∨ deref mem x 0 = 91 := by
      by_cases a : deref mem x 0 = 123
      · exact Or.inl a
      · by_cases b : deref mem x 0 = 91
        · exact Or.inr b
        · exact absurd ⟨a, b⟩ hc
    rcases hb with hb | hb
    · simp [hb, isdigit] at h
      split at h
      · simp at h
      · rename_i t1 hp
        simp only [Option.some.injEq] at h
        unfold JsonParser_parseObject at hp
        rw [appendObject_eq] at hp
        rcases appendString_cases x.uriParts_ Ptr.objectUri 1 with ⟨hfull, -⟩ | ⟨-, hpush⟩
        · rw [hn1] at hfull; unfold MAX_DEPTH at hfull; omega
        · rw [hpush] at hp
          have hfuel : (advance x 1).end_ - (advance x 1).str_ = 0 := by
            simp only [advance_end_, advance_str_]; omega
          rw [hfuel] at hp
          unfold parseObjectLoop at hp
          rw [if_neg (by simp only [advance_str_, advance_end_, Bool.and_eq_true,
            decide_eq_true_eq]; omega)] at hp
          simp only [Option.some.injEq] at hp
          rw [← h, ← hp]
          unfold finishValue
          rw [((Scan.srefl _).consumeWhiteSpaces mem).killed_eq]
          unfold JsonParser_inform
          simp only [invalidate_uriParts_, advance_uriParts_, hn1]
          simp only [informLoop, Int.toNat, MAX_URI_LEN]
          simp only [invalidate, advance]
          exact hs.killed_eq
    · simp [hb, isdigit] at h
      split at h
      · simp at h
      · rename_i t1 hp
        simp only [Option.some.injEq] at h
        have hy : Scan x (touch (JsonParser_consumeWhiteSpaces mem (advance x 1)) 0) :=
          (((Scan.srefl x).advance 1).consumeWhiteSpaces mem).touch 0
        have hy1 : x.str_ + 1 ≤ (touch (JsonParser_consumeWhiteSpaces mem (advance x 1)) 0).str_ :=
          (((Scan.srefl (advance x 1)).consumeWhiteSpaces mem).touch 0).str_le
        have hy2 := hy.end_eq
        have ht1 : Scan x t1 := by
          unfold JsonParser_parseArray at hp
          simp only [] at hp
          split_ifs at hp
          · simp only [Option.some.injEq] at hp
            exact hp ▸ hy.advance 1
          · have hfuel : (touch (JsonParser_consumeWhiteSpaces mem (advance x 1)) 0).end_
                - (touch (JsonParser_consumeWhiteSpaces mem (advance x 1)) 0).str_ = 0 := by
              omega
            rw [hfuel] at hp
            unfold parseArrayLoop at hp
            rw [if_neg (by simp only [Bool.and_eq_true, decide_eq_true_eq]; omega)] at hp
            simp only [Option.some.injEq] at hp
            exact hp ▸ hy
        rw [← h, finishValue_root_alive mem _ _ (by rw [ht1.parts_eq, hn1]), ht1.killed_eq]
        exact hs.killed_eq

/-- A call of `JsonParser_parse` that returns 0 ended in a state that is valid,
has an empty path stack and has the cursor at the end of the buffer. -/
theorem parse_status_zero (p : JsonParser) (mem : List Nat) (E : Nat)
    (h : statusOf (JsonParser_parse p mem E) = some 0) :
    ∃ t, JsonParser_parseValue mem (E + 1) (entryState p E) = some t ∧
      JsonParser_parse p mem E = some { status := 0, parser := t } ∧
      t.uriParts_.nParts = 0 ∧ t.isInvalid = false ∧ t.str_ = E ∧ t.end_ = E := by
  obtain ⟨t, ht, hp⟩ := parse_total p mem E
  rw [hp] at h
  cases hk : t.killed with
  | true => rw [hk] at h; simp [statusOf] at h
  | false =>
  rw [hk] at h hp
  simp only [Bool.false_eq_true, if_false, statusOf, Option.map_some', Option.some.injEq] at h hp
  have hE : t.end_ = E := (parseValue_ext mem _ _ _ ht).end_eq
  refine ⟨t, ht, by rw [hp, h], ?_⟩
  unfold exitStatus at h
  split_ifs at h with hc
  · simp at h
  · simp only [Bool.or_eq_true, bne_iff_ne, ne_eq, not_or, Decidable.not_not,
      Bool.not_eq_true] at hc
    exact ⟨hc.1.1, hc.1.2, by rw [hc.2, hE], hE⟩

/-- Whenever `JsonParser_parse` returns 0, the sink was invoked at least
once; the last invocation carries the empty address, of length 0; its span
starts at the first byte of the buffer that is not white space and ends where
only white space follows up to the end of the buffer. -/
theorem parse_zero_root (p : JsonParser) (mem : List Nat) (E : Nat)
    (h : statusOf (JsonParser_parse p mem E) = some 0) :
    ∃ (D : List Call) (b e : Nat),
      callsOf (JsonParser_parse p mem E)
        = some (D ++ [{ key := [], keyLen := 0, value := b, valueLen := (e : Int) - (b : Int) }]) ∧
      (∀ i, i < b → isWhiteSpace (mem.getD i 0) = true) ∧
      b < E ∧ isWhiteSpace (mem.getD b 0) = false ∧
      b < e ∧ e ≤ E ∧
      (∀ i, e ≤ i → i < E → isWhiteSpace (mem.getD i 0) = true) := by
  obtain ⟨t, ht, hp, -, hv, hstr, -⟩ := parse_status_zero p mem E h
  obtain ⟨b, e, D, hrun⟩ := (parseValue_pvspec mem (E + 1)).run _ _ ht hv
    (by simp [entryState])
  have hlead : WsTo mem E 0 b := hrun.lead
  have htrail : WsTo mem E e E := by
    have := hrun.trail
    rw [hstr] at this
    exact this
  have hcalls : t.calls
      = D ++ [{ key := [], keyLen := 0, value := b, valueLen := (e : Int) - (b : Int) }] := by
    rw [hrun.calls]
    rfl
  have hspan := hrun.span
  have hle := htrail.1
  refine ⟨D, b, e, ?_, ?_, by omega, ?_, hspan, hle, ?_⟩
  · rw [hp]
    simp only [callsOf, Option.map_some', hcalls]
  · intro i hi
    exact (hlead.2.1 i (Nat.zero_le _) hi).2
  · exact hlead.2.2 (by omega)
  · intro i h1 h2
    exact (htrail.2.1 i h1 h2).2

/-- The loop of the object production leaves the parser valid only right behind
a closing brace that lies in the buffer. Nothing is assumed about the value
production but the frame. -/
theorem parseObjectLoop_closed {pv : JsonParser → Option JsonParser} (mem : List Nat)
    (hpv : ∀ t t1, pv t = some t1 → Ext t t1) :
    ∀ (k : Nat) (s t : JsonParser), parseObjectLoop pv mem k s = some t →
      t.isInvalid = false →
        ∃ q, s.str_ ≤ q ∧ q < s.end_ ∧ mem.getD q 0 = 125 ∧ t.str_ = q + 1 := by
  intro k
  induction k with
  | zero =>
    intro s t h hv
    unfold parseObjectLoop at h
    split_ifs at h
    simp only [Option.some.injEq] at h
    rw [← h] at hv
    simp at hv
  | succ k ih =>
    intro s t h hv
    unfold parseObjectLoop at h
    split_ifs at h with h1 h2 h3 h4 h5
    · split at h
      · simp at h
      · rename_i t1 hp
        have hx := parseKeyValue_ext mem hpv _ _ _ (Ext.erefl (advance s 1)) hp
        obtain ⟨q, hq1, hq2, hq3, hq4⟩ := ih t1 t h hv
        have h6 : s.str_ + 1 ≤ t1.str_ := hx.str_le
        have h7 : t1.end_ = s.end_ := hx.end_eq
        exact ⟨q, by omega, by omega, hq3, hq4⟩
    · simp only [Bool.and_eq_true, decide_eq_true_eq, Bool.not_eq_true'] at h1
      simp only [beq_iff_eq, deref_def, Nat.add_zero] at h3
      simp only [Option.some.injEq] at h
      rw [← h]
      exact ⟨s.str_, Nat.le_refl _, h1.1, h3, rfl⟩
    · obtain ⟨q, hq1, hq2, hq3, hq4⟩ := ih _ t h hv
      simp only [advance_str_, advance_end_] at hq1 hq2
      exact ⟨q, by omega, hq2, hq3, hq4⟩
    · obtain ⟨q, hq1, hq2, hq3, hq4⟩ := ih _ t h hv
      simp only [advance_str_, advance_end_, invalidate_str_, invalidate_end_] at hq1 hq2
      exact ⟨q, by omega, hq2, hq3, hq4⟩
    · obtain ⟨q, hq1, hq2, hq3, hq4⟩ := ih _ t h hv
      simp only [advance_str_, advance_end_] at hq1 hq2
      exact ⟨q, by omega, hq2, hq3, hq4⟩
    · simp only [Option.some.injEq] at h
      rw [← h] at hv
      simp at hv

/-- The object production leaves the parser valid only right behind a closing
brace that lies in the buffer behind the opening one. -/
theorem parseObject_closed {pv : JsonParser → Option JsonParser} (mem : List Nat)
    (hpv : ∀ t t1, pv t = some t1 → Ext t t1) (s t : JsonParser)
    (h : JsonParser_parseObject pv mem s = some t) (hv : t.isInvalid = false) :
    ∃ q, s.str_ < q ∧ q < s.end_ ∧ mem.getD q 0 = 125 ∧ t.str_ = q + 1 := by
  unfold JsonParser_parseObject at h
  rw [appendObject_eq] at h
  rcases appendString_cases s.uriParts_ Ptr.objectUri 1 with ⟨-, hc⟩ | ⟨-, hc⟩
  · rw [hc] at h
    simp only [Option.some.injEq] at h
    rw [← h] at hv
    simp at hv
  · rw [hc] at h
    obtain ⟨q, hq1, hq2, hq3, hq4⟩ := parseObjectLoop_closed mem hpv _ _ _ h hv
    simp only [advance_str_, advance_end_] at hq1 hq2
    exact ⟨q, by omega, hq2, hq3, hq4⟩

theorem ObjectItems.closed {mem : List Nat} {E p q : Nat} {ms : List Member}
    (h : ObjectItems mem E p ms q) : p < q ∧ q ≤ E ∧ mem.getD (q - 1) 0 = 125 := by
  induction h with
  | close p h1 h2 => exact ⟨by omega, by omega, by simpa using h2⟩
  | skip p q ms _ _ _ ih => exact ⟨by omega, ih.2.1, ih.2.2⟩
  | member p c r q m rest _ _ h3 _ h5 _ h7 _ _ _ h11 h12 h13 _ ih =>
    have := h11.1
    have := h13.1
    exact ⟨by omega, ih.2.1, ih.2.2⟩

/-- The reported root span of an accepted document whose first byte that is not
white space opens an object ends with a closing brace that is followed by
white space only. -/
theorem parse_object_closed (mem : List Nat) (p : JsonParser) (E b : Nat)
    (hws : ∀ i, i < b → isWhiteSpace (mem.getD i 0) = true) (hbE : b < E)
    (h123 : mem.getD b 0 = 123) (o : Outcome) (ho : JsonParser_parse p mem E = some o)
    (h0 : o.status = 0) :
    ∃ q, b < q ∧ q < E ∧ mem.getD q 0 = 125 ∧
      (∀ i, q < i → i < E → isWhiteSpace (mem.getD i 0) = true) ∧
      o.parser.calls.getLast? = some { key := [], keyLen := 0, value := b,
                                       valueLen := ((q + 1 : Nat) : Int) - (b : Int) } := by
  have hst : statusOf (JsonParser_parse p mem E) = some 0 := by
    rw [ho]
    simp only [statusOf, Option.map_some', Option.some.injEq]
    exact h0
  obtain ⟨t, ht, hp1, -, hv, hstr, -⟩ := parse_status_zero p mem E hst
  rw [hp1] at ho
  simp only [Option.some.injEq] at ho
  subst ho
  obtain ⟨b1, e, hs, hk⟩ := parseValue_shape mem E (parseValue_pvspec mem E) _ _ ht hv
    (by simp [entryState])
  have hlead : WsTo mem E 0 b1 := hs.lead
  have hb : b1 = b := by
    have hwb : WsTo mem E 0 b := by
      refine ⟨Nat.zero_le _, fun i _ hi => ⟨by omega, hws i hi⟩, fun _ => ?_⟩
      rw [h123]
      decide
    exact hlead.unique hwb
  subst hb
  have htrail : WsTo mem E e E := by
    have := hs.trail
    rw [hstr] at this
    exact this
  rcases hk with ⟨hne, -, -⟩ | ⟨-, ms, hi, hc, -⟩ | ⟨h91, -⟩
  · exact absurd h123 hne
  · have hi1 : ObjectItems mem E (b1 + 1) ms e := hi
    have hcl := hi1.closed
    have he : e - 1 + 1 = e := by omega
    refine ⟨e - 1, by omega, by omega, hcl.2.2, ?_, ?_⟩
    · intro i h1 h2
      exact (htrail.2.1 i (by omega) h2).2
    · show t.calls.getLast? = _
      rw [hc, List.getLast?_append, he]
      rfl
  · rw [h123] at h91
    exact absurd h91 (by decide)

/-- How a run of `JsonParser_parse` ends: in a state with a consistent history;
the call returns that state with the exit status unless the run was killed,
and the exit status of a state with the flag set is 1. -/
theorem run_end (p : JsonParser) (mem : List Nat) (E : Nat) :
    ∃ t, runOf p mem E = some t ∧ History t ∧
      JsonParser_parse p mem E
        = (if t.killed then none else some { status := exitStatus t, parser := t }) ∧
      (t.isInvalid = true → exitStatus t = 1) := by
  obtain ⟨t, ht, hp⟩ := parse_total p mem E
  refine ⟨t, ht, (parseValue_leave mem _ _ _ (entryState_entry p E) ht).history, hp, ?_⟩
  intro hv
  simp [exitStatus, hv]

set_option maxRecDepth 100000 in
/-- C10 (evaluation at the failing inputs, with what holds of every input): on
the 2-byte buffer `{"` and on the 8-byte buffer `{"a":1,"`, each followed by
the terminating zero of a C string, the object is not closed and the call of
`JsonParser_parse` does not return non-zero: the run is killed inside the
`memcpy` of the address assembly, which is given the length -1, and the call
has no status. What holds in general: (1) for every memory, depth counter that
covers the buffer and parser state, the object production returns, and when it
returns with the validity flag clear, the cursor stands right behind a closing
brace inside the buffer behind the opening one. (2) Every run ends in a state
with a consistent history: the flag is set at the end exactly when it was set
anywhere in the run, and then the call returns 1 unless the run was killed.
(3) A call that returns 0 on a buffer whose first byte that is not white space
opens an object reports a root span that ends with a closing brace followed by
white space only. (4) The 2-byte buffer `[{` and the 8-byte buffer `{"a":{x}`,
whose unclosed object is not the root value, are rejected with status 1. -/
theorem C10_unclosed_object_invalid :
    (statusOf (JsonParser_parse freshParser [123, 34, 0] 2) = none ∧
      killedOf (runOf freshParser [123, 34, 0] 2) = some true ∧
      statusOf (JsonParser_parse freshParser [123, 34, 97, 34, 58, 49, 44, 34, 0] 8) = none ∧
      killedOf (runOf freshParser [123, 34, 97, 34, 58, 49, 44, 34, 0] 8) = some true) ∧
    (∀ (mem : List Nat) (d : Nat) (s : JsonParser), s.end_ ≤ d →
      ∃ t, JsonParser_parseObject (JsonParser_parseValue mem d) mem s = some t ∧
        (t.isInvalid = false →
          ∃ q, s.str_ < q ∧ q < s.end_ ∧ mem.getD q 0 = 125 ∧ t.str_ = q + 1)) ∧
    (∀ (mem : List Nat) (p : JsonParser) (E : Nat),
      ∃ t, runOf p mem E = some t ∧ History t ∧
        JsonParser_parse p mem E
          = (if t.killed then none else some { status := exitStatus t, parser := t }) ∧
        (t.isInvalid = true → exitStatus t = 1)) ∧
    (∀ (mem : List Nat) (p : JsonParser) (E b : Nat),
      (∀ i, i < b → isWhiteSpace (mem.getD i 0) = true) → b < E → mem.getD b 0 = 123 →
      ∀ o, JsonParser_parse p mem E = some o → o.status = 0 →
        ∃ q, b < q ∧ q < E ∧ mem.getD q 0 = 125 ∧
          (∀ i, q < i → i < E → isWhiteSpace (mem.getD i 0) = true) ∧
          o.parser.calls.getLast? = some { key := [], keyLen := 0, value := b,
                                           valueLen := ((q + 1 : Nat) : Int) - (b : Int) }) ∧
    (statusOf (JsonParser_parse freshParser [91, 123, 0] 2) = some 1 ∧
      statusOf (JsonParser_parse freshParser [123, 34, 97, 34, 58, 123, 120, 125, 0] 8)
        = some 1) := by
  refine ⟨by decide, ?_, fun mem p E => run_end p mem E,
    fun mem p E b hws hbE h123 o ho h0 => parse_object_closed mem p E b hws hbE h123 o ho h0,
    by decide⟩
  intro mem d s hd
  have hpvT : ∀ t : JsonParser, t.end_ = s.end_ → s.str_ + 1 < s.end_ → s.str_ + 1 ≤ t.str_ →
      ∃ t1, JsonParser_parseValue mem d t = some t1 := by
    intro t h1 h2 h3
    exact parseValue_total mem d t (by omega) (by omega)
  obtain ⟨t, ht⟩ := parseObject_total mem s.end_ (s.str_ + 1) (parseValue_ext mem d) hpvT s rfl
    (Nat.le_refl _)
  exact ⟨t, ht, parseObject_closed mem (parseValue_ext mem d) s t ht⟩

/-- On an empty path stack the report cannot fail: the common tail of the value
production appends one sink invocation with the empty address and skips the
white space behind the value. -/
theorem finishValue_root (mem : List Nat) (b : Nat) (x : JsonParser)
    (hn : x.uriParts_.nParts = 0) (hv : x.isInvalid = false) :
    ∃ q, finishValue mem b x
        = { x with str_ := q,
                   calls := x.calls ++ [{ key := [], keyLen := 0, value := b,
                                          valueLen := (x.str_ : Int) - (b : Int) }] } ∧
      WsTo mem x.end_ x.str_ q := by
  have hi : JsonParser_inform mem x b ((x.str_ : Int) - (b : Int))
      = { x with calls := x.calls ++ [{ key := [], keyLen := 0, value := b,
                                        valueLen := (x.str_ : Int) - (b : Int) }] } := by
    unfold JsonParser_inform
    rw [hn]
    simp [informLoop, hv]
  unfold finishValue
  rw [hi]
  obtain ⟨h1, h2⟩ := consumeWhiteSpaces_wsTo mem
    { x with calls := x.calls ++ [{ key := [], keyLen := 0, value := b,
                                    valueLen := (x.str_ : Int) - (b : Int) }] }
  exact ⟨_, h1, h2⟩

/-- Status of a call whose root value is a scalar that ends at the cursor of
`x`: it is 0 exactly when only white space follows up to the end of the
buffer. -/
theorem finishValue_root_status (mem : List Nat) (b : Nat) (x : JsonParser)
    (hn : x.uriParts_.nParts = 0) (hv : x.isInvalid = false) :
    (exitStatus (finishValue mem b x) = 0 ↔
      (x.str_ ≤ x.end_ ∧ ∀ i, x.str_ ≤ i → i < x.end_ → isWhiteSpace (mem.getD i 0) = true)) ∧
    (finishValue mem b x).calls
      = x.calls ++ [{ key := [], keyLen := 0, value := b,
                      valueLen := (x.str_ : Int) - (b : Int) }] := by
  obtain ⟨q, hq, hw⟩ := finishValue_root mem b x hn hv
  rw [hq]
  refine ⟨?_, rfl⟩
  unfold exitStatus
  simp only [hn, hv, bne_self_eq_false, Bool.or_false, Bool.false_or, bne_iff_ne, ne_eq,
    ite_not]
  constructor
  · intro h
    split_ifs at h with h1
    · rw [h1] at hw
      exact ⟨hw.1, fun i hi1 hi2 => (hw.2.1 i hi1 hi2).2⟩
    · simp at h
  · rintro ⟨h1, h2⟩
    have hw2 : WsTo mem x.end_ x.str_ x.end_ :=
      ⟨h1, fun i hi1 hi2 => ⟨hi2, h2 i hi1 hi2⟩, fun h => absurd h (Nat.lt_irrefl _)⟩
    rw [if_pos (hw.unique hw2)]

/-- A call on a buffer without a byte that is not white space returns 1. -/
theorem parse_blank (p : JsonParser) (mem : List Nat) (E : Nat)
    (hws : ∀ i, i < E → isWhiteSpace (mem.getD i 0) = true) :
    statusOf (JsonParser_parse p mem E) ≠ some 0 := by
  intro h
  obtain ⟨D, b, e, -, -, h1, h2, -⟩ := parse_zero_root p mem E h
  rw [hws b h1] at h2
  exact absurd h2 (by simp)

theorem slice_four (mem : List Nat) (b : Nat) (a0 a1 a2 a3 : Nat) :
    slice mem b (b + 4) = [a0, a1, a2, a3] ↔
      mem.getD b 0 = a0 ∧ mem.getD (b + 1) 0 = a1 ∧ mem.getD (b + 2) 0 = a2 ∧
        mem.getD (b + 3) 0 = a3 := by
  unfold slice
  have : b + 4 - b = 4 := by omega
  rw [this]
  simp [List.range_succ]

theorem slice_five (mem : List Nat) (b : Nat) (a0 a1 a2 a3 a4 : Nat) :
    slice mem b (b + 5) = [a0, a1, a2, a3, a4] ↔
      mem.getD b 0 = a0 ∧ mem.getD (b + 1) 0 = a1 ∧ mem.getD (b + 2) 0 = a2 ∧
        mem.getD (b + 3) 0 = a3 ∧ mem.getD (b + 4) 0 = a4 := by
  unfold slice
  have : b + 5 - b = 5 := by omega
  rw [this]
  simp [List.range_succ]

/-- The comparison `strncmp(str_, lit, n) == 0` against a literal without zero
bytes among the compared ones holds exactly when the bytes agree. -/
theorem strncmpEq_iff (mem : List Nat) (s : JsonParser) (lit : List Nat) :
    ∀ (n i : Nat), (∀ j, i ≤ j → j < i + n → lit.getD j 0 ≠ 0) →
      (strncmpEq mem s lit n i = true ↔
        ∀ j, i ≤ j → j < i + n → mem.getD (s.str_ + j) 0 = lit.getD j 0) := by
  intro n
  induction n with
  | zero =>
    intro i _
    simp only [strncmpEq, true_iff]
    intro j h1 h2
    omega
  | succ n ih =>
    intro i hz
    unfold strncmpEq
    by_cases h1 : deref mem s i = lit.getD i 0
    · have h2 : deref mem s i ≠ 0 := by rw [h1]; exact hz i (Nat.le_refl _) (by omega)
      rw [if_neg (by simp only [bne_iff_ne, ne_eq, h1, not_true_eq_false, not_false_eq_true]),
        if_neg (by simp only [beq_iff_eq, h2, not_false_eq_true])]
      rw [ih (i + 1) (fun j hj1 hj2 => hz j (by omega) (by omega))]
      constructor
      · intro h j hj1 hj2
        by_cases hji : j = i
        · rw [hji]; exact h1
        · exact h j (by omega) (by omega)
      · intro h j hj1 hj2
        exact h j (by omega) (by omega)
    · rw [if_pos (by simp only [bne_iff_ne, ne_eq, h1, not_false_eq_true])]
      simp only [Bool.false_eq_true, false_iff, not_forall]
      exact ⟨i, Nat.le_refl _, by omega, h1⟩

theorem strncmpEq_true (mem : List Nat) (s : JsonParser) :
    strncmpEq mem s [116, 114, 117, 101, 0] 4 0 = true ↔
      slice mem s.str_ (s.str_ + 4) = [116, 114, 117, 101] := by
  rw [slice_four mem s.str_ 116 114 117 101, strncmpEq_iff mem s _ 4 0
    (by intro j _ h2; have : j < 4 := by omega
        interval_cases j <;> decide)]
  constructor
  · intro h
    exact ⟨h 0 (by omega) (by omega), h 1 (by omega) (by omega), h 2 (by omega) (by omega),
      h 3 (by omega) (by omega)⟩
  · rintro ⟨h0, h1, h2, h3⟩ j _ hj
    have : j < 4 := by omega
    interval_cases j
    · exact h0
    · exact h1
    · exact h2
    · exact h3

theorem strncmpEq_null (mem : List Nat) (s : JsonParser) :
    strncmpEq mem s [110, 117, 108, 108, 0] 4 0 = true ↔
      slice mem s.str_ (s.str_ + 4) = [110, 117, 108, 108] := by
  rw [slice_four mem s.str_ 110 117 108 108, strncmpEq_iff mem s _ 4 0
    (by intro j _ h2; have : j < 4 := by omega
        interval_cases j <;> decide)]
  constructor
  · intro h
    exact ⟨h 0 (by omega) (by omega), h 1 (by omega) (by omega), h 2 (by omega) (by omega),
      h 3 (by omega) (by omega)⟩
  · rintro ⟨h0, h1, h2, h3⟩ j _ hj
    have : j < 4 := by omega
    interval_cases j
    · exact h0
    · exact h1
    · exact h2
    · exact h3

theorem strncmpEq_false (mem : List Nat) (s : JsonParser) :
    strncmpEq mem s [102, 97, 108, 115, 101, 0] 5 0 = true ↔
      slice mem s.str_ (s.str_ + 5) = [102, 97, 108, 115, 101] := by
  rw [slice_five mem s.str_ 102 97 108 115 101, strncmpEq_iff mem s _ 5 0
    (by intro j _ h2; have : j < 5 := by omega
        interval_cases j <;> decide)]
  constructor
  · intro h
    exact ⟨h 0 (by omega) (by omega), h 1 (by omega) (by omega), h 2 (by omega) (by omega),
      h 3 (by omega) (by omega), h 4 (by omega) (by omega)⟩
  · rintro ⟨h0, h1, h2, h3, h4⟩ j _ hj
    have : j < 5 := by omega
    interval_cases j
    · exact h0
    · exact h1
    · exact h2
    · exact h3
    · exact h4

/-- Outcome of a call whose first byte that is not white space, at position
`b` inside the buffer, opens neither a string, a number, an object nor an
array: the value production tries the three keywords in turn. -/
theorem parse_keyword_cases (p : JsonParser) (mem : List Nat) (E b : Nat)
    (hws : ∀ i, i < b → isWhiteSpace (mem.getD i 0) = true) (hbE : b < E)
    (hfirst : isWhiteSpace (mem.getD b 0) = false ∧ mem.getD b 0 ≠ 34 ∧ mem.getD b 0 ≠ 45 ∧
      mem.getD b 0 ≠ 123 ∧ mem.getD b 0 ≠ 91 ∧ isdigit (mem.getD b 0) = false) :
    ∃ o, JsonParser_parse p mem E = some o ∧
      (o.status = 0 ↔
        ∃ kw, (kw = [116, 114, 117, 101] ∨ kw = [110, 117, 108, 108] ∨
            kw = [102, 97, 108, 115, 101]) ∧
          b + kw.length ≤ E ∧ slice mem b (b + kw.length) = kw ∧
          ∀ i, b + kw.length ≤ i → i < E → isWhiteSpace (mem.getD i 0) = true) := by
  obtain ⟨t, ht, -⟩ := parse_total p mem E
  have hW : WsTo mem (entryState p E).end_ (entryState p E).str_ b :=
    ⟨Nat.zero_le _, fun i _ hi => ⟨by show i < E; omega, hws i hi⟩, fun _ => hfirst.1⟩
  have hk : t.killed = false :=
    parseValue_scalar_alive mem _ _ t ht (Int.le_refl _)
      (by rw [consumeWhiteSpaces_eq mem _ b hW]; exact hfirst.2.2.2.1)
      (by rw [consumeWhiteSpaces_eq mem _ b hW]; exact hfirst.2.2.2.2.1)
  refine ⟨_, parse_alive p mem E t ht hk, ?_⟩
  show exitStatus t = 0 ↔ _
  unfold JsonParser_parseValue at ht
  simp only [] at ht
  rw [consumeWhiteSpaces_eq mem _ b hW] at ht
  simp only [deref_touch, deref_def, touch_str_, touch_end_, Nat.add_zero, beq_iff_eq,
    hfirst.2.1, hfirst.2.2.1, hfirst.2.2.2.1, hfirst.2.2.2.2.1, hfirst.2.2.2.2.2,
    Bool.false_or, if_false, strncmpEq_true, strncmpEq_null, strncmpEq_false,
    Bool.and_eq_true, decide_eq_true_eq] at ht
  have hT := slice_four mem b 116 114 117 101
  have hN := slice_four mem b 110 117 108 108
  have hF := slice_five mem b 102 97 108 115 101
  split_ifs at ht with c1 c2 c3
  · -- true
    simp only [Option.some.injEq] at ht
    subst ht
    rw [(finishValue_root_status mem b _ rfl rfl).1]
    simp only [advance_str_, touch_str_, advance_end_, touch_end_]
    have hb0 := (hT.1 c1.2).1
    constructor
    · rintro ⟨h1, h2⟩
      exact ⟨[116, 114, 117, 101], Or.inl rfl, h1, c1.2, h2⟩
    · rintro ⟨kw, hkw, h1, h2, h3⟩
      rcases hkw with rfl | rfl | rfl
      · exact ⟨h1, h3⟩
      · have := (hN.1 h2).1
        omega
      · have := (hF.1 h2).1
        omega
  · -- null
    simp only [Option.some.injEq] at ht
    subst ht
    rw [(finishValue_root_status mem b _ rfl rfl).1]
    simp only [advance_str_, touch_str_, advance_end_, touch_end_]
    have hb0 := (hN.1 c2.2).1
    constructor
    · rintro ⟨h1, h2⟩
      exact ⟨[110, 117, 108, 108], Or.inr (Or.inl rfl), h1, c2.2, h2⟩
    · rintro ⟨kw, hkw, h1, h2, h3⟩
      rcases hkw with rfl | rfl | rfl
      · have := (hT.1 h2).1
        omega
      · exact ⟨h1, h3⟩
      · have := (hF.1 h2).1
        omega
  · -- false
    simp only [Option.some.injEq] at ht
    subst ht
    rw [(finishValue_root_status mem b _ rfl rfl).1]
    simp only [advance_str_, touch_str_, advance_end_, touch_end_]
    have hb0 := (hF.1 c3.2).1
    constructor
    · rintro ⟨h1, h2⟩
      exact ⟨[102, 97, 108, 115, 101], Or.inr (Or.inr rfl), h1, c3.2, h2⟩
    · rintro ⟨kw, hkw, h1, h2, h3⟩
      rcases hkw with rfl | rfl | rfl
      · have := (hT.1 h2).1
        omega
      · have := (hN.1 h2).1
        omega
      · exact ⟨h1, h3⟩
  · -- no keyword
    simp only [Option.some.injEq] at ht
    subst ht
    constructor
    · intro h
      simp [exitStatus] at h
    · rintro ⟨kw, hkw, h1, h2, h3⟩
      exfalso
      have hE : (entryState p E).end_ = E := rfl
      rcases hkw with rfl | rfl | rfl
      · exact c1 ⟨by simp only [List.length_cons, List.length_nil] at h1; omega, h2⟩
      · exact c2 ⟨by simp only [List.length_cons, List.length_nil] at h1; omega, h2⟩
      · exact c3 ⟨by simp only [List.length_cons, List.length_nil] at h1; omega, h2⟩

/-- C7: on a buffer in which white space is followed by nothing, or by a byte
that is none of `"`, `-`, `{`, `[` and a decimal digit, `JsonParser_parse`
returns, and returns 0 exactly when the bytes from there on are one of the
keywords `true`, `null`, `false`, followed by nothing but white space up to the
end of the buffer. -/
theorem C7_keyword_documents (p : JsonParser) (mem : List Nat) (E b : Nat)
    (hws : ∀ i, i < b → isWhiteSpace (mem.getD i 0) = true) (hbE : b ≤ E)
    (hfirst : b < E → isWhiteSpace (mem.getD b 0) = false ∧ mem.getD b 0 ≠ 34 ∧
      mem.getD b 0 ≠ 45 ∧ mem.getD b 0 ≠ 123 ∧ mem.getD b 0 ≠ 91 ∧
      isdigit (mem.getD b 0) = false) :
    ∃ o, JsonParser_parse p mem E = some o ∧
      (o.status = 0 ↔
        ∃ kw, (kw = [116, 114, 117, 101] ∨ kw = [110, 117, 108, 108] ∨
            kw = [102, 97, 108, 115, 101]) ∧
          b + kw.length ≤ E ∧ slice mem b (b + kw.length) = kw ∧
          ∀ i, b + kw.length ≤ i → i < E → isWhiteSpace (mem.getD i 0) = true) := by
  by_cases hlt : b < E
  · exact parse_keyword_cases p mem E b hws hlt (hfirst hlt)
  · have hbeq : b = E := by omega
    subst hbeq
    obtain ⟨t, ht, -⟩ := parse_total p mem b
    have hW : WsTo mem (entryState p b).end_ (entryState p b).str_ b :=
      ⟨Nat.zero_le _, fun i _ hi => ⟨hi, hws i hi⟩, fun h => absurd h (Nat.lt_irrefl _)⟩
    have hp := parse_alive p mem b t ht
      (parseValue_end_alive mem _ _ t ht rfl
        (by rw [consumeWhiteSpaces_eq mem _ b hW]; exact Nat.le_refl _))
    refine ⟨_, hp, ?_⟩
    constructor
    · intro h0
      exfalso
      apply parse_blank p mem b hws
      rw [hp]
      simp only [statusOf, Option.map_some', Option.some.injEq]
      exact h0
    · rintro ⟨kw, hkw, h1, -, -⟩
      exfalso
      rcases hkw with rfl | rfl | rfl <;>
        simp only [List.length_cons, List.length_nil] at h1 <;> omega

set_option maxRecDepth 100000 in
/-- C7 at the 7-byte buffer ` true\r\n` (accepted), with the evaluation of the
inputs `True`, `xtrue`, `truex`, `false, false`, `false,false`, the empty
buffer and a buffer of two blanks (all rejected), each followed by the
terminating zero of a C string. -/
theorem C7_keyword_documents_witness :
    (∃ o, JsonParser_parse freshParser [32, 116, 114, 117, 101, 13, 10, 0] 7 = some o ∧
      (o.status = 0 ↔
        ∃ kw, (kw = [116, 114, 117, 101] ∨ kw = [110, 117, 108, 108] ∨
            kw = [102, 97, 108, 115, 101]) ∧
          1 + kw.length ≤ 7 ∧
          slice [32, 116, 114, 117, 101, 13, 10, 0] 1 (1 + kw.length) = kw ∧
          ∀ i, 1 + kw.length ≤ i → i < 7 →
            isWhiteSpace ([32, 116, 114, 117, 101, 13, 10, 0].getD i 0) = true)) ∧
    statusOf (JsonParser_parse freshParser [32, 116, 114, 117, 101, 13, 10, 0] 7) = some 0 ∧
    statusOf (JsonParser_parse freshParser [84, 114, 117, 101, 0] 4) = some 1 ∧
    statusOf (JsonParser_parse freshParser [120, 116, 114, 117, 101, 0] 5) = some 1 ∧
    statusOf (JsonParser_parse freshParser [116, 114, 117, 101, 120, 0] 5) = some 1 ∧
    statusOf (JsonParser_parse freshParser
      [102, 97, 108, 115, 101, 44, 32, 102, 97, 108, 115, 101, 0] 12) = some 1 ∧
    statusOf (JsonParser_parse freshParser
      [102, 97, 108, 115, 101, 44, 102, 97, 108, 115, 101, 0] 11) = some 1 ∧
    statusOf (JsonParser_parse freshParser [0] 0) = some 1 ∧
    statusOf (JsonParser_parse freshParser [32, 32, 0] 2) = some 1 :=
  ⟨C7_keyword_documents freshParser [32, 116, 114, 117, 101, 13, 10, 0] 7 1
    (by decide) (by decide) (by intro _; decide),
   by decide⟩

theorem skipDigits_digTo (mem : List Nat) (s : JsonParser) :
    skipDigits mem s = { s with str_ := (skipDigits mem s).str_ } ∧
    DigTo mem s.end_ s.str_ (skipDigits mem s).str_ := by
  obtain ⟨q, hq, hle, hws, hstop⟩ := skipDigits_spec mem s
  rw [hq]
  exact ⟨rfl, hle, hws, hstop⟩

theorem DigTo.dunique {mem : List Nat} {E a b c : Nat} (h1 : DigTo mem E a b)
    (h2 : DigTo mem E a c) : b = c := by
  rcases Nat.lt_trichotomy b c with h | h | h
  · have h3 := h2.2.1 b h1.1 h
    rw [h1.2.2 h3.1] at h3
    exact absurd h3.2 (by simp)
  · exact h
  · have h3 := h1.2.1 c h2.1 h
    rw [h2.2.2 h3.1] at h3
    exact absurd h3.2 (by simp)

theorem isdigit_iff (c : Nat) : isdigit c = true ↔ 48 ≤ c ∧ c ≤ 57 := by
  simp [isdigit]

theorem isdigit_false_iff (c : Nat) : isdigit c = false ↔ ¬(48 ≤ c ∧ c ≤ 57) := by
  rw [← isdigit_iff]
  simp

theorem isWhiteSpace_iff (c : Nat) :
    isWhiteSpace c = true ↔ c = 32 ∨ c = 9 ∨ c = 10 ∨ c = 13 := by
  simp [isWhiteSpace, or_assoc]

/-- The digit loop from the cursor, in terms of positions. -/
theorem skipDigits_eq (mem : List Nat) (s : JsonParser) (q : Nat)
    (h : DigTo mem s.end_ s.str_ q) : skipDigits mem s = { s with str_ := q } := by
  obtain ⟨h1, h2⟩ := skipDigits_digTo mem s
  rw [h1, h2.dunique h]

@[simp] theorem touchNe_str_ (s : JsonParser) : (touchNe s).str_ = s.str_ := by
  unfold touchNe; split <;> rfl

@[simp] theorem touchNe_end_ (s : JsonParser) : (touchNe s).end_ = s.end_ := by
  unfold touchNe; split <;> rfl

@[simp] theorem touchNe_isInvalid (s : JsonParser) : (touchNe s).isInvalid = s.isInvalid := by
  unfold touchNe; split <;> rfl

@[simp] theorem deref_touchNe (mem : List Nat) (s : JsonParser) (k : Nat) :
    deref mem (touchNe s) k = deref mem s k := by
  unfold touchNe; split <;> rfl

@[simp] theorem skipDigits_isInvalid (mem : List Nat) (s : JsonParser) :
    (skipDigits mem s).isInvalid = s.isInvalid := by
  rw [(skipDigits_digTo mem s).1]

/-- End of the exponent block: valid exactly when a digit stands at the cursor;
the cursor then moves to the end of the digit run. -/
theorem expDigits_run (mem : List Nat) (x : JsonParser) (hv : x.isInvalid = false) :
    ((parseNumberExpDigits mem x).isInvalid = false ↔ isdigit (mem.getD x.str_ 0) = true) ∧
    ((parseNumberExpDigits mem x).isInvalid = false →
      DigTo mem x.end_ x.str_ (parseNumberExpDigits mem x).str_) := by
  unfold parseNumberExpDigits
  simp only [deref_touch, deref_def, touch_str_, Nat.add_zero]
  by_cases hd : isdigit (mem.getD x.str_ 0) = true
  · rw [if_neg (by simp only [hd, Bool.not_true, Bool.false_eq_true, not_false_eq_true])]
    refine ⟨by simp only [skipDigits_isInvalid, touch_isInvalid, hv, hd], fun _ => ?_⟩
    exact (skipDigits_digTo mem (touch x 0)).2
  · have hd1 : isdigit (mem.getD x.str_ 0) = false := by
      cases h : isdigit (mem.getD x.str_ 0)
      · rfl
      · exact absurd h hd
    rw [if_pos (by rw [hd1]; rfl)]
    simp only [invalidate_isInvalid, Bool.true_eq_false, false_iff, false_imp_iff, and_true]
    exact hd

theorem ws_not_number_byte (c : Nat) (h : isWhiteSpace c = true) :
    isdigit c = false ∧ c ≠ 46 ∧ c ≠ 69 ∧ c ≠ 101 ∧ c ≠ 43 ∧ c ≠ 45 := by
  rw [isWhiteSpace_iff] at h
  rw [isdigit_false_iff]
  omega

/-- A digit run in terms of positions, from the bytes and what follows. -/
theorem digTo_of_digits (mem : List Nat) (E a e : Nat) (hae : a ≤ e) (heE : e ≤ E)
    (hd : ∀ i, a ≤ i → i < e → isdigit (mem.getD i 0) = true)
    (hstop : e < E → isdigit (mem.getD e 0) = false) : DigTo mem E a e :=
  ⟨hae, fun i h1 h2 => ⟨by omega, hd i h1 h2⟩, hstop⟩

/-- The exponent block, read from the grammar: on an absent exponent, or on
`e` or `E`, an optional sign and at least one digit, followed by the end of the
buffer or by white space, the parser stays valid and the cursor moves to the
end of the exponent. -/
theorem numberExp_complete (mem : List Nat) (x : JsonParser) (hv : x.isInvalid = false)
    (e : Nat) (heE : e ≤ x.end_) (hterm : e < x.end_ → isdigit (mem.getD e 0) = false ∧ mem.getD e 0 ≠ 46 ∧
      mem.getD e 0 ≠ 69 ∧ mem.getD e 0 ≠ 101)
    (hspec : e = x.str_ ∨
      ((mem.getD x.str_ 0 = 69 ∨ mem.getD x.str_ 0 = 101) ∧
        ∃ j, (j = x.str_ + 1 ∨
              (j = x.str_ + 2 ∧
                (mem.getD (x.str_ + 1) 0 = 43 ∨ mem.getD (x.str_ + 1) 0 = 45))) ∧
          j + 1 ≤ e ∧ ∀ i, j ≤ i → i < e → isdigit (mem.getD i 0) = true)) :
    (parseNumberExp mem x).isInvalid = false ∧ (parseNumberExp mem x).str_ = e := by
  have hstop : e < x.end_ → isdigit (mem.getD e 0) = false :=
    fun h => (hterm h).1
  unfold parseNumberExp
  simp only [touchNe_str_, touchNe_end_, deref_touchNe, deref_touch, deref_def, touch_str_,
    advance_str_, touch_end_, advance_end_, Nat.add_zero, bne_iff_ne, ne_eq, beq_iff_eq,
    Bool.and_eq_true, Bool.or_eq_true, decide_eq_true_eq, Bool.not_eq_true',
    decide_eq_false_iff_not]
  rcases hspec with he | ⟨hE, j, hj, hje, hdig⟩
  · -- no exponent
    subst he
    rw [if_neg]
    · simp only [touchNe_isInvalid, touchNe_str_, hv, and_self]
    · rintro ⟨h1, h2⟩
      have := hterm (by omega)
      omega
  · rw [if_pos ⟨by omega, hE⟩, if_neg (by omega)]
    rcases hj with hj | ⟨hj, hsign⟩
    · -- no sign: a digit stands behind the letter
      subst hj
      have hd1 := (isdigit_iff _).1 (hdig (x.str_ + 1) (Nat.le_refl _) (by omega))
      rw [if_neg (by omega)]
      have hx : (touch (advance (touchNe x) 1) 0).isInvalid = false := by
        simp only [advance_isInvalid, touch_isInvalid, touchNe_isInvalid, hv]
      obtain ⟨r1, r2⟩ := expDigits_run mem _ hx
      simp only [advance_str_, touch_str_, touchNe_str_, advance_end_, touch_end_,
        touchNe_end_] at r1 r2
      have hvr := r1.2 (hdig (x.str_ + 1) (Nat.le_refl _) (by omega))
      exact ⟨hvr, (r2 hvr).dunique (digTo_of_digits mem _ _ _ (by omega) heE hdig hstop)⟩
    · -- a sign
      subst hj
      rw [if_pos (by omega), if_neg (by omega)]
      have hx : (advance (touch (advance (touchNe x) 1) 0) 1).isInvalid = false := by
        simp only [advance_isInvalid, touch_isInvalid, touchNe_isInvalid, hv]
      obtain ⟨r1, r2⟩ := expDigits_run mem _ hx
      simp only [advance_str_, touch_str_, touchNe_str_, advance_end_, touch_end_,
        touchNe_end_] at r1 r2
      have hvr := r1.2 (hdig (x.str_ + 2) (Nat.le_refl _) (by omega))
      exact ⟨hvr, (r2 hvr).dunique (digTo_of_digits mem _ _ _ (by omega) heE hdig hstop)⟩

/-- The fraction and exponent blocks, read from the grammar. -/
theorem numberFrac_complete (mem : List Nat) (x : JsonParser) (hv : x.isInvalid = false)
    (i3 e : Nat) (heE : e ≤ x.end_)
    (hterm : e < x.end_ → isdigit (mem.getD e 0) = false ∧ mem.getD e 0 ≠ 46 ∧
      mem.getD e 0 ≠ 69 ∧ mem.getD e 0 ≠ 101)
    (hfrac : i3 = x.str_ ∨
      (mem.getD x.str_ 0 = 46 ∧ x.str_ + 2 ≤ i3 ∧
        ∀ i, x.str_ + 1 ≤ i → i < i3 → isdigit (mem.getD i 0) = true))
    (hexp : e = i3 ∨
      ((mem.getD i3 0 = 69 ∨ mem.getD i3 0 = 101) ∧
        ∃ j, (j = i3 + 1 ∨
              (j = i3 + 2 ∧ (mem.getD (i3 + 1) 0 = 43 ∨ mem.getD (i3 + 1) 0 = 45))) ∧
          j + 1 ≤ e ∧ ∀ i, j ≤ i → i < e → isdigit (mem.getD i 0) = true)) :
    (parseNumberFrac mem x).isInvalid = false ∧ (parseNumberFrac mem x).str_ = e := by
  -- what stands at `i3` is no digit and no point
  have hi3e : i3 ≤ e := by
    rcases hexp with h1 | ⟨-, j, hj, h2, -⟩
    · omega
    · omega
  have hat3 : i3 < x.end_ → isdigit (mem.getD i3 0) = false ∧ mem.getD i3 0 ≠ 46 := by
    intro hlt
    rcases hexp with h1 | ⟨h1, -⟩
    · have := hterm (by omega)
      rw [← h1]
      exact ⟨this.1, this.2.1⟩
    · rw [isdigit_false_iff]
      omega
  unfold parseNumberFrac
  simp only [touchNe_str_, touchNe_end_, deref_touchNe, deref_touch, deref_def, touch_str_,
    advance_str_, touch_end_, advance_end_, Nat.add_zero, bne_iff_ne, ne_eq, beq_iff_eq,
    Bool.and_eq_true, Bool.or_eq_true, decide_eq_true_eq, Bool.not_eq_true',
    decide_eq_false_iff_not]
  rcases hfrac with h3 | ⟨hpt, h3, hdig⟩
  · -- no fraction
    subst h3
    rw [if_neg]
    · exact numberExp_complete mem (touchNe x) (by simp only [touchNe_isInvalid, hv]) e
        (by simpa using heE) (by simpa using hterm) (by simpa using hexp)
    · rintro ⟨h1, h2⟩
      exact (hat3 (by omega)).2 h2
  · have hd := hdig (x.str_ + 1) (Nat.le_refl _) (by omega)
    rw [if_pos ⟨by omega, hpt⟩, if_neg (by omega), if_neg (by rw [hd]; simp)]
    have hdt : DigTo mem x.end_ (x.str_ + 1) i3 :=
      digTo_of_digits mem _ _ _ (by omega) (by omega) hdig (fun h => (hat3 h).1)
    rw [skipDigits_eq mem (advance (touch (touchNe x) 1) 1) i3 (by simpa using hdt)]
    exact numberExp_complete mem _ (by simp only [advance_isInvalid, touch_isInvalid,
      touchNe_isInvalid, hv]) e (by simpa using heE) (by simpa using hterm)
      (by simpa using hexp)

/-- The number production, read from the grammar: on bytes that match the
number grammar and are followed by the end of the buffer or by white space, the
parser stays valid and the cursor moves behind them. -/
theorem parseNumber_complete (mem : List Nat) (w : JsonParser) (hv : w.isInvalid = false)
    (e : Nat) (heE : e ≤ w.end_)
    (hterm : e < w.end_ → isdigit (mem.getD e 0) = false ∧ mem.getD e 0 ≠ 46 ∧
      mem.getD e 0 ≠ 69 ∧ mem.getD e 0 ≠ 101)
    (hspec : NumberSpan mem w.str_ e) :
    (JsonParser_parseNumber mem w).isInvalid = false ∧
      (JsonParser_parseNumber mem w).str_ = e := by
  obtain ⟨i1, i2, i3, hhead, hdigs, hfrac, hexp⟩ := hspec
  have hi3e : i3 ≤ e := by
    rcases hexp with h1 | ⟨-, j, hj, h2, -⟩
    · omega
    · omega
  have hi23 : i2 ≤ i3 := by
    rcases hfrac with h1 | ⟨-, h1, -⟩
    · omega
    · omega
  -- what stands at `i2` is no digit
  have hat2 : i2 < w.end_ → isdigit (mem.getD i2 0) = false := by
    intro hlt
    rcases hfrac with h1 | ⟨h1, -⟩
    · rcases hexp with h2 | ⟨h2, -⟩
      · have := hterm (by omega)
        rw [← h1, ← h2]
        exact this.1
      · rw [isdigit_false_iff, ← h1]
        omega
    · rw [isdigit_false_iff]
      omega
  unfold JsonParser_parseNumber
  simp only [deref_touch, deref_def, touch_str_, touch_end_, Nat.add_zero, beq_iff_eq,
    Bool.or_eq_true, Bool.not_eq_true']
  rcases hhead with ⟨hm, hd1, hd2, hi1⟩ | ⟨hd, hi1⟩
  · -- a minus sign
    have hdd : isdigit (mem.getD (w.str_ + 1) 0) = true := (isdigit_iff _).2 ⟨by omega, hd2⟩
    rw [if_pos hm, if_neg (by omega), if_neg]
    · have hdt : DigTo mem w.end_ (w.str_ + 1) i2 := by
        refine digTo_of_digits mem _ _ _ (by omega) (by omega) ?_ hat2
        intro i h1 h2
        by_cases hi : i = w.str_ + 1
        · rw [hi]; exact hdd
        · exact hdigs.2 i (by omega) h2
      rw [skipDigits_eq mem (advance (touch (touch w 0) 1) 1) i2 (by simpa using hdt)]
      exact numberFrac_complete mem _ (by simp only [advance_isInvalid, touch_isInvalid, hv])
        i3 e (by simpa using heE) (by simpa using hterm) (by simpa using hfrac) hexp
    · rw [hdd]
      simp only [Bool.true_eq_false, false_or]
      omega
  · -- a digit
    have hne : mem.getD w.str_ 0 ≠ 45 := by
      have := (isdigit_iff _).1 hd
      omega
    rw [if_neg hne]
    have hdt : DigTo mem w.end_ (w.str_ + 1) i2 :=
      digTo_of_digits mem _ _ _ (by omega) (by omega)
        (fun i h1 h2 => hdigs.2 i (by omega) h2) hat2
    rw [skipDigits_eq mem (advance (touch w 0) 1) i2 (by simpa using hdt)]
    exact numberFrac_complete mem _ (by simp only [advance_isInvalid, touch_isInvalid, hv])
      i3 e (by simpa using heE) (by simpa using hterm) (by simpa using hfrac) hexp

theorem StrBody.body_le {mem : List Nat} {p q : Nat} (h : StrBody mem p q) : p ≤ q := by
  induction h with
  | done p => exact Nat.le_refl _
  | plain p q _ _ _ _ ih => omega
  | escape p q _ _ _ ih => omega
  | unicode p q _ _ _ _ _ _ _ ih => omega

theorem Blank.wsTo {mem : List Nat} {E a b : Nat} (h : Blank mem a b) (hb : b ≤ E)
    (hs : b < E → isWhiteSpace (mem.getD b 0) = false) : WsTo mem E a b :=
  ⟨h.1, fun i h1 h2 => ⟨by omega, h.2 i h1 h2⟩, hs⟩

theorem lenFrom_nonneg (u : UriParts) : ∀ (k : Nat) (i : Int),
    (∀ j : Int, i ≤ j → j < i + k → 0 ≤ (u.parts j).len) → 0 ≤ lenFrom u k i := by
  intro k
  induction k with
  | zero => intro i _; simp [lenFrom]
  | succ k ih =>
    intro i h
    have h1 := h i (le_refl _) (by push_cast; omega)
    have h2 := ih (i + 1) (fun j hj1 hj2 => h j (by omega) (by push_cast; omega))
    simp only [lenFrom]; omega

/-- The address assembly succeeds when the segments have non-negative lengths
that add up to at most 500. -/
theorem informLoop_ok (mem : List Nat) (E : Nat) (u : UriParts) :
    ∀ (k : Nat) (i n : Int) (uri : List Nat) (bad : Bool),
      (∀ j : Int, i ≤ j → j < i + k → 0 ≤ (u.parts j).len) → n + lenFrom u k i ≤ 500 →
      ∃ r m bad1, informLoop mem E u k i n uri bad = (Assembly.done r m, bad1) := by
  intro k
  induction k with
  | zero => intro i n uri bad _ _; exact ⟨_, _, _, rfl⟩
  | succ k ih =>
    intro i n uri bad h hle
    have h1 := h i (le_refl _) (by push_cast; omega)
    have hrest : ∀ j : Int, i + 1 ≤ j → j < i + 1 + k → 0 ≤ (u.parts j).len :=
      fun j hj1 hj2 => h j (by omega) (by push_cast; omega)
    have h2 := lenFrom_nonneg u k (i + 1) hrest
    simp only [lenFrom] at hle
    have hno : ¬ (n + (u.parts i).len > MAX_URI_LEN) := by unfold MAX_URI_LEN; omega
    have hpos : ¬ ((u.parts i).len < 0) := by omega
    simp only [informLoop, if_neg hno, if_neg hpos]
    exact ih (i + 1) _ _ _ hrest (by omega)

theorem inform_ok (mem : List Nat) (s : JsonParser) (b : Nat) (l : Int)
    (hv : s.isInvalid = false) (h0 : 0 ≤ s.uriParts_.nParts) (hl : lensOk s.uriParts_)
    (hlen : pathLen s.uriParts_ ≤ 500) : (JsonParser_inform mem s b l).isInvalid = false := by
  obtain ⟨r, m, bad1, hr⟩ := informLoop_ok mem s.end_ s.uriParts_ s.uriParts_.nParts.toNat 0 0 []
    s.badCopy (fun j hj1 hj2 => hl j hj1 (by omega)) (by unfold pathLen at hlen; omega)
  unfold JsonParser_inform
  rw [hr]
  simp [hv]

/-- The tail of the value production reports and stays valid when the address
fits. -/
theorem finishValue_ok (mem : List Nat) (b : Nat) (x : JsonParser)
    (hv : x.isInvalid = false) (h0 : 0 ≤ x.uriParts_.nParts) (hl : lensOk x.uriParts_)
    (hlen : pathLen x.uriParts_ ≤ 500) :
    (finishValue mem b x).isInvalid = false ∧
    (finishValue mem b x).calls = x.calls ++ [ownCall mem x b x.str_] ∧
    (finishValue mem b x).uriParts_ = x.uriParts_ ∧
    (finishValue mem b x).end_ = x.end_ ∧
    WsTo mem x.end_ x.str_ (finishValue mem b x).str_ := by
  have h : (finishValue mem b x).isInvalid = false := by
    unfold finishValue
    have := (consumeWhiteSpaces_wsTo mem (JsonParser_inform mem x b ((x.str_ : Int) - (b : Int)))).1
    rw [this]
    exact inform_ok mem x b _ hv h0 hl hlen
  exact ⟨h, (finishValue_valid mem b x h).2⟩

theorem parseStringLoop_plain (mem : List Nat) (k : Nat) (s : JsonParser)
    (h : s.str_ < s.end_) (h1 : mem.getD s.str_ 0 ≠ 92) (h2 : mem.getD s.str_ 0 ≠ 34) :
    parseStringLoop mem (k + 1) s = parseStringLoop mem k (advance s 1) := by
  have e1 : (deref mem s 0 == 92) = false := beq_eq_false_iff_ne.mpr h1
  have e2 : (deref mem s 0 == 34) = false := beq_eq_false_iff_ne.mpr h2
  rw [parseStringLoop, if_pos h, e1, e2]
  simp

theorem parseStringLoop_close (mem : List Nat) (k : Nat) (s : JsonParser)
    (h : s.str_ < s.end_) (h2 : mem.getD s.str_ 0 = 34) :
    parseStringLoop mem (k + 1) s = advance s 1 := by
  have e1 : deref mem s 0 = 34 := h2
  rw [parseStringLoop, if_pos h, e1]
  simp

theorem parseStringLoop_escape (mem : List Nat) (k : Nat) (s : JsonParser)
    (h : s.str_ < s.end_) (h1 : mem.getD s.str_ 0 = 92) :
    parseStringLoop mem (k + 1) s = parseStringLoop mem k (JsonParser_parseExcapedChar mem s) := by
  have e1 : deref mem s 0 = 92 := h1
  rw [parseStringLoop, if_pos h, e1]
  simp

theorem parseExcapedChar_end (mem : List Nat) (s : JsonParser) :
    (JsonParser_parseExcapedChar mem s).end_ = s.end_ :=
  ((Scan.srefl s).parseExcapedChar mem).end_eq

theorem parseExcapedChar_at (mem : List Nat) (s : JsonParser) (c : Nat)
    (h : mem.getD (s.str_ + 1) 0 = c) :
    (JsonParser_parseExcapedChar mem s).str_ =
      (if c = 34 ∨ c = 92 ∨ c = 47 ∨ c = 8 ∨ c = 12 ∨ c = 10 ∨ c = 13 ∨ c = 9 then s.str_ + 2
       else if c = 117 then s.str_ + 3 else s.str_ + 1) := by
  have hd : deref mem (touch (advance s 1) 0) 0 = c := h
  unfold JsonParser_parseExcapedChar
  simp only [hd]
  by_cases h1 : c = 34 ∨ c = 92 ∨ c = 47 ∨ c = 8 ∨ c = 12 ∨ c = 10 ∨ c = 13 ∨ c = 9
  · rw [if_pos h1, if_pos (by simpa [or_assoc] using h1)]
    simp
  · rw [if_neg h1, if_neg (by simpa [or_assoc] using h1)]
    by_cases h2 : c = 117
    · rw [if_pos h2, if_pos (by simpa using h2)]; simp
    · rw [if_neg h2, if_neg (by simpa using h2)]; simp

/-- Cursor after the escape production, by the byte behind the backslash. -/
theorem parseExcapedChar_str (mem : List Nat) (s : JsonParser) :
    (mem.getD (s.str_ + 1) 0 = 34 ∨ mem.getD (s.str_ + 1) 0 = 92 ∨
        mem.getD (s.str_ + 1) 0 = 47 →
      (JsonParser_parseExcapedChar mem s).str_ = s.str_ + 2) ∧
    (mem.getD (s.str_ + 1) 0 = 98 ∨ mem.getD (s.str_ + 1) 0 = 102 ∨
        mem.getD (s.str_ + 1) 0 = 110 ∨ mem.getD (s.str_ + 1) 0 = 114 ∨
        mem.getD (s.str_ + 1) 0 = 116 →
      (JsonParser_parseExcapedChar mem s).str_ = s.str_ + 1) ∧
    (mem.getD (s.str_ + 1) 0 = 117 →
      (JsonParser_parseExcapedChar mem s).str_ = s.str_ + 3) := by
  refine ⟨?_, ?_, ?_⟩
  · rintro (h | h | h) <;> rw [parseExcapedChar_at mem s _ h] <;> simp
  · rintro (h | h | h | h | h) <;> rw [parseExcapedChar_at mem s _ h] <;> simp
  · intro h; rw [parseExcapedChar_at mem s _ h]; simp

theorem isHex_plain (c : Nat) (h : isHex c = true) : c ≠ 92 ∧ c ≠ 34 := by
  unfold isHex at h
  simp only [Bool.or_eq_true, Bool.and_eq_true, decide_eq_true_eq] at h
  omega

/-- The string loop started inside a well-formed string body runs to the byte
behind the closing quote. -/
theorem strBody_run (mem : List Nat) {p q : Nat} (h : StrBody mem p q) :
    ∀ (k : Nat) (s : JsonParser), s.str_ = p → q < s.end_ → mem.getD q 0 = 34 →
      s.end_ - p ≤ k → (parseStringLoop mem k s).str_ = q + 1 := by
  induction h with
  | done p =>
    intro k s hs hq h34 hk
    obtain ⟨k, rfl⟩ : ∃ k1, k = k1 + 1 := ⟨k - 1, by omega⟩
    rw [parseStringLoop_close mem k s (by omega) (by rw [hs]; exact h34)]
    simp [hs]
  | plain p q h32 hn34 hn92 hb ih =>
    intro k s hs hq h34 hk
    have := hb.body_le
    obtain ⟨k, rfl⟩ : ∃ k1, k = k1 + 1 := ⟨k - 1, by omega⟩
    rw [parseStringLoop_plain mem k s (by omega) (by rw [hs]; exact hn92) (by rw [hs]; exact hn34)]
    exact ih k _ (by simp [hs]) (by simpa using hq) h34 (by simp; omega)
  | escape p q h92 hc hb ih =>
    intro k s hs hq h34 hk
    have := hb.body_le
    obtain ⟨k, rfl⟩ : ∃ k1, k = k1 + 1 := ⟨k - 1, by omega⟩
    rw [parseStringLoop_escape mem k s (by omega) (by rw [hs]; exact h92)]
    have hstr := parseExcapedChar_str mem s
    have hend := parseExcapedChar_end mem s
    rw [hs] at hstr
    rcases hc with h | h | h | h | h | h | h | h
    · exact ih k _ (hstr.1 (Or.inl h)) (by rw [hend]; exact hq) h34 (by rw [hend]; omega)
    · exact ih k _ (hstr.1 (Or.inr (Or.inl h))) (by rw [hend]; exact hq) h34
        (by rw [hend]; omega)
    · exact ih k _ (hstr.1 (Or.inr (Or.inr h))) (by rw [hend]; exact hq) h34
        (by rw [hend]; omega)
    all_goals
      obtain ⟨k, rfl⟩ : ∃ k1, k = k1 + 1 := ⟨k - 1, by omega⟩
      have hpos : (JsonParser_parseExcapedChar mem s).str_ = p + 1 := hstr.2.1 (by rw [h]; decide)
      rw [parseStringLoop_plain mem k _ (by rw [hend, hpos]; omega)
        (by rw [hpos, h]; decide) (by rw [hpos, h]; decide)]
      exact ih k _ (by simp [hpos]) (by simpa [hend] using hq) h34 (by simp [hend]; omega)
  | unicode p q h92 h117 hx2 hx3 hx4 hx5 hb ih =>
    intro k s hs hq h34 hk
    have := hb.body_le
    obtain ⟨k, rfl⟩ : ∃ k1, k = k1 + 4 := ⟨k - 4, by omega⟩
    rw [parseStringLoop_escape mem (k + 3) s (by omega) (by rw [hs]; exact h92)]
    have hstr := parseExcapedChar_str mem s
    have hend := parseExcapedChar_end mem s
    rw [hs] at hstr
    have hpos : (JsonParser_parseExcapedChar mem s).str_ = p + 3 := hstr.2.2 h117
    rw [parseStringLoop_plain mem (k + 2) _ (by rw [hend, hpos]; omega)
      (by rw [hpos]; exact (isHex_plain _ hx3).1) (by rw [hpos]; exact (isHex_plain _ hx3).2)]
    rw [parseStringLoop_plain mem (k + 1) _ (by simp [hend, hpos]; omega)
      (by simp only [advance_str_, hpos]; exact (isHex_plain _ hx4).1)
      (by simp only [advance_str_, hpos]; exact (isHex_plain _ hx4).2)]
    rw [parseStringLoop_plain mem k _ (by simp [hend, hpos]; omega)
      (by simp only [advance_str_, hpos]; exact (isHex_plain _ hx5).1)
      (by simp only [advance_str_, hpos]; exact (isHex_plain _ hx5).2)]
    exact ih k _ (by simp [hpos]) (by simpa [hend] using hq) h34 (by simp [hend]; omega)

/-- The string production run on a well-formed string: only the cursor (and the
read marker) change, and the cursor is left behind the closing quote. -/
theorem rfcString_run (mem : List Nat) (s : JsonParser) (e : Nat)
    (h : RfcString mem s.str_ e) (he : e ≤ s.end_) :
    (JsonParser_parseString mem s).str_ = e ∧
    (JsonParser_parseString mem s).end_ = s.end_ ∧
    (JsonParser_parseString mem s).isInvalid = s.isInvalid ∧
    (JsonParser_parseString mem s).uriParts_ = s.uriParts_ ∧
    (JsonParser_parseString mem s).calls = s.calls := by
  obtain ⟨q, o, hq⟩ := parseString_frame mem s
  have h2 := h.2.1
  have hpos : (JsonParser_parseString mem s).str_ = e := by
    unfold JsonParser_parseString
    have := strBody_run mem h.2.2.1 ((advance s 1).end_ - (advance s 1).str_) (advance s 1)
      rfl (by simp; omega) h.2.2.2 (by simp)
    rw [this]; omega
  refine ⟨hpos, ?_, ?_, ?_, ?_⟩ <;> rw [hq]

theorem RfcNumber.numberSpan {mem : List Nat} {b e : Nat} (h : RfcNumber mem b e) :
    NumberSpan mem b e := by
  obtain ⟨i2, i3, hhead, hfrac, hexp⟩ := h
  rcases hhead with ⟨h45, h1, h2, hle, hd⟩ | ⟨h48, rfl⟩ | ⟨h1, h2, hle, hd⟩
  · exact ⟨b + 2, i2, i3, Or.inl ⟨h45, h1, h2, rfl⟩, ⟨hle, hd⟩, hfrac, hexp⟩
  · refine ⟨b + 1, b + 1, i3, Or.inr ⟨?_, rfl⟩, ⟨Nat.le_refl _, ?_⟩, hfrac, hexp⟩
    · rw [h48]; decide
    · intro i h1 h2; omega
  · refine ⟨b + 1, i2, i3, Or.inr ⟨?_, rfl⟩, ⟨hle, hd⟩, hfrac, hexp⟩
    rw [isdigit_iff]; omega

theorem FollowOk.number_stop {mem : List Nat} {E e : Nat} (h : FollowOk mem E e) (he : e < E) :
    isdigit (mem.getD e 0) = false ∧ mem.getD e 0 ≠ 46 ∧ mem.getD e 0 ≠ 69 ∧
      mem.getD e 0 ≠ 101 := by
  rcases h he with h | h | h | h
  · have hw := ws_not_number_byte _ h
    exact ⟨hw.1, hw.2.1, hw.2.2.1, hw.2.2.2.1⟩
  · rw [h]; decide
  · rw [h]; decide
  · rw [h]; decide

/-- The number production run on a well-formed number: the parser stays valid
and only the cursor (and the read marker) change, the cursor being left behind
the number. -/
theorem rfcNumber_run (mem : List Nat) (s : JsonParser) (e : Nat)
    (h : RfcNumber mem s.str_ e) (he : e ≤ s.end_) (hf : FollowOk mem s.end_ e)
    (hv : s.isInvalid = false) :
    (JsonParser_parseNumber mem s).str_ = e ∧
    (JsonParser_parseNumber mem s).end_ = s.end_ ∧
    (JsonParser_parseNumber mem s).isInvalid = false ∧
    (JsonParser_parseNumber mem s).uriParts_ = s.uriParts_ ∧
    (JsonParser_parseNumber mem s).calls = s.calls := by
  have h1 := parseNumber_complete mem s hv e he hf.number_stop h.numberSpan
  have h2 := (Scan.srefl s).parseNumber mem
  exact ⟨h1.2, h2.end_eq, h1.1, h2.parts_eq, h2.calls_eq⟩

theorem memcpyBytes_length (mem : List Nat) (p : Ptr) (l : Int) :
    (memcpyBytes mem p l).length = l.toNat := by
  simp [memcpyBytes]

theorem StateFor.same {mem : List Nat} {E : Nat} {s x : JsonParser} {path : List Nat} {n : Nat}
    (hs : StateFor mem E s path n) (hst : SameStack s.uriParts_ x.uriParts_)
    (hend : x.end_ = E) (hv : x.isInvalid = false) : StateFor mem E x path n := by
  refine ⟨hend, hv, ?_, ?_, ?_, ?_⟩
  · rw [hst.1]; exact hs.depth
  · rw [hst.pathBytes_eq mem]; exact hs.bytes
  · rw [hst.pathLen_eq]; exact hs.len
  · intro i h0 h1
    rw [hst.1] at h1
    rw [hst.2 i h0 h1]
    exact hs.lens i h0 h1

/-- Pushing a segment of non-negative length on a stack that has room: the
push succeeds, the new stack spells the extended address, and dropping the
segment from any stack with the same live segments gives back the old one. -/
theorem StateFor.push {mem : List Nat} {E : Nat} {s : JsonParser} {path : List Nat} {n : Nat}
    (hs : StateFor mem E s path n) (p : Ptr) (l : Int) (hl : 0 ≤ l) (hn : n < 50) :
    ∃ u, UriParts_appendString s.uriParts_ p l = (u, true) ∧
      (∀ x : JsonParser, x.end_ = E → x.isInvalid = false → x.uriParts_ = u →
        StateFor mem E x (path ++ memcpyBytes mem p l) (n + 1)) ∧
      (∀ v, SameStack u v → SameStack s.uriParts_ (UriParts_drop v)) := by
  have hd := hs.depth
  rcases appendString_cases s.uriParts_ p l with ⟨hge, _⟩ | ⟨hlt, heq⟩
  · unfold MAX_DEPTH at hge; omega
  · refine ⟨_, heq, ?_, ?_⟩
    · intro x hend hv hu
      have hp := push_path mem s.uriParts_ p l (by omega)
      refine ⟨hend, hv, ?_, ?_, ?_, ?_⟩
      · rw [hu]; simp only []; rw [hd]; push_cast; rfl
      · rw [hu, hp.1, hs.bytes]
      · rw [hu, hp.2, hs.len, List.length_append, memcpyBytes_length]
        push_cast; omega
      · rw [hu]
        intro i h0 h1
        simp only [] at h1 ⊢
        by_cases hi : i = s.uriParts_.nParts
        · rw [if_pos hi]; exact hl
        · rw [if_neg hi]; exact hs.lens i h0 (by omega)
    · intro v hv
      exact push_drop_same s.uriParts_ v _ hv

theorem RfcNumber.first {mem : List Nat} {b e : Nat} (h : RfcNumber mem b e) :
    (isdigit (mem.getD b 0) = true ∨ mem.getD b 0 = 45) ∧ b < e := by
  obtain ⟨i2, i3, hhead, hfrac, hexp⟩ := h
  have h2 : b + 1 ≤ i2 := by
    rcases hhead with ⟨_, _, _, hle, _⟩ | ⟨_, rfl⟩ | ⟨_, _, hle, _⟩ <;> omega
  have h3 : i2 ≤ i3 := by
    rcases hfrac with rfl | ⟨_, hle, _⟩ <;> omega
  have h4 : i3 ≤ e := by
    rcases hexp with rfl | ⟨_, j, hj, hle, _⟩
    · exact Nat.le_refl _
    · rcases hj with rfl | ⟨rfl, _⟩ <;> omega
  refine ⟨?_, by omega⟩
  rcases hhead with ⟨h45, _⟩ | ⟨h48, _⟩ | ⟨h1, h2, _⟩
  · exact Or.inr h45
  · left; rw [h48]; decide
  · left; rw [isdigit_iff]; omega

/-- Positions and stack sizes of well-formed text: a value is not empty and
lies in the buffer; members and elements are not empty and need one more
segment than their container has. -/
theorem Syn.bounds {mem : List Nat} {E : Nat} {part : Part} {path : List Nat}
    {n b e : Nat} {cs : List Call} {m : Nat} (h : Syn mem E part path n b e cs m) :
    match part with
    | Part.value => b < e ∧ e ≤ E ∧ n ≤ m
    | Part.members => b < e ∧ n + 1 ≤ m
    | Part.elements _ => b < e ∧ n + 1 ≤ m := by
  induction h with
  | kwTrue path n b h1 h2 => exact ⟨by omega, h1, Nat.le_refl _⟩
  | kwNull path n b h1 h2 => exact ⟨by omega, h1, Nat.le_refl _⟩
  | kwFalse path n b h1 h2 => exact ⟨by omega, h1, Nat.le_refl _⟩
  | number path n b e h1 h2 => exact ⟨h2.first.2, h1, Nat.le_refl _⟩
  | string path n b e h1 h2 => exact ⟨by have := h2.2.1; omega, h1, Nat.le_refl _⟩
  | emptyObject path n b q h1 h2 h3 h4 => exact ⟨by have := h2.1; omega, by omega, by omega⟩
  | object path n b q cs m h1 h2 h3 h4 ih =>
    simp only [] at ih
    exact ⟨by omega, by omega, by omega⟩
  | emptyArray path n b q h1 h2 h3 h4 => exact ⟨by have := h2.1; omega, by omega, by omega⟩
  | array path n b q cs m h1 h2 h3 h4 ih =>
    simp only [] at ih
    exact ⟨by omega, by omega, by omega⟩
  | member path n p k k1 c vb ve q cs m h1 h2 h3 h4 h5 h6 h7 ih =>
    simp only [] at ih
    have := h1.1; have := h2.2.1; have := h3.1; have := h5.1; have := h7.1
    exact ⟨by omega, by omega⟩
  | memberMore path n p k k1 c vb ve q q1 cs cs1 m m1 h1 h2 h3 h4 h5 h6 h7 h8 h9 ih ih1 =>
    simp only [] at ih ih1
    have := h1.1; have := h2.2.1; have := h3.1; have := h5.1; have := h7.1
    exact ⟨by omega, by omega⟩
  | element idx path n p vb ve q cs m h1 h2 h3 ih =>
    simp only [] at ih
    have := h1.1; have := h3.1
    exact ⟨by omega, by omega⟩
  | elementMore idx path n p vb ve q q1 cs cs1 m m1 h1 h2 h3 h4 h5 ih ih1 =>
    simp only [] at ih ih1
    have := h1.1; have := h3.1
    exact ⟨by omega, by omega⟩

theorem Syn.value_bounds {mem : List Nat} {E : Nat} {path : List Nat}
    {n b e : Nat} {cs : List Call} {m : Nat} (h : Syn mem E Part.value path n b e cs m) :
    b < e ∧ e ≤ E ∧ n ≤ m := h.bounds

theorem Syn.members_bounds {mem : List Nat} {E : Nat} {path : List Nat}
    {n b e : Nat} {cs : List Call} {m : Nat} (h : Syn mem E Part.members path n b e cs m) :
    b < e ∧ n + 1 ≤ m := h.bounds

theorem Syn.elements_bounds {mem : List Nat} {E : Nat} {path : List Nat} {idx : Nat}
    {n b e : Nat} {cs : List Call} {m : Nat}
    (h : Syn mem E (Part.elements idx) path n b e cs m) :
    b < e ∧ n + 1 ≤ m := h.bounds

/-- The first byte of a well-formed value: a quote, a minus sign, a digit, an
opening brace or bracket, or the first letter of a keyword. -/
theorem Syn.value_first {mem : List Nat} {E : Nat} {path : List Nat}
    {n b e : Nat} {cs : List Call} {m : Nat} (h : Syn mem E Part.value path n b e cs m) :
    mem.getD b 0 = 34 ∨ (isdigit (mem.getD b 0) = true ∨ mem.getD b 0 = 45) ∨
      mem.getD b 0 = 123 ∨ mem.getD b 0 = 91 ∨ mem.getD b 0 = 116 ∨ mem.getD b 0 = 110 ∨
      mem.getD b 0 = 102 := by
  cases h
  case kwTrue h1 h2 =>
    rw [slice_four] at h2
    exact Or.inr (Or.inr (Or.inr (Or.inr (Or.inl h2.1))))
  case kwNull h1 h2 =>
    rw [slice_four] at h2
    exact Or.inr (Or.inr (Or.inr (Or.inr (Or.inr (Or.inl h2.1)))))
  case kwFalse h1 h2 =>
    rw [slice_five] at h2
    exact Or.inr (Or.inr (Or.inr (Or.inr (Or.inr (Or.inr h2.1)))))
  case number h1 h2 => exact Or.inr (Or.inl h2.first.1)
  case string h1 h2 => exact Or.inl h2.1
  case emptyObject h3 h4 h1 h2 => exact Or.inr (Or.inr (Or.inl h1))
  case object h3 h4 h1 h2 => exact Or.inr (Or.inr (Or.inl h1))
  case emptyArray h3 h4 h1 h2 => exact Or.inr (Or.inr (Or.inr (Or.inl h1)))
  case array h3 h4 h1 h2 => exact Or.inr (Or.inr (Or.inr (Or.inl h1)))

theorem valueStart_plain (c : Nat)
    (h : c = 34 ∨ (isdigit c = true ∨ c = 45) ∨ c = 123 ∨ c = 91 ∨ c = 116 ∨ c = 110 ∨
      c = 102) :
    isWhiteSpace c = false ∧ c ≠ 93 ∧ c ≠ 44 ∧ c ≠ 125 := by
  rcases h with h | (h | h) | h | h | h | h | h
  all_goals first
    | (subst h; decide)
    | (rw [isdigit_iff] at h
       refine ⟨?_, by omega, by omega, by omega⟩
       cases hw : isWhiteSpace c
       · rfl
       · rw [isWhiteSpace_iff] at hw; omega)
theorem value_lead (mem : List Nat) (s : JsonParser) (b : Nat) (hb : Blank mem s.str_ b)
    (hE : b < s.end_) (hns : isWhiteSpace (mem.getD b 0) = false) :
    touch (JsonParser_consumeWhiteSpaces mem s) 0 = touch { s with str_ := b } 0 := by
  rw [consumeWhiteSpaces_eq mem s b (hb.wsTo (by omega) (fun _ => hns))]

theorem parseValue_string_at (mem : List Nat) (d : Nat) (s : JsonParser) (b : Nat)
    (hb : Blank mem s.str_ b) (hE : b < s.end_) (h : mem.getD b 0 = 34) :
    JsonParser_parseValue mem (d + 1) s
      = some (finishValue mem b (JsonParser_parseString mem (touch { s with str_ := b } 0))) := by
  have hns : isWhiteSpace (mem.getD b 0) = false := by rw [h]; decide
  have hd : deref mem (touch { s with str_ := b } 0) 0 = 34 := h
  rw [JsonParser_parseValue]
  rw [value_lead mem s b hb hE hns]
  simp only [hd]
  rfl

theorem parseValue_number_at (mem : List Nat) (d : Nat) (s : JsonParser) (b : Nat)
    (hb : Blank mem s.str_ b) (hE : b < s.end_)
    (h : isdigit (mem.getD b 0) = true ∨ mem.getD b 0 = 45) :
    JsonParser_parseValue mem (d + 1) s
      = some (finishValue mem b (JsonParser_parseNumber mem (touch { s with str_ := b } 0))) := by
  have hp := valueStart_plain _ (Or.inr (Or.inl h))
  have c1 : (deref mem (touch { s with str_ := b } 0) 0 == 34) = false := by
    apply beq_eq_false_iff_ne.mpr
    show mem.getD b 0 ≠ 34
    rcases h with h | h
    · rw [isdigit_iff] at h; omega
    · omega
  have c2 : (isdigit (deref mem (touch { s with str_ := b } 0) 0)
      || deref mem (touch { s with str_ := b } 0) 0 == 45) = true := by
    show (isdigit (mem.getD b 0) || mem.getD b 0 == 45) = true
    rcases h with h | h
    · rw [h]; rfl
    · rw [h]; rfl
  rw [JsonParser_parseValue]
  rw [value_lead mem s b hb hE hp.1]
  simp only [c1, c2]
  rfl

theorem parseValue_object_at (mem : List Nat) (d : Nat) (s : JsonParser) (b : Nat)
    (hb : Blank mem s.str_ b) (hE : b < s.end_) (h : mem.getD b 0 = 123) :
    JsonParser_parseValue mem (d + 1) s
      = match JsonParser_parseObject (JsonParser_parseValue mem d) mem
          (touch { s with str_ := b } 0) with
        | none => none
        | some s1 => some (finishValue mem b s1) := by
  have hns : isWhiteSpace (mem.getD b 0) = false := by rw [h]; decide
  have hd : deref mem (touch { s with str_ := b } 0) 0 = 123 := h
  rw [JsonParser_parseValue]
  rw [value_lead mem s b hb hE hns]
  simp only [hd]
  rfl

theorem parseValue_array_at (mem : List Nat) (d : Nat) (s : JsonParser) (b : Nat)
    (hb : Blank mem s.str_ b) (hE : b < s.end_) (h : mem.getD b 0 = 91) :
    JsonParser_parseValue mem (d + 1) s
      = match JsonParser_parseArray (JsonParser_parseValue mem d) mem
          (touch { s with str_ := b } 0) with
        | none => none
        | some s1 => some (finishValue mem b s1) := by
  have hns : isWhiteSpace (mem.getD b 0) = false := by rw [h]; decide
  have hd : deref mem (touch { s with str_ := b } 0) 0 = 91 := h
  rw [JsonParser_parseValue]
  rw [value_lead mem s b hb hE hns]
  simp only [hd]
  rfl

theorem keyword_head (mem : List Nat) (s : JsonParser) (b c : Nat) (h : mem.getD b 0 = c)
    (hc : c = 116 ∨ c = 110 ∨ c = 102) :
    (deref mem (touch { s with str_ := b } 0) 0 == 34) = false ∧
    (isdigit (deref mem (touch { s with str_ := b } 0) 0)
      || deref mem (touch { s with str_ := b } 0) 0 == 45) = false ∧
    (deref mem (touch { s with str_ := b } 0) 0 == 123) = false ∧
    (deref mem (touch { s with str_ := b } 0) 0 == 91) = false := by
  have hd : deref mem (touch { s with str_ := b } 0) 0 = c := h
  rw [hd]
  rcases hc with rfl | rfl | rfl <;> decide

theorem strncmpEq_first (mem : List Nat) (s : JsonParser) (lit : List Nat) (n : Nat)
    (h : mem.getD s.str_ 0 ≠ lit.getD 0 0) : strncmpEq mem s lit (n + 1) 0 = false := by
  have hd : (deref mem s 0 != lit.getD 0 0) = true := by
    rw [bne_iff_ne]; exact h
  rw [strncmpEq, if_pos hd]

theorem parseValue_true_at (mem : List Nat) (d : Nat) (s : JsonParser) (b : Nat)
    (hb : Blank mem s.str_ b) (hE : b + 4 ≤ s.end_)
    (h : slice mem b (b + 4) = [116, 114, 117, 101]) :
    JsonParser_parseValue mem (d + 1) s
      = some (finishValue mem b (advance (touch { s with str_ := b } 0) 4)) := by
  have h0 := ((slice_four mem b _ _ _ _).1 h).1
  have hns : isWhiteSpace (mem.getD b 0) = false := by rw [h0]; decide
  obtain ⟨c1, c2, c3, c4⟩ := keyword_head mem s b _ h0 (Or.inl rfl)
  have c5 : (decide (((touch { s with str_ := b } 0).end_ : Int)
      - ((touch { s with str_ := b } 0).str_ : Int) ≥ 4)
      && strncmpEq mem (touch { s with str_ := b } 0) [116, 114, 117, 101, 0] 4 0) = true := by
    rw [Bool.and_eq_true]
    refine ⟨decide_eq_true ?_, (strncmpEq_true mem _).2 h⟩
    show (s.end_ : Int) - (b : Int) ≥ 4
    omega
  rw [JsonParser_parseValue, value_lead mem s b hb (by omega) hns]
  simp only [c1, c2, c3, c4, c5]
  rfl

theorem parseValue_null_at (mem : List Nat) (d : Nat) (s : JsonParser) (b : Nat)
    (hb : Blank mem s.str_ b) (hE : b + 4 ≤ s.end_)
    (h : slice mem b (b + 4) = [110, 117, 108, 108]) :
    JsonParser_parseValue mem (d + 1) s
      = some (finishValue mem b (advance (touch { s with str_ := b } 0) 4)) := by
  have h0 := ((slice_four mem b _ _ _ _).1 h).1
  have hns : isWhiteSpace (mem.getD b 0) = false := by rw [h0]; decide
  obtain ⟨c1, c2, c3, c4⟩ := keyword_head mem s b _ h0 (Or.inr (Or.inl rfl))
  have c5 : strncmpEq mem (touch { s with str_ := b } 0) [116, 114, 117, 101, 0] 4 0 = false :=
    strncmpEq_first mem _ _ 3 (by show mem.getD b 0 ≠ 116; omega)
  have c6 : (decide (((touch { s with str_ := b } 0).end_ : Int)
      - ((touch { s with str_ := b } 0).str_ : Int) ≥ 4)
      && strncmpEq mem (touch { s with str_ := b } 0) [110, 117, 108, 108, 0] 4 0) = true := by
    rw [Bool.and_eq_true]
    refine ⟨decide_eq_true ?_, (strncmpEq_null mem _).2 h⟩
    show (s.end_ : Int) - (b : Int) ≥ 4
    omega
  rw [JsonParser_parseValue, value_lead mem s b hb (by omega) hns]
  simp only [c1, c2, c3, c4, c5, c6, Bool.and_false]
  rfl

theorem parseValue_false_at (mem : List Nat) (d : Nat) (s : JsonParser) (b : Nat)
    (hb : Blank mem s.str_ b) (hE : b + 5 ≤ s.end_)
    (h : slice mem b (b + 5) = [102, 97, 108, 115, 101]) :
    JsonParser_parseValue mem (d + 1) s
      = some (finishValue mem b (advance (touch { s with str_ := b } 0) 5)) := by
  have h0 := ((slice_five mem b _ _ _ _ _).1 h).1
  have hns : isWhiteSpace (mem.getD b 0) = false := by rw [h0]; decide
  obtain ⟨c1, c2, c3, c4⟩ := keyword_head mem s b _ h0 (Or.inr (Or.inr rfl))
  have c5 : strncmpEq mem (touch { s with str_ := b } 0) [116, 114, 117, 101, 0] 4 0 = false :=
    strncmpEq_first mem _ _ 3 (by show mem.getD b 0 ≠ 116; omega)
  have c6 : strncmpEq mem (touch { s with str_ := b } 0) [110, 117, 108, 108, 0] 4 0 = false :=
    strncmpEq_first mem _ _ 3 (by show mem.getD b 0 ≠ 110; omega)
  have c7 : (decide (((touch { s with str_ := b } 0).end_ : Int)
      - ((touch { s with str_ := b } 0).str_ : Int) ≥ 5)
      && strncmpEq mem (touch { s with str_ := b } 0) [102, 97, 108, 115, 101, 0] 5 0)
        = true := by
    rw [Bool.and_eq_true]
    refine ⟨decide_eq_true ?_, (strncmpEq_false mem _).2 h⟩
    show (s.end_ : Int) - (b : Int) ≥ 5
    omega
  rw [JsonParser_parseValue, value_lead mem s b hb (by omega) hns]
  simp only [c1, c2, c3, c4, c5, c6, c7, Bool.and_false]
  rfl

/-- The tail of the value production in a state whose stack spells `path`: one
report with that address, the stack kept, white space skipped. -/
theorem value_finish {mem : List Nat} {E : Nat} {x : JsonParser} {path : List Nat} {n : Nat}
    (hx : StateFor mem E x path n) (b : Nat) (hlen : (path.length : Int) ≤ 500) :
    (finishValue mem b x).end_ = E ∧ (finishValue mem b x).isInvalid = false ∧
    (finishValue mem b x).uriParts_ = x.uriParts_ ∧
    (finishValue mem b x).calls = x.calls ++ [report path b x.str_] ∧
    WsTo mem E x.str_ (finishValue mem b x).str_ := by
  obtain ⟨f1, f2, f3, f4, f5⟩ := finishValue_ok mem b x hx.valid
    (by rw [hx.depth]; omega) hx.lens (by rw [hx.len]; exact hlen)
  refine ⟨by rw [f4, hx.end_eq], f1, f3, ?_, by rw [← hx.end_eq]; exact f5⟩
  rw [f2]
  simp only [ownCall, report, hx.bytes, hx.len]
theorem with_str_self (y : JsonParser) : { y with str_ := y.str_ } = y := by
  cases y; rfl

theorem Blank.ne_of_lt {mem : List Nat} {a b : Nat} (h : Blank mem a b) (hlt : a ≠ b) :
    isWhiteSpace (mem.getD a 0) = true ∧ Blank mem (a + 1) b := by
  have := h.1
  exact ⟨h.2 a (Nat.le_refl _) (by omega), by omega, fun i h1 h2 => h.2 i (by omega) h2⟩

theorem ws_plain (c : Nat) (h : isWhiteSpace c = true) :
    c ≠ 34 ∧ c ≠ 125 ∧ c ≠ 44 ∧ c ≠ 58 ∧ c ≠ 93 := by
  rw [isWhiteSpace_iff] at h; omega

/-- The colon loop of the key/value production skips white space up to the
colon and runs the value production behind it. -/
theorem keyValueLoop_blank (pv : JsonParser → Option JsonParser) (mem : List Nat) (c : Nat) :
    ∀ (k : Nat) (y : JsonParser), y.isInvalid = false → Blank mem y.str_ c → c < y.end_ →
      mem.getD c 0 = 58 → y.end_ - y.str_ ≤ k →
      parseKeyValueLoop pv mem k y
        = match pv (advance { y with str_ := c } 1) with
          | none => none
          | some s => some { s with uriParts_ := UriParts_drop s.uriParts_ } := by
  intro k
  induction k with
  | zero => intro y hv hb hc h58 hk; have := hb.1; omega
  | succ k ih =>
    intro y hv hb hc h58 hk
    have hle := hb.1
    have hcond : (decide (y.str_ < y.end_) && !y.isInvalid) = true := by
      rw [hv]; simp; omega
    rw [parseKeyValueLoop, if_pos hcond]
    by_cases heq : y.str_ = c
    · have hd : (deref mem y 0 == 58) = true := by
        rw [beq_iff_eq]; show mem.getD (y.str_ + 0) 0 = 58; rw [Nat.add_zero, heq]; exact h58
      rw [if_pos hd, ← heq, with_str_self]
    · obtain ⟨hws, hb1⟩ := hb.ne_of_lt heq
      have hd : ¬ (deref mem y 0 == 58) = true := by
        rw [beq_iff_eq]; exact (ws_plain _ hws).2.2.2.1
      rw [if_neg hd]
      exact ih (advance y 1) hv hb1 hc h58 (by simp; omega)

/-- The member loop of the object production skips white space. -/
theorem objectLoop_blank (pv : JsonParser → Option JsonParser) (mem : List Nat) (q : Nat) :
    ∀ (k : Nat) (y : JsonParser), y.isInvalid = false → Blank mem y.str_ q → q < y.end_ →
      y.end_ - y.str_ ≤ k →
      ∃ k1, y.end_ - q ≤ k1 ∧
        parseObjectLoop pv mem k y = parseObjectLoop pv mem k1 { y with str_ := q } := by
  intro k
  induction k with
  | zero => intro y hv hb hc hk; have := hb.1; omega
  | succ k ih =>
    intro y hv hb hc hk
    have hle := hb.1
    by_cases heq : y.str_ = q
    · exact ⟨k + 1, by omega, by rw [← heq, with_str_self]⟩
    · obtain ⟨hws, hb1⟩ := hb.ne_of_lt heq
      have hp := ws_plain _ hws
      have hcond : (decide (y.str_ < y.end_) && !y.isInvalid) = true := by
        rw [hv]; simp; omega
      have d1 : ¬ (deref mem y 0 == 34) = true := by rw [beq_iff_eq]; exact hp.1
      have d2 : ¬ (deref mem y 0 == 125) = true := by rw [beq_iff_eq]; exact hp.2.1
      have d3 : ¬ (deref mem y 0 == 44) = true := by rw [beq_iff_eq]; exact hp.2.2.1
      have d4 : ¬ (!isWhiteSpace (deref mem y 0)) = true := by
        have : isWhiteSpace (deref mem y 0) = true := hws
        rw [this]; decide
      rw [parseObjectLoop, if_pos hcond, if_neg d1, if_neg d2, if_neg d3, if_neg d4]
      obtain ⟨k1, hk1, h1⟩ := ih (advance y 1) hv hb1 hc (by simp; omega)
      exact ⟨k1, hk1, h1⟩

theorem objectLoop_close (pv : JsonParser → Option JsonParser) (mem : List Nat) (k : Nat)
    (y : JsonParser) (hv : y.isInvalid = false) (hlt : y.str_ < y.end_)
    (h : mem.getD y.str_ 0 = 125) :
    parseObjectLoop pv mem (k + 1) y
      = some (advance { y with uriParts_ := UriParts_drop y.uriParts_ } 1) := by
  have hcond : (decide (y.str_ < y.end_) && !y.isInvalid) = true := by
    rw [hv]; simp; omega
  have hd : deref mem y 0 = 125 := h
  rw [parseObjectLoop, if_pos hcond, hd]
  rfl

theorem objectLoop_comma (pv : JsonParser → Option JsonParser) (mem : List Nat) (k : Nat)
    (y : JsonParser) (hv : y.isInvalid = false) (hlt : y.str_ < y.end_)
    (h : mem.getD y.str_ 0 = 44) :
    parseObjectLoop pv mem (k + 1) y = parseObjectLoop pv mem k (advance y 1) := by
  have hcond : (decide (y.str_ < y.end_) && !y.isInvalid) = true := by
    rw [hv]; simp; omega
  have hd : deref mem y 0 = 44 := h
  rw [parseObjectLoop, if_pos hcond, hd]
  rfl

theorem objectLoop_key (pv : JsonParser → Option JsonParser) (mem : List Nat) (k : Nat)
    (y : JsonParser) (hv : y.isInvalid = false) (hlt : y.str_ < y.end_)
    (h : mem.getD y.str_ 0 = 34) :
    parseObjectLoop pv mem (k + 1) y
      = match JsonParser_parseKeyValue pv mem y with
        | none => none
        | some s => parseObjectLoop pv mem k s := by
  have hcond : (decide (y.str_ < y.end_) && !y.isInvalid) = true := by
    rw [hv]; simp; omega
  have hd : deref mem y 0 = 34 := h
  rw [parseObjectLoop, if_pos hcond, hd]
  rfl
theorem parseKeyValue_push (pv : JsonParser → Option JsonParser) (mem : List Nat)
    (s0 : JsonParser) (u : UriParts)
    (hu : UriParts_appendString (JsonParser_parseString mem s0).uriParts_ (Ptr.json (s0.str_ + 1))
      (((JsonParser_parseString mem s0).str_ : Int) - 1 - ((s0.str_ + 1 : Nat) : Int)) = (u, true)) :
    JsonParser_parseKeyValue pv mem s0
      = parseKeyValueLoop pv mem
          ((JsonParser_parseString mem s0).end_ - (JsonParser_parseString mem s0).str_)
          { JsonParser_parseString mem s0 with uriParts_ := u } := by
  unfold JsonParser_parseKeyValue
  simp only [hu]

theorem parseObject_push (pv : JsonParser → Option JsonParser) (mem : List Nat)
    (s : JsonParser) (u : UriParts)
    (hu : UriParts_appendString s.uriParts_ Ptr.objectUri 1 = (u, true)) :
    JsonParser_parseObject pv mem s
      = parseObjectLoop pv mem ((advance s 1).end_ - (advance s 1).str_)
          (advance { s with uriParts_ := u } 1) := by
  unfold JsonParser_parseObject
  rw [appendObject_eq]
  simp only [hu]

/-- One member read by the member loop of the object production: white space,
the key, the colon, the value (by the value production `pv`, which is assumed
to read it), white space up to the byte at `q`. -/
theorem member_step (pv : JsonParser → Option JsonParser) (mem : List Nat) (E : Nat)
    {s : JsonParser} {path : List Nat} {n : Nat}
    (hs : StateFor mem E s path n) (hn : n < 50)
    (k k1 c ve q : Nat) (cs : List Call)
    (h1 : Blank mem s.str_ k) (h2 : RfcString mem k k1) (h3 : Blank mem k1 c)
    (h4 : mem.getD c 0 = 58) (hc : c < E)
    (hval : ∀ y : JsonParser, StateFor mem E y (path ++ slice mem (k + 1) (k1 - 1)) (n + 1) →
      y.str_ = c + 1 → ∃ t, pv y = some t ∧ After y t cs ∧ WsTo mem E ve t.str_)
    (h7 : Blank mem ve q) (hq : q < E) (hqs : isWhiteSpace (mem.getD q 0) = false)
    (hkq : k < q) (k0 : Nat) (hk0 : E - s.str_ ≤ k0) :
    ∃ k2 t, parseObjectLoop pv mem k0 s = parseObjectLoop pv mem k2 t ∧ E - q ≤ k2 ∧
      t.str_ = q ∧ StateFor mem E t path n ∧ SameStack s.uriParts_ t.uriParts_ ∧
      t.calls = s.calls ++ cs := by
  have hE := hs.end_eq
  have hk1 := h2.2.1
  have hk1c := h3.1
  obtain ⟨ka, hka, e1⟩ := objectLoop_blank pv mem k k0 s hs.valid h1 (by omega) (by omega)
  obtain ⟨kb, rfl⟩ : ∃ kb, ka = kb + 1 := ⟨ka - 1, by omega⟩
  obtain ⟨r1, r2, r3, r4, r5⟩ := rfcString_run mem { s with str_ := k } k1 h2
    (by show k1 ≤ s.end_; omega)
  have r2a : (JsonParser_parseString mem { s with str_ := k }).end_ = E := by rw [r2]; exact hE
  have r3a : (JsonParser_parseString mem { s with str_ := k }).isInvalid = false := by
    rw [r3]; exact hs.valid
  have r4a : (JsonParser_parseString mem { s with str_ := k }).uriParts_ = s.uriParts_ := r4
  have r5a : (JsonParser_parseString mem { s with str_ := k }).calls = s.calls := r5
  have hx1 : StateFor mem E (JsonParser_parseString mem { s with str_ := k }) path n :=
    hs.same (by rw [r4a]; exact SameStack.srefl_stack _) r2a r3a
  obtain ⟨u, hu, hpush, hdrop⟩ := hx1.push (Ptr.json (k + 1))
    (((JsonParser_parseString mem { s with str_ := k }).str_ : Int) - 1 - ((k + 1 : Nat) : Int))
    (by rw [r1]; push_cast; omega) hn
  have hbytes : memcpyBytes mem (Ptr.json (k + 1))
      (((JsonParser_parseString mem { s with str_ := k }).str_ : Int) - 1 - ((k + 1 : Nat) : Int))
      = slice mem (k + 1) (k1 - 1) := by
    rw [r1, ← memcpyBytes_json mem (k + 1) (k1 - 1) (by omega)]
    congr 1
    omega
  rw [hbytes] at hpush
  obtain ⟨t, ht, hafter, hws⟩ := hval
    (advance { ({ JsonParser_parseString mem { s with str_ := k } with uriParts_ := u }
      : JsonParser) with str_ := c } 1)
    (hpush _ r2a r3a rfl) rfl
  have heq : t.str_ = q := WsTo.unique hws (h7.wsTo (by omega) (fun _ => hqs))
  have hst : SameStack s.uriParts_ (UriParts_drop t.uriParts_) := by
    have := hdrop t.uriParts_ hafter.stack
    rw [r4a] at this
    exact this
  refine ⟨kb, { t with uriParts_ := UriParts_drop t.uriParts_ }, ?_, by omega, heq,
    hs.same hst ?_ hafter.valid, hst, ?_⟩
  · rw [e1, objectLoop_key pv mem kb { s with str_ := k } hs.valid (by show k < s.end_; omega) h2.1,
      parseKeyValue_push pv mem _ u hu,
      keyValueLoop_blank pv mem c _
        { JsonParser_parseString mem { s with str_ := k } with uriParts_ := u } r3a (by show Blank mem _ c; rw [r1]; exact h3)
        (by show c < (JsonParser_parseString mem { s with str_ := k }).end_; omega) h4
        (Nat.le_refl _),
      ht]
  · show t.end_ = E
    rw [hafter.end_eq]; exact r2a
  · show t.calls = s.calls ++ cs
    rw [hafter.calls]
    show (JsonParser_parseString mem { s with str_ := k }).calls ++ cs = s.calls ++ cs
    rw [r5a]
theorem arrayLoop_push (pv : JsonParser → Option JsonParser) (mem : List Nat) (k idx : Nat)
    (s : JsonParser) (u : UriParts) (t : JsonParser)
    (hv : s.isInvalid = false) (hlt : s.str_ < s.end_)
    (hu : UriParts_appendString (JsonParser_consumeWhiteSpaces mem s).uriParts_
      (Ptr.buffer (indexLabel idx)) ((indexLabel idx).length : Int) = (u, true))
    (ht : pv { JsonParser_consumeWhiteSpaces mem s with uriParts_ := u } = some t) :
    parseArrayLoop pv mem (k + 1) idx s
      = if deref mem (touch (JsonParser_consumeWhiteSpaces mem
            { t with uriParts_ := UriParts_drop t.uriParts_ }) 0) 0 == 44 then
          parseArrayLoop pv mem k (idx + 1) (advance (touch (JsonParser_consumeWhiteSpaces mem
            { t with uriParts_ := UriParts_drop t.uriParts_ }) 0) 1)
        else if deref mem (touch (JsonParser_consumeWhiteSpaces mem
            { t with uriParts_ := UriParts_drop t.uriParts_ }) 0) 0 == 93 then
          some (advance (touch (JsonParser_consumeWhiteSpaces mem
            { t with uriParts_ := UriParts_drop t.uriParts_ }) 0) 1)
        else some (invalidate (touch (JsonParser_consumeWhiteSpaces mem
            { t with uriParts_ := UriParts_drop t.uriParts_ }) 0)) := by
  have hcond : (decide (s.str_ < s.end_) && !s.isInvalid) = true := by
    rw [hv]; simp; omega
  rw [parseArrayLoop, if_pos hcond]
  simp only [hu, ht]

/-- One element read by the element loop of the array production: white space,
the value (by the value production `pv`, which is assumed to read it), white
space up to the byte at `q`; the loop then looks at that byte. -/
theorem element_step (pv : JsonParser → Option JsonParser) (mem : List Nat) (E : Nat)
    {s : JsonParser} {path : List Nat} {n : Nat}
    (hs : StateFor mem E s path n) (hn : n < 50)
    (idx vb ve q : Nat) (cs : List Call)
    (h1 : Blank mem s.str_ vb) (hvb : vb < E) (hvs : isWhiteSpace (mem.getD vb 0) = false)
    (hval : ∀ y : JsonParser, StateFor mem E y (path ++ indexLabel idx) (n + 1) →
      y.str_ = vb → ∃ t, pv y = some t ∧ After y t cs ∧ WsTo mem E ve t.str_)
    (h7 : Blank mem ve q) (hq : q < E) (hqs : isWhiteSpace (mem.getD q 0) = false)
    (k : Nat) :
    ∃ t, t.str_ = q ∧ StateFor mem E t path n ∧ SameStack s.uriParts_ t.uriParts_ ∧
      t.calls = s.calls ++ cs ∧
      parseArrayLoop pv mem (k + 1) idx s
        = if mem.getD q 0 = 44 then parseArrayLoop pv mem k (idx + 1) (advance t 1)
          else if mem.getD q 0 = 93 then some (advance t 1)
          else some (invalidate t) := by
  have hE := hs.end_eq
  have hle := h1.1
  have hcw : JsonParser_consumeWhiteSpaces mem s = { s with str_ := vb } :=
    consumeWhiteSpaces_eq mem s vb (h1.wsTo (by omega) (fun _ => hvs))
  have hx : StateFor mem E { s with str_ := vb } path n :=
    hs.same (SameStack.srefl_stack _) hE hs.valid
  obtain ⟨u, hu, hpush, hdrop⟩ := hx.push (Ptr.buffer (indexLabel idx))
    ((indexLabel idx).length : Int) (by omega) hn
  rw [memcpyBytes_buffer] at hpush
  obtain ⟨t, ht, hafter, hws⟩ := hval
    { ({ s with str_ := vb } : JsonParser) with uriParts_ := u } (hpush _ hE hs.valid rfl) rfl
  have heq : t.str_ = q := WsTo.unique hws (h7.wsTo (by omega) (fun _ => hqs))
  have hst : SameStack s.uriParts_ (UriParts_drop t.uriParts_) := hdrop t.uriParts_ hafter.stack
  have htE : t.end_ = E := by rw [hafter.end_eq]; exact hE
  have hstop : JsonParser_consumeWhiteSpaces mem { t with uriParts_ := UriParts_drop t.uriParts_ }
      = { t with uriParts_ := UriParts_drop t.uriParts_ } :=
    consumeWhiteSpaces_stop mem _ (fun _ => by show isWhiteSpace (mem.getD t.str_ 0) = false
                                               rw [heq]; exact hqs)
  have hd : deref mem (touch { t with uriParts_ := UriParts_drop t.uriParts_ } 0) 0
      = mem.getD q 0 := by
    show mem.getD (t.str_ + 0) 0 = mem.getD q 0
    rw [Nat.add_zero, heq]
  refine ⟨touch { t with uriParts_ := UriParts_drop t.uriParts_ } 0, heq,
    hs.same hst htE hafter.valid, hst, ?_, ?_⟩
  · show t.calls = s.calls ++ cs
    rw [hafter.calls]
  · rw [arrayLoop_push pv mem k idx s u t hs.valid (by omega) (by rw [hcw]; exact hu)
      (by rw [hcw]; exact ht), hstop, hd]
    simp only [beq_iff_eq]
theorem Blank.follow {mem : List Nat} {ve q : Nat} (E : Nat) (h : Blank mem ve q)
    (hq : mem.getD q 0 = 44 ∨ mem.getD q 0 = 125 ∨ mem.getD q 0 = 93) : FollowOk mem E ve := by
  intro _
  by_cases heq : ve = q
  · rw [heq]; exact Or.inr hq
  · exact Or.inl (h.ne_of_lt heq).1

/-- The end of a run of the value production: the scanner or container
production left the state `x` behind the value, and the tail reports it. -/
theorem value_run {mem : List Nat} {E : Nat} {s : JsonParser} {path : List Nat} {n : Nat}
    (hs : StateFor mem E s path n) (b e : Nat) (cs : List Call) (x : JsonParser)
    (hx1 : x.str_ = e) (hx2 : x.end_ = E) (hx3 : x.isInvalid = false)
    (hx4 : SameStack s.uriParts_ x.uriParts_) (hx5 : x.calls = s.calls ++ cs)
    (r : Option JsonParser) (hpv : r = some (finishValue mem b x))
    (hlen : (path.length : Int) ≤ 500) :
    ∃ t, r = some t ∧ After s t (cs ++ [report path b e]) ∧ WsTo mem E e t.str_ := by
  have hx : StateFor mem E x path n := hs.same hx4 hx2 hx3
  obtain ⟨f1, f2, f3, f4, f5⟩ := value_finish hx b hlen
  refine ⟨_, hpv, ⟨by rw [f1, hs.end_eq], f2, by rw [f3]; exact hx4, ?_⟩, by rw [← hx1]; exact f5⟩
  rw [f4, hx5, hx1, List.append_assoc]

theorem parseArray_empty (pv : JsonParser → Option JsonParser) (mem : List Nat)
    (x : JsonParser) (q : Nat) (hb : Blank mem (x.str_ + 1) q) (hq : q < x.end_)
    (h93 : mem.getD q 0 = 93) :
    JsonParser_parseArray pv mem x = some (advance (touch { x with str_ := q } 0) 1) := by
  have hw : JsonParser_consumeWhiteSpaces mem (advance x 1) = { x with str_ := q } :=
    consumeWhiteSpaces_eq mem (advance x 1) q
      (hb.wsTo (by show q ≤ x.end_; omega) (fun _ => by rw [h93]; decide))
  have hd : deref mem (touch { x with str_ := q } 0) 0 = 93 := by
    show mem.getD (q + 0) 0 = 93
    rw [Nat.add_zero]; exact h93
  unfold JsonParser_parseArray
  simp only [hw, hd]
  rfl

theorem parseArray_loop (pv : JsonParser → Option JsonParser) (mem : List Nat)
    (x : JsonParser) (vb : Nat) (hb : Blank mem (x.str_ + 1) vb) (hq : vb < x.end_)
    (hws : isWhiteSpace (mem.getD vb 0) = false) (h93 : mem.getD vb 0 ≠ 93) :
    JsonParser_parseArray pv mem x
      = parseArrayLoop pv mem (x.end_ - vb) 0 (touch { x with str_ := vb } 0) := by
  have hw : JsonParser_consumeWhiteSpaces mem (advance x 1) = { x with str_ := vb } :=
    consumeWhiteSpaces_eq mem (advance x 1) vb
      (hb.wsTo (by show vb ≤ x.end_; omega) (fun _ => hws))
  have hd : (deref mem (touch { x with str_ := vb } 0) 0 == 93) = false := by
    apply beq_eq_false_iff_ne.mpr
    show mem.getD (vb + 0) 0 ≠ 93
    rw [Nat.add_zero]; exact h93
  unfold JsonParser_parseArray
  simp only [hw, hd]
  rfl

theorem Syn.elements_first {mem : List Nat} {E : Nat} {path : List Nat} {idx : Nat}
    {n p q : Nat} {cs : List Call} {m : Nat}
    (h : Syn mem E (Part.elements idx) path n p q cs m) :
    ∃ vb, Blank mem p vb ∧ vb < E ∧ isWhiteSpace (mem.getD vb 0) = false ∧
      mem.getD vb 0 ≠ 93 := by
  cases h with
  | element _ _ _ _ vb ve _ _ _ h1 h2 h3 =>
    have hp := valueStart_plain _ h2.value_first
    have := h2.value_bounds
    exact ⟨vb, h1, by omega, hp.1, hp.2.1⟩
  | elementMore _ _ _ _ vb ve _ _ _ _ _ _ h1 h2 h3 h4 h5 =>
    have hp := valueStart_plain _ h2.value_first
    have := h2.value_bounds
    exact ⟨vb, h1, by omega, hp.1, hp.2.1⟩
/-- The object production: it pushes the `/` segment and runs the member loop
behind the opening brace; the loop is assumed to run up to the byte behind the
closing brace at `q`. -/
theorem parseObject_members (pv : JsonParser → Option JsonParser) (mem : List Nat) (E : Nat)
    {x : JsonParser} {path : List Nat} {n : Nat} (hx : StateFor mem E x path n) (hn : n < 50)
    (q : Nat) (cs : List Call)
    (hloop : ∀ (k : Nat) (y : JsonParser), StateFor mem E y (path ++ [47]) (n + 1) →
      y.str_ = x.str_ + 1 → y.calls = x.calls → E - (x.str_ + 1) ≤ k →
      ∃ t, parseObjectLoop pv mem k y = some t ∧ t.str_ = q + 1 ∧ t.end_ = E ∧
        t.isInvalid = false ∧ SameStack (UriParts_drop y.uriParts_) t.uriParts_ ∧
        t.calls = y.calls ++ cs) :
    ∃ t, JsonParser_parseObject pv mem x = some t ∧ t.str_ = q + 1 ∧ t.end_ = E ∧
      t.isInvalid = false ∧ SameStack x.uriParts_ t.uriParts_ ∧ t.calls = x.calls ++ cs := by
  obtain ⟨u, hu, hpush, hdrop⟩ := hx.push Ptr.objectUri 1 (by omega) hn
  rw [memcpyBytes_objectUri] at hpush
  obtain ⟨t, e1, h1, h2, h3, h4, h5⟩ := hloop ((advance x 1).end_ - (advance x 1).str_)
    (advance { x with uriParts_ := u } 1) (hpush _ hx.end_eq hx.valid rfl) rfl rfl
    (by show E - (x.str_ + 1) ≤ x.end_ - (x.str_ + 1); rw [hx.end_eq])
  refine ⟨t, ?_, h1, h2, h3, (hdrop u (SameStack.srefl_stack u)).strans_stack h4, h5⟩
  rw [parseObject_push pv mem x u hu, e1]

/-- Completeness of the productions on well-formed text, by induction on the
derivation: the value production reads a value and makes its reports; the
member loop reads the members up to the closing brace; the element loop reads
the elements up to the closing bracket. -/
theorem syn_run (mem : List Nat) (E : Nat) {part : Part} {path : List Nat} {n b e : Nat}
    {cs : List Call} {m : Nat} (h : Syn mem E part path n b e cs m) :
    m ≤ 50 → (∀ c ∈ cs, c.keyLen ≤ 500) →
    match part with
    | Part.value =>
      ∀ (d : Nat) (s : JsonParser), StateFor mem E s path n → Blank mem s.str_ b →
        E ≤ s.str_ + d → FollowOk mem E e →
        ∃ t, JsonParser_parseValue mem d s = some t ∧ After s t cs ∧ WsTo mem E e t.str_
    | Part.members =>
      ∀ (d k : Nat) (s : JsonParser), StateFor mem E s path n → s.str_ = b →
        E ≤ b + d → E - b ≤ k → e < E → mem.getD e 0 = 125 →
        ∃ t, parseObjectLoop (JsonParser_parseValue mem d) mem k s = some t ∧
          t.str_ = e + 1 ∧ t.end_ = E ∧ t.isInvalid = false ∧
          SameStack (UriParts_drop s.uriParts_) t.uriParts_ ∧ t.calls = s.calls ++ cs
    | Part.elements idx =>
      ∀ (d k : Nat) (s : JsonParser), StateFor mem E s path n →
        (s.str_ = b ∨ WsTo mem E b s.str_) → E ≤ s.str_ + d → E - s.str_ ≤ k → e < E →
        mem.getD e 0 = 93 →
        ∃ t, parseArrayLoop (JsonParser_parseValue mem d) mem k idx s = some t ∧
          t.str_ = e + 1 ∧ After s t cs := by
  induction h with
  | kwTrue path n b h1 h2 =>
    intro hm hk d s hs hb hd hf
    have hle := hb.1
    have hE := hs.end_eq
    obtain ⟨d, rfl⟩ : ∃ d1, d = d1 + 1 := ⟨d - 1, by omega⟩
    exact value_run hs b (b + 4) [] (advance (touch { s with str_ := b } 0) 4) rfl hE hs.valid
      (SameStack.srefl_stack _) (List.append_nil _).symm _
      (parseValue_true_at mem d s b hb (by omega) h2) (hk _ (List.mem_singleton.2 rfl))
  | kwNull path n b h1 h2 =>
    intro hm hk d s hs hb hd hf
    have hle := hb.1
    have hE := hs.end_eq
    obtain ⟨d, rfl⟩ : ∃ d1, d = d1 + 1 := ⟨d - 1, by omega⟩
    exact value_run hs b (b + 4) [] (advance (touch { s with str_ := b } 0) 4) rfl hE hs.valid
      (SameStack.srefl_stack _) (List.append_nil _).symm _
      (parseValue_null_at mem d s b hb (by omega) h2) (hk _ (List.mem_singleton.2 rfl))
  | kwFalse path n b h1 h2 =>
    intro hm hk d s hs hb hd hf
    have hle := hb.1
    have hE := hs.end_eq
    obtain ⟨d, rfl⟩ : ∃ d1, d = d1 + 1 := ⟨d - 1, by omega⟩
    exact value_run hs b (b + 5) [] (advance (touch { s with str_ := b } 0) 5) rfl hE hs.valid
      (SameStack.srefl_stack _) (List.append_nil _).symm _
      (parseValue_false_at mem d s b hb (by omega) h2) (hk _ (List.mem_singleton.2 rfl))
  | number path n b e h1 h2 =>
    intro hm hk d s hs hb hd hf
    have hle := hb.1
    have hE := hs.end_eq
    have hbe := h2.first.2
    obtain ⟨d, rfl⟩ : ∃ d1, d = d1 + 1 := ⟨d - 1, by omega⟩
    obtain ⟨r1, r2, r3, r4, r5⟩ := rfcNumber_run mem (touch { s with str_ := b } 0) e h2
      (by show e ≤ s.end_; omega) (by show FollowOk mem s.end_ e; rw [hE]; exact hf) hs.valid
    exact value_run hs b e [] _ r1 (r2.trans hE) r3 (by rw [r4]; exact SameStack.srefl_stack _)
      (by rw [r5]; exact (List.append_nil _).symm) _
      (parseValue_number_at mem d s b hb (by omega) h2.first.1)
      (hk _ (List.mem_singleton.2 rfl))
  | string path n b e h1 h2 =>
    intro hm hk d s hs hb hd hf
    have hle := hb.1
    have hE := hs.end_eq
    have hbe := h2.2.1
    obtain ⟨d, rfl⟩ : ∃ d1, d = d1 + 1 := ⟨d - 1, by omega⟩
    obtain ⟨r1, r2, r3, r4, r5⟩ := rfcString_run mem (touch { s with str_ := b } 0) e h2
      (by show e ≤ s.end_; omega)
    exact value_run hs b e [] _ r1 (r2.trans hE) (r3.trans hs.valid)
      (by rw [r4]; exact SameStack.srefl_stack _)
      (by rw [r5]; exact (List.append_nil _).symm) _
      (parseValue_string_at mem d s b hb (by omega) h2.1)
      (hk _ (List.mem_singleton.2 rfl))
  | emptyObject path n b q h1 h2 h3 h4 =>
    intro hm hk d s hs hb hd hf
    have hle := hb.1
    have hE := hs.end_eq
    have hbq := h2.1
    obtain ⟨d, rfl⟩ : ∃ d1, d = d1 + 1 := ⟨d - 1, by omega⟩
    have hx : StateFor mem E (touch { s with str_ := b } 0) path n :=
      hs.same (SameStack.srefl_stack _) hE hs.valid
    obtain ⟨t1, e1, r1, r2, r3, r4, r5⟩ := parseObject_members (JsonParser_parseValue mem d)
      mem E hx (by omega) q [] (by
        intro k y hy hys hyc hk0
        obtain ⟨k1, hk1, e1⟩ := objectLoop_blank (JsonParser_parseValue mem d) mem q k y
          hy.valid (by rw [hys]; exact h2) (by rw [hy.end_eq]; exact h3)
          (by rw [hy.end_eq, hys]; exact hk0)
        rw [hy.end_eq] at hk1
        obtain ⟨k2, rfl⟩ : ∃ k2, k1 = k2 + 1 := ⟨k1 - 1, by omega⟩
        refine ⟨advance { ({ y with str_ := q } : JsonParser) with
            uriParts_ := UriParts_drop y.uriParts_ } 1, ?_, rfl, hy.end_eq, hy.valid,
          SameStack.srefl_stack _, (List.append_nil _).symm⟩
        rw [e1, objectLoop_close (JsonParser_parseValue mem d) mem k2 { y with str_ := q }
          hy.valid (by show q < y.end_; rw [hy.end_eq]; exact h3) h4])
    refine value_run hs b (q + 1) [] t1 r1 r2 r3 r4 r5 _ ?_ (hk _ (List.mem_singleton.2 rfl))
    rw [parseValue_object_at mem d s b hb (by omega) h1, e1]
  | object path n b q cs m h1 h2 h3 h4 ih =>
    intro hm hk d s hs hb hd hf
    have hle := hb.1
    have hE := hs.end_eq
    have hbq := h2.members_bounds
    obtain ⟨d, rfl⟩ : ∃ d1, d = d1 + 1 := ⟨d - 1, by omega⟩
    have hx : StateFor mem E (touch { s with str_ := b } 0) path n :=
      hs.same (SameStack.srefl_stack _) hE hs.valid
    obtain ⟨t1, e1, r1, r2, r3, r4, r5⟩ := parseObject_members (JsonParser_parseValue mem d)
      mem E hx (by omega) q cs (by
        intro k y hy hys hyc hk0
        exact ih hm (fun c hc => hk c (List.mem_append_left _ hc)) d k y hy hys (by omega)
          hk0 h3 h4)
    refine value_run hs b (q + 1) cs t1 r1 r2 r3 r4 r5 _ ?_
      (hk _ (List.mem_append_right _ (List.mem_singleton.2 rfl)))
    rw [parseValue_object_at mem d s b hb (by omega) h1, e1]
  | emptyArray path n b q h1 h2 h3 h4 =>
    intro hm hk d s hs hb hd hf
    have hle := hb.1
    have hE := hs.end_eq
    have hbq := h2.1
    obtain ⟨d, rfl⟩ : ∃ d1, d = d1 + 1 := ⟨d - 1, by omega⟩
    refine value_run hs b (q + 1) []
      (advance (touch { touch { s with str_ := b } 0 with str_ := q } 0) 1) rfl hE hs.valid
      (SameStack.srefl_stack _) (List.append_nil _).symm _ ?_ (hk _ (List.mem_singleton.2 rfl))
    rw [parseValue_array_at mem d s b hb (by omega) h1,
      parseArray_empty (JsonParser_parseValue mem d) mem (touch { s with str_ := b } 0) q h2
        (by show q < s.end_; omega) h4]
  | array path n b q cs m h1 h2 h3 h4 ih =>
    intro hm hk d s hs hb hd hf
    have hle := hb.1
    have hE := hs.end_eq
    have hbq := h2.elements_bounds
    obtain ⟨vb, hv1, hv2, hv3, hv4⟩ := h2.elements_first
    have hbv := hv1.1
    obtain ⟨d, rfl⟩ : ∃ d1, d = d1 + 1 := ⟨d - 1, by omega⟩
    have hx : StateFor mem E (touch { touch { s with str_ := b } 0 with str_ := vb } 0) path n :=
      hs.same (SameStack.srefl_stack _) hE hs.valid
    obtain ⟨t1, e1, r1, r2⟩ := ih hm (fun c hc => hk c (List.mem_append_left _ hc)) d
      ((touch { s with str_ := b } 0).end_ - vb) _ hx
      (Or.inr (hv1.wsTo (by omega) (fun _ => hv3)))
      (by show E ≤ vb + d; omega) (by show E - vb ≤ s.end_ - vb; omega) h3 h4
    refine value_run hs b (q + 1) cs t1 r1 (r2.end_eq.trans hE) r2.valid r2.stack r2.calls _ ?_
      (hk _ (List.mem_append_right _ (List.mem_singleton.2 rfl)))
    rw [parseValue_array_at mem d s b hb (by omega) h1,
      parseArray_loop (JsonParser_parseValue mem d) mem (touch { s with str_ := b } 0) vb hv1
        (by show vb < s.end_; omega) hv3 hv4, e1]
  | member path n p k k1 c vb ve q cs m h1 h2 h3 h4 h5 h6 h7 ih =>
    intro hm hk d k0 s hs hsb hd hk0 hq h125
    have hvb := h6.value_bounds
    have b1 := h1.1; have b2 := h2.2.1; have b3 := h3.1; have b5 := h5.1; have b7 := h7.1
    obtain ⟨k2, t, e1, hk2, htq, hts, hst, hcalls⟩ := member_step (JsonParser_parseValue mem d)
      mem E hs (by omega) k k1 c ve q cs (by rw [hsb]; exact h1) h2 h3 h4 (by omega)
      (fun y hy hyc => ih hm hk d y hy (by rw [hyc]; exact h5) (by omega)
        (h7.follow E (Or.inr (Or.inl h125))))
      h7 hq (by rw [h125]; decide) (by omega) k0 (by omega)
    obtain ⟨k3, rfl⟩ : ∃ k3, k2 = k3 + 1 := ⟨k2 - 1, by omega⟩
    refine ⟨advance { t with uriParts_ := UriParts_drop t.uriParts_ } 1, ?_, ?_, hts.end_eq,
      hts.valid, hst.drop_both, hcalls⟩
    · rw [e1, objectLoop_close (JsonParser_parseValue mem d) mem k3 t hts.valid
        (by rw [htq, hts.end_eq]; exact hq) (by rw [htq]; exact h125)]
    · show t.str_ + 1 = q + 1
      rw [htq]
  | memberMore path n p k k1 c vb ve q q1 cs cs1 m m1 h1 h2 h3 h4 h5 h6 h7 h8 h9 ih ih1 =>
    intro hm hk d k0 s hs hsb hd hk0 hq h125
    have hvb := h6.value_bounds
    have hmb := h9.members_bounds
    have b1 := h1.1; have b2 := h2.2.1; have b3 := h3.1; have b5 := h5.1; have b7 := h7.1
    obtain ⟨k2, t, e1, hk2, htq, hts, hst, hcalls⟩ := member_step (JsonParser_parseValue mem d)
      mem E hs (by omega) k k1 c ve q cs (by rw [hsb]; exact h1) h2 h3 h4 (by omega)
      (fun y hy hyc => ih (by omega) (fun c hc => hk c (List.mem_append_left _ hc)) d y hy
        (by rw [hyc]; exact h5) (by omega) (h7.follow E (Or.inl h8)))
      h7 (by omega) (by rw [h8]; decide) (by omega) k0 (by omega)
    obtain ⟨k3, rfl⟩ : ∃ k3, k2 = k3 + 1 := ⟨k2 - 1, by omega⟩
    obtain ⟨t2, e2, r1, r2, r3, r4, r5⟩ := ih1 (by omega)
      (fun c hc => hk c (List.mem_append_right _ hc)) d k3 (advance t 1)
      (hts.same (SameStack.srefl_stack _) hts.end_eq hts.valid)
      (by show t.str_ + 1 = q + 1; rw [htq]) (by omega) (by omega) hq h125
    refine ⟨t2, ?_, r1, r2, r3, hst.drop_both.strans_stack r4, ?_⟩
    · rw [e1, objectLoop_comma (JsonParser_parseValue mem d) mem k3 t hts.valid
        (by rw [htq, hts.end_eq]; omega) (by rw [htq]; exact h8), e2]
    · rw [r5]
      show t.calls ++ cs1 = s.calls ++ (cs ++ cs1)
      rw [hcalls, List.append_assoc]
  | element idx path n p vb ve q cs m h1 h2 h3 ih =>
    intro hm hk d k0 s hs hsb hd hk0 hq h93
    have hvb := h2.value_bounds
    have hp := valueStart_plain _ h2.value_first
    have b1 := h1.1; have b3 := h3.1
    have hblank : Blank mem s.str_ vb := by
      rcases hsb with heq | hw
      · rw [heq]; exact h1
      · rw [WsTo.unique hw (h1.wsTo (by omega) (fun _ => hp.1))]
        exact ⟨Nat.le_refl _, fun i h1 h2 => by omega⟩
    have b0 := hblank.1
    obtain ⟨k1, rfl⟩ : ∃ k1, k0 = k1 + 1 := ⟨k0 - 1, by omega⟩
    obtain ⟨t, htq, hts, hst, hcalls, e1⟩ := element_step (JsonParser_parseValue mem d) mem E hs
      (by omega) idx vb ve q cs hblank (by omega) hp.1
      (fun y hy hyc => ih hm hk d y hy
        (by rw [hyc]; exact ⟨Nat.le_refl _, fun i h1 h2 => by omega⟩) (by omega)
        (h3.follow E (Or.inr (Or.inr h93))))
      h3 hq (by rw [h93]; decide) k1
    refine ⟨advance t 1, ?_, by show t.str_ + 1 = q + 1; rw [htq],
      ⟨hts.end_eq.trans hs.end_eq.symm, hts.valid, hst, hcalls⟩⟩
    rw [e1, if_neg (by rw [h93]; decide), if_pos h93]
  | elementMore idx path n p vb ve q q1 cs cs1 m m1 h1 h2 h3 h4 h5 ih ih1 =>
    intro hm hk d k0 s hs hsb hd hk0 hq h93
    have hvb := h2.value_bounds
    have hmb := h5.elements_bounds
    have hp := valueStart_plain _ h2.value_first
    have b1 := h1.1; have b3 := h3.1
    have hblank : Blank mem s.str_ vb := by
      rcases hsb with heq | hw
      · rw [heq]; exact h1
      · rw [WsTo.unique hw (h1.wsTo (by omega) (fun _ => hp.1))]
        exact ⟨Nat.le_refl _, fun i h1 h2 => by omega⟩
    have b0 := hblank.1
    obtain ⟨k1, rfl⟩ : ∃ k1, k0 = k1 + 1 := ⟨k0 - 1, by omega⟩
    obtain ⟨t, htq, hts, hst, hcalls, e1⟩ := element_step (JsonParser_parseValue mem d) mem E hs
      (by omega) idx vb ve q cs hblank (by omega) hp.1
      (fun y hy hyc => ih (by omega) (fun c hc => hk c (List.mem_append_left _ hc)) d y hy
        (by rw [hyc]; exact ⟨Nat.le_refl _, fun i h1 h2 => by omega⟩) (by omega)
        (h3.follow E (Or.inl h4)))
      h3 (by omega) (by rw [h4]; decide) k1
    obtain ⟨t2, e2, r1, r2⟩ := ih1 (by omega)
      (fun c hc => hk c (List.mem_append_right _ hc)) d k1 (advance t 1)
      (hts.same (SameStack.srefl_stack _) hts.end_eq hts.valid)
      (Or.inl (by show t.str_ + 1 = q + 1; rw [htq]))
      (by show E ≤ t.str_ + 1 + d; omega) (by show E - (t.str_ + 1) ≤ k1; omega) hq h93
    refine ⟨t2, ?_, r1, ⟨?_, r2.valid, hst.strans_stack r2.stack, ?_⟩⟩
    · rw [e1, if_pos h4, e2]
    · rw [r2.end_eq]
      exact hts.end_eq.trans hs.end_eq.symm
    · rw [r2.calls]
      show t.calls ++ cs1 = s.calls ++ (cs ++ cs1)
      rw [hcalls, List.append_assoc]
theorem entryState_stateFor (p : JsonParser) (mem : List Nat) (E : Nat) :
    StateFor mem E (entryState p E) [] 0 :=
  ⟨rfl, rfl, rfl, rfl, rfl, fun i h0 h1 => absurd h1 (by show ¬ i < 0; omega)⟩

/-- Completeness of `JsonParser_parse` on well-formed documents: status 0 and
exactly the reports that are due. -/
theorem syn_parse (p : JsonParser) (mem : List Nat) (E b e : Nat) (cs : List Call) (m : Nat)
    (hdoc : Syn mem E Part.value [] 0 b e cs m) (hlead : Blank mem 0 b)
    (htrail : Blank mem e E) (hdepth : m ≤ 50) (haddr : ∀ c ∈ cs, c.keyLen ≤ 500) :
    statusOf (JsonParser_parse p mem E) = some 0 ∧
      callsOf (JsonParser_parse p mem E) = some cs := by
  obtain ⟨t, e1, hafter, hws⟩ := syn_run mem E hdoc hdepth haddr (E + 1) (entryState p E)
    (entryState_stateFor p mem E) hlead (by show E ≤ 0 + (E + 1); omega)
    (fun he => Or.inl (htrail.2 e (Nat.le_refl _) he))
  have hstr : t.str_ = E :=
    WsTo.unique hws (htrail.wsTo (Nat.le_refl _) (fun h => absurd h (Nat.lt_irrefl _)))
  have hn : t.uriParts_.nParts = 0 := hafter.stack.1
  have hend : t.end_ = E := hafter.end_eq
  have hcalls : t.calls = cs := hafter.calls
  have hst : exitStatus t = 0 := by
    simp [exitStatus, hn, hafter.valid, hstr, hend]
  rw [parse_alive p mem E t e1 (run_valid_alive p mem E t e1 hafter.valid)]
  simp [statusOf, callsOf, hst, hcalls]

theorem blank_nil (mem : List Nat) (a : Nat) : Blank mem a a :=
  ⟨Nat.le_refl _, fun i h1 h2 => absurd h2 (by omega)⟩

theorem parseObject_full (pv : JsonParser → Option JsonParser) (mem : List Nat)
    (s : JsonParser) (h : MAX_DEPTH ≤ s.uriParts_.nParts) :
    JsonParser_parseObject pv mem s = some (invalidate (refused s)) := by
  rcases appendString_cases s.uriParts_ Ptr.objectUri 1 with ⟨_, heq⟩ | ⟨hlt, _⟩
  · unfold JsonParser_parseObject
    rw [appendObject_eq, heq]
  · omega

theorem parseKeyValue_full (pv : JsonParser → Option JsonParser) (mem : List Nat)
    (s : JsonParser) (h : MAX_DEPTH ≤ s.uriParts_.nParts) :
    JsonParser_parseKeyValue pv mem s
      = some (invalidate (refused (JsonParser_parseString mem s))) := by
  have hp : (JsonParser_parseString mem s).uriParts_ = s.uriParts_ :=
    ((Scan.srefl s).parseString mem).parts_eq
  rcases appendString_cases (JsonParser_parseString mem s).uriParts_ (Ptr.json (s.str_ + 1))
    (((JsonParser_parseString mem s).str_ : Int) - 1 - ((s.str_ + 1 : Nat) : Int))
    with ⟨_, heq⟩ | ⟨hlt, _⟩
  · unfold JsonParser_parseKeyValue
    simp only [heq]
  · rw [hp] at hlt; omega

theorem parseArrayLoop_full (pv : JsonParser → Option JsonParser) (mem : List Nat)
    (k idx : Nat) (s : JsonParser) (h : MAX_DEPTH ≤ s.uriParts_.nParts)
    (hlt : s.str_ < s.end_) (hv : s.isInvalid = false) :
    parseArrayLoop pv mem (k + 1) idx s
      = some (invalidate (refused (JsonParser_consumeWhiteSpaces mem s))) := by
  have hp : (JsonParser_consumeWhiteSpaces mem s).uriParts_ = s.uriParts_ :=
    ((Scan.srefl s).consumeWhiteSpaces mem).parts_eq
  have hcond : (decide (s.str_ < s.end_) && !s.isInvalid) = true := by
    rw [hv]; simp; omega
  rcases appendString_cases (JsonParser_consumeWhiteSpaces mem s).uriParts_
    (Ptr.buffer (indexLabel idx)) ((indexLabel idx).length : Int) with ⟨_, heq⟩ | ⟨hlt, _⟩
  · rw [parseArrayLoop, if_pos hcond]
    simp only [heq]
  · rw [hp] at hlt; omega
theorem parseKeyValueLoop_within (pv : JsonParser → Option JsonParser) (mem : List Nat) :
    ∀ (k : Nat) (s : JsonParser), s.uriParts_.nParts ≤ MAX_DEPTH →
      parseKeyValueLoop pv mem k s = parseKeyValueLoop (withinDepth pv) mem k s := by
  intro k
  induction k with
  | zero => intro s _; rfl
  | succ k ih =>
    intro s hs
    rw [parseKeyValueLoop, parseKeyValueLoop]
    have hpv : withinDepth pv (advance s 1) = pv (advance s 1) := by
      unfold withinDepth
      rw [if_pos (by simpa using hs)]
    rw [hpv, ih (advance s 1) (by simpa using hs)]

theorem parseKeyValue_within (pv : JsonParser → Option JsonParser) (mem : List Nat)
    (s : JsonParser) :
    JsonParser_parseKeyValue pv mem s = JsonParser_parseKeyValue (withinDepth pv) mem s := by
  rcases appendString_cases (JsonParser_parseString mem s).uriParts_ (Ptr.json (s.str_ + 1))
    (((JsonParser_parseString mem s).str_ : Int) - 1 - ((s.str_ + 1 : Nat) : Int))
    with ⟨_, heq⟩ | ⟨hlt, heq⟩
  · unfold JsonParser_parseKeyValue
    simp only [heq]
  · unfold JsonParser_parseKeyValue
    simp only [heq]
    exact parseKeyValueLoop_within pv mem _ _ (by show _ + 1 ≤ MAX_DEPTH; omega)

theorem parseObjectLoop_within (pv : JsonParser → Option JsonParser) (mem : List Nat) :
    ∀ (k : Nat) (s : JsonParser),
      parseObjectLoop pv mem k s = parseObjectLoop (withinDepth pv) mem k s := by
  intro k
  induction k with
  | zero => intro s; rfl
  | succ k ih =>
    intro s
    rw [parseObjectLoop, parseObjectLoop, ← parseKeyValue_within]
    simp only [ih]

theorem parseObject_within (pv : JsonParser → Option JsonParser) (mem : List Nat)
    (s : JsonParser) :
    JsonParser_parseObject pv mem s = JsonParser_parseObject (withinDepth pv) mem s := by
  unfold JsonParser_parseObject
  simp only [parseObjectLoop_within pv mem]

theorem parseArrayLoop_within (pv : JsonParser → Option JsonParser) (mem : List Nat) :
    ∀ (k idx : Nat) (s : JsonParser),
      parseArrayLoop pv mem k idx s = parseArrayLoop (withinDepth pv) mem k idx s := by
  intro k
  induction k with
  | zero => intro idx s; rfl
  | succ k ih =>
    intro idx s
    rw [parseArrayLoop, parseArrayLoop]
    rcases appendString_cases (JsonParser_consumeWhiteSpaces mem s).uriParts_
      (Ptr.buffer (indexLabel idx)) ((indexLabel idx).length : Int) with ⟨_, heq⟩ | ⟨hlt, heq⟩
    · simp only [heq]
    · have hpv : ∀ x : JsonParser, x.uriParts_.nParts
          = (JsonParser_consumeWhiteSpaces mem s).uriParts_.nParts + 1 →
          withinDepth pv x = pv x := by
        intro x hx
        unfold withinDepth
        rw [if_pos (by rw [hx]; omega)]
      simp only [heq]
      rw [hpv _ rfl]
      simp only [ih]

theorem parseArray_within (pv : JsonParser → Option JsonParser) (mem : List Nat)
    (s : JsonParser) :
    JsonParser_parseArray pv mem s = JsonParser_parseArray (withinDepth pv) mem s := by
  unfold JsonParser_parseArray
  simp only [parseArrayLoop_within pv mem]

/-- From a state with the validity flag set, a frame-respecting step leaves the
flag set and makes no sink invocation. -/
theorem Ext.silent {s t : JsonParser} (h : Ext s t) (hs : s.isInvalid = true) :
    t.isInvalid = true ∧ t.calls = s.calls := by
  obtain ⟨D, hD, hnil⟩ := h.calls_ext
  refine ⟨h.sticky hs, ?_⟩
  rw [hD, hnil hs, List.append_nil]

theorem exitStatus_invalid (t : JsonParser) (h : t.isInvalid = true) : exitStatus t = 1 := by
  simp [exitStatus, h]

/-- A run in which a push was refused: the call returns 1, and the sink
invocations of the call are those made before the first refused push. -/
theorem run_refused (p : JsonParser) (mem : List Nat) (E : Nat) :
    ∃ t, runOf p mem E = some t ∧
      ∀ cs, t.refusedAt = some cs →
        t.isInvalid = true ∧ t.calls = cs ∧ t.killed = false ∧
        JsonParser_parse p mem E = some { status := 1, parser := t } := by
  obtain ⟨t, ht, hH, -, hst⟩ := run_end p mem E
  refine ⟨t, ht, fun cs hc => ?_⟩
  obtain ⟨h1, h2⟩ := hH.refusal cs hc
  have hk : t.killed = false := hH.alive (Or.inl (by rw [hc]; simp))
  refine ⟨h1, h2, hk, ?_⟩
  rw [parse_alive p mem E t ht hk, hst h1]

/-- C11: the depth budget of the path stack. (1) Each of the three pushes
(object marker, key, index label) attempted while the stack already holds
`MAX_DEPTH` = 50 segments fails closed: the production returns at once in a
state `t` that has the validity flag set, the sink trace and the stack as they
were, the refused push recorded in `refusedAt`, and that does not depend on the
value production `pv` (the child value is not read). (2) The container
productions never start the value production with more than 50 segments on the
stack: they behave the same when the value production is replaced by one that
refuses to run in such a state, so no report is made for a value whose address
would need more than 50 segments. (3) From a state with the flag set, the
value production, its tail and the three loops leave the flag set and make no
sink invocation, and from every state they keep what `refusedAt` has recorded.
(4) `JsonParser_parse` returns 1 when the flag is set at the end. (5) Every
run ends, and when a push was refused anywhere in the run, the run was not
killed, `JsonParser_parse` returns 1, and the sink invocations of the call are
exactly those made before the first refused push. -/
theorem C11_depth_budget (mem : List Nat) :
    (∀ s : JsonParser, MAX_DEPTH ≤ s.uriParts_.nParts →
      (∃ t, t.isInvalid = true ∧ t.calls = s.calls ∧ t.uriParts_ = s.uriParts_ ∧
        t.refusedAt = some (s.refusedAt.getD s.calls) ∧
        ∀ pv, JsonParser_parseObject pv mem s = some t) ∧
      (∃ t, t.isInvalid = true ∧ t.calls = s.calls ∧ t.uriParts_ = s.uriParts_ ∧
        t.refusedAt = some (s.refusedAt.getD s.calls) ∧
        ∀ pv, JsonParser_parseKeyValue pv mem s = some t) ∧
      (s.str_ < s.end_ → s.isInvalid = false →
        ∃ t, t.isInvalid = true ∧ t.calls = s.calls ∧ t.uriParts_ = s.uriParts_ ∧
          t.refusedAt = some (s.refusedAt.getD s.calls) ∧
          ∀ pv k idx, parseArrayLoop pv mem (k + 1) idx s = some t)) ∧
    (∀ (pv : JsonParser → Option JsonParser) (s : JsonParser),
      JsonParser_parseObject pv mem s = JsonParser_parseObject (withinDepth pv) mem s ∧
      JsonParser_parseArray pv mem s = JsonParser_parseArray (withinDepth pv) mem s) ∧
    (∀ (d k idx b : Nat) (s t : JsonParser),
      (JsonParser_parseValue mem d s = some t ∨ finishValue mem b s = t ∨
        parseKeyValueLoop (JsonParser_parseValue mem d) mem k s = some t ∨
        parseObjectLoop (JsonParser_parseValue mem d) mem k s = some t ∨
        parseArrayLoop (JsonParser_parseValue mem d) mem k idx s = some t) →
      (s.isInvalid = true → t.isInvalid = true ∧ t.calls = s.calls) ∧
      (∀ cs, s.refusedAt = some cs → t.refusedAt = some cs)) ∧
    (∀ (p : JsonParser) (E : Nat) (o : Outcome), JsonParser_parse p mem E = some o →
      o.parser.isInvalid = true → o.status = 1) ∧
    (∀ (p : JsonParser) (E : Nat),
      ∃ t, runOf p mem E = some t ∧
        ∀ cs, t.refusedAt = some cs →
          t.isInvalid = true ∧ t.calls = cs ∧ t.killed = false ∧
          JsonParser_parse p mem E = some { status := 1, parser := t }) := by
  refine ⟨?_, ?_, ?_, ?_, fun p E => run_refused p mem E⟩
  · intro s hfull
    refine ⟨⟨invalidate (refused s), rfl, rfl, rfl, rfl,
        fun pv => parseObject_full pv mem s hfull⟩,
      ⟨invalidate (refused (JsonParser_parseString mem s)), rfl,
        ((Scan.srefl s).parseString mem).calls_eq, ((Scan.srefl s).parseString mem).parts_eq,
        ?_, fun pv => parseKeyValue_full pv mem s hfull⟩, ?_⟩
    · show some ((JsonParser_parseString mem s).refusedAt.getD (JsonParser_parseString mem s).calls)
        = _
      rw [((Scan.srefl s).parseString mem).calls_eq,
        ((Scan.srefl s).parseString mem).refusedAt_eq]
    · intro hlt hv
      refine ⟨invalidate (refused (JsonParser_consumeWhiteSpaces mem s)), rfl,
        ((Scan.srefl s).consumeWhiteSpaces mem).calls_eq,
        ((Scan.srefl s).consumeWhiteSpaces mem).parts_eq, ?_,
        fun pv k idx => parseArrayLoop_full pv mem k idx s hfull hlt hv⟩
      show some ((JsonParser_consumeWhiteSpaces mem s).refusedAt.getD
        (JsonParser_consumeWhiteSpaces mem s).calls) = _
      rw [((Scan.srefl s).consumeWhiteSpaces mem).calls_eq,
        ((Scan.srefl s).consumeWhiteSpaces mem).refusedAt_eq]
  · intro pv s
    exact ⟨parseObject_within pv mem s, parseArray_within pv mem s⟩
  · intro d k idx b s t h
    have hx : Ext s t := by
      rcases h with h | h | h | h | h
      · exact parseValue_ext mem d s t h
      · rw [← h]; exact (Ext.erefl s).finishValue mem b
      · exact parseKeyValueLoop_ext mem (parseValue_ext mem d) k s s t (Ext.erefl s) h
      · exact parseObjectLoop_ext mem (parseValue_ext mem d) k s s t (Ext.erefl s) h
      · exact parseArrayLoop_ext mem (parseValue_ext mem d) k idx s s t (Ext.erefl s) h
    exact ⟨fun hs => hx.silent hs, hx.refusedAt_keep⟩
  · intro p E o h hinv
    unfold JsonParser_parse at h
    split at h
    · simp at h
    · rename_i t ht
      split at h
      · simp at h
      · simp only [Option.some.injEq] at h
        subst h
        exact exitStatus_invalid t hinv

set_option maxRecDepth 1000000 in
/-- C11 at the 104-byte document of 52 nested arrays: the 51st index label
cannot be pushed; the call returns 1 and the sink is never invoked. -/
theorem C11_depth_budget_witness :
    statusOf (JsonParser_parse freshParser
      (List.replicate 52 91 ++ List.replicate 52 93 ++ [0]) 104) = some 1 ∧
    callsOf (JsonParser_parse freshParser
      (List.replicate 52 91 ++ List.replicate 52 93 ++ [0]) 104) = some [] ∧
    refusedOf (runOf freshParser
      (List.replicate 52 91 ++ List.replicate 52 93 ++ [0]) 104) = some (some []) ∧
    ∃ t, runOf freshParser (List.replicate 52 91 ++ List.replicate 52 93 ++ [0]) 104 = some t ∧
      ∀ cs, t.refusedAt = some cs →
        t.isInvalid = true ∧ t.calls = cs ∧ t.killed = false ∧
        JsonParser_parse freshParser (List.replicate 52 91 ++ List.replicate 52 93 ++ [0]) 104
          = some { status := 1, parser := t } :=
  ⟨by decide, by decide, by decide,
   (C11_depth_budget (List.replicate 52 91 ++ List.replicate 52 93 ++ [0])).2.2.2.2
     freshParser 104⟩

theorem Grow.grefl (Q : Call → Prop) (s : JsonParser) : Grow Q s s :=
  ⟨[], (List.append_nil _).symm, fun c hc => absurd hc (List.not_mem_nil c)⟩

theorem Grow.gtrans {Q : Call → Prop} {s t u : JsonParser} (h1 : Grow Q s t)
    (h2 : Grow Q t u) : Grow Q s u := by
  obtain ⟨D1, e1, q1⟩ := h1
  obtain ⟨D2, e2, q2⟩ := h2
  refine ⟨D1 ++ D2, by rw [e2, e1, List.append_assoc], ?_⟩
  intro c hc
  rcases List.mem_append.1 hc with h | h
  · exact q1 c h
  · exact q2 c h

theorem Grow.gsame {Q : Call → Prop} {s t u : JsonParser} (h : Grow Q s t)
    (h2 : u.calls = t.calls) : Grow Q s u := by
  obtain ⟨D, e, q⟩ := h
  exact ⟨D, by rw [h2, e], q⟩

theorem Grow.gscan {Q : Call → Prop} {s t u : JsonParser} (h : Grow Q s t) (h2 : Scan t u) :
    Grow Q s u :=
  h.gsame h2.calls_eq

theorem Grow.gsetParts {Q : Call → Prop} {s t : JsonParser} (u : UriParts) (h : Grow Q s t) :
    Grow Q s { t with uriParts_ := u } :=
  h.gsame rfl

theorem Grow.all {Q : Call → Prop} {s t : JsonParser} (h : Grow Q s t)
    (hs : ∀ c ∈ s.calls, Q c) : ∀ c ∈ t.calls, Q c := by
  obtain ⟨D, e, q⟩ := h
  intro c hc
  rw [e] at hc
  rcases List.mem_append.1 hc with h | h
  · exact hs c h
  · exact q c h

theorem parseKeyValueLoop_grow {Q : Call → Prop} {pv : JsonParser → Option JsonParser}
    (mem : List Nat) (hpv : ∀ t t1, pv t = some t1 → Grow Q t t1) :
    ∀ (k : Nat) (s0 s s1 : JsonParser), Grow Q s0 s →
      parseKeyValueLoop pv mem k s = some s1 → Grow Q s0 s1 := by
  intro k
  induction k with
  | zero =>
    intro s0 s s1 h0 h
    simp only [parseKeyValueLoop, Option.some.injEq] at h
    exact h ▸ h0
  | succ k ih =>
    intro s0 s s1 h0 h
    unfold parseKeyValueLoop at h
    split_ifs at h
    · cases hp : pv (advance s 1) with
      | none => simp [hp] at h
      | some t =>
        simp only [hp, Option.some.injEq] at h
        rw [← h]
        exact (((h0.gscan ((Scan.srefl s).advance 1)).gtrans (hpv _ _ hp)).gsetParts _)
    · exact ih _ _ _ (h0.gscan ((Scan.srefl s).advance 1)) h
    · simp only [Option.some.injEq] at h
      exact h ▸ h0

theorem parseKeyValue_grow {Q : Call → Prop} {pv : JsonParser → Option JsonParser}
    (mem : List Nat) (hpv : ∀ t t1, pv t = some t1 → Grow Q t t1) (s0 s s1 : JsonParser)
    (h0 : Grow Q s0 s)
    (h : JsonParser_parseKeyValue pv mem s = some s1) : Grow Q s0 s1 := by
  unfold JsonParser_parseKeyValue at h
  simp only [] at h
  have hs : Grow Q s0 (JsonParser_parseString mem s) :=
    h0.gscan ((Scan.srefl s).parseString mem)
  rcases appendString_cases (JsonParser_parseString mem s).uriParts_ (Ptr.json (s.str_ + 1))
    (((JsonParser_parseString mem s).str_ : Int) - 1 - ((s.str_ + 1 : Nat) : Int))
    with ⟨-, hc⟩ | ⟨-, hc⟩
  · rw [hc] at h
    simp only [Option.some.injEq] at h
    rw [← h]
    exact hs.gsame rfl
  · rw [hc] at h
    exact parseKeyValueLoop_grow mem hpv _ _ _ _ (hs.gsetParts _) h

theorem parseObjectLoop_grow {Q : Call → Prop} {pv : JsonParser → Option JsonParser}
    (mem : List Nat) (hpv : ∀ t t1, pv t = some t1 → Grow Q t t1) :
    ∀ (k : Nat) (s0 s s1 : JsonParser), Grow Q s0 s →
      parseObjectLoop pv mem k s = some s1 → Grow Q s0 s1 := by
  intro k
  induction k with
  | zero =>
    intro s0 s s1 h0 h
    unfold parseObjectLoop at h
    split_ifs at h
    simp only [Option.some.injEq] at h
    exact h ▸ h0.gscan (Scan.srefl s).invalidate
  | succ k ih =>
    intro s0 s s1 h0 h
    unfold parseObjectLoop at h
    split_ifs at h
    · cases hp : JsonParser_parseKeyValue pv mem s with
      | none => simp [hp] at h
      | some t =>
        simp only [hp] at h
        exact ih _ _ _ (parseKeyValue_grow mem hpv _ _ _ h0 hp) h
    · simp only [Option.some.injEq] at h
      exact h ▸ (h0.gsetParts _).gscan ((Scan.srefl _).advance 1)
    · exact ih _ _ _ (h0.gscan ((Scan.srefl s).advance 1)) h
    · exact ih _ _ _ (h0.gscan ((Scan.srefl s).invalidate.advance 1)) h
    · exact ih _ _ _ (h0.gscan ((Scan.srefl s).advance 1)) h
    · simp only [Option.some.injEq] at h
      exact h ▸ h0.gscan (Scan.srefl s).invalidate

theorem parseObject_grow {Q : Call → Prop} {pv : JsonParser → Option JsonParser}
    (mem : List Nat) (hpv : ∀ t t1, pv t = some t1 → Grow Q t t1) (s0 s s1 : JsonParser)
    (h0 : Grow Q s0 s)
    (h : JsonParser_parseObject pv mem s = some s1) : Grow Q s0 s1 := by
  unfold JsonParser_parseObject at h
  rw [appendObject_eq] at h
  rcases appendString_cases s.uriParts_ Ptr.objectUri 1 with ⟨-, hc⟩ | ⟨-, hc⟩
  · rw [hc] at h
    simp only [Option.some.injEq] at h
    exact h ▸ h0.gsame rfl
  · rw [hc] at h
    exact parseObjectLoop_grow mem hpv _ _ _ _
      ((h0.gsetParts _).gscan ((Scan.srefl _).advance 1)) h

theorem parseArrayLoop_grow {Q : Call → Prop} {pv : JsonParser → Option JsonParser}
    (mem : List Nat) (hpv : ∀ t t1, pv t = some t1 → Grow Q t t1) :
    ∀ (k index : Nat) (s0 s s1 : JsonParser), Grow Q s0 s →
      parseArrayLoop pv mem k index s = some s1 → Grow Q s0 s1 := by
  intro k
  induction k with
  | zero =>
    intro index s0 s s1 h0 h
    unfold parseArrayLoop at h
    split_ifs at h
    simp only [Option.some.injEq] at h
    exact h ▸ h0
  | succ k ih =>
    intro index s0 s s1 h0 h
    unfold parseArrayLoop at h
    split_ifs at h
    · simp only [] at h
      rcases appendString_cases (JsonParser_consumeWhiteSpaces mem s).uriParts_
        (Ptr.buffer (indexLabel index)) ((indexLabel index).length : Int)
        with ⟨-, hc⟩ | ⟨-, hc⟩
      · rw [hc] at h
        simp only [Option.some.injEq] at h
        exact h ▸ (h0.gscan ((Scan.srefl s).consumeWhiteSpaces mem)).gsame rfl
      · rw [hc] at h
        simp only [] at h
        split at h
        · simp at h
        · rename_i t hp
          have h1 : Grow Q s0 (touch (JsonParser_consumeWhiteSpaces mem
              { t with uriParts_ := UriParts_drop t.uriParts_ }) 0) :=
            ((((h0.gscan ((Scan.srefl s).consumeWhiteSpaces mem)).gsetParts _).gtrans
              (hpv _ _ hp)).gsetParts _).gscan (((Scan.srefl _).consumeWhiteSpaces mem).touch 0)
          split_ifs at h
          · exact ih _ _ _ _ (h1.gscan ((Scan.srefl _).advance 1)) h
          · simp only [Option.some.injEq] at h
            exact h ▸ h1.gscan ((Scan.srefl _).advance 1)
          · simp only [Option.some.injEq] at h
            exact h ▸ h1.gscan (Scan.srefl _).invalidate
    · simp only [Option.some.injEq] at h
      exact h ▸ h0

theorem parseArray_grow {Q : Call → Prop} {pv : JsonParser → Option JsonParser}
    (mem : List Nat) (hpv : ∀ t t1, pv t = some t1 → Grow Q t t1) (s0 s s1 : JsonParser)
    (h0 : Grow Q s0 s)
    (h : JsonParser_parseArray pv mem s = some s1) : Grow Q s0 s1 := by
  unfold JsonParser_parseArray at h
  simp only [] at h
  have h1 : Grow Q s0 (touch (JsonParser_consumeWhiteSpaces mem (advance s 1)) 0) :=
    h0.gscan ((((Scan.srefl s).advance 1).consumeWhiteSpaces mem).touch 0)
  split_ifs at h
  · simp only [Option.some.injEq] at h
    exact h ▸ h1.gscan ((Scan.srefl _).advance 1)
  · exact parseArrayLoop_grow mem hpv _ _ _ _ _ h1 h
theorem Grow.gfinishValue {Q : Call → Prop} (mem : List Nat)
    (hinf : ∀ (s : JsonParser) (b : Nat) (l : Int), Grow Q s (JsonParser_inform mem s b l))
    (b : Nat) {s t : JsonParser} (h : Grow Q s t) : Grow Q s (finishValue mem b t) :=
  (h.gtrans (hinf t b _)).gscan ((Scan.srefl _).consumeWhiteSpaces mem)

/-- Every sink invocation the value production makes satisfies `Q` when every
one that the reporting function makes does. -/
theorem parseValue_grow {Q : Call → Prop} (mem : List Nat)
    (hinf : ∀ (s : JsonParser) (b : Nat) (l : Int), Grow Q s (JsonParser_inform mem s b l)) :
    ∀ (d : Nat) (s s1 : JsonParser), JsonParser_parseValue mem d s = some s1 → Grow Q s s1 := by
  intro d
  induction d with
  | zero => intro s s1 h; simp [JsonParser_parseValue] at h
  | succ d ih =>
    intro s s1 h
    unfold JsonParser_parseValue at h
    simp only [] at h
    have h1 : Grow Q s (touch (JsonParser_consumeWhiteSpaces mem s) 0) :=
      (Grow.grefl Q s).gscan (((Scan.srefl s).consumeWhiteSpaces mem).touch 0)
    split_ifs at h
    · simp only [Option.some.injEq] at h
      exact h ▸ (h1.gscan ((Scan.srefl _).parseString mem)).gfinishValue mem hinf _
    · simp only [Option.some.injEq] at h
      exact h ▸ (h1.gscan ((Scan.srefl _).parseNumber mem)).gfinishValue mem hinf _
    · split at h
      · simp at h
      · rename_i t hp
        simp only [Option.some.injEq] at h
        exact h ▸ (parseObject_grow mem ih _ _ _ h1 hp).gfinishValue mem hinf _
    · split at h
      · simp at h
      · rename_i t hp
        simp only [Option.some.injEq] at h
        exact h ▸ (parseArray_grow mem ih _ _ _ h1 hp).gfinishValue mem hinf _
    · simp only [Option.some.injEq] at h
      exact h ▸ (h1.gscan ((Scan.srefl _).advance 4)).gfinishValue mem hinf _
    · simp only [Option.some.injEq] at h
      exact h ▸ (h1.gscan ((Scan.srefl _).advance 4)).gfinishValue mem hinf _
    · simp only [Option.some.injEq] at h
      exact h ▸ (h1.gscan ((Scan.srefl _).advance 5)).gfinishValue mem hinf _
    · simp only [Option.some.injEq] at h
      exact h ▸ h1.gscan (Scan.srefl _).invalidate

/-- The address assembly never yields a length above `MAX_URI_LEN`. -/
theorem informLoop_le (mem : List Nat) (E : Nat) (u : UriParts) :
    ∀ (k : Nat) (i n : Int) (uri : List Nat) (bad : Bool) (r : List Nat) (m : Int) (bad1 : Bool),
      n ≤ MAX_URI_LEN → informLoop mem E u k i n uri bad = (Assembly.done r m, bad1) →
        m ≤ MAX_URI_LEN := by
  intro k
  induction k with
  | zero =>
    intro i n uri bad r m bad1 hn h
    simp only [informLoop, Prod.mk.injEq, Assembly.done.injEq] at h
    rw [← h.1.2]; exact hn
  | succ k ih =>
    intro i n uri bad r m bad1 hn h
    unfold informLoop at h
    split_ifs at h with hc hneg
    · simp at h
    · simp at h
    · exact ih _ _ _ _ _ _ _ (by omega) h

/-- The address assembly does not come to its end when the lengths of the
segments, none of them negative, add up to more than `MAX_URI_LEN`: it stops
at the length check. -/
theorem informLoop_over (mem : List Nat) (E : Nat) (u : UriParts) :
    ∀ (k : Nat) (i n : Int) (uri : List Nat) (bad : Bool),
      n ≤ MAX_URI_LEN → MAX_URI_LEN < n + lenFrom u k i →
      (∀ j : Int, i ≤ j → j < i + k → 0 ≤ (u.parts j).len) →
        ∃ bad1, informLoop mem E u k i n uri bad = (Assembly.tooLong, bad1) := by
  intro k
  induction k with
  | zero =>
    intro i n uri bad hn h _
    simp only [lenFrom] at h
    omega
  | succ k ih =>
    intro i n uri bad hn h hl
    unfold informLoop
    have h0 := hl i (Int.le_refl _) (by omega)
    split_ifs with hc hneg
    · exact ⟨_, rfl⟩
    · omega
    · simp only [lenFrom] at h
      exact ih _ _ _ _ (by omega) (by omega)
        (fun j h1 h2 => hl j (by omega) (by push_cast at h2 ⊢; omega))

/-- The address assembly does not come to its end when the lengths of the
segments add up to more than `MAX_URI_LEN`. -/
theorem informLoop_stops (mem : List Nat) (E : Nat) (u : UriParts) :
    ∀ (k : Nat) (i n : Int) (uri : List Nat) (bad : Bool) (r : List Nat) (m : Int) (bad1 : Bool),
      n ≤ MAX_URI_LEN → MAX_URI_LEN < n + lenFrom u k i →
        informLoop mem E u k i n uri bad ≠ (Assembly.done r m, bad1) := by
  intro k
  induction k with
  | zero =>
    intro i n uri bad r m bad1 hn h _
    simp only [lenFrom] at h
    omega
  | succ k ih =>
    intro i n uri bad r m bad1 hn h heq
    unfold informLoop at heq
    split_ifs at heq with hc hneg
    · simp at heq
    · simp at heq
    · simp only [lenFrom] at h
      exact ih _ _ _ _ _ _ _ (by omega) (by omega) heq

theorem inform_keyLen (mem : List Nat) (s : JsonParser) (b : Nat) (l : Int) :
    Grow (fun c => c.keyLen ≤ MAX_URI_LEN) s (JsonParser_inform mem s b l) := by
  unfold JsonParser_inform
  split
  · exact (Grow.grefl _ s).gsame rfl
  · exact (Grow.grefl _ s).gsame rfl
  · rename_i uri n bad heq
    have hle := informLoop_le mem _ _ _ _ _ _ _ _ _ _ (by unfold MAX_URI_LEN; omega) heq
    split
    · refine ⟨[_], rfl, ?_⟩
      intro c hc
      rw [List.mem_singleton] at hc
      rw [hc]
      exact hle
    · exact (Grow.grefl _ s).gsame rfl

/-- A report for which the lengths of the segments add up to more than
`MAX_URI_LEN` is not made; the validity flag is set instead. -/
theorem inform_over (mem : List Nat) (s : JsonParser) (b : Nat) (l : Int)
    (h : MAX_URI_LEN < pathLen s.uriParts_) :
    (JsonParser_inform mem s b l).isInvalid = true ∧
      (JsonParser_inform mem s b l).calls = s.calls := by
  unfold JsonParser_inform
  split
  · exact ⟨rfl, rfl⟩
  · exact ⟨rfl, rfl⟩
  · rename_i uri n bad heq
    exact absurd heq (informLoop_stops mem s.end_ s.uriParts_ s.uriParts_.nParts.toNat 0 0 []
      s.badCopy uri n bad (by unfold MAX_URI_LEN; omega) (by unfold pathLen at h; omega))

/-- A report in a state that is alive, for which the lengths of the segments,
none of them negative, add up to more than `MAX_URI_LEN`, is not made: the
validity flag is set, and `tooLongAt` has the sink invocations made before the
first such report. -/
theorem inform_tooLong (mem : List Nat) (s : JsonParser) (b : Nat) (l : Int)
    (h : MAX_URI_LEN < pathLen s.uriParts_) (hl : lensOk s.uriParts_)
    (hk : s.killed = false) :
    (JsonParser_inform mem s b l).isInvalid = true ∧
      (JsonParser_inform mem s b l).calls = s.calls ∧
      (JsonParser_inform mem s b l).killed = false ∧
      (JsonParser_inform mem s b l).tooLongAt = some (s.tooLongAt.getD s.calls) := by
  obtain ⟨bad1, hb⟩ := informLoop_over mem s.end_ s.uriParts_ s.uriParts_.nParts.toNat 0 0 []
    s.badCopy (by unfold MAX_URI_LEN; omega) (by unfold pathLen at h; omega)
    (fun j h0 h1 => hl j h0 (by omega))
  unfold JsonParser_inform
  rw [hb]
  refine ⟨rfl, rfl, hk, ?_⟩
  show (if s.killed = true then s.tooLongAt else some (s.tooLongAt.getD s.calls)) = _
  rw [hk]
  rfl

theorem finishValue_over (mem : List Nat) (s : JsonParser) (b : Nat)
    (h : MAX_URI_LEN < pathLen s.uriParts_) :
    (finishValue mem b s).isInvalid = true ∧ (finishValue mem b s).calls = s.calls := by
  obtain ⟨h1, h2⟩ := inform_over mem s b ((s.str_ : Int) - (b : Int)) h
  have hsc := (Scan.srefl (JsonParser_inform mem s b ((s.str_ : Int) - (b : Int)))).consumeWhiteSpaces
    mem
  exact ⟨hsc.sticky h1, by rw [← h2]; exact hsc.calls_eq⟩

/-- Every address handed to the sink during a call of `JsonParser_parse` has a
length of at most `MAX_URI_LEN`. -/
theorem parse_keyLen (p : JsonParser) (mem : List Nat) (E : Nat) (cs : List Call)
    (h : callsOf (JsonParser_parse p mem E) = some cs) :
    ∀ c ∈ cs, c.keyLen ≤ MAX_URI_LEN := by
  obtain ⟨t, ht, hp⟩ := parse_total p mem E
  rw [hp] at h
  split at h
  · simp [callsOf] at h
  · simp only [callsOf, Option.map_some', Option.some.injEq] at h
    rw [← h]
    exact (parseValue_grow mem (inform_keyLen mem) _ _ _ ht).all
      (fun c hc => absurd hc (List.not_mem_nil c))
theorem ext_noted {s t : JsonParser} (h : Ext s t) (hs : Noted s) : Noted t := by
  rcases hs with hs | hs
  · left
    cases hr : s.refusedAt with
    | none => exact absurd hr hs
    | some cs => rw [h.refusedAt_keep cs hr]; simp
  · right
    cases hr : s.tooLongAt with
    | none => exact absurd hr hs
    | some cs => rw [h.tooLongAt_keep cs hr]; simp

theorem objectLoop_invalid (pv : JsonParser → Option JsonParser) (mem : List Nat) (k : Nat)
    (s : JsonParser) (h : s.isInvalid = true) :
    parseObjectLoop pv mem k s = some (invalidate s) := by
  have hcond : ¬ (decide (s.str_ < s.end_) && !s.isInvalid) = true := by
    rw [h]; simp
  cases k with
  | zero => rw [parseObjectLoop, if_neg hcond]
  | succ k => rw [parseObjectLoop, if_neg hcond]

theorem finishValue_sticky (mem : List Nat) (b : Nat) (s : JsonParser)
    (h : s.isInvalid = true) : (finishValue mem b s).isInvalid = true :=
  ((Ext.erefl s).finishValue mem b).sticky h

/-- A member whose value the value production `pv` leaves invalid: the member
loop of the object production ends with the validity flag set. -/
theorem member_fail (pv : JsonParser → Option JsonParser) (mem : List Nat) (E : Nat)
    {s : JsonParser} {path : List Nat} {n : Nat}
    (hs : StateFor mem E s path n) (hn : n < 50)
    (k k1 c : Nat)
    (h1 : Blank mem s.str_ k) (h2 : RfcString mem k k1) (h3 : Blank mem k1 c)
    (h4 : mem.getD c 0 = 58) (hc : c < E)
    (hval : ∀ y : JsonParser, StateFor mem E y (path ++ slice mem (k + 1) (k1 - 1)) (n + 1) →
      y.str_ = c + 1 → y.calls = s.calls → y.killed = s.killed →
      ∃ t, pv y = some t ∧ t.isInvalid = true ∧ t.calls = s.calls ∧ Noted t)
    (k0 : Nat) (hk0 : E - s.str_ ≤ k0) :
    ∃ t, parseObjectLoop pv mem k0 s = some t ∧ t.isInvalid = true ∧ t.calls = s.calls ∧
      Noted t := by
  have hE := hs.end_eq
  have hk1 := h2.2.1
  have hk1c := h3.1
  have hsk := h1.1
  obtain ⟨ka, hka, e1⟩ := objectLoop_blank pv mem k k0 s hs.valid h1 (by omega) (by omega)
  obtain ⟨kb, rfl⟩ : ∃ kb, ka = kb + 1 := ⟨ka - 1, by omega⟩
  obtain ⟨r1, r2, r3, r4, r5⟩ := rfcString_run mem { s with str_ := k } k1 h2
    (by show k1 ≤ s.end_; omega)
  have r2a : (JsonParser_parseString mem { s with str_ := k }).end_ = E := by rw [r2]; exact hE
  have r3a : (JsonParser_parseString mem { s with str_ := k }).isInvalid = false := by
    rw [r3]; exact hs.valid
  have r4a : (JsonParser_parseString mem { s with str_ := k }).uriParts_ = s.uriParts_ := r4
  have r5a : (JsonParser_parseString mem { s with str_ := k }).calls = s.calls := r5
  have hx1 : StateFor mem E (JsonParser_parseString mem { s with str_ := k }) path n :=
    hs.same (by rw [r4a]; exact SameStack.srefl_stack _) r2a r3a
  obtain ⟨u, hu, hpush, hdrop⟩ := hx1.push (Ptr.json (k + 1))
    (((JsonParser_parseString mem { s with str_ := k }).str_ : Int) - 1 - ((k + 1 : Nat) : Int))
    (by rw [r1]; push_cast; omega) hn
  have hbytes : memcpyBytes mem (Ptr.json (k + 1))
      (((JsonParser_parseString mem { s with str_ := k }).str_ : Int) - 1 - ((k + 1 : Nat) : Int))
      = slice mem (k + 1) (k1 - 1) := by
    rw [r1, ← memcpyBytes_json mem (k + 1) (k1 - 1) (by omega)]
    congr 1
    omega
  rw [hbytes] at hpush
  obtain ⟨t, ht, htv, htc, htn⟩ := hval
    (advance { ({ JsonParser_parseString mem { s with str_ := k } with uriParts_ := u }
      : JsonParser) with str_ := c } 1)
    (hpush _ r2a r3a rfl) rfl r5a
    ((Scan.srefl ({ s with str_ := k } : JsonParser)).parseString mem).killed_eq
  refine ⟨invalidate { t with uriParts_ := UriParts_drop t.uriParts_ }, ?_, rfl, htc, htn⟩
  rw [e1, objectLoop_key pv mem kb { s with str_ := k } hs.valid (by show k < s.end_; omega) h2.1,
    parseKeyValue_push pv mem _ u hu,
    keyValueLoop_blank pv mem c _
      { JsonParser_parseString mem { s with str_ := k } with uriParts_ := u } r3a
      (by show Blank mem _ c; rw [r1]; exact h3)
      (by show c < (JsonParser_parseString mem { s with str_ := k }).end_; omega) h4
      (Nat.le_refl _),
    ht]
  exact objectLoop_invalid pv mem kb _ htv

/-- An object whose first member has a value that the value production leaves
invalid: the value production ends with the validity flag set. -/
theorem objectValue_fail (mem : List Nat) (E : Nat) {s : JsonParser} {path : List Nat}
    {n : Nat} (hs : StateFor mem E s path n) (hn : n + 1 < 50)
    (b k k1 c : Nat) (h0 : Blank mem s.str_ b) (hb : mem.getD b 0 = 123)
    (h1 : Blank mem (b + 1) k) (h2 : RfcString mem k k1) (h3 : Blank mem k1 c)
    (h4 : mem.getD c 0 = 58) (hc : c < E) (d : Nat)
    (hval : ∀ y : JsonParser,
      StateFor mem E y (path ++ [47] ++ slice mem (k + 1) (k1 - 1)) (n + 1 + 1) →
      y.str_ = c + 1 → y.calls = s.calls → y.killed = s.killed →
      ∃ t, JsonParser_parseValue mem d y = some t ∧ t.isInvalid = true ∧ t.calls = s.calls ∧
        Noted t) :
    ∃ t, JsonParser_parseValue mem (d + 1) s = some t ∧ t.isInvalid = true ∧
      t.calls = s.calls ∧ Noted t := by
  have hE := hs.end_eq
  have b1 := h0.1; have b2 := h1.1; have b3 := h2.2.1; have b4 := h3.1
  have hx : StateFor mem E (touch { s with str_ := b } 0) path n :=
    hs.same (SameStack.srefl_stack _) hE hs.valid
  obtain ⟨u, hu, hpush, hdrop⟩ := hx.push Ptr.objectUri 1 (by omega) (by omega)
  rw [memcpyBytes_objectUri] at hpush
  obtain ⟨t, ht, htv, htc, htn⟩ := member_fail (JsonParser_parseValue mem d) mem E
    (hpush (advance { touch { s with str_ := b } 0 with uriParts_ := u } 1) hE hs.valid rfl)
    (by omega) k k1 c h1 h2 h3 h4 hc hval
    ((advance (touch { s with str_ := b } 0) 1).end_ - (advance (touch { s with str_ := b } 0) 1).str_)
    (by show E - (b + 1) ≤ s.end_ - (b + 1); omega)
  refine ⟨finishValue mem b t, ?_, finishValue_sticky mem b t htv, ?_,
    ext_noted ((Ext.erefl t).finishValue mem b) htn⟩
  · rw [parseValue_object_at mem d s b h0 (by omega) hb, parseObject_push _ mem _ u hu, ht]
  · have htc1 : t.calls = s.calls := htc
    rw [← htc1]
    exact (((Ext.erefl t).finishValue mem b).silent htv).2
/-- A number whose address is longer than `MAX_URI_LEN`: the value production
does not report it and ends with the validity flag set. -/
theorem numberValue_over (mem : List Nat) (E : Nat) {z : JsonParser} {path : List Nat}
    {n : Nat} (hz : StateFor mem E z path n) (vb : Nat) (hb : Blank mem z.str_ vb)
    (hvb : vb < E) (hdig : isdigit (mem.getD vb 0) = true ∨ mem.getD vb 0 = 45)
    (hlong : 500 < path.length) (hk : z.killed = false) (d : Nat) :
    ∃ t, JsonParser_parseValue mem (d + 1) z = some t ∧ t.isInvalid = true ∧
      t.calls = z.calls ∧ Noted t := by
  have hsc := (Scan.srefl (touch { z with str_ := vb } 0)).parseNumber mem
  have hlen : MAX_URI_LEN
      < pathLen (JsonParser_parseNumber mem (touch { z with str_ := vb } 0)).uriParts_ := by
    rw [hsc.parts_eq]
    show MAX_URI_LEN < pathLen z.uriParts_
    rw [hz.len]
    unfold MAX_URI_LEN
    omega
  obtain ⟨f1, f2⟩ := finishValue_over mem _ vb hlen
  refine ⟨_, parseValue_number_at mem d z vb hb (by rw [hz.end_eq]; exact hvb) hdig, f1, ?_, ?_⟩
  · rw [f2, hsc.calls_eq]
    rfl
  · right
    unfold finishValue
    rw [((Scan.srefl _).consumeWhiteSpaces mem).tooLongAt_eq,
      (inform_tooLong mem _ vb _ hlen (by rw [hsc.parts_eq]; exact hz.lens)
        (by rw [hsc.killed_eq]; exact hk)).2.2.2]
    simp

theorem longKeyDoc_bytes (key rest : List Nat) :
    (longKeyDoc key ++ rest).getD 0 0 = 123 ∧ (longKeyDoc key ++ rest).getD 1 0 = 34 ∧
    (∀ i, i < key.length → (longKeyDoc key ++ rest).getD (2 + i) 0 = key.getD i 0) ∧
    (longKeyDoc key ++ rest).getD (key.length + 2) 0 = 34 ∧
    (longKeyDoc key ++ rest).getD (key.length + 3) 0 = 58 ∧
    (longKeyDoc key ++ rest).getD (key.length + 4) 0 = 49 ∧
    (longKeyDoc key ++ rest).getD (key.length + 5) 0 = 125 := by
  have hform : longKeyDoc key ++ rest = 123 :: 34 :: (key ++ (34 :: 58 :: 49 :: 125 :: rest)) := by
    simp [longKeyDoc]
  rw [hform]
  refine ⟨rfl, rfl, ?_, ?_, ?_, ?_, ?_⟩
  · intro i hi
    rw [Nat.add_comm 2 i]
    show (key ++ (34 :: 58 :: 49 :: 125 :: rest)).getD i 0 = key.getD i 0
    exact List.getD_append _ _ _ _ hi
  · show (key ++ (34 :: 58 :: 49 :: 125 :: rest)).getD key.length 0 = 34
    rw [List.getD_append_right _ _ _ _ (Nat.le_refl _), Nat.sub_self]
    rfl
  · show (key ++ (34 :: 58 :: 49 :: 125 :: rest)).getD (key.length + 1) 0 = 58
    rw [List.getD_append_right _ _ _ _ (by omega), Nat.add_sub_cancel_left]
    rfl
  · show (key ++ (34 :: 58 :: 49 :: 125 :: rest)).getD (key.length + 2) 0 = 49
    rw [List.getD_append_right _ _ _ _ (by omega), Nat.add_sub_cancel_left]
    rfl
  · show (key ++ (34 :: 58 :: 49 :: 125 :: rest)).getD (key.length + 3) 0 = 125
    rw [List.getD_append_right _ _ _ _ (by omega), Nat.add_sub_cancel_left]
    rfl
theorem strBody_of_plain (mem : List Nat) (q : Nat) :
    ∀ (k p : Nat), p + k = q →
      (∀ i, p ≤ i → i < q → 32 ≤ mem.getD i 0 ∧ mem.getD i 0 ≠ 34 ∧ mem.getD i 0 ≠ 92) →
      StrBody mem p q := by
  intro k
  induction k with
  | zero =>
    intro p hp _
    have : p = q := by omega
    rw [this]
    exact StrBody.done q
  | succ k ih =>
    intro p hp h
    obtain ⟨h1, h2, h3⟩ := h p (Nat.le_refl _) (by omega)
    exact StrBody.plain p q h1 h2 h3 (ih (p + 1) (by omega) (fun i hi1 hi2 => h i (by omega) hi2))

theorem slice_eq_of_bytes (mem key : List Nat) (a : Nat)
    (h : ∀ i, i < key.length → mem.getD (a + i) 0 = key.getD i 0) :
    slice mem a (a + key.length) = key := by
  apply List.ext_getElem
  · simp [slice]
  · intro i h1 h2
    simp only [slice, List.getElem_map, List.getElem_range]
    rw [h i h2, List.getD_eq_getElem _ _ h2]

theorem longKeyDoc_string (key rest : List Nat)
    (hplain : ∀ c ∈ key, 32 ≤ c ∧ c ≠ 34 ∧ c ≠ 92) :
    RfcString (longKeyDoc key ++ rest) 1 (key.length + 3) ∧
      slice (longKeyDoc key ++ rest) (1 + 1) (key.length + 3 - 1) = key := by
  obtain ⟨b0, b1, bk, b2, b3, b4, b5⟩ := longKeyDoc_bytes key rest
  refine ⟨⟨b1, by omega, ?_, b2⟩, ?_⟩
  · apply strBody_of_plain _ _ key.length (1 + 1) (by omega)
    intro i hi1 hi2
    obtain ⟨j, rfl⟩ : ∃ j, i = 2 + j := ⟨i - 2, by omega⟩
    rw [bk j (by omega), List.getD_eq_getElem _ _ (by omega)]
    exact hplain _ (List.getElem_mem _)
  · have : key.length + 3 - 1 = (1 + 1) + key.length := by omega
    rw [this]
    exact slice_eq_of_bytes _ key (1 + 1) bk
/-- The document `{"k":1}` with a plain key is well-formed; its two reports. -/
theorem longKeyDoc_syn (key rest : List Nat)
    (hplain : ∀ c ∈ key, 32 ≤ c ∧ c ≠ 34 ∧ c ≠ 92) :
    Syn (longKeyDoc key ++ rest) (key.length + 6) Part.value [] 0 0 (key.length + 5 + 1)
      ([report ([] ++ [47] ++ slice (longKeyDoc key ++ rest) (1 + 1) (key.length + 3 - 1))
          (key.length + 4) (key.length + 5)]
        ++ [report [] 0 (key.length + 5 + 1)]) 2 := by
  obtain ⟨b0, b1, bk, b2, b3, b4, b5⟩ := longKeyDoc_bytes key rest
  obtain ⟨hstr, _⟩ := longKeyDoc_string key rest hplain
  refine Syn.object [] 0 0 (key.length + 5) _ 2 b0 ?_ (by omega) b5
  refine Syn.member ([] ++ [47]) 1 1 1 (key.length + 3) (key.length + 3) (key.length + 4)
    (key.length + 5) (key.length + 5) _ 2 (blank_nil _ 1) hstr (blank_nil _ _) b3
    (blank_nil _ _) ?_ (blank_nil _ _)
  refine Syn.number _ 2 (key.length + 4) (key.length + 5) (by omega) ?_
  refine ⟨key.length + 5, key.length + 5, Or.inr (Or.inr ⟨?_, ?_, by omega, ?_⟩),
    Or.inl rfl, Or.inl rfl⟩
  · omega
  · omega
  · intro i h1 h2; omega

/-- The status of `JsonParser_parse` on the document `{"k":1}` with a plain key:
0 when the key has at most 499 bytes, 1 when it has 500 or more. -/
theorem longKeyDoc_status (p : JsonParser) (key rest : List Nat)
    (hplain : ∀ c ∈ key, 32 ≤ c ∧ c ≠ 34 ∧ c ≠ 92) :
    statusOf (JsonParser_parse p (longKeyDoc key ++ rest) (key.length + 6))
      = some (if key.length ≤ 499 then 0 else 1) := by
  obtain ⟨b0, b1, bk, b2, b3, b4, b5⟩ := longKeyDoc_bytes key rest
  obtain ⟨hstr, hsl⟩ := longKeyDoc_string key rest hplain
  by_cases hL : key.length ≤ 499
  · rw [if_pos hL]
    refine (syn_parse p _ _ 0 (key.length + 5 + 1) _ 2 (longKeyDoc_syn key rest hplain)
      (blank_nil _ 0) (blank_nil _ _) (by omega) ?_).1
    intro c hc
    simp only [List.mem_append, List.mem_singleton] at hc
    rcases hc with rfl | rfl
    · simp only [report, hsl, List.length_append, List.length_nil, List.length_singleton]
      push_cast
      omega
    · simp [report]
  · rw [if_neg hL]
    obtain ⟨t, ht, htv, -, htn⟩ := objectValue_fail (longKeyDoc key ++ rest) (key.length + 6)
      (entryState_stateFor p _ _) (by omega) 0 1 (key.length + 3) (key.length + 3)
      (blank_nil _ 0) b0 (blank_nil _ _) hstr (blank_nil _ _) b3 (by omega) (key.length + 6)
      (fun y hy hys hyc hyk => by
        obtain ⟨t, ht, htv, htc, htn⟩ := numberValue_over _ _ hy (key.length + 4)
          (by rw [hys]; exact blank_nil _ _) (by omega) (Or.inl (by rw [b4]; decide))
          (by rw [hsl]; simp; omega) (by rw [hyk]; rfl) (key.length + 5)
        exact ⟨t, ht, htv, htc.trans hyc, htn⟩)
    rw [parse_alive p _ _ t ht (run_noted_alive p _ _ t ht htn)]
    simp [statusOf, exitStatus_invalid t htv]
theorem parse_invalid_status (p : JsonParser) (mem : List Nat) (E : Nat) (o : Outcome)
    (h : JsonParser_parse p mem E = some o) (hinv : o.parser.isInvalid = true) :
    o.status = 1 := by
  unfold JsonParser_parse at h
  split at h
  · simp at h
  · rename_i t ht
    split at h
    · simp at h
    · simp only [Option.some.injEq] at h
      subst h
      exact exitStatus_invalid t hinv

/-- The length budget in a run: every address handed to the sink has a length
of at most `MAX_URI_LEN`, and when an address was too long anywhere in the
run, the run was not killed, the call returns 1, and the sink invocations of
the call are those made before the first address that was too long. -/
theorem run_tooLong (p : JsonParser) (mem : List Nat) (E : Nat) :
    ∃ t, runOf p mem E = some t ∧ (∀ c ∈ t.calls, c.keyLen ≤ MAX_URI_LEN) ∧
      ∀ cs, t.tooLongAt = some cs →
        t.isInvalid = true ∧ t.calls = cs ∧ t.killed = false ∧
        JsonParser_parse p mem E = some { status := 1, parser := t } := by
  obtain ⟨t, ht, hH, -, hst⟩ := run_end p mem E
  refine ⟨t, ht, (parseValue_grow mem (inform_keyLen mem) _ _ _ ht).all
    (fun c hc => absurd hc (List.not_mem_nil c)), fun cs hc => ?_⟩
  obtain ⟨h1, h2⟩ := hH.overlong cs hc
  have hk : t.killed = false := hH.alive (Or.inr (by rw [hc]; simp))
  refine ⟨h1, h2, hk, ?_⟩
  rw [parse_alive p mem E t ht hk, hst h1]

theorem finishValue_tooLong (mem : List Nat) (s : JsonParser) (b : Nat)
    (h : MAX_URI_LEN < pathLen s.uriParts_) (hl : lensOk s.uriParts_)
    (hk : s.killed = false) :
    (finishValue mem b s).tooLongAt = some (s.tooLongAt.getD s.calls) := by
  unfold finishValue
  rw [((Scan.srefl _).consumeWhiteSpaces mem).tooLongAt_eq]
  exact (inform_tooLong mem s b _ h hl hk).2.2.2

set_option maxRecDepth 1000000 in
/-- The document of the test `shallNotCrashIfKeysAreLong` is rejected, as the
test expects: the address of the innermost value would have 550 bytes, and no
report is made. -/
theorem longKeysDoc_status : longKeysDoc.length = 581 ∧
    statusOf (JsonParser_parse freshParser longKeysDoc 580) = some 1 ∧
    callsOf (JsonParser_parse freshParser longKeysDoc 580) = some [] ∧
    tooLongOf (runOf freshParser longKeysDoc 580) = some (some []) := by
  refine ⟨rfl, ?_, ?_, ?_⟩ <;> decide

/-- C12: the length budget of the assembled address. (1) Every address handed to
the sink during a call of `JsonParser_parse` has a length of at most
`MAX_URI_LEN` = 500. (2) When the lengths of the segments on the path stack add
up to more than 500, the tail of the value production makes no report and sets
the validity flag. (3) From a state with the flag set the value production
keeps it set and reports nothing, and `JsonParser_parse` returns 1 when the
flag is set at the end. (4) The document `{"k":1}` with a plain key (bytes from
`0x20` on, no quote, no backslash) is accepted when the key has at most 499
bytes and rejected when it has 500 or more. (5) In a state that is alive and
has no negative length on the stack, the tail of the value production records
an address of more than 500 bytes in `tooLongAt`, and the value production
keeps what `tooLongAt` has recorded. (6) Every run ends; every address handed
to the sink in it has a length of at most 500; and when an address was too
long anywhere in the run, the run was not killed, `JsonParser_parse` returns
1, and the sink invocations of the call are exactly those made before that
address was assembled. (7) The document of the test
`shallNotCrashIfKeysAreLong` is rejected with status 1 and without a report:
the address of its innermost value is too long. -/
theorem C12_address_length_budget (p : JsonParser) (mem : List Nat) (E : Nat) :
    (∀ cs, callsOf (JsonParser_parse p mem E) = some cs → ∀ c ∈ cs, c.keyLen ≤ MAX_URI_LEN) ∧
    (∀ (s : JsonParser) (b : Nat), MAX_URI_LEN < pathLen s.uriParts_ →
      (finishValue mem b s).isInvalid = true ∧ (finishValue mem b s).calls = s.calls) ∧
    (∀ (d : Nat) (s t : JsonParser), s.isInvalid = true →
      JsonParser_parseValue mem d s = some t → t.isInvalid = true ∧ t.calls = s.calls) ∧
    (∀ o : Outcome, JsonParser_parse p mem E = some o → o.parser.isInvalid = true →
      o.status = 1) ∧
    (∀ key rest : List Nat, (∀ c ∈ key, 32 ≤ c ∧ c ≠ 34 ∧ c ≠ 92) →
      statusOf (JsonParser_parse p (longKeyDoc key ++ rest) (key.length + 6))
        = some (if key.length ≤ 499 then 0 else 1)) ∧
    ((∀ (s : JsonParser) (b : Nat), MAX_URI_LEN < pathLen s.uriParts_ → lensOk s.uriParts_ →
        s.killed = false →
        (finishValue mem b s).tooLongAt = some (s.tooLongAt.getD s.calls)) ∧
      (∀ (d : Nat) (s t : JsonParser) (cs : List Call), JsonParser_parseValue mem d s = some t →
        s.tooLongAt = some cs → t.tooLongAt = some cs)) ∧
    (∃ t, runOf p mem E = some t ∧ (∀ c ∈ t.calls, c.keyLen ≤ MAX_URI_LEN) ∧
      ∀ cs, t.tooLongAt = some cs →
        t.isInvalid = true ∧ t.calls = cs ∧ t.killed = false ∧
        JsonParser_parse p mem E = some { status := 1, parser := t }) ∧
    (statusOf (JsonParser_parse freshParser longKeysDoc 580) = some 1 ∧
      callsOf (JsonParser_parse freshParser longKeysDoc 580) = some [] ∧
      tooLongOf (runOf freshParser longKeysDoc 580) = some (some [])) :=
  ⟨parse_keyLen p mem E, fun s b h => finishValue_over mem s b h,
   fun d s t hs h => (parseValue_ext mem d s t h).silent hs,
   fun o h hinv => parse_invalid_status p mem E o h hinv,
   fun key rest hplain => longKeyDoc_status p key rest hplain,
   ⟨fun s b h hl hk => finishValue_tooLong mem s b h hl hk,
    fun d s t cs h hc => (parseValue_ext mem d s t h).tooLongAt_keep cs hc⟩,
   run_tooLong p mem E,
   longKeysDoc_status.2⟩

/-- C12 at the keys of 499 and of 500 letters `a`. -/
theorem C12_address_length_budget_witness :
    statusOf (JsonParser_parse freshParser (longKeyDoc (List.replicate 499 97) ++ [0]) 505)
      = some 0 ∧
    statusOf (JsonParser_parse freshParser (longKeyDoc (List.replicate 500 97) ++ [0]) 506)
      = some 1 := by
  constructor
  · have h := (C12_address_length_budget freshParser [] 0).2.2.2.2.1 (List.replicate 499 97) [0]
      (fun c hc => by rw [List.eq_of_mem_replicate hc]; decide)
    rw [List.length_replicate, if_pos (by decide)] at h
    exact h
  · have h := (C12_address_length_budget freshParser [] 0).2.2.2.2.1 (List.replicate 500 97) [0]
      (fun c hc => by rw [List.eq_of_mem_replicate hc]; decide)
    rw [List.length_replicate, if_neg (by decide)] at h
    exact h

/-- The first error of a run: the flag is set at the end exactly when it was
set anywhere in the run, the sink invocations of the run are then those made
before the flag was first set, and the call returns 1 unless the run was
killed. -/
theorem run_error (p : JsonParser) (mem : List Nat) (E : Nat) :
    ∃ t, runOf p mem E = some t ∧
      t.errorAt = (if t.isInvalid then some t.calls else none) ∧
      (∀ cs, t.errorAt = some cs →
        t.isInvalid = true ∧ t.calls = cs ∧
        statusOf (JsonParser_parse p mem E) = (if t.killed then none else some 1)) := by
  obtain ⟨t, ht, hH, hp, hst⟩ := run_end p mem E
  refine ⟨t, ht, hH.error, fun cs hc => ?_⟩
  have he := hH.error
  rw [hc] at he
  cases hv : t.isInvalid with
  | false => rw [hv] at he; simp at he
  | true =>
    rw [hv] at he
    simp only [if_true, Option.some.injEq] at he
    refine ⟨rfl, he.symm, ?_⟩
    rw [hp]
    cases t.killed
    · simp [statusOf, hst hv]
    · rfl

/-- C13: the validity flag is sticky and silences the sink. Every production of
the parser (the scanners, the reporting function, the value production and, with
it as their value production, the key/value, object and array productions and
their loops) satisfies the frame `Ext` from every state to the state it
returns: the flag, once set, stays set; sink invocations are only appended to
the trace; none is appended when the flag was set on entry. In particular a
report requested while the flag is set is suppressed and leaves the flag set.
`JsonParser_parse` starts the value production with the flag clear and an empty
trace. The frame `Ext` also keeps the sink invocations that `errorAt` recorded
at the first assignment to the flag. Every run ends in a state in which the
flag is set exactly when `errorAt` has a record, that is when the flag was set
anywhere in the run; the sink invocations of the run are then exactly those
made before the flag was first set, and the call returns 1 unless the run was
killed. The same holds at the end of every value production that is started
in a valid state of a run. -/
theorem C13_sticky_validity (mem : List Nat) :
    (∀ s : JsonParser, Ext s (JsonParser_consumeWhiteSpaces mem s)) ∧
    (∀ s : JsonParser, Ext s (JsonParser_parseNumber mem s)) ∧
    (∀ s : JsonParser, Ext s (JsonParser_parseExcapedChar mem s)) ∧
    (∀ s : JsonParser, Ext s (JsonParser_parseString mem s)) ∧
    (∀ (s : JsonParser) (b : Nat) (l : Int), Ext s (JsonParser_inform mem s b l)) ∧
    (∀ (d : Nat) (s t : JsonParser), JsonParser_parseValue mem d s = some t → Ext s t) ∧
    (∀ (d k : Nat) (s t : JsonParser),
      parseKeyValueLoop (JsonParser_parseValue mem d) mem k s = some t → Ext s t) ∧
    (∀ (d : Nat) (s t : JsonParser),
      JsonParser_parseKeyValue (JsonParser_parseValue mem d) mem s = some t → Ext s t) ∧
    (∀ (d k : Nat) (s t : JsonParser),
      parseObjectLoop (JsonParser_parseValue mem d) mem k s = some t → Ext s t) ∧
    (∀ (d : Nat) (s t : JsonParser),
      JsonParser_parseObject (JsonParser_parseValue mem d) mem s = some t → Ext s t) ∧
    (∀ (d k idx : Nat) (s t : JsonParser),
      parseArrayLoop (JsonParser_parseValue mem d) mem k idx s = some t → Ext s t) ∧
    (∀ (d : Nat) (s t : JsonParser),
      JsonParser_parseArray (JsonParser_parseValue mem d) mem s = some t → Ext s t) ∧
    (∀ (s : JsonParser) (b : Nat) (l : Int), s.isInvalid = true →
      (JsonParser_inform mem s b l).isInvalid = true ∧
        (JsonParser_inform mem s b l).calls = s.calls) ∧
    (∀ (p : JsonParser) (E : Nat),
      (entryState p E).isInvalid = false ∧ (entryState p E).calls = [] ∧
        (entryState p E).errorAt = none) ∧
    (∀ (p : JsonParser) (E : Nat), ∃ t, runOf p mem E = some t ∧
      t.errorAt = (if t.isInvalid then some t.calls else none) ∧
      (∀ cs, t.errorAt = some cs →
        t.isInvalid = true ∧ t.calls = cs ∧
        statusOf (JsonParser_parse p mem E) = (if t.killed then none else some 1))) ∧
    (∀ (d : Nat) (s t : JsonParser), Entry s → JsonParser_parseValue mem d s = some t →
      t.errorAt = (if t.isInvalid then some t.calls else none)) :=
  ⟨fun s => ((Scan.srefl s).consumeWhiteSpaces mem).ext,
   fun s => ((Scan.srefl s).parseNumber mem).ext,
   fun s => ((Scan.srefl s).parseExcapedChar mem).ext,
   fun s => ((Scan.srefl s).parseString mem).ext,
   fun s b l => ext_inform mem s b l,
   fun d s t h => parseValue_ext mem d s t h,
   fun d k s t h => parseKeyValueLoop_ext mem (parseValue_ext mem d) k s s t (Ext.erefl s) h,
   fun d s t h => parseKeyValue_ext mem (parseValue_ext mem d) s s t (ext_advance s 1) h,
   fun d k s t h => parseObjectLoop_ext mem (parseValue_ext mem d) k s s t (Ext.erefl s) h,
   fun d s t h => parseObject_ext mem (parseValue_ext mem d) s s t (Ext.erefl s) h,
   fun d k idx s t h =>
     parseArrayLoop_ext mem (parseValue_ext mem d) k idx s s t (Ext.erefl s) h,
   fun d s t h => parseArray_ext mem (parseValue_ext mem d) s s t (Ext.erefl s) h,
   fun s b l hs => (ext_inform mem s b l).silent hs,
   fun _ _ => ⟨rfl, rfl, rfl⟩,
   fun p E => run_error p mem E,
   fun d s t hs h => (parseValue_leave mem d s t hs h).history.error⟩

set_option maxRecDepth 100000 in
/-- C13 at the 9-byte buffer `[1, x, 2]`: the element `1` is reported, the error
at `x` sets the flag, and neither `2` nor the array is reported. -/
theorem C13_sticky_validity_witness :
    callsOf (JsonParser_parse freshParser [91, 49, 44, 32, 120, 44, 32, 50, 93, 0] 9)
      = some [{ key := [91, 48, 93], keyLen := 3, value := 1, valueLen := 1 }] ∧
    statusOf (JsonParser_parse freshParser [91, 49, 44, 32, 120, 44, 32, 50, 93, 0] 9)
      = some 1 ∧
    errorOf (runOf freshParser [91, 49, 44, 32, 120, 44, 32, 50, 93, 0] 9)
      = some (some [{ key := [91, 48, 93], keyLen := 3, value := 1, valueLen := 1 }]) ∧
    ∀ (s : JsonParser) (b : Nat) (l : Int), s.isInvalid = true →
      (JsonParser_inform [91, 49, 44, 32, 120, 44, 32, 50, 93, 0] s b l).isInvalid = true ∧
        (JsonParser_inform [91, 49, 44, 32, 120, 44, 32, 50, 93, 0] s b l).calls = s.calls :=
  ⟨by decide, by decide, by decide,
   (C13_sticky_validity [91, 49, 44, 32, 120, 44, 32, 50, 93, 0]).2.2.2.2.2.2.2.2.2.2.2.2.1⟩
set_option maxRecDepth 100000 in
/-- C14 (evaluation at the failing input): on the 3-byte buffer `"\u` (quote,
backslash, `u`; followed by the terminating zero of a C string) the sink is
invoked once for the root value with the span starting at the first byte and a
length of 4, one more than the buffer holds; the call returns 1. -/
theorem C14_span_past_end :
    callsOf (JsonParser_parse freshParser [34, 92, 117, 0] 3)
      = some [{ key := [], keyLen := 0, value := 0, valueLen := 4 }] ∧
    statusOf (JsonParser_parse freshParser [34, 92, 117, 0] 3) = some 1 := by
  decide

set_option maxRecDepth 100000 in
/-- C19 (evaluation at the failing inputs): on the empty buffer, on the 1-byte
buffer `[` and on the 2-byte buffer `[1` (each followed by the terminating zero
of a C string) the parser reads the byte at the cursor while the cursor stands
at the end of the buffer. -/
theorem C19_read_at_end :
    oobReadOf (JsonParser_parse freshParser [0] 0) = some true ∧
    oobReadOf (JsonParser_parse freshParser [91, 0] 1) = some true ∧
    oobReadOf (JsonParser_parse freshParser [91, 49, 0] 2) = some true ∧
    oobReadOf (JsonParser_parse freshParser [91, 49, 93, 0] 3) = some false := by
  decide
/-- A run of the value production that ends valid, from a state with a
non-negative stack depth, leaves the live segments of the path stack as they
were. -/
theorem parseValue_stack (mem : List Nat) (d : Nat) (s t : JsonParser)
    (h0 : 0 ≤ s.uriParts_.nParts) (h : JsonParser_parseValue mem d s = some t)
    (hv : t.isInvalid = false) : SameStack s.uriParts_ t.uriParts_ := by
  obtain ⟨b, e, D, hrun⟩ := (parseValue_pvspec mem d).run s t h hv h0
  exact hrun.stack

/-- A call of `JsonParser_parse` that ends with a path stack that is not empty
ends with the validity flag set. -/
theorem parse_stack_left (p : JsonParser) (mem : List Nat) (E : Nat) (o : Outcome)
    (h : JsonParser_parse p mem E = some o) (hn : o.parser.uriParts_.nParts ≠ 0) :
    o.parser.isInvalid = true := by
  unfold JsonParser_parse at h
  split at h
  · simp at h
  · rename_i t ht
    split at h
    · simp at h
    simp only [Option.some.injEq] at h
    subst h
    cases hv : t.isInvalid with
    | true => rfl
    | false =>
      have hst := parseValue_stack mem _ _ t (by show (0 : Int) ≤ 0; omega) ht hv
      exact absurd hst.1 hn

theorem SameStack.pop {u v : UriParts} (part : UriPart)
    (h : SameStack { parts := fun i => if i = u.nParts then part else u.parts i,
                     nParts := u.nParts + 1 } v) :
    SameStack u (UriParts_drop v) := by
  refine ⟨?_, ?_⟩
  · show v.nParts - 1 = u.nParts
    have h1 : v.nParts = u.nParts + 1 := h.1
    omega
  · intro i h0 hi
    have h2 := h.2 i h0 (by show i < u.nParts + 1; omega)
    have h3 : v.parts i = if i = u.nParts then part else u.parts i := h2
    rw [if_neg (by omega)] at h3
    exact h3

/-- The colon loop of the key/value production, when it leaves the parser
valid inside the buffer, has dropped the segment of the key, whatever the depth
of the stack. -/
theorem parseKeyValueLoop_stack {pv : JsonParser → Option JsonParser} (mem : List Nat)
    (hpvS : ∀ t t1, pv t = some t1 → t1.isInvalid = false →
      SameStack t.uriParts_ t1.uriParts_) :
    ∀ (k : Nat) (s t : JsonParser), parseKeyValueLoop pv mem k s = some t →
      t.isInvalid = false → s.end_ - s.str_ ≤ k →
      t.end_ ≤ t.str_ ∨ SameStack (UriParts_drop s.uriParts_) t.uriParts_ := by
  intro k
  induction k with
  | zero =>
    intro s t h hv hk
    simp only [parseKeyValueLoop, Option.some.injEq] at h
    left
    rw [← h]
    omega
  | succ k ih =>
    intro s t h hv hk
    unfold parseKeyValueLoop at h
    split_ifs at h with h1 h2
    · cases hp : pv (advance s 1) with
      | none => simp [hp] at h
      | some t1 =>
        simp only [hp, Option.some.injEq] at h
        right
        rw [← h]
        have hv1 : t1.isInvalid = false := by rw [← h] at hv; exact hv
        exact (hpvS _ _ hp hv1).drop_both
    · exact ih (advance s 1) t h hv (by simp only [advance_end_, advance_str_]; omega)
    · simp only [Option.some.injEq] at h
      left
      rw [← h]
      rw [← h] at hv
      simp only [Bool.and_eq_true, decide_eq_true_eq, Bool.not_eq_true', not_and,
        Bool.not_eq_false] at h1
      by_contra hlt
      have := h1 (by omega)
      rw [hv] at this
      cases this

theorem parseKeyValue_stack {pv : JsonParser → Option JsonParser} (mem : List Nat)
    (hpvS : ∀ t t1, pv t = some t1 → t1.isInvalid = false →
      SameStack t.uriParts_ t1.uriParts_)
    (s t : JsonParser) (h : JsonParser_parseKeyValue pv mem s = some t)
    (hv : t.isInvalid = false) :
    t.end_ ≤ t.str_ ∨ SameStack s.uriParts_ t.uriParts_ := by
  have hsc : (JsonParser_parseString mem s).uriParts_ = s.uriParts_ :=
    ((Scan.srefl s).parseString mem).parts_eq
  unfold JsonParser_parseKeyValue at h
  simp only [] at h
  rcases appendString_cases (JsonParser_parseString mem s).uriParts_ (Ptr.json (s.str_ + 1))
    (((JsonParser_parseString mem s).str_ : Int) - 1 - ((s.str_ + 1 : Nat) : Int))
    with ⟨-, hc⟩ | ⟨-, hc⟩
  · rw [hc] at h
    simp only [Option.some.injEq] at h
    rw [← h] at hv
    cases hv
  · rw [hc] at h
    rcases parseKeyValueLoop_stack mem hpvS _ _ _ h hv (Nat.le_refl _) with h1 | h1
    · exact Or.inl h1
    · right
      rw [← hsc]
      refine SameStack.strans_stack ?_ h1
      exact SameStack.pop _ (SameStack.srefl_stack _)

theorem objectLoop_outside (pv : JsonParser → Option JsonParser) (mem : List Nat) (k : Nat)
    (s t : JsonParser) (h : s.end_ ≤ s.str_) (ht : parseObjectLoop pv mem k s = some t) :
    t.isInvalid = true := by
  have hcond : ¬ (decide (s.str_ < s.end_) && !s.isInvalid) = true := by
    simp only [Bool.and_eq_true, decide_eq_true_eq]; omega
  cases k with
  | zero =>
    rw [parseObjectLoop, if_neg hcond, Option.some.injEq] at ht
    rw [← ht]; rfl
  | succ k =>
    rw [parseObjectLoop, if_neg hcond, Option.some.injEq] at ht
    rw [← ht]; rfl

/-- The loop of the object production, when it leaves the parser valid, has
dropped the marker of the object, whatever the depth of the stack. -/
theorem parseObjectLoop_stack {pv : JsonParser → Option JsonParser} (mem : List Nat)
    (hpvS : ∀ t t1, pv t = some t1 → t1.isInvalid = false →
      SameStack t.uriParts_ t1.uriParts_) :
    ∀ (k : Nat) (s t : JsonParser), parseObjectLoop pv mem k s = some t →
      t.isInvalid = false → SameStack (UriParts_drop s.uriParts_) t.uriParts_ := by
  intro k
  induction k with
  | zero =>
    intro s t h hv
    unfold parseObjectLoop at h
    split_ifs at h
    simp only [Option.some.injEq] at h
    rw [← h] at hv
    cases hv
  | succ k ih =>
    intro s t h hv
    unfold parseObjectLoop at h
    split_ifs at h
    · cases hp : JsonParser_parseKeyValue pv mem s with
      | none => simp [hp] at h
      | some t1 =>
        simp only [hp] at h
        have h2 := ih _ _ h hv
        cases hv1 : t1.isInvalid with
        | true =>
          rw [objectLoop_invalid pv mem k t1 hv1, Option.some.injEq] at h
          rw [← h] at hv
          cases hv
        | false =>
          rcases parseKeyValue_stack mem hpvS s t1 hp hv1 with h3 | h3
          · have := objectLoop_outside pv mem k t1 t h3 h
            rw [hv] at this
            cases this
          · exact h3.drop_both.strans_stack h2
    · simp only [Option.some.injEq] at h
      rw [← h]
      exact SameStack.srefl_stack _
    · exact ih (advance s 1) t h hv
    · exact ih (advance (invalidate s) 1) t h hv
    · exact ih (advance s 1) t h hv
    · simp only [Option.some.injEq] at h
      rw [← h] at hv
      cases hv

theorem parseObject_stack {pv : JsonParser → Option JsonParser} (mem : List Nat)
    (hpvS : ∀ t t1, pv t = some t1 → t1.isInvalid = false →
      SameStack t.uriParts_ t1.uriParts_)
    (s t : JsonParser) (h : JsonParser_parseObject pv mem s = some t)
    (hv : t.isInvalid = false) : SameStack s.uriParts_ t.uriParts_ := by
  unfold JsonParser_parseObject at h
  rw [appendObject_eq] at h
  rcases appendString_cases s.uriParts_ Ptr.objectUri 1 with ⟨-, hc⟩ | ⟨-, hc⟩
  · rw [hc] at h
    simp only [Option.some.injEq] at h
    rw [← h] at hv
    cases hv
  · rw [hc] at h
    exact (SameStack.pop _ (SameStack.srefl_stack _)).strans_stack
      (parseObjectLoop_stack mem hpvS _ _ _ h hv)

/-- The loop of the array production, when it leaves the parser valid, has
dropped every index label it pushed, whatever the depth of the stack. -/
theorem parseArrayLoop_stack {pv : JsonParser → Option JsonParser} (mem : List Nat)
    (hpvE : ∀ t t1, pv t = some t1 → Ext t t1)
    (hpvS : ∀ t t1, pv t = some t1 → t1.isInvalid = false →
      SameStack t.uriParts_ t1.uriParts_) :
    ∀ (k idx : Nat) (s t : JsonParser), parseArrayLoop pv mem k idx s = some t →
      t.isInvalid = false → SameStack s.uriParts_ t.uriParts_ := by
  intro k
  induction k with
  | zero =>
    intro idx s t h hv
    unfold parseArrayLoop at h
    split_ifs at h
    simp only [Option.some.injEq] at h
    rw [← h]
    exact SameStack.srefl_stack _
  | succ k ih =>
    intro idx s t h hv
    unfold parseArrayLoop at h
    split_ifs at h
    · simp only [] at h
      have hw : (JsonParser_consumeWhiteSpaces mem s).uriParts_ = s.uriParts_ :=
        ((Scan.srefl s).consumeWhiteSpaces mem).parts_eq
      rcases appendString_cases (JsonParser_consumeWhiteSpaces mem s).uriParts_
        (Ptr.buffer (indexLabel idx)) ((indexLabel idx).length : Int) with ⟨-, hc⟩ | ⟨-, hc⟩
      · rw [hc] at h
        simp only [Option.some.injEq] at h
        rw [← h] at hv
        cases hv
      · rw [hc] at h
        simp only [] at h
        split at h
        · simp at h
        · rename_i t1 hp
          have hy : Scan { t1 with uriParts_ := UriParts_drop t1.uriParts_ }
              (touch (JsonParser_consumeWhiteSpaces mem
                { t1 with uriParts_ := UriParts_drop t1.uriParts_ }) 0) :=
            ((Scan.srefl _).consumeWhiteSpaces mem).touch 0
          have key : t1.isInvalid = false → SameStack s.uriParts_
              (touch (JsonParser_consumeWhiteSpaces mem
                { t1 with uriParts_ := UriParts_drop t1.uriParts_ }) 0).uriParts_ := by
            intro hv1
            rw [hy.parts_eq, ← hw]
            exact SameStack.pop _ (hpvS _ _ hp hv1)
          split_ifs at h
          · have hx := parseArrayLoop_ext mem hpvE k (idx + 1) _ _ _
              (Ext.erefl (advance (touch (JsonParser_consumeWhiteSpaces mem
                { t1 with uriParts_ := UriParts_drop t1.uriParts_ }) 0) 1)) h
            have hv2 := hx.evalid hv
            have hv1 : t1.isInvalid = false := hy.svalid hv2
            exact (key hv1).strans_stack (ih (idx + 1) (advance (touch (JsonParser_consumeWhiteSpaces
              mem { t1 with uriParts_ := UriParts_drop t1.uriParts_ }) 0) 1) t h hv)
          · simp only [Option.some.injEq] at h
            rw [← h] at hv ⊢
            exact key (hy.svalid hv)
          · simp only [Option.some.injEq] at h
            rw [← h] at hv
            cases hv
    · simp only [Option.some.injEq] at h
      rw [← h]
      exact SameStack.srefl_stack _

theorem parseArray_stack {pv : JsonParser → Option JsonParser} (mem : List Nat)
    (hpvE : ∀ t t1, pv t = some t1 → Ext t t1)
    (hpvS : ∀ t t1, pv t = some t1 → t1.isInvalid = false →
      SameStack t.uriParts_ t1.uriParts_)
    (s t : JsonParser) (h : JsonParser_parseArray pv mem s = some t)
    (hv : t.isInvalid = false) : SameStack s.uriParts_ t.uriParts_ := by
  have hy : (touch (JsonParser_consumeWhiteSpaces mem (advance s 1)) 0).uriParts_
      = s.uriParts_ :=
    (((Scan.srefl (advance s 1)).consumeWhiteSpaces mem).touch 0).parts_eq
  unfold JsonParser_parseArray at h
  simp only [] at h
  split_ifs at h
  · simp only [Option.some.injEq] at h
    rw [← h, ← hy]
    exact SameStack.srefl_stack _
  · rw [← hy]
    exact parseArrayLoop_stack mem hpvE hpvS _ _ _ _ h hv

theorem finishValue_parts (mem : List Nat) (b : Nat) (x : JsonParser) :
    (finishValue mem b x).uriParts_ = x.uriParts_ := by
  unfold finishValue
  rw [((Scan.srefl _).consumeWhiteSpaces mem).parts_eq]
  exact (inform_frame mem x b _).2.2.1

/-- A run of the value production that ends valid leaves the live segments of
the path stack as they were, from every state. -/
theorem parseValue_keeps (mem : List Nat) :
    ∀ (d : Nat) (s t : JsonParser), JsonParser_parseValue mem d s = some t →
      t.isInvalid = false → SameStack s.uriParts_ t.uriParts_ := by
  intro d
  induction d with
  | zero => intro s t h; simp [JsonParser_parseValue] at h
  | succ d ih =>
    intro s t h hv
    have hx : (touch (JsonParser_consumeWhiteSpaces mem s) 0).uriParts_ = s.uriParts_ :=
      (((Scan.srefl s).consumeWhiteSpaces mem).touch 0).parts_eq
    have hval : ∀ x : JsonParser, (finishValue mem
        (touch (JsonParser_consumeWhiteSpaces mem s) 0).str_ x).isInvalid = false →
        x.isInvalid = false := fun x hfx => ((Ext.erefl x).finishValue mem _).evalid hfx
    unfold JsonParser_parseValue at h
    simp only [] at h
    split_ifs at h
    · simp only [Option.some.injEq] at h
      rw [← h, finishValue_parts, ((Scan.srefl _).parseString mem).parts_eq, hx]
      exact SameStack.srefl_stack _
    · simp only [Option.some.injEq] at h
      rw [← h, finishValue_parts, ((Scan.srefl _).parseNumber mem).parts_eq, hx]
      exact SameStack.srefl_stack _
    · split at h
      · simp at h
      · rename_i t1 hp
        simp only [Option.some.injEq] at h
        rw [← h] at hv ⊢
        rw [finishValue_parts, ← hx]
        exact parseObject_stack mem ih _ _ hp (hval t1 hv)
    · split at h
      · simp at h
      · rename_i t1 hp
        simp only [Option.some.injEq] at h
        rw [← h] at hv ⊢
        rw [finishValue_parts, ← hx]
        exact parseArray_stack mem (parseValue_ext mem d) ih _ _ hp (hval t1 hv)
    · simp only [Option.some.injEq] at h
      rw [← h, finishValue_parts]
      show SameStack s.uriParts_ (touch (JsonParser_consumeWhiteSpaces mem s) 0).uriParts_
      rw [hx]
      exact SameStack.srefl_stack _
    · simp only [Option.some.injEq] at h
      rw [← h, finishValue_parts]
      show SameStack s.uriParts_ (touch (JsonParser_consumeWhiteSpaces mem s) 0).uriParts_
      rw [hx]
      exact SameStack.srefl_stack _
    · simp only [Option.some.injEq] at h
      rw [← h, finishValue_parts]
      show SameStack s.uriParts_ (touch (JsonParser_consumeWhiteSpaces mem s) 0).uriParts_
      rw [hx]
      exact SameStack.srefl_stack _
    · simp only [Option.some.injEq] at h
      rw [← h]
      show SameStack s.uriParts_ (touch (JsonParser_consumeWhiteSpaces mem s) 0).uriParts_
      rw [hx]
      exact SameStack.srefl_stack _

/-- C18: pushes and pops around a value are paired. If the value production,
started in any state, returns with the validity flag clear, the path stack on
return has the depth it had on entry and the same live segments; and a call of
`JsonParser_parse` that ends with a non-empty path stack ends with the validity
flag set. -/
theorem C18_stack_restored (mem : List Nat) (d : Nat) (s t : JsonParser)
    (h : JsonParser_parseValue mem d s = some t) (hv : t.isInvalid = false) :
    (t.uriParts_.nParts = s.uriParts_.nParts ∧
      ∀ i : Int, 0 ≤ i → i < s.uriParts_.nParts → t.uriParts_.parts i = s.uriParts_.parts i) ∧
    ∀ (p : JsonParser) (E : Nat) (o : Outcome), JsonParser_parse p mem E = some o →
      o.parser.uriParts_.nParts ≠ 0 → o.parser.isInvalid = true :=
  ⟨parseValue_keeps mem d s t h hv, fun p E o ho hn => parse_stack_left p mem E o ho hn⟩

set_option maxRecDepth 100000 in
/-- C18 at the 9-byte buffer `{"a":[1]}`, read by the value production from a
state whose path stack already holds two segments. -/
theorem C18_stack_restored_witness :
    ((JsonParser_parseValue [123, 34, 97, 34, 58, 91, 49, 93, 125, 0] 10
        { entryState freshParser 9 with uriParts_ := { parts := fun _ => { Begin := Ptr.objectUri, len := 1 }, nParts := 2 } }).getD
      freshParser).isInvalid = false ∧
    (((JsonParser_parseValue [123, 34, 97, 34, 58, 91, 49, 93, 125, 0] 10
        { entryState freshParser 9 with uriParts_ := { parts := fun _ => { Begin := Ptr.objectUri, len := 1 }, nParts := 2 } }).getD
      freshParser).uriParts_.nParts = 2 ∧
      ∀ i : Int, 0 ≤ i → i < 2 →
        ((JsonParser_parseValue [123, 34, 97, 34, 58, 91, 49, 93, 125, 0] 10
          { entryState freshParser 9 with uriParts_ := { parts := fun _ => { Begin := Ptr.objectUri, len := 1 }, nParts := 2 } }).getD
          freshParser).uriParts_.parts i = { Begin := Ptr.objectUri, len := 1 }) ∧
    ∀ (p : JsonParser) (E : Nat) (o : Outcome),
      JsonParser_parse p [123, 34, 97, 34, 58, 91, 49, 93, 125, 0] E = some o →
      o.parser.uriParts_.nParts ≠ 0 → o.parser.isInvalid = true :=
  ⟨by decide,
   C18_stack_restored [123, 34, 97, 34, 58, 91, 49, 93, 125, 0] 10
    { entryState freshParser 9 with uriParts_ := { parts := fun _ => { Begin := Ptr.objectUri, len := 1 }, nParts := 2 } }
    ((JsonParser_parseValue [123, 34, 97, 34, 58, 91, 49, 93, 125, 0] 10
      { entryState freshParser 9 with uriParts_ := { parts := fun _ => { Begin := Ptr.objectUri, len := 1 }, nParts := 2 } }).getD
      freshParser)
    (by rfl) (by decide)⟩
theorem refStringScanExact_fuel (mem : List Nat) (E : Nat) :
    ∀ (k p : Nat), E - p ≤ k →
      refStringScanExact mem E (k + 1) p = refStringScanExact mem E k p := by
  intro k
  induction k with
  | zero =>
    intro p h
    have hp : E ≤ p := by omega
    simp [refStringScanExact, hp]
  | succ k ih =>
    intro p h
    conv_lhs => rw [refStringScanExact]
    conv_rhs => rw [refStringScanExact]
    simp only [ih (p + 1) (by omega), ih (p + 2) (by omega), ih (p + 3) (by omega)]

theorem refStringScanExact_end (mem : List Nat) (E : Nat) (k p : Nat) (h : E ≤ p) :
    refStringScanExact mem E k p = p := by
  cases k with
  | zero => rfl
  | succ k => rw [refStringScanExact, if_pos h]

theorem parseStringLoop_end (mem : List Nat) (k : Nat) (s : JsonParser)
    (h : s.end_ ≤ s.str_) : parseStringLoop mem k s = s := by
  cases k with
  | zero => rfl
  | succ k => rw [parseStringLoop, if_neg (by omega)]

theorem isEscapeByte_iff (c : Nat) :
    isEscapeByte c = true ↔
      (c = 34 ∨ c = 92 ∨ c = 47 ∨ c = 8 ∨ c = 12 ∨ c = 10 ∨ c = 13 ∨ c = 9) := by
  simp [isEscapeByte, or_assoc]

/-- The loop of the string production stops where the exact reference scanner
does. -/
theorem parseStringLoop_ref (mem : List Nat) :
    ∀ (k : Nat) (s : JsonParser), s.end_ - s.str_ ≤ k →
      (parseStringLoop mem k s).str_ = refStringScanExact mem s.end_ k s.str_ := by
  intro k
  induction k with
  | zero => intro s _; rfl
  | succ k ih =>
    intro s hk
    by_cases hlt : s.str_ < s.end_
    · rw [refStringScanExact, if_neg (by omega)]
      by_cases h92 : mem.getD s.str_ 0 = 92
      · rw [parseStringLoop_escape mem k s hlt h92, if_pos h92]
        have hend := parseExcapedChar_end mem s
        have hat := parseExcapedChar_at mem s _ rfl
        by_cases hu : mem.getD (s.str_ + 1) 0 = 117
        · rw [if_pos hu]
          rw [hu] at hat
          simp only [show ¬ ((117 : Nat) = 34 ∨ (117 : Nat) = 92 ∨ (117 : Nat) = 47 ∨
            (117 : Nat) = 8 ∨ (117 : Nat) = 12 ∨ (117 : Nat) = 10 ∨ (117 : Nat) = 13 ∨
            (117 : Nat) = 9) by decide, if_false, if_true] at hat
          rw [ih _ (by rw [hend, hat]; omega), hend, hat]
        · rw [if_neg hu]
          by_cases hesc : isEscapeByte (mem.getD (s.str_ + 1) 0) = true
          · rw [if_pos (Or.inr hesc)]
            rw [if_pos ((isEscapeByte_iff _).1 hesc)] at hat
            rw [ih _ (by rw [hend, hat]; omega), hend, hat]
          · rw [if_neg (fun h => hesc ((isEscapeByte_iff _).2 h)), if_neg hu] at hat
            by_cases hin : s.str_ + 1 < s.end_
            · rw [if_pos (Or.inl hin)]
              have hne : mem.getD (s.str_ + 1) 0 ≠ 92 ∧ mem.getD (s.str_ + 1) 0 ≠ 34 := by
                constructor
                · intro h; exact hesc ((isEscapeByte_iff _).2 (Or.inr (Or.inl h)))
                · intro h; exact hesc ((isEscapeByte_iff _).2 (Or.inl h))
              rw [ih _ (by rw [hend, hat]; omega), hend, hat]
              obtain ⟨k, rfl⟩ : ∃ k1, k = k1 + 1 := ⟨k - 1, by omega⟩
              conv_lhs => rw [refStringScanExact]
              rw [if_neg (by omega), if_neg hne.1, if_neg hne.2]
              exact (refStringScanExact_fuel mem s.end_ k (s.str_ + 1 + 1) (by omega)).symm
            · rw [if_neg (by rintro (h | h); exact hin h; exact hesc h)]
              rw [parseStringLoop_end mem k _ (by rw [hend, hat]; omega), hat]
      · rw [if_neg h92]
        by_cases h34 : mem.getD s.str_ 0 = 34
        · rw [parseStringLoop_close mem k s hlt h34, if_pos h34]
          rfl
        · rw [parseStringLoop_plain mem k s hlt h92 h34, if_neg h34]
          exact ih _ (by simp; omega)
    · rw [parseStringLoop_end mem _ s (by omega), refStringScanExact_end mem _ _ _ (by omega)]

theorem stringStop_ref (mem : List Nat) (E p : Nat) :
    stringStop mem E p = refStringStopExact mem E p := by
  unfold stringStop JsonParser_parseString refStringStopExact
  exact parseStringLoop_ref mem _ _ (Nat.le_refl _)

/-- On a buffer whose last byte is not a backslash the exact reference scanner
is the reference scanner. -/
theorem refStringScanExact_eq (mem : List Nat) (E : Nat) (hlast : mem.getD (E - 1) 0 ≠ 92) :
    ∀ (k p : Nat), refStringScanExact mem E k p = refStringScan mem E k p := by
  intro k
  induction k with
  | zero => intro p; rfl
  | succ k ih =>
    intro p
    rw [refStringScanExact, refStringScan]
    simp only [ih]
    by_cases hE : E ≤ p
    · rw [if_pos hE, if_pos hE]
    · rw [if_neg hE, if_neg hE]
      by_cases h92 : mem.getD p 0 = 92
      · have hp : p + 1 < E := by
          by_contra hc
          have : p = E - 1 := by omega
          rw [this] at h92
          exact hlast h92
        rw [if_pos h92, if_pos h92, if_pos (Or.inl hp)]
      · rw [if_neg h92, if_neg h92]

/-- C17 (as amended): for every buffer and every position `p` of an opening
quote, the string production stops where the reference scanner stops once its
rule for a backslash in the last byte of the buffer is made exact (skip two
bytes if the byte behind it is one of quote, backslash, slash, BS, FF, LF, CR,
HT, three if it is `u`, the backslash alone otherwise); on every buffer whose
last byte is not a backslash this is the reference scanner of the claim itself.
The string production leaves the cursor at that position and never touches the
validity flag. -/
theorem C17_string_stop_reference (mem : List Nat) (E p : Nat) :
    stringStop mem E p = refStringStopExact mem E p ∧
    (mem.getD (E - 1) 0 ≠ 92 → stringStop mem E p = refStringStop mem E p) ∧
    ∀ s : JsonParser,
      (JsonParser_parseString mem s).str_ = stringStop mem s.end_ s.str_ ∧
      (JsonParser_parseString mem s).isInvalid = s.isInvalid := by
  refine ⟨stringStop_ref mem E p, ?_, ?_⟩
  · intro hlast
    rw [stringStop_ref, refStringStopExact, refStringStop, refStringScanExact_eq mem E hlast]
  · intro s
    obtain ⟨q, o, hq⟩ := parseString_frame mem s
    exact ⟨parseString_stop mem s, by rw [hq]⟩

/-- C17 (counterexample to the claim as stated): on the 2-byte buffer made of
a quote and a backslash, followed by a zero byte, the string production stops
at position 2 and the reference scanner of the claim at position 3. -/
theorem C17_reference_differs :
    stringStop [34, 92, 0] 2 0 = 2 ∧ refStringStop [34, 92, 0] 2 0 = 3 ∧
      stringStop [34, 92, 0] 2 0 ≠ refStringStop [34, 92, 0] 2 0 := by
  decide

@[simp] theorem withParts_str_ (s : JsonParser) (u : UriParts) : (withParts s u).str_ = s.str_ := rfl
@[simp] theorem withParts_end_ (s : JsonParser) (u : UriParts) : (withParts s u).end_ = s.end_ := rfl
@[simp] theorem withParts_isInvalid (s : JsonParser) (u : UriParts) :
    (withParts s u).isInvalid = s.isInvalid := rfl
@[simp] theorem withParts_calls (s : JsonParser) (u : UriParts) :
    (withParts s u).calls = s.calls := rfl
@[simp] theorem withParts_badCopy (s : JsonParser) (u : UriParts) :
    (withParts s u).badCopy = s.badCopy := rfl
@[simp] theorem withParts_uriParts_ (s : JsonParser) (u : UriParts) :
    (withParts s u).uriParts_ = u := rfl
@[simp] theorem deref_withParts (mem : List Nat) (s : JsonParser) (u : UriParts) (k : Nat) :
    deref mem (withParts s u) k = deref mem s k := rfl
@[simp] theorem withParts_withParts (s : JsonParser) (u v : UriParts) :
    withParts (withParts s u) v = withParts s v := rfl
theorem touch_withParts (s : JsonParser) (u : UriParts) (k : Nat) :
    touch (withParts s u) k = withParts (touch s k) u := rfl
theorem advance_withParts (s : JsonParser) (u : UriParts) (k : Nat) :
    advance (withParts s u) k = withParts (advance s k) u := rfl
theorem invalidate_withParts (s : JsonParser) (u : UriParts) :
    invalidate (withParts s u) = withParts (invalidate s) u := rfl
theorem withParts_self (s : JsonParser) : withParts s s.uriParts_ = s := by
  cases s; rfl

theorem consumeWhiteSpacesLoop_withParts (mem : List Nat) (u : UriParts) :
    ∀ (k : Nat) (s : JsonParser),
      consumeWhiteSpacesLoop mem k (withParts s u)
        = withParts (consumeWhiteSpacesLoop mem k s) u := by
  intro k
  induction k with
  | zero => intro s; rfl
  | succ k ih =>
    intro s
    rw [consumeWhiteSpacesLoop, consumeWhiteSpacesLoop]
    simp only [withParts_str_, withParts_end_, deref_withParts, advance_withParts]
    split_ifs
    · exact ih _
    · rfl

theorem consumeWhiteSpaces_withParts (mem : List Nat) (u : UriParts) (s : JsonParser) :
    JsonParser_consumeWhiteSpaces mem (withParts s u)
      = withParts (JsonParser_consumeWhiteSpaces mem s) u :=
  consumeWhiteSpacesLoop_withParts mem u _ s

theorem digitsLoop_withParts (mem : List Nat) (u : UriParts) :
    ∀ (k : Nat) (s : JsonParser),
      digitsLoop mem k (withParts s u) = withParts (digitsLoop mem k s) u := by
  intro k
  induction k with
  | zero => intro s; rfl
  | succ k ih =>
    intro s
    rw [digitsLoop, digitsLoop]
    simp only [withParts_str_, withParts_end_, deref_withParts, advance_withParts]
    split_ifs
    · rfl
    · exact ih _
    · rfl

theorem skipDigits_withParts (mem : List Nat) (u : UriParts) (s : JsonParser) :
    skipDigits mem (withParts s u) = withParts (skipDigits mem s) u :=
  digitsLoop_withParts mem u _ s

theorem touchNe_withParts (u : UriParts) (s : JsonParser) :
    touchNe (withParts s u) = withParts (touchNe s) u := by
  unfold touchNe
  simp only [withParts_str_, withParts_end_]
  split_ifs <;> rfl

theorem parseNumberExpDigits_withParts (mem : List Nat) (u : UriParts) (s : JsonParser) :
    parseNumberExpDigits mem (withParts s u) = withParts (parseNumberExpDigits mem s) u := by
  unfold parseNumberExpDigits
  simp only [touch_withParts, deref_withParts, invalidate_withParts, skipDigits_withParts]
  split_ifs <;> rfl

theorem parseNumberExp_withParts (mem : List Nat) (u : UriParts) (s : JsonParser) :
    parseNumberExp mem (withParts s u) = withParts (parseNumberExp mem s) u := by
  unfold parseNumberExp
  simp only [touchNe_withParts, touch_withParts, advance_withParts, deref_withParts,
    invalidate_withParts, parseNumberExpDigits_withParts, withParts_str_, withParts_end_]
  split_ifs <;> rfl

theorem parseNumberFrac_withParts (mem : List Nat) (u : UriParts) (s : JsonParser) :
    parseNumberFrac mem (withParts s u) = withParts (parseNumberFrac mem s) u := by
  unfold parseNumberFrac
  simp only [touchNe_withParts, touch_withParts, advance_withParts, deref_withParts,
    invalidate_withParts, parseNumberExp_withParts, skipDigits_withParts, withParts_str_,
    withParts_end_]
  split_ifs <;> rfl

theorem parseNumber_withParts (mem : List Nat) (u : UriParts) (s : JsonParser) :
    JsonParser_parseNumber mem (withParts s u) = withParts (JsonParser_parseNumber mem s) u := by
  unfold JsonParser_parseNumber
  simp only [touch_withParts, advance_withParts, deref_withParts,
    invalidate_withParts, parseNumberFrac_withParts, skipDigits_withParts, withParts_str_,
    withParts_end_]
  split_ifs <;> rfl

theorem parseExcapedChar_withParts (mem : List Nat) (u : UriParts) (s : JsonParser) :
    JsonParser_parseExcapedChar mem (withParts s u)
      = withParts (JsonParser_parseExcapedChar mem s) u := by
  unfold JsonParser_parseExcapedChar
  simp only [touch_withParts, advance_withParts, deref_withParts]
  split_ifs <;> rfl

theorem parseStringLoop_withParts (mem : List Nat) (u : UriParts) :
    ∀ (k : Nat) (s : JsonParser),
      parseStringLoop mem k (withParts s u) = withParts (parseStringLoop mem k s) u := by
  intro k
  induction k with
  | zero => intro s; rfl
  | succ k ih =>
    intro s
    rw [parseStringLoop, parseStringLoop]
    simp only [withParts_str_, withParts_end_, deref_withParts, advance_withParts,
      parseExcapedChar_withParts]
    split_ifs
    · exact ih _
    · rfl
    · exact ih _
    · rfl

theorem parseString_withParts (mem : List Nat) (u : UriParts) (s : JsonParser) :
    JsonParser_parseString mem (withParts s u) = withParts (JsonParser_parseString mem s) u :=
  parseStringLoop_withParts mem u _ (advance s 1)
theorem Alike.mk_with {s : JsonParser} {u : UriParts} (h : SameStack s.uriParts_ u) :
    Alike s (withParts s u) :=
  ⟨rfl, h⟩

theorem Alike.arefl (s : JsonParser) : Alike s s :=
  ⟨(withParts_self s).symm, SameStack.srefl_stack _⟩

/-- A scanner that leaves the path stack alone maps states that are alike to
states that are alike. -/
theorem Alike.map {f : JsonParser → JsonParser}
    (hc : ∀ u s, f (withParts s u) = withParts (f s) u)
    (hp : ∀ s, (f s).uriParts_ = s.uriParts_) {s t : JsonParser} (h : Alike s t) :
    Alike (f s) (f t) := by
  obtain ⟨h1, h2⟩ := h
  rw [h1, hc]
  exact ⟨rfl, by rw [hp]; exact h2⟩

theorem informLoop_congr (mem : List Nat) (E : Nat) (u v : UriParts) :
    ∀ (k : Nat) (i n : Int) (uri : List Nat) (bad : Bool),
      (∀ j : Int, i ≤ j → j < i + k → v.parts j = u.parts j) →
      informLoop mem E v k i n uri bad = informLoop mem E u k i n uri bad := by
  intro k
  induction k with
  | zero => intro i n uri bad _; rfl
  | succ k ih =>
    intro i n uri bad h
    rw [informLoop, informLoop, h i (Int.le_refl _) (by push_cast; omega)]
    rw [ih (i + 1) _ _ _ (fun j h1 h2 => h j (by omega) (by push_cast; omega))]

theorem inform_withParts (mem : List Nat) (s : JsonParser) (u : UriParts) (b : Nat) (l : Int)
    (h : SameStack s.uriParts_ u) :
    JsonParser_inform mem (withParts s u) b l = withParts (JsonParser_inform mem s b l) u := by
  have hl : informLoop mem s.end_ u u.nParts.toNat 0 0 [] s.badCopy
      = informLoop mem s.end_ s.uriParts_ s.uriParts_.nParts.toNat 0 0 [] s.badCopy := by
    rw [h.1]
    exact informLoop_congr mem _ _ _ _ _ _ _ _ (fun j h1 h2 => h.2 j h1 (by omega))
  unfold JsonParser_inform
  rw [show (withParts s u).end_ = s.end_ from rfl, show (withParts s u).uriParts_ = u from rfl,
    show (withParts s u).badCopy = s.badCopy from rfl, hl]
  rcases informLoop mem s.end_ s.uriParts_ s.uriParts_.nParts.toNat 0 0 [] s.badCopy
    with ⟨a, bad⟩
  cases a with
  | done uri n =>
    simp only []
    rw [show (withParts s u).isInvalid = s.isInvalid from rfl]
    cases s.isInvalid <;> rfl
  | tooLong => rfl
  | killed => rfl

theorem inform_alike (mem : List Nat) (b : Nat) (l : Int) {s t : JsonParser} (h : Alike s t) :
    Alike (JsonParser_inform mem s b l) (JsonParser_inform mem t b l) := by
  obtain ⟨h1, h2⟩ := h
  rw [h1, inform_withParts mem s _ b l h2]
  exact ⟨rfl, by rw [(inform_frame mem s b l).2.2.1]; exact h2⟩

theorem finishValue_alike (mem : List Nat) (b : Nat) {s t : JsonParser} (h : Alike s t) :
    Alike (finishValue mem b s) (finishValue mem b t) := by
  unfold finishValue
  have hs : t.str_ = s.str_ := by rw [h.1]; rfl
  rw [hs]
  exact Alike.map (consumeWhiteSpaces_withParts mem)
    (fun x => ((Scan.srefl x).consumeWhiteSpaces mem).parts_eq) (inform_alike mem b _ h)

theorem SameStack.push_both {u v : UriParts} (h : SameStack u v) (part : UriPart) :
    SameStack { parts := fun i => if i = u.nParts then part else u.parts i,
                nParts := u.nParts + 1 }
      { parts := fun i => if i = v.nParts then part else v.parts i, nParts := v.nParts + 1 } := by
  refine ⟨by show v.nParts + 1 = u.nParts + 1; rw [h.1], ?_⟩
  intro i h0 h1
  show (if i = v.nParts then part else v.parts i) = (if i = u.nParts then part else u.parts i)
  rw [h.1]
  by_cases hi : i = u.nParts
  · rw [if_pos hi, if_pos hi]
  · rw [if_neg hi, if_neg hi]
    exact h.2 i h0 (by have : i < u.nParts + 1 := h1; omega)

/-- Pushing the same segment on two stacks with the same live segments: both
pushes fail, or both succeed with stacks that have the same live segments. -/
theorem appendString_alike {u v : UriParts} (h : SameStack u v) (p : Ptr) (l : Int) :
    (UriParts_appendString u p l = (u, false) ∧ UriParts_appendString v p l = (v, false)) ∨
    ∃ u1 v1, UriParts_appendString u p l = (u1, true) ∧
      UriParts_appendString v p l = (v1, true) ∧ SameStack u1 v1 := by
  rcases appendString_cases u p l with ⟨hu, eu⟩ | ⟨hu, eu⟩
  · rcases appendString_cases v p l with ⟨hv, ev⟩ | ⟨hv, ev⟩
    · exact Or.inl ⟨eu, ev⟩
    · rw [h.1] at hv; omega
  · rcases appendString_cases v p l with ⟨hv, ev⟩ | ⟨hv, ev⟩
    · rw [h.1] at hv; omega
    · exact Or.inr ⟨_, _, eu, ev, h.push_both _⟩
theorem Alike.dropped {a b : JsonParser} (h : Alike a b) :
    Alike { a with uriParts_ := UriParts_drop a.uriParts_ }
      { b with uriParts_ := UriParts_drop b.uriParts_ } := by
  obtain ⟨h1, h2⟩ := h
  refine ⟨?_, h2.drop_both⟩
  rw [h1]
  rfl

theorem Alike.fields {a b : JsonParser} (h : Alike a b) :
    b.str_ = a.str_ ∧ b.end_ = a.end_ ∧ b.isInvalid = a.isInvalid ∧ b.calls = a.calls := by
  obtain ⟨h1, _⟩ := h
  rw [h1]
  exact ⟨rfl, rfl, rfl, rfl⟩

theorem AlikeOpt.bind_drop (x y : Option JsonParser) :
    AlikeOpt x y →
    AlikeOpt
      (match x with
       | none => none
       | some s => some { s with uriParts_ := UriParts_drop s.uriParts_ })
      (match y with
       | none => none
       | some s => some { s with uriParts_ := UriParts_drop s.uriParts_ }) := by
  intro h
  cases x <;> cases y
  · trivial
  · exact h.elim
  · exact h.elim
  · exact Alike.dropped h

theorem parseKeyValueLoop_alike {pv : JsonParser → Option JsonParser} (mem : List Nat)
    (hpv : ∀ s t, Alike s t → AlikeOpt (pv s) (pv t)) :
    ∀ (k : Nat) (s t : JsonParser), Alike s t →
      AlikeOpt (parseKeyValueLoop pv mem k s) (parseKeyValueLoop pv mem k t) := by
  intro k
  induction k with
  | zero => intro s t h; exact h
  | succ k ih =>
    intro s t h
    obtain ⟨f1, f2, f3, f4⟩ := h.fields
    have hadv : Alike (advance s 1) (advance t 1) :=
      Alike.map (f := fun x => advance x 1) (fun u x => advance_withParts x u 1) (fun _ => rfl) h
    rw [parseKeyValueLoop, parseKeyValueLoop]
    simp only [deref_def, f1, f2, f3]
    split_ifs
    · exact AlikeOpt.bind_drop _ _ (hpv _ _ hadv)
    · exact ih _ _ hadv
    · exact h

theorem parseKeyValue_alike {pv : JsonParser → Option JsonParser} (mem : List Nat)
    (hpv : ∀ s t, Alike s t → AlikeOpt (pv s) (pv t)) (s t : JsonParser) (h : Alike s t) :
    AlikeOpt (JsonParser_parseKeyValue pv mem s) (JsonParser_parseKeyValue pv mem t) := by
  obtain ⟨f1, f2, f3, f4⟩ := h.fields
  have hstr : Alike (JsonParser_parseString mem s) (JsonParser_parseString mem t) :=
    Alike.map (parseString_withParts mem) (fun x => ((Scan.srefl x).parseString mem).parts_eq) h
  obtain ⟨g1, g2, g3, g4⟩ := hstr.fields
  unfold JsonParser_parseKeyValue
  simp only [f1, g1, g2]
  rcases appendString_alike hstr.2 (Ptr.json (s.str_ + 1))
    (((JsonParser_parseString mem s).str_ : Int) - 1 - ((s.str_ + 1 : Nat) : Int))
    with ⟨e1, e2⟩ | ⟨u1, v1, e1, e2, hst⟩
  · rw [e1, e2]
    exact Alike.map (f := fun x => invalidate (refused x)) (fun _ _ => rfl) (fun _ => rfl) hstr
  · rw [e1, e2]
    refine parseKeyValueLoop_alike mem hpv _ _ _ ⟨?_, hst⟩
    rw [hstr.1]
    rfl
theorem Alike.at_advance (k : Nat) {s t : JsonParser} (h : Alike s t) :
    Alike (advance s k) (advance t k) :=
  Alike.map (f := fun x => PJson.advance x k) (fun u x => advance_withParts x u k)
    (fun _ => rfl) h

theorem Alike.at_refuse {s t : JsonParser} (h : Alike s t) :
    Alike (invalidate (refused s)) (invalidate (refused t)) :=
  Alike.map (f := fun x => PJson.invalidate (refused x)) (fun _ _ => rfl) (fun _ => rfl) h

theorem Alike.at_invalidate {s t : JsonParser} (h : Alike s t) :
    Alike (invalidate s) (invalidate t) :=
  Alike.map (f := PJson.invalidate) (fun u x => invalidate_withParts x u) (fun _ => rfl) h

theorem Alike.at_touch (k : Nat) {s t : JsonParser} (h : Alike s t) :
    Alike (touch s k) (touch t k) :=
  Alike.map (f := fun x => PJson.touch x k) (fun u x => touch_withParts x u k)
    (fun _ => rfl) h

theorem Alike.at_consumeWhiteSpaces (mem : List Nat) {s t : JsonParser} (h : Alike s t) :
    Alike (JsonParser_consumeWhiteSpaces mem s) (JsonParser_consumeWhiteSpaces mem t) :=
  Alike.map (consumeWhiteSpaces_withParts mem)
    (fun x => ((Scan.srefl x).consumeWhiteSpaces mem).parts_eq) h

theorem Alike.at_setParts {s t : JsonParser} (h : Alike s t) {u v : UriParts}
    (huv : SameStack u v) : Alike { s with uriParts_ := u } { t with uriParts_ := v } := by
  refine ⟨?_, huv⟩
  rw [h.1]
  rfl

theorem Alike.cases_on {s t : JsonParser} (h : Alike s t) :
    ∃ u, t = withParts s u ∧ SameStack s.uriParts_ u :=
  ⟨t.uriParts_, h.1, h.2⟩

theorem parseObjectLoop_alike {pv : JsonParser → Option JsonParser} (mem : List Nat)
    (hpv : ∀ s t, Alike s t → AlikeOpt (pv s) (pv t)) :
    ∀ (k : Nat) (s t : JsonParser), Alike s t →
      AlikeOpt (parseObjectLoop pv mem k s) (parseObjectLoop pv mem k t) := by
  intro k
  induction k with
  | zero =>
    intro s t h0
    obtain ⟨u, rfl, h2⟩ := h0.cases_on
    have h : Alike s (withParts s u) := Alike.mk_with h2
    rw [parseObjectLoop, parseObjectLoop]
    simp only [withParts_str_, withParts_end_, withParts_isInvalid]
    split_ifs
    · trivial
    · exact h.at_invalidate
  | succ k ih =>
    intro s t h0
    obtain ⟨u, rfl, h2⟩ := h0.cases_on
    have h : Alike s (withParts s u) := Alike.mk_with h2
    have hkv := parseKeyValue_alike mem hpv s _ h
    rw [parseObjectLoop, parseObjectLoop]
    simp only [withParts_str_, withParts_end_, withParts_isInvalid, deref_withParts]
    split_ifs
    · cases hx : JsonParser_parseKeyValue pv mem s <;>
        cases hy : JsonParser_parseKeyValue pv mem (withParts s u) <;> rw [hx, hy] at hkv
      · trivial
      · exact hkv.elim
      · exact hkv.elim
      · exact ih _ _ hkv
    · exact (h.at_setParts h.2.drop_both).at_advance 1
    · exact ih _ _ (h.at_advance 1)
    · exact ih _ _ (h.at_invalidate.at_advance 1)
    · exact ih _ _ (h.at_advance 1)
    · exact h.at_invalidate

theorem parseObject_alike {pv : JsonParser → Option JsonParser} (mem : List Nat)
    (hpv : ∀ s t, Alike s t → AlikeOpt (pv s) (pv t)) (s t : JsonParser) (h0 : Alike s t) :
    AlikeOpt (JsonParser_parseObject pv mem s) (JsonParser_parseObject pv mem t) := by
  obtain ⟨u, rfl, h2⟩ := h0.cases_on
  have h : Alike s (withParts s u) := Alike.mk_with h2
  unfold JsonParser_parseObject
  rw [appendObject_eq, appendObject_eq]
  rcases appendString_alike h.2 Ptr.objectUri 1 with ⟨e1, e2⟩ | ⟨u1, v1, e1, e2, hst⟩
  · rw [e1, e2]
    exact h.at_refuse
  · rw [e1, e2]
    exact parseObjectLoop_alike mem hpv _ _ _ ((h.at_setParts hst).at_advance 1)

theorem parseArrayLoop_alike {pv : JsonParser → Option JsonParser} (mem : List Nat)
    (hpv : ∀ s t, Alike s t → AlikeOpt (pv s) (pv t)) :
    ∀ (k idx : Nat) (s t : JsonParser), Alike s t →
      AlikeOpt (parseArrayLoop pv mem k idx s) (parseArrayLoop pv mem k idx t) := by
  intro k
  induction k with
  | zero =>
    intro idx s t h0
    obtain ⟨u, rfl, h2⟩ := h0.cases_on
    have h : Alike s (withParts s u) := Alike.mk_with h2
    rw [parseArrayLoop, parseArrayLoop]
    simp only [withParts_str_, withParts_end_, withParts_isInvalid]
    split_ifs
    · trivial
    · exact h
  | succ k ih =>
    intro idx s t h0
    obtain ⟨u, rfl, h2⟩ := h0.cases_on
    have h : Alike s (withParts s u) := Alike.mk_with h2
    have hw := h.at_consumeWhiteSpaces mem
    rw [parseArrayLoop, parseArrayLoop]
    simp only [withParts_str_, withParts_end_, withParts_isInvalid]
    split_ifs
    · rcases appendString_alike hw.2 (Ptr.buffer (indexLabel idx))
        ((indexLabel idx).length : Int) with ⟨e1, e2⟩ | ⟨u1, v1, e1, e2, hst⟩
      · simp only [e1, e2]
        exact hw.at_refuse
      · simp only [e1, e2]
        have hp := hpv _ _ (hw.at_setParts hst)
        cases hx : pv { JsonParser_consumeWhiteSpaces mem s with uriParts_ := u1 } <;>
          cases hy : pv { JsonParser_consumeWhiteSpaces mem (withParts s u) with
            uriParts_ := v1 } <;>
          rw [hx, hy] at hp
        · trivial
        · exact hp.elim
        · exact hp.elim
        · rename_i a b
          obtain ⟨w, rfl, hab⟩ := hp.cases_on
          have h1 : Alike
              (PJson.touch (JsonParser_consumeWhiteSpaces mem
                { a with uriParts_ := UriParts_drop a.uriParts_ }) 0)
              (PJson.touch (JsonParser_consumeWhiteSpaces mem
                { withParts a w with uriParts_ := UriParts_drop (withParts a w).uriParts_ }) 0) :=
            ((Alike.dropped (Alike.mk_with hab)).at_consumeWhiteSpaces mem).at_touch 0
          obtain ⟨w1, e3, hab1⟩ := h1.cases_on
          simp only []
          rw [e3] at h1 ⊢
          simp only [deref_withParts, withParts_str_]
          split_ifs
          · exact ih _ _ _ (h1.at_advance 1)
          · exact h1.at_advance 1
          · exact h1.at_invalidate
    · exact h
theorem parseArray_alike {pv : JsonParser → Option JsonParser} (mem : List Nat)
    (hpv : ∀ s t, Alike s t → AlikeOpt (pv s) (pv t)) (s t : JsonParser) (h0 : Alike s t) :
    AlikeOpt (JsonParser_parseArray pv mem s) (JsonParser_parseArray pv mem t) := by
  have h1 : Alike (touch (JsonParser_consumeWhiteSpaces mem (advance s 1)) 0)
      (touch (JsonParser_consumeWhiteSpaces mem (advance t 1)) 0) :=
    (((h0.at_advance 1).at_consumeWhiteSpaces mem).at_touch 0)
  obtain ⟨w, e, hw⟩ := h1.cases_on
  unfold JsonParser_parseArray
  simp only []
  rw [e] at h1 ⊢
  simp only [deref_withParts, withParts_str_, withParts_end_]
  split_ifs
  · exact h1.at_advance 1
  · exact parseArrayLoop_alike mem hpv _ _ _ _ h1

theorem strncmpEq_withParts (mem : List Nat) (s : JsonParser) (u : UriParts) (lit : List Nat) :
    ∀ (n i : Nat), strncmpEq mem (withParts s u) lit n i = strncmpEq mem s lit n i := by
  intro n
  induction n with
  | zero => intro i; rfl
  | succ n ih =>
    intro i
    rw [strncmpEq, strncmpEq]
    simp only [deref_withParts, ih]

theorem Alike.at_parseString (mem : List Nat) {s t : JsonParser} (h : Alike s t) :
    Alike (JsonParser_parseString mem s) (JsonParser_parseString mem t) :=
  Alike.map (parseString_withParts mem) (fun x => ((Scan.srefl x).parseString mem).parts_eq) h

theorem Alike.at_parseNumber (mem : List Nat) {s t : JsonParser} (h : Alike s t) :
    Alike (JsonParser_parseNumber mem s) (JsonParser_parseNumber mem t) :=
  Alike.map (parseNumber_withParts mem) (fun x => ((Scan.srefl x).parseNumber mem).parts_eq) h

/-- The value production maps states that are alike to results that are
alike: what it does depends on the live segments of the path stack only. -/
theorem parseValue_alike (mem : List Nat) :
    ∀ (d : Nat) (s t : JsonParser), Alike s t →
      AlikeOpt (JsonParser_parseValue mem d s) (JsonParser_parseValue mem d t) := by
  intro d
  induction d with
  | zero => intro s t _; trivial
  | succ d ih =>
    intro s t h0
    have h1 : Alike (touch (JsonParser_consumeWhiteSpaces mem s) 0)
        (touch (JsonParser_consumeWhiteSpaces mem t) 0) :=
      ((h0.at_consumeWhiteSpaces mem).at_touch 0)
    obtain ⟨w, e, hw⟩ := h1.cases_on
    rw [JsonParser_parseValue, JsonParser_parseValue]
    rw [e] at h1 ⊢
    simp only [deref_withParts, withParts_str_, withParts_end_, strncmpEq_withParts]
    split_ifs
    · exact finishValue_alike mem _ (h1.at_parseString mem)
    · exact finishValue_alike mem _ (h1.at_parseNumber mem)
    · have hp := parseObject_alike mem ih _ _ h1
      cases hx : JsonParser_parseObject (JsonParser_parseValue mem d) mem
          (touch (JsonParser_consumeWhiteSpaces mem s) 0) <;>
        cases hy : JsonParser_parseObject (JsonParser_parseValue mem d) mem
          (withParts (touch (JsonParser_consumeWhiteSpaces mem s) 0) w) <;>
        rw [hx, hy] at hp
      · trivial
      · exact hp.elim
      · exact hp.elim
      · exact finishValue_alike mem _ hp
    · have hp := parseArray_alike mem ih _ _ h1
      cases hx : JsonParser_parseArray (JsonParser_parseValue mem d) mem
          (touch (JsonParser_consumeWhiteSpaces mem s) 0) <;>
        cases hy : JsonParser_parseArray (JsonParser_parseValue mem d) mem
          (withParts (touch (JsonParser_consumeWhiteSpaces mem s) 0) w) <;>
        rw [hx, hy] at hp
      · trivial
      · exact hp.elim
      · exact hp.elim
      · exact finishValue_alike mem _ hp
    · exact finishValue_alike mem _ (h1.at_advance 4)
    · exact finishValue_alike mem _ (h1.at_advance 4)
    · exact finishValue_alike mem _ (h1.at_advance 5)
    · exact h1.at_invalidate

theorem entryState_alike (p1 p2 : JsonParser) (E : Nat) :
    Alike (entryState p1 E) (entryState p2 E) :=
  ⟨rfl, rfl, fun i h0 h1 => absurd h1 (by show ¬ i < 0; omega)⟩

/-- The status and the sink trace of a call do not depend on the parser object
the call is given. -/
theorem parse_reuse (p1 p2 : JsonParser) (mem : List Nat) (E : Nat) :
    statusOf (JsonParser_parse p1 mem E) = statusOf (JsonParser_parse p2 mem E) ∧
      callsOf (JsonParser_parse p1 mem E) = callsOf (JsonParser_parse p2 mem E) := by
  have h := parseValue_alike mem (E + 1) _ _ (entryState_alike p1 p2 E)
  unfold JsonParser_parse
  cases hx : JsonParser_parseValue mem (E + 1) (entryState p1 E) <;>
    cases hy : JsonParser_parseValue mem (E + 1) (entryState p2 E) <;> rw [hx, hy] at h
  · exact ⟨rfl, rfl⟩
  · exact h.elim
  · exact h.elim
  · rename_i a b
    obtain ⟨f1, f2, f3, f4⟩ := Alike.fields h
    have f5 : b.killed = a.killed := by rw [h.1]; rfl
    have hn : b.uriParts_.nParts = a.uriParts_.nParts := h.2.1
    simp only [f5]
    cases a.killed
    · simp only [Bool.false_eq_true, if_false, statusOf, callsOf, Option.map_some', exitStatus,
        f1, f2, f3, f4, hn]
      exact ⟨trivial, trivial⟩
    · exact ⟨rfl, rfl⟩
/-- The sink trace of a run and whether it is killed do not depend on the
parser object the call is given. -/
theorem run_reuse (p1 p2 : JsonParser) (mem : List Nat) (E : Nat) :
    traceOf (runOf p1 mem E) = traceOf (runOf p2 mem E) ∧
      killedOf (runOf p1 mem E) = killedOf (runOf p2 mem E) := by
  have h := parseValue_alike mem (E + 1) _ _ (entryState_alike p1 p2 E)
  unfold runOf
  cases hx : JsonParser_parseValue mem (E + 1) (entryState p1 E) <;>
    cases hy : JsonParser_parseValue mem (E + 1) (entryState p2 E) <;> rw [hx, hy] at h
  · exact ⟨rfl, rfl⟩
  · exact h.elim
  · exact h.elim
  · rename_i a b
    obtain ⟨f1, f2, f3, f4⟩ := Alike.fields h
    have f5 : b.killed = a.killed := by rw [h.1]; rfl
    simp only [traceOf, killedOf, Option.map_some', f4, f5]
    exact ⟨trivial, trivial⟩

/-- C15: a parser object can be reused. For every two parser objects `p1` and
`p2` (whatever cursor, flag, path-stack contents and depth earlier calls left in
them) and every buffer, `JsonParser_parse` returns the same status and hands
the sink the same sequence of invocations (address, its length, span); this
holds of the sink invocations of a run that is killed as well, and the run
from `p1` is killed exactly when the run from `p2` is. -/
theorem C15_parser_reuse (p1 p2 : JsonParser) (mem : List Nat) (E : Nat) :
    statusOf (JsonParser_parse p1 mem E) = statusOf (JsonParser_parse p2 mem E) ∧
      callsOf (JsonParser_parse p1 mem E) = callsOf (JsonParser_parse p2 mem E) ∧
      traceOf (runOf p1 mem E) = traceOf (runOf p2 mem E) ∧
      killedOf (runOf p1 mem E) = killedOf (runOf p2 mem E) :=
  ⟨(parse_reuse p1 p2 mem E).1, (parse_reuse p1 p2 mem E).2, run_reuse p1 p2 mem E⟩

set_option maxRecDepth 100000 in
/-- C15 at the buffer `[1]`, read with a fresh parser object and with the
object that a failed call on the 3-byte buffer `{"a` left behind (flag set, two
segments on the path stack). -/
theorem C15_parser_reuse_witness :
    (usedParser.isInvalid = true ∧ usedParser.uriParts_.nParts = 2) ∧
    statusOf (JsonParser_parse freshParser [91, 49, 93, 0] 3)
      = statusOf (JsonParser_parse usedParser [91, 49, 93, 0] 3) ∧
    callsOf (JsonParser_parse freshParser [91, 49, 93, 0] 3)
      = callsOf (JsonParser_parse usedParser [91, 49, 93, 0] 3) ∧
    traceOf (runOf freshParser [91, 49, 93, 0] 3) = traceOf (runOf usedParser [91, 49, 93, 0] 3) ∧
    killedOf (runOf freshParser [91, 49, 93, 0] 3)
      = killedOf (runOf usedParser [91, 49, 93, 0] 3) :=
  ⟨by decide, C15_parser_reuse freshParser usedParser [91, 49, 93, 0] 3⟩

theorem beyond_ext {c : Nat} {pv : JsonParser → Option JsonParser}
    (hpv : ∀ t t1, pv t = some t1 → Ext t t1) :
    ∀ t t1, beyond c pv t = some t1 → Ext t t1 := by
  intro t t1 h
  unfold beyond at h
  split_ifs at h
  exact hpv t t1 h

theorem Nested.size {mem : List Nat} {L n b e : Nat} (h : Nested mem L n b e) :
    1 ≤ n ∧ b + 2 * n ≤ e := by
  induction h with
  | inner b q _ h2 _ => exact ⟨Nat.le_refl _, by have := h2.1; omega⟩
  | outer n b k k1 c vb ve q _ h2 h3 _ h5 _ h7 _ h9 _ ih =>
    have := h2.1; have := h3.2.1; have := h5.1; have := h7.1; have := h9.1
    exact ⟨by omega, by omega⟩

theorem slice_length (mem : List Nat) (a b : Nat) : (slice mem a b).length = b - a := by
  simp [slice]

/-- Nested objects are well-formed text: the path stack must hold two segments
per object but the innermost, and one for the innermost; the addresses grow by
a `/` and a key per object. -/
theorem nested_syn (mem : List Nat) (L E : Nat) {n b e : Nat} (h : Nested mem L n b e) :
    e ≤ E → ∀ (path : List Nat) (N : Nat), ∃ cs m, Syn mem E Part.value path N b e cs m ∧
      m + 1 ≤ N + 2 * n ∧
      ∀ c ∈ cs, c.keyLen ≤ (path.length : Int) + (((L + 1) * (n - 1) : Nat) : Int) := by
  induction h with
  | inner b q h1 h2 h3 =>
    intro hE path N
    refine ⟨_, _, Syn.emptyObject path N b q h1 h2 (by omega) h3, by omega, ?_⟩
    intro c hc
    simp only [List.mem_singleton] at hc
    rw [hc]
    simp [report]
  | outer n b k k1 c vb ve q h1 h2 h3 h4 h5 h6 h7 h8 h9 h10 ih =>
    intro hE path N
    have hve : ve ≤ q := h9.1
    have hk := h3.2.1
    obtain ⟨hn1, -⟩ := h8.size
    obtain ⟨cs, m, hs, hm, hk⟩ := ih (by omega) (path ++ [47] ++ slice mem (k + 1) (k1 - 1))
      (N + 1 + 1)
    refine ⟨_, _, Syn.object path N b q cs m h1
      (Syn.member (path ++ [47]) (N + 1) (b + 1) k k1 c vb ve q cs m h2 h3 h5 h6 h7 hs h9)
      (by omega) h10, by omega, ?_⟩
    intro x hx
    simp only [List.mem_append, List.mem_singleton] at hx
    rcases hx with hx | hx
    · have h11 := hk x hx
      simp only [List.length_append, List.length_singleton, slice_length] at h11
      have h12 : (L + 1) * (n + 1 - 1) = (L + 1) * (n - 1) + (L + 1) := by
        obtain ⟨j, rfl⟩ : ∃ j, n = j + 1 := ⟨n - 1, by omega⟩
        simp only [Nat.add_sub_cancel]
        ring
      rw [h12]
      push_cast at h11 ⊢
      omega
    · rw [hx]
      simp only [report]
      omega

/-- An object met with the path stack full: the value production ends with the
validity flag set and reports nothing. -/
theorem objectFull_fail (mem : List Nat) (E : Nat) {s : JsonParser} {path : List Nat}
    {N : Nat} (hs : StateFor mem E s path N) (hn : 50 ≤ N)
    (b : Nat) (h0 : Blank mem s.str_ b) (hb : mem.getD b 0 = 123) (hbE : b < E) (d : Nat) :
    ∃ t, JsonParser_parseValue mem (d + 1) s = some t ∧ t.isInvalid = true ∧
      t.calls = s.calls ∧ Noted t := by
  have hfull : MAX_DEPTH ≤ (touch { s with str_ := b } 0).uriParts_.nParts := by
    show MAX_DEPTH ≤ s.uriParts_.nParts
    rw [hs.depth]
    unfold MAX_DEPTH
    omega
  refine ⟨finishValue mem b (invalidate (refused (touch { s with str_ := b } 0))), ?_,
    finishValue_sticky mem b _ rfl, ?_, ?_⟩
  · rw [parseValue_object_at mem d s b h0 (by rw [hs.end_eq]; exact hbE) hb,
      parseObject_full _ mem _ hfull]
  · exact (((Ext.erefl (invalidate (refused (touch { s with str_ := b } 0)))).finishValue
      mem b).silent rfl).2
  · exact ext_noted ((Ext.erefl _).finishValue mem b) (Or.inl (by simp [invalidate, refused]))

/-- An object with a member met with one free segment on the path stack: the
key cannot be pushed, and the value production ends with the validity flag set
and reports nothing. -/
theorem objectKey_fail (mem : List Nat) (E : Nat) {s : JsonParser} {path : List Nat}
    {N : Nat} (hs : StateFor mem E s path N) (hn : N + 1 = 50)
    (b k : Nat) (h0 : Blank mem s.str_ b) (hb : mem.getD b 0 = 123)
    (h1 : Blank mem (b + 1) k) (hk : mem.getD k 0 = 34) (hkE : k < E) (d : Nat) :
    ∃ t, JsonParser_parseValue mem (d + 1) s = some t ∧ t.isInvalid = true ∧
      t.calls = s.calls ∧ Noted t := by
  have hE := hs.end_eq
  have b1 := h0.1; have b2 := h1.1
  have hx : StateFor mem E (touch { s with str_ := b } 0) path N :=
    hs.same (SameStack.srefl_stack _) hE hs.valid
  obtain ⟨u, hu, hpush, -⟩ := hx.push Ptr.objectUri 1 (by omega) (by omega)
  have hx1 := hpush (advance { touch { s with str_ := b } 0 with uriParts_ := u } 1) hE
    hs.valid rfl
  obtain ⟨ka, hka, e1⟩ := objectLoop_blank (JsonParser_parseValue mem d) mem k
    ((advance (touch { s with str_ := b } 0) 1).end_ - (advance (touch { s with str_ := b } 0) 1).str_)
    (advance { touch { s with str_ := b } 0 with uriParts_ := u } 1) hs.valid h1
    (by show k < s.end_; omega) (Nat.le_refl _)
  have hka1 : s.end_ - k ≤ ka := hka
  obtain ⟨kb, rfl⟩ : ∃ kb, ka = kb + 1 := ⟨ka - 1, by omega⟩
  have hfull : MAX_DEPTH ≤ ({ advance { touch { s with str_ := b } 0 with uriParts_ := u } 1
      with str_ := k } : JsonParser).uriParts_.nParts := by
    show MAX_DEPTH ≤ u.nParts
    have := hx1.depth
    have h3 : u.nParts = ((N + 1 : Nat) : Int) := this
    rw [h3]
    unfold MAX_DEPTH
    omega
  have hsc := (Scan.srefl ({ advance { touch { s with str_ := b } 0 with uriParts_ := u } 1
      with str_ := k } : JsonParser)).parseString mem
  refine ⟨finishValue mem b (invalidate (invalidate (refused (JsonParser_parseString mem
    { advance { touch { s with str_ := b } 0 with uriParts_ := u } 1 with str_ := k })))), ?_,
    finishValue_sticky mem b _ rfl, ?_,
    ext_noted ((Ext.erefl _).finishValue mem b) (Or.inl (by simp [invalidate, refused]))⟩
  · rw [parseValue_object_at mem d s b h0 (by omega) hb, parseObject_push _ mem _ u hu, e1,
      objectLoop_key (JsonParser_parseValue mem d) mem kb
        ({ advance { touch { s with str_ := b } 0 with uriParts_ := u } 1 with str_ := k }
          : JsonParser) hs.valid (by show k < s.end_; omega) hk,
      parseKeyValue_full _ mem _ hfull]
    simp only []
    rw [objectLoop_invalid _ mem kb _ rfl]
  · rw [((Ext.erefl _).finishValue mem b).silent rfl |>.2]
    exact hsc.calls_eq

/-- Nested objects that need more than 50 segments on the path stack: the value
production ends with the validity flag set. -/
theorem nested_fail (mem : List Nat) (L E : Nat) {n b e : Nat} (h : Nested mem L n b e) :
    e ≤ E → ∀ (d : Nat) (s : JsonParser) (path : List Nat) (N : Nat),
      StateFor mem E s path N → Blank mem s.str_ b → 52 ≤ N + 2 * n → n ≤ d →
      ∃ t, JsonParser_parseValue mem d s = some t ∧ t.isInvalid = true ∧
        t.calls = s.calls ∧ Noted t := by
  induction h with
  | inner b q h1 h2 h3 =>
    intro hE d s path N hs h0 hN hd
    obtain ⟨d1, rfl⟩ : ∃ d1, d = d1 + 1 := ⟨d - 1, by omega⟩
    have := h2.1
    exact objectFull_fail mem E hs (by omega) b h0 h1 (by omega) d1
  | outer n b k k1 c vb ve q h1 h2 h3 h4 h5 h6 h7 h8 h9 h10 ih =>
    intro hE d s path N hs h0 hN hd
    obtain ⟨d1, rfl⟩ : ∃ d1, d = d1 + 1 := ⟨d - 1, by omega⟩
    have a1 := h2.1; have a2 := h3.2.1; have a3 := h5.1; have a4 := h7.1; have a5 := h9.1
    obtain ⟨_, a6⟩ := h8.size
    by_cases c1 : 50 ≤ N
    · exact objectFull_fail mem E hs c1 b h0 h1 (by omega) d1
    · by_cases c2 : N + 1 = 50
      · exact objectKey_fail mem E hs c2 b k h0 h1 h2 h3.1 (by omega) d1
      · refine objectValue_fail mem E hs (by omega) b k k1 c h0 h1 h2 h3 h5 h6 (by omega) d1 ?_
        intro y hy hys hyc _
        obtain ⟨t, ht, htv, htc, htn⟩ := ih (by omega) d1 y _ _ hy (by rw [hys]; exact h7)
          (by omega) (by omega)
        exact ⟨t, ht, htv, htc.trans hyc, htn⟩
/-- The document of the test `shallNotCrashForDeepJson` is rejected, as the test
expects. -/
theorem deepJsonDoc_status : deepJsonDoc.length = 235 ∧
    statusOf (JsonParser_parse freshParser deepJsonDoc 234) = some 1 := by
  constructor
  · rfl
  · set_option maxRecDepth 1000000 in decide

/-- C16: a document made of `n` nested objects, the innermost one empty and
every other one with a single member whose key has at most 19 bytes and whose
value is the next object, with optional white space between the tokens and
around the document, is accepted with status 0 when `n ≤ 25` and rejected
with status 1 otherwise, whatever the parser object held before. -/
theorem C16_nested_objects (p : JsonParser) (mem : List Nat) (L E n b e : Nat)
    (hdoc : Nested mem L n b e) (hL : L ≤ 19) (hlead : Blank mem 0 b)
    (htrail : Blank mem e E) :
    statusOf (JsonParser_parse p mem E) = some (if n ≤ 25 then 0 else 1) := by
  have hE : e ≤ E := htrail.1
  obtain ⟨hn1, hsize⟩ := hdoc.size
  by_cases hn : n ≤ 25
  · rw [if_pos hn]
    obtain ⟨cs, m, hs, hm, hk⟩ := nested_syn mem L E hdoc hE [] 0
    refine (syn_parse p mem E b e cs m hs hlead htrail (by omega) ?_).1
    intro c hc
    have h1 := hk c hc
    have h2 : (L + 1) * (n - 1) ≤ 20 * 24 :=
      Nat.mul_le_mul (by omega) (by omega)
    simp only [List.length_nil] at h1
    omega
  · rw [if_neg hn]
    obtain ⟨t, ht, htv, -, htn⟩ := nested_fail mem L E hdoc hE (E + 1) (entryState p E) [] 0
      (entryState_stateFor p mem E) hlead (by omega) (by omega)
    rw [parse_alive p mem E t ht (run_noted_alive p mem E t ht htn)]
    simp only [statusOf, Option.map_some', exitStatus_invalid t htv]

/-- C16 at the document `{"a":{}}`: two nested objects are accepted. -/
theorem C16_nested_objects_witness :
    statusOf (JsonParser_parse freshParser [123, 34, 97, 34, 58, 123, 125, 125, 0] 8)
      = some (if 2 ≤ 25 then 0 else 1) :=
  C16_nested_objects freshParser [123, 34, 97, 34, 58, 123, 125, 125, 0] 19 8 2 0 8
    (Nested.outer 1 0 1 4 4 5 7 7 rfl (blank_nil _ 1)
      ⟨rfl, by decide, StrBody.plain 2 3 (by decide) (by decide) (by decide) (StrBody.done 3),
        rfl⟩
      (by decide) (blank_nil _ 4) rfl (blank_nil _ 5)
      (Nested.inner 5 6 rfl (blank_nil _ 6) rfl) (blank_nil _ 7) rfl)
    (by decide) (blank_nil _ 0) (blank_nil _ 8)

/-- The key/value production started at a quote that is the last byte of the
buffer pushes a key segment of length -1 and returns with that segment on the
stack. -/
theorem parseKeyValue_truncated (pv : JsonParser → Option JsonParser) (mem : List Nat)
    (s : JsonParser) (h1 : s.end_ ≤ s.str_ + 1) (h2 : s.uriParts_.nParts < MAX_DEPTH) :
    JsonParser_parseKeyValue pv mem s
      = some { advance s 1 with
          uriParts_ := { parts := fun i => if i = s.uriParts_.nParts then
                           { Begin := Ptr.json (s.str_ + 1), len := -1 }
                         else s.uriParts_.parts i,
                         nParts := s.uriParts_.nParts + 1 } } := by
  have hstr : JsonParser_parseString mem s = advance s 1 := by
    unfold JsonParser_parseString
    exact parseStringLoop_end mem _ (advance s 1) (by simp only [advance_end_, advance_str_]; omega)
  have hlen : (((advance s 1).str_ : Int) - 1 - ((s.str_ + 1 : Nat) : Int)) = -1 := by
    simp only [advance_str_]
    push_cast
    omega
  rcases appendString_cases (advance s 1).uriParts_ (Ptr.json (s.str_ + 1))
    (((advance s 1).str_ : Int) - 1 - ((s.str_ + 1 : Nat) : Int)) with ⟨hc, -⟩ | ⟨-, hc⟩
  · have : s.uriParts_.nParts ≥ MAX_DEPTH := hc
    omega
  · unfold JsonParser_parseKeyValue
    simp only [hstr, hc]
    have hfuel : (advance s 1).end_ - (advance s 1).str_ = 0 := by
      simp only [advance_end_, advance_str_]; omega
    rw [hfuel, hlen]
    rfl
set_option maxRecDepth 100000 in
/-- C21 (evaluation at the failing input): on the 2-byte buffer `{"` (followed
by the terminating zero of a C string) the key/value production pushes a key
segment of length -1, which is still on the stack of two segments when the
address assembly of the report for the object, the root value, runs `memcpy`
with that length: the run is killed there, and the call has no status. Every state whose cursor
stands at a quote in the last byte of the buffer gets such a segment pushed.
On the 4-byte buffer `{"a\` followed by the byte `u` the key segment has
length 3 from offset 2, one byte more than the buffer holds; the run copies
it, is not killed, and the call returns 1. -/
theorem C21_truncated_key_segment :
    (segmentOf (runOf freshParser [123, 34, 0] 2) 1
        = some ({ Begin := Ptr.json 2, len := -1 }, 2) ∧
      badCopyOf (runOf freshParser [123, 34, 0] 2) = some (true, true) ∧
      statusOf (JsonParser_parse freshParser [123, 34, 0] 2) = none) ∧
    (segmentOf (runOf freshParser [123, 34, 97, 92, 117, 0] 4) 1
        = some ({ Begin := Ptr.json 2, len := 3 }, 2) ∧
      badCopyOf (runOf freshParser [123, 34, 97, 92, 117, 0] 4) = some (true, false) ∧
      statusOf (JsonParser_parse freshParser [123, 34, 97, 92, 117, 0] 4) = some 1) ∧
    ∀ (pv : JsonParser → Option JsonParser) (mem : List Nat) (s : JsonParser),
      s.end_ ≤ s.str_ + 1 → s.uriParts_.nParts < MAX_DEPTH →
      ∃ t, JsonParser_parseKeyValue pv mem s = some t ∧
        t.uriParts_.nParts = s.uriParts_.nParts + 1 ∧
        t.uriParts_.parts s.uriParts_.nParts = { Begin := Ptr.json (s.str_ + 1), len := -1 } :=
  ⟨by decide, by decide, fun pv mem s h1 h2 =>
    ⟨_, parseKeyValue_truncated pv mem s h1 h2, rfl, if_pos rfl⟩⟩

theorem DepthIn.weaken {lo : Int} {s : JsonParser} (h : DepthIn (lo + 1) s) : DepthIn lo s :=
  ⟨by have := h.1; omega, h.2⟩

theorem DepthIn.of_parts {lo : Int} {s t : JsonParser} (h : DepthIn lo s)
    (ht : t.uriParts_ = s.uriParts_) : DepthIn lo t := by
  unfold DepthIn
  rw [ht]
  exact h

theorem DepthIn.after_drop {lo : Int} {s : JsonParser} (h : DepthIn (lo + 1) s) :
    DepthIn lo { s with uriParts_ := UriParts_drop s.uriParts_ } := by
  have h1 := h.1
  have h2 := h.2
  refine ⟨?_, ?_⟩
  · show lo ≤ s.uriParts_.nParts - 1
    omega
  · show s.uriParts_.nParts - 1 ≤ MAX_DEPTH
    omega

theorem DepthIn.after_push {lo : Int} {s : JsonParser} (h : DepthIn lo s)
    (hlt : s.uriParts_.nParts < MAX_DEPTH) (part : UriPart) :
    DepthIn (lo + 1) { s with uriParts_ :=
      { parts := fun i => if i = s.uriParts_.nParts then part else s.uriParts_.parts i,
        nParts := s.uriParts_.nParts + 1 } } := by
  have h1 := h.1
  refine ⟨?_, ?_⟩
  · show lo + 1 ≤ s.uriParts_.nParts + 1
    omega
  · show s.uriParts_.nParts + 1 ≤ MAX_DEPTH
    omega

theorem parseKeyValueLoop_range {pv : JsonParser → Option JsonParser} (mem : List Nat)
    (hpv : ∀ (lo : Int) (s t : JsonParser), pv s = some t → DepthIn lo s → DepthIn lo t)
    (lo : Int) :
    ∀ (k : Nat) (s t : JsonParser), parseKeyValueLoop pv mem k s = some t →
      DepthIn (lo + 1) s → DepthIn lo t := by
  intro k
  induction k with
  | zero =>
    intro s t h hs
    simp only [parseKeyValueLoop, Option.some.injEq] at h
    rw [← h]
    exact hs.weaken
  | succ k ih =>
    intro s t h hs
    unfold parseKeyValueLoop at h
    split_ifs at h
    · cases hp : pv (advance s 1) with
      | none => simp [hp] at h
      | some t1 =>
        simp only [hp, Option.some.injEq] at h
        rw [← h]
        exact (hpv (lo + 1) _ _ hp (hs.of_parts rfl)).after_drop
    · exact ih (advance s 1) t h (hs.of_parts rfl)
    · simp only [Option.some.injEq] at h
      rw [← h]
      exact hs.weaken

theorem parseKeyValue_range {pv : JsonParser → Option JsonParser} (mem : List Nat)
    (hpv : ∀ (lo : Int) (s t : JsonParser), pv s = some t → DepthIn lo s → DepthIn lo t)
    (lo : Int) (s t : JsonParser) (h : JsonParser_parseKeyValue pv mem s = some t)
    (hs : DepthIn lo s) : DepthIn lo t := by
  have hsc : (JsonParser_parseString mem s).uriParts_ = s.uriParts_ :=
    ((Scan.srefl s).parseString mem).parts_eq
  have hs1 : DepthIn lo (JsonParser_parseString mem s) := hs.of_parts hsc
  unfold JsonParser_parseKeyValue at h
  simp only [] at h
  rcases appendString_cases (JsonParser_parseString mem s).uriParts_ (Ptr.json (s.str_ + 1))
    (((JsonParser_parseString mem s).str_ : Int) - 1 - ((s.str_ + 1 : Nat) : Int))
    with ⟨-, hc⟩ | ⟨hlt, hc⟩
  · rw [hc] at h
    simp only [Option.some.injEq] at h
    rw [← h]
    exact hs1.of_parts rfl
  · rw [hc] at h
    exact parseKeyValueLoop_range mem hpv lo _ _ _ h (hs1.after_push hlt _)

theorem parseObjectLoop_range {pv : JsonParser → Option JsonParser} (mem : List Nat)
    (hpv : ∀ (lo : Int) (s t : JsonParser), pv s = some t → DepthIn lo s → DepthIn lo t)
    (lo : Int) :
    ∀ (k : Nat) (s t : JsonParser), parseObjectLoop pv mem k s = some t →
      DepthIn (lo + 1) s → DepthIn lo t := by
  intro k
  induction k with
  | zero =>
    intro s t h hs
    unfold parseObjectLoop at h
    split_ifs at h
    simp only [Option.some.injEq] at h
    rw [← h]
    exact hs.weaken.of_parts rfl
  | succ k ih =>
    intro s t h hs
    unfold parseObjectLoop at h
    split_ifs at h
    · cases hp : JsonParser_parseKeyValue pv mem s with
      | none => simp [hp] at h
      | some t1 =>
        simp only [hp] at h
        exact ih t1 t h (parseKeyValue_range mem hpv (lo + 1) s t1 hp hs)
    · simp only [Option.some.injEq] at h
      rw [← h]
      exact hs.after_drop.of_parts rfl
    · exact ih (advance s 1) t h (hs.of_parts rfl)
    · exact ih (advance (invalidate s) 1) t h (hs.of_parts rfl)
    · exact ih (advance s 1) t h (hs.of_parts rfl)
    · simp only [Option.some.injEq] at h
      rw [← h]
      exact hs.weaken.of_parts rfl

theorem parseObject_range {pv : JsonParser → Option JsonParser} (mem : List Nat)
    (hpv : ∀ (lo : Int) (s t : JsonParser), pv s = some t → DepthIn lo s → DepthIn lo t)
    (lo : Int) (s t : JsonParser) (h : JsonParser_parseObject pv mem s = some t)
    (hs : DepthIn lo s) : DepthIn lo t := by
  unfold JsonParser_parseObject at h
  rw [appendObject_eq] at h
  rcases appendString_cases s.uriParts_ Ptr.objectUri 1 with ⟨-, hc⟩ | ⟨hlt, hc⟩
  · rw [hc] at h
    simp only [Option.some.injEq] at h
    rw [← h]
    exact hs.of_parts rfl
  · rw [hc] at h
    exact parseObjectLoop_range mem hpv lo _ _ _ h ((hs.after_push hlt _).of_parts rfl)

theorem parseArrayLoop_range {pv : JsonParser → Option JsonParser} (mem : List Nat)
    (hpv : ∀ (lo : Int) (s t : JsonParser), pv s = some t → DepthIn lo s → DepthIn lo t)
    (lo : Int) :
    ∀ (k idx : Nat) (s t : JsonParser), parseArrayLoop pv mem k idx s = some t →
      DepthIn lo s → DepthIn lo t := by
  intro k
  induction k with
  | zero =>
    intro idx s t h hs
    unfold parseArrayLoop at h
    split_ifs at h
    simp only [Option.some.injEq] at h
    rw [← h]
    exact hs
  | succ k ih =>
    intro idx s t h hs
    unfold parseArrayLoop at h
    split_ifs at h
    · simp only [] at h
      have hw : (JsonParser_consumeWhiteSpaces mem s).uriParts_ = s.uriParts_ :=
        ((Scan.srefl s).consumeWhiteSpaces mem).parts_eq
      have hs1 : DepthIn lo (JsonParser_consumeWhiteSpaces mem s) := hs.of_parts hw
      rcases appendString_cases (JsonParser_consumeWhiteSpaces mem s).uriParts_
        (Ptr.buffer (indexLabel idx)) ((indexLabel idx).length : Int) with ⟨-, hc⟩ | ⟨hlt, hc⟩
      · rw [hc] at h
        simp only [Option.some.injEq] at h
        rw [← h]
        exact hs1.of_parts rfl
      · rw [hc] at h
        simp only [] at h
        split at h
        · simp at h
        · rename_i t1 hp
          have ht1 : DepthIn (lo + 1) t1 := hpv (lo + 1) _ _ hp (hs1.after_push hlt _)
          have hy : Scan { t1 with uriParts_ := UriParts_drop t1.uriParts_ }
              (touch (JsonParser_consumeWhiteSpaces mem
                { t1 with uriParts_ := UriParts_drop t1.uriParts_ }) 0) :=
            ((Scan.srefl _).consumeWhiteSpaces mem).touch 0
          have ht2 : DepthIn lo (touch (JsonParser_consumeWhiteSpaces mem
              { t1 with uriParts_ := UriParts_drop t1.uriParts_ }) 0) :=
            ht1.after_drop.of_parts hy.parts_eq
          split_ifs at h
          · exact ih (idx + 1) (advance (touch (JsonParser_consumeWhiteSpaces mem
              { t1 with uriParts_ := UriParts_drop t1.uriParts_ }) 0) 1) t h (ht2.of_parts rfl)
          · simp only [Option.some.injEq] at h
            rw [← h]
            exact ht2.of_parts rfl
          · simp only [Option.some.injEq] at h
            rw [← h]
            exact ht2.of_parts rfl
    · simp only [Option.some.injEq] at h
      rw [← h]
      exact hs

theorem parseArray_range {pv : JsonParser → Option JsonParser} (mem : List Nat)
    (hpv : ∀ (lo : Int) (s t : JsonParser), pv s = some t → DepthIn lo s → DepthIn lo t)
    (lo : Int) (s t : JsonParser) (h : JsonParser_parseArray pv mem s = some t)
    (hs : DepthIn lo s) : DepthIn lo t := by
  have hy : (touch (JsonParser_consumeWhiteSpaces mem (advance s 1)) 0).uriParts_
      = s.uriParts_ :=
    (((Scan.srefl (advance s 1)).consumeWhiteSpaces mem).touch 0).parts_eq
  unfold JsonParser_parseArray at h
  simp only [] at h
  split_ifs at h
  · simp only [Option.some.injEq] at h
    rw [← h]
    exact hs.of_parts hy
  · exact parseArrayLoop_range mem hpv lo _ _ _ _ h (hs.of_parts hy)

/-- The value production keeps the depth of the path stack between any lower
bound that holds on entry and `MAX_DEPTH`. -/
theorem parseValue_range (mem : List Nat) :
    ∀ (d : Nat) (lo : Int) (s t : JsonParser), JsonParser_parseValue mem d s = some t →
      DepthIn lo s → DepthIn lo t := by
  intro d
  induction d with
  | zero => intro lo s t h; simp [JsonParser_parseValue] at h
  | succ d ih =>
    intro lo s t h hs
    have hx : (touch (JsonParser_consumeWhiteSpaces mem s) 0).uriParts_ = s.uriParts_ :=
      (((Scan.srefl s).consumeWhiteSpaces mem).touch 0).parts_eq
    have hs1 : DepthIn lo (touch (JsonParser_consumeWhiteSpaces mem s) 0) := hs.of_parts hx
    unfold JsonParser_parseValue at h
    simp only [] at h
    split_ifs at h
    · simp only [Option.some.injEq] at h
      rw [← h]
      exact hs1.of_parts (by rw [finishValue_parts, ((Scan.srefl _).parseString mem).parts_eq])
    · simp only [Option.some.injEq] at h
      rw [← h]
      exact hs1.of_parts (by rw [finishValue_parts, ((Scan.srefl _).parseNumber mem).parts_eq])
    · split at h
      · simp at h
      · rename_i t1 hp
        simp only [Option.some.injEq] at h
        rw [← h]
        exact (parseObject_range mem ih lo _ t1 hp hs1).of_parts (finishValue_parts mem _ t1)
    · split at h
      · simp at h
      · rename_i t1 hp
        simp only [Option.some.injEq] at h
        rw [← h]
        exact (parseArray_range mem ih lo _ t1 hp hs1).of_parts (finishValue_parts mem _ t1)
    · simp only [Option.some.injEq] at h
      rw [← h]
      exact hs1.of_parts (by rw [finishValue_parts]; rfl)
    · simp only [Option.some.injEq] at h
      rw [← h]
      exact hs1.of_parts (by rw [finishValue_parts]; rfl)
    · simp only [Option.some.injEq] at h
      rw [← h]
      exact hs1.of_parts (by rw [finishValue_parts]; rfl)
    · simp only [Option.some.injEq] at h
      rw [← h]
      exact hs1.of_parts rfl
theorem inDepth_of {c : Int} (pv : JsonParser → Option JsonParser) (x : JsonParser)
    (h : DepthIn c x) : inDepth c pv x = pv x := by
  unfold inDepth
  exact if_pos h

theorem parseKeyValueLoop_inDepth (pv : JsonParser → Option JsonParser) (mem : List Nat)
    (c : Int) :
    ∀ (k : Nat) (s : JsonParser), DepthIn c s →
      parseKeyValueLoop pv mem k s = parseKeyValueLoop (inDepth c pv) mem k s := by
  intro k
  induction k with
  | zero => intro s _; rfl
  | succ k ih =>
    intro s hs
    rw [parseKeyValueLoop, parseKeyValueLoop, inDepth_of pv (advance s 1) (hs.of_parts rfl),
      ih (advance s 1) (hs.of_parts rfl)]

theorem parseKeyValue_inDepth (pv : JsonParser → Option JsonParser) (mem : List Nat)
    (c : Int) (s : JsonParser) (hs : DepthIn c s) :
    JsonParser_parseKeyValue pv mem s = JsonParser_parseKeyValue (inDepth (c + 1) pv) mem s := by
  have hsc : (JsonParser_parseString mem s).uriParts_ = s.uriParts_ :=
    ((Scan.srefl s).parseString mem).parts_eq
  have hs1 : DepthIn c (JsonParser_parseString mem s) := hs.of_parts hsc
  rcases appendString_cases (JsonParser_parseString mem s).uriParts_ (Ptr.json (s.str_ + 1))
    (((JsonParser_parseString mem s).str_ : Int) - 1 - ((s.str_ + 1 : Nat) : Int))
    with ⟨-, heq⟩ | ⟨hlt, heq⟩
  · unfold JsonParser_parseKeyValue
    simp only [heq]
  · unfold JsonParser_parseKeyValue
    simp only [heq]
    exact parseKeyValueLoop_inDepth pv mem (c + 1) _ _ (hs1.after_push hlt _)

theorem parseObjectLoop_inDepth {pv : JsonParser → Option JsonParser} (mem : List Nat)
    (hpv : ∀ (lo : Int) (s t : JsonParser), pv s = some t → DepthIn lo s → DepthIn lo t)
    (c : Int) :
    ∀ (k : Nat) (s : JsonParser), DepthIn c s →
      parseObjectLoop pv mem k s = parseObjectLoop (inDepth (c + 1) pv) mem k s := by
  intro k
  induction k with
  | zero => intro s _; rfl
  | succ k ih =>
    intro s hs
    rw [parseObjectLoop, parseObjectLoop, ← parseKeyValue_inDepth pv mem c s hs,
      ih (advance s 1) (hs.of_parts rfl), ih (advance (invalidate s) 1) (hs.of_parts rfl)]
    cases hp : JsonParser_parseKeyValue pv mem s with
    | none => rfl
    | some t =>
      simp only [ih t (parseKeyValue_range mem hpv c s t hp hs)]

theorem parseObject_inDepth {pv : JsonParser → Option JsonParser} (mem : List Nat)
    (hpv : ∀ (lo : Int) (s t : JsonParser), pv s = some t → DepthIn lo s → DepthIn lo t)
    (c : Int) (s : JsonParser) (hs : DepthIn c s) :
    JsonParser_parseObject pv mem s
      = JsonParser_parseObject (inDepth (c + 1 + 1) pv) mem s := by
  unfold JsonParser_parseObject
  rcases appendString_cases s.uriParts_ Ptr.objectUri 1 with ⟨-, heq⟩ | ⟨hlt, heq⟩
  · rw [appendObject_eq]
    simp only [heq]
  · rw [appendObject_eq]
    simp only [heq]
    exact parseObjectLoop_inDepth mem hpv (c + 1) _ _ ((hs.after_push hlt _).of_parts rfl)

theorem parseArrayLoop_inDepth {pv : JsonParser → Option JsonParser} (mem : List Nat)
    (hpv : ∀ (lo : Int) (s t : JsonParser), pv s = some t → DepthIn lo s → DepthIn lo t)
    (c : Int) :
    ∀ (k idx : Nat) (s : JsonParser), DepthIn c s →
      parseArrayLoop pv mem k idx s = parseArrayLoop (inDepth (c + 1) pv) mem k idx s := by
  intro k
  induction k with
  | zero => intro idx s _; rfl
  | succ k ih =>
    intro idx s hs
    have hw : (JsonParser_consumeWhiteSpaces mem s).uriParts_ = s.uriParts_ :=
      ((Scan.srefl s).consumeWhiteSpaces mem).parts_eq
    have hs1 : DepthIn c (JsonParser_consumeWhiteSpaces mem s) := hs.of_parts hw
    rw [parseArrayLoop, parseArrayLoop]
    rcases appendString_cases (JsonParser_consumeWhiteSpaces mem s).uriParts_
      (Ptr.buffer (indexLabel idx)) ((indexLabel idx).length : Int) with ⟨-, heq⟩ | ⟨hlt, heq⟩
    · simp only [heq]
    · obtain ⟨u, hu, hy1⟩ : ∃ u, UriParts_appendString
          (JsonParser_consumeWhiteSpaces mem s).uriParts_
          (Ptr.buffer (indexLabel idx)) ((indexLabel idx).length : Int) = (u, true) ∧
          DepthIn (c + 1) { JsonParser_consumeWhiteSpaces mem s with uriParts_ := u } :=
        ⟨_, heq, hs1.after_push hlt _⟩
      simp only [hu]
      rw [inDepth_of pv { JsonParser_consumeWhiteSpaces mem s with uriParts_ := u } hy1]
      cases hp : pv { JsonParser_consumeWhiteSpaces mem s with uriParts_ := u } with
      | none => rfl
      | some t1 =>
        have ht1 : DepthIn (c + 1) t1 := hpv (c + 1) _ _ hp hy1
        have hy : Scan { t1 with uriParts_ := UriParts_drop t1.uriParts_ }
            (touch (JsonParser_consumeWhiteSpaces mem
              { t1 with uriParts_ := UriParts_drop t1.uriParts_ }) 0) :=
          ((Scan.srefl _).consumeWhiteSpaces mem).touch 0
        have ht2 : DepthIn c (advance (touch (JsonParser_consumeWhiteSpaces mem
            { t1 with uriParts_ := UriParts_drop t1.uriParts_ }) 0) 1) :=
          ht1.after_drop.of_parts hy.parts_eq
        simp only [ih (idx + 1) _ ht2]

theorem parseArray_inDepth {pv : JsonParser → Option JsonParser} (mem : List Nat)
    (hpv : ∀ (lo : Int) (s t : JsonParser), pv s = some t → DepthIn lo s → DepthIn lo t)
    (c : Int) (s : JsonParser) (hs : DepthIn c s) :
    JsonParser_parseArray pv mem s = JsonParser_parseArray (inDepth (c + 1) pv) mem s := by
  have hy : (touch (JsonParser_consumeWhiteSpaces mem (advance s 1)) 0).uriParts_
      = s.uriParts_ :=
    (((Scan.srefl (advance s 1)).consumeWhiteSpaces mem).touch 0).parts_eq
  unfold JsonParser_parseArray
  simp only []
  rw [parseArrayLoop_inDepth mem hpv c _ 0
    (touch (JsonParser_consumeWhiteSpaces mem (advance s 1)) 0) (hs.of_parts hy)]
/-- A push writes no slot of the storage outside the indices from 0 up to
`MAX_DEPTH - 1`, provided the depth is not negative. -/
theorem appendString_slots (u : UriParts) (p : Ptr) (l : Int) (i : Int)
    (h0 : 0 ≤ u.nParts) (hi : i < 0 ∨ MAX_DEPTH ≤ i) :
    (UriParts_appendString u p l).1.parts i = u.parts i := by
  rcases appendString_cases u p l with ⟨-, hc⟩ | ⟨hlt, hc⟩
  · rw [hc]
  · rw [hc]
    show (if i = u.nParts then _ else u.parts i) = u.parts i
    rw [if_neg (by omega)]

theorem run_range (p : JsonParser) (mem : List Nat) (E : Nat) (t : JsonParser)
    (h : runOf p mem E = some t) : DepthIn 0 t :=
  parseValue_range mem _ 0 _ t h
    ⟨by show (0 : Int) ≤ 0; omega, by show (0 : Int) ≤ MAX_DEPTH; unfold MAX_DEPTH; omega⟩

theorem parse_range (p : JsonParser) (mem : List Nat) (E : Nat) (o : Outcome)
    (h : JsonParser_parse p mem E = some o) : DepthIn 0 o.parser := by
  unfold JsonParser_parse at h
  split at h
  · simp at h
  · rename_i t ht
    split at h
    · simp at h
    · simp only [Option.some.injEq] at h
      rw [← h]
      exact run_range p mem E t ht

/-- C22: the depth of the path stack stays between 0 and `MAX_DEPTH` = 50.
(1) A call of `JsonParser_parse` ends with a depth in that range, and so does
every run, also one that is killed. (2) The value
production, the object, key/value and array productions and the loop of the
array production, started with a depth between any lower bound `lo` and 50,
return with a depth between `lo` and 50; the loops of the object and key/value
productions, which drop the segment pushed before them, return with a depth
between `lo` and 50 when started between `lo + 1` and 50. (3) The container
productions start every value with a depth between `lo + 1` and 50 (`lo + 2`
for the object production): they behave the same when the value production is
replaced by one that refuses to run outside that range. With `lo = 0` the value
whose segment is dropped on return was started, and by (2) has returned, with
at least one segment on the stack. (4) A push on a stack of non-negative depth
writes no slot below index 0 or from index 50 on. -/
theorem C22_depth_range (mem : List Nat) :
    ((∀ (p : JsonParser) (E : Nat) (o : Outcome), JsonParser_parse p mem E = some o →
        DepthIn 0 o.parser) ∧
      (∀ (p : JsonParser) (E : Nat), ∃ t, runOf p mem E = some t ∧ DepthIn 0 t)) ∧
    (∀ (d : Nat) (lo : Int) (s : JsonParser), DepthIn lo s →
      (∀ t, JsonParser_parseValue mem d s = some t → DepthIn lo t) ∧
      (∀ t, JsonParser_parseObject (JsonParser_parseValue mem d) mem s = some t →
        DepthIn lo t) ∧
      (∀ t, JsonParser_parseKeyValue (JsonParser_parseValue mem d) mem s = some t →
        DepthIn lo t) ∧
      (∀ t, JsonParser_parseArray (JsonParser_parseValue mem d) mem s = some t →
        DepthIn lo t) ∧
      (∀ k idx t, parseArrayLoop (JsonParser_parseValue mem d) mem k idx s = some t →
        DepthIn lo t)) ∧
    (∀ (d : Nat) (lo : Int) (s : JsonParser), DepthIn (lo + 1) s →
      (∀ k t, parseObjectLoop (JsonParser_parseValue mem d) mem k s = some t → DepthIn lo t) ∧
      (∀ k t, parseKeyValueLoop (JsonParser_parseValue mem d) mem k s = some t →
        DepthIn lo t)) ∧
    (∀ (d : Nat) (lo : Int) (s : JsonParser), DepthIn lo s →
      JsonParser_parseObject (JsonParser_parseValue mem d) mem s
        = JsonParser_parseObject (inDepth (lo + 1 + 1) (JsonParser_parseValue mem d)) mem s ∧
      JsonParser_parseKeyValue (JsonParser_parseValue mem d) mem s
        = JsonParser_parseKeyValue (inDepth (lo + 1) (JsonParser_parseValue mem d)) mem s ∧
      JsonParser_parseArray (JsonParser_parseValue mem d) mem s
        = JsonParser_parseArray (inDepth (lo + 1) (JsonParser_parseValue mem d)) mem s) ∧
    (∀ (u : UriParts) (p : Ptr) (l i : Int), 0 ≤ u.nParts → (i < 0 ∨ MAX_DEPTH ≤ i) →
      (UriParts_appendString u p l).1.parts i = u.parts i ∧
      (UriParts_appendObject u).1.parts i = u.parts i) := by
  refine ⟨⟨fun p E o h => parse_range p mem E o h, fun p E => ?_⟩, ?_, ?_, ?_, ?_⟩
  · obtain ⟨t, ht, -⟩ := parse_total p mem E
    exact ⟨t, ht, run_range p mem E t ht⟩
  · intro d lo s hs
    exact ⟨fun t h => parseValue_range mem d lo s t h hs,
      fun t h => parseObject_range mem (parseValue_range mem d) lo s t h hs,
      fun t h => parseKeyValue_range mem (parseValue_range mem d) lo s t h hs,
      fun t h => parseArray_range mem (parseValue_range mem d) lo s t h hs,
      fun k idx t h => parseArrayLoop_range mem (parseValue_range mem d) lo k idx s t h hs⟩
  · intro d lo s hs
    exact ⟨fun k t h => parseObjectLoop_range mem (parseValue_range mem d) lo k s t h hs,
      fun k t h => parseKeyValueLoop_range mem (parseValue_range mem d) lo k s t h hs⟩
  · intro d lo s hs
    exact ⟨parseObject_inDepth mem (parseValue_range mem d) lo s hs,
      parseKeyValue_inDepth _ mem lo s hs,
      parseArray_inDepth mem (parseValue_range mem d) lo s hs⟩
  · intro u p l i h0 hi
    exact ⟨appendString_slots u p l i h0 hi, by
      rw [appendObject_eq]; exact appendString_slots u _ _ i h0 hi⟩

set_option maxRecDepth 100000 in
/-- C22 at the 3-byte buffer `{"a`, on which the call returns with two segments
left on the path stack. -/
theorem C22_depth_range_witness :
    ∃ o, JsonParser_parse freshParser [123, 34, 97, 0] 3 = some o ∧ DepthIn 0 o.parser ∧
      o.parser.uriParts_.nParts = 2 :=
  ⟨(JsonParser_parse freshParser [123, 34, 97, 0] 3).getD { status := 0, parser := freshParser },
    by rfl,
    (C22_depth_range [123, 34, 97, 0]).1.1 freshParser 3 _ (by rfl), by decide⟩

end PJson
